import Mathlib

/-! # advanced-vector: `RawMemory<T>` and `Vector<T>` (vector.h)

A shallow embedding of `vector.h`.  The C++ objects live in an explicit memory
(`Mem`): heap blocks obtained from `operator new`, each a row of slots that are
either raw storage or a live `T`, and the `Vector` objects themselves.  Every
member function is a state transformer that returns normally, leaves by a C++
exception, or runs into undefined behaviour (a violated `assert`, an access
outside a block, a read of raw storage).
-/

namespace AdvancedVector

/-! ## Outcomes and the state monad -/

/-- Kinds of exception the container can meet: `std::bad_alloc` from
`operator new`, or whatever an operation of the element type throws. -/
inductive Exn where
  | bad_alloc
  | element
  deriving DecidableEq, Repr

/-- Result of running a piece of code from a state. -/
inductive Outcome (σ α : Type) where
  | ret (a : α) (s : σ)
  | thrown (e : Exn) (s : σ)
  | ub
  deriving DecidableEq, Repr

/-- Sequencing on outcomes: an exception or undefined behaviour ends the run. -/
def Outcome.bind {σ α β : Type} (o : Outcome σ α) (f : α → σ → Outcome σ β) : Outcome σ β :=
  match o with
  | .ret a s => f a s
  | .thrown e s => .thrown e s
  | .ub => .ub

/-- Code acting on a state of type `σ`. -/
def M (σ α : Type) : Type := σ → Outcome σ α

instance {σ : Type} : Monad (M σ) where
  pure a := fun s => .ret a s
  bind x f := fun s => (x s).bind (fun a s' => f a s')

/-- The statement `throw e`. -/
def throwExn {σ α : Type} (e : Exn) : M σ α := fun s => .thrown e s

/-- The statement `assert(c)`; a violated assertion is a contract violation. -/
def assert {σ : Type} (c : Prop) [Decidable c] : M σ Unit := fun s =>
  if c then .ret () s else .ub

/-- The block `try { body } catch (...) { cleanup; throw; }`.  The same shape
models a local object whose destructor `cleanup` runs during stack unwinding. -/
def onException {σ α : Type} (body : M σ α) (cleanup : M σ Unit) : M σ α := fun s =>
  match body s with
  | .thrown e s' =>
    match cleanup s' with
    | .ret _ s'' => .thrown e s''
    | .thrown e' s'' => .thrown e' s''
    | .ub => .ub
  | o => o

/-! ## Memory -/

/-- A `T*`: the heap block it points into (`0` for none) and the slot index. -/
structure Ptr where
  base : Nat
  off : Nat
  deriving DecidableEq, Repr

/-- The null pointer. -/
def nullptr : Ptr := ⟨0, 0⟩

/-- Pointer arithmetic `p + k`. -/
def Ptr.add (p : Ptr) (k : Nat) : Ptr := ⟨p.base, p.off + k⟩

/-- Pointer arithmetic `p - k` (only used where the source has `off ≥ k`). -/
def Ptr.sub (p : Ptr) (k : Nat) : Ptr := ⟨p.base, p.off - k⟩

instance : HAdd Ptr Nat Ptr := ⟨Ptr.add⟩
instance : HSub Ptr Nat Ptr := ⟨Ptr.sub⟩

/-- One allocation: the byte count asked of `operator new` and its slots
viewed as `T` objects (`none` raw storage, `some x` a live object). -/
structure Block (T : Type) where
  bytes : Nat
  slots : List (Option T)
  deriving DecidableEq, Repr

/-- The class `RawMemory<T>`: `buffer_` and `capacity_`. -/
structure RawMemory where
  buffer_ : Ptr := nullptr
  capacity_ : Nat := 0
  deriving DecidableEq, Repr

/-- The class `Vector<T>`: `data_` and `size_`. -/
structure Vector where
  data_ : RawMemory := {}
  size_ : Nat := 0
  deriving DecidableEq, Repr

/-- The program state: heap blocks (address `b + 1` is entry `b`; a released
block is `none`), the `Vector` objects by address (a destroyed one is `none`),
and the bytes the allocator can still hand out. -/
structure Mem (T : Type) where
  heap : List (Option (Block T))
  vecs : List (Option Vector)
  free : Nat
  deriving DecidableEq, Repr

/-- Modulus of `size_t` arithmetic (64-bit). -/
def SIZE_MOD : Nat := 2 ^ 64

/-- What the container needs to know about the element type `T`. -/
structure ElemOps (T : Type) where
  /-- Value of `sizeof(T)`. -/
  sizeofT : Nat
  /-- Value of `T()`. -/
  value_init : T
  /-- Whether `T()` throws. -/
  value_init_throws : Bool
  /-- Trait `std::is_nothrow_move_constructible_v<T>`. -/
  is_nothrow_move_constructible : Bool
  /-- Trait `std::is_copy_constructible_v<T>`. -/
  is_copy_constructible : Bool
  /-- Whether copy-constructing from this value throws. -/
  copy_throws : T → Bool
  /-- Whether move-constructing from this value throws (for a type whose
  move constructor is not `noexcept`). -/
  move_throws : T → Bool
  /-- State a move constructor leaves in its source. -/
  moved_from : T → T
  /-- Whether copy-assigning to a target (first) from a source (second) throws. -/
  copy_assign_throws : T → T → Bool
  /-- State a copy assignment that throws leaves in its target, given the
  target's old value and the source's value. -/
  copy_assign_failed : T → T → T
  /-- Whether move-assigning to a target (first) from a source (second) throws. -/
  move_assign_throws : T → T → Bool
  /-- State a move assignment leaves in its source, given the target's old
  value and the source's value. -/
  moved_from_assign : T → T → T

variable {T : Type}

/-- The live block at heap address `b`, if any. -/
def Mem.block (m : Mem T) : Nat → Option (Block T)
  | 0 => none
  | b + 1 => (m.heap[b]?).join

/-- Replace the heap entry at address `b`. -/
def Mem.setBlock (m : Mem T) (b : Nat) (x : Option (Block T)) : Mem T :=
  match b with
  | 0 => m
  | b + 1 => { m with heap := m.heap.set b x }

/-- The slot a pointer addresses: `none` when it addresses no storage,
`some none` raw storage, `some (some x)` a live object. -/
def Mem.slot (m : Mem T) (p : Ptr) : Option (Option T) :=
  (m.block p.base).bind (fun blk => blk.slots[p.off]?)

/-- Overwrite the slot a pointer addresses. -/
def Mem.setSlot (m : Mem T) (p : Ptr) (s : Option T) : Mem T :=
  match m.block p.base with
  | none => m
  | some blk => m.setBlock p.base (some { blk with slots := blk.slots.set p.off s })

/-- The memory with one more block of `bytes` bytes, seen as `n` raw slots. -/
def Mem.alloc (m : Mem T) (bytes n : Nat) : Mem T :=
  { heap := m.heap ++ [some ⟨bytes, List.replicate n none⟩]
    vecs := m.vecs
    free := m.free - bytes }

/-- The memory after the block at address `b`, of `bytes` bytes, is released. -/
def Mem.release (m : Mem T) (b bytes : Nat) : Mem T :=
  { m.setBlock b none with free := m.free + bytes }

/-- The memory with one more `Vector` object. -/
def Mem.pushVec (m : Mem T) (v : Vector) : Mem T :=
  { m with vecs := m.vecs ++ [some v] }

/-- Replace the `Vector` object at address `this`. -/
def Mem.putVec (m : Mem T) (this : Nat) (o : Option Vector) : Mem T :=
  { m with vecs := m.vecs.set this o }

/-- The call `operator new(bytes)`: a fresh block, or `std::bad_alloc`. -/
def operator_new (ops : ElemOps T) (bytes : Nat) : M (Mem T) Ptr := fun m =>
  if bytes ≤ m.free then
    .ret ⟨m.heap.length + 1, 0⟩ (m.alloc bytes (bytes / ops.sizeofT))
  else .thrown .bad_alloc m

/-- The call `operator delete(p)`: nothing for a null pointer, otherwise `p`
must be the start of a block that has not been released. -/
def operator_delete (p : Ptr) : M (Mem T) Unit := fun m =>
  if p = nullptr then .ret () m
  else
    match p.off, m.block p.base with
    | 0, some blk => .ret () (m.release p.base blk.bytes)
    | _, _ => .ub

/-- Read the live object at `p`. -/
def load (p : Ptr) : M (Mem T) T := fun m =>
  match m.slot p with
  | some (some x) => .ret x m
  | _ => .ub

/-- Start the lifetime of an object with value `x` at `p` (placement new after
the constructor has produced `x`). -/
def construct_at (p : Ptr) (x : T) : M (Mem T) Unit := fun m =>
  match m.slot p with
  | some _ => .ret () (m.setSlot p (some x))
  | none => .ub

/-- Give the live object at `p` the value `x`. -/
def store (p : Ptr) (x : T) : M (Mem T) Unit := fun m =>
  match m.slot p with
  | some (some _) => .ret () (m.setSlot p (some x))
  | _ => .ub

/-- End the lifetime of the object at `p` (`std::destroy_at`). -/
def destroy_at (p : Ptr) : M (Mem T) Unit := fun m =>
  match m.slot p with
  | some (some _) => .ret () (m.setSlot p none)
  | _ => .ub

/-! ## Operations of the element type -/

/-- Whether move-constructing from `x` throws: never for a type whose move
constructor is `noexcept`. -/
def move_construct_throws (ops : ElemOps T) (x : T) : Bool :=
  !ops.is_nothrow_move_constructible && ops.move_throws x

/-- Placement `new (dst) T(*src)`, the copy constructor. -/
def copy_construct (ops : ElemOps T) (dst src : Ptr) : M (Mem T) Unit := do
  let x ← load src
  if ops.copy_throws x then throwExn .element
  construct_at dst x

/-- Placement `new (dst) T(std::move(*src))`, the move constructor. -/
def move_construct (ops : ElemOps T) (dst src : Ptr) : M (Mem T) Unit := do
  let x ← load src
  if move_construct_throws ops x then throwExn .element
  construct_at dst x
  store src (ops.moved_from x)

/-- Placement `new (dst) T()`, value initialisation. -/
def value_construct (ops : ElemOps T) (dst : Ptr) : M (Mem T) Unit := do
  if ops.value_init_throws then throwExn .element
  construct_at dst ops.value_init

/-- Placement `new (dst) T(std::forward<Args>(args)...)`, where `args` is what
the constructor call evaluates to: `some x` when it returns the value `x`,
`none` when it throws. -/
def construct_from (dst : Ptr) (args : Option T) : M (Mem T) Unit :=
  match args with
  | some x => construct_at dst x
  | none => throwExn .element

/-- The assignment `*dst = *src`.  When `T::operator=` throws, the target is
left in the state `copy_assign_failed` gives (the source is `const`). -/
def copy_assign (ops : ElemOps T) (dst src : Ptr) : M (Mem T) Unit := do
  let x ← load src
  let y ← load dst
  if ops.copy_assign_throws y x then
    store dst (ops.copy_assign_failed y x)
    throwExn .element
  store dst x

/-- The assignment `*dst = std::move(*src)`. -/
def move_assign (ops : ElemOps T) (dst src : Ptr) : M (Mem T) Unit := do
  let x ← load src
  let y ← load dst
  if ops.move_assign_throws y x then throwExn .element
  store dst x
  store src (ops.moved_from_assign y x)

/-- The assignment `*dst = std::move(temp)` from a local object with value `x`. -/
def move_assign_value (ops : ElemOps T) (dst : Ptr) (x : T) : M (Mem T) Unit := do
  let y ← load dst
  if ops.move_assign_throws y x then throwExn .element
  store dst x

/-! ## Standard-library algorithms used by `vector.h` -/

/-- The call `std::destroy_n(first, n)`. -/
def destroy_n (first : Ptr) : Nat → M (Mem T) Unit
  | 0 => pure ()
  | n + 1 => do
    destroy_at first
    destroy_n (first + 1) n

/-- Loop of `std::uninitialized_copy_n`: `done` objects are built, `todo` are
left; if a copy throws, the objects built so far are destroyed. -/
def uninitialized_copy_loop (ops : ElemOps T) (first d_first : Ptr) :
    Nat → Nat → M (Mem T) Unit
  | _, 0 => pure ()
  | done, todo + 1 => do
    onException (copy_construct ops (d_first + done) (first + done)) (destroy_n d_first done)
    uninitialized_copy_loop ops first d_first (done + 1) todo

/-- The call `std::uninitialized_copy_n(first, n, d_first)`. -/
def uninitialized_copy_n (ops : ElemOps T) (first : Ptr) (n : Nat) (d_first : Ptr) :
    M (Mem T) Unit :=
  uninitialized_copy_loop ops first d_first 0 n

/-- Loop of `std::uninitialized_move_n`, as `uninitialized_copy_loop`. -/
def uninitialized_move_loop (ops : ElemOps T) (first d_first : Ptr) :
    Nat → Nat → M (Mem T) Unit
  | _, 0 => pure ()
  | done, todo + 1 => do
    onException (move_construct ops (d_first + done) (first + done)) (destroy_n d_first done)
    uninitialized_move_loop ops first d_first (done + 1) todo

/-- The call `std::uninitialized_move_n(first, n, d_first)`. -/
def uninitialized_move_n (ops : ElemOps T) (first : Ptr) (n : Nat) (d_first : Ptr) :
    M (Mem T) Unit :=
  uninitialized_move_loop ops first d_first 0 n

/-- Loop of `std::uninitialized_value_construct_n`. -/
def uninitialized_value_construct_loop (ops : ElemOps T) (first : Ptr) :
    Nat → Nat → M (Mem T) Unit
  | _, 0 => pure ()
  | done, todo + 1 => do
    onException (value_construct ops (first + done)) (destroy_n first done)
    uninitialized_value_construct_loop ops first (done + 1) todo

/-- The call `std::uninitialized_value_construct_n(first, n)`. -/
def uninitialized_value_construct_n (ops : ElemOps T) (first : Ptr) (n : Nat) :
    M (Mem T) Unit :=
  uninitialized_value_construct_loop ops first 0 n

/-- Loop of `std::copy`: `*d_first++ = *first++`, `n` times. -/
def std_copy_loop (ops : ElemOps T) (first d_first : Ptr) : Nat → M (Mem T) Unit
  | 0 => pure ()
  | n + 1 => do
    copy_assign ops d_first first
    std_copy_loop ops (first + 1) (d_first + 1) n

/-- The call `std::copy(first, last, d_first)`; `[first, last)` must be a range. -/
def std_copy (ops : ElemOps T) (first last d_first : Ptr) : M (Mem T) Unit := do
  assert (first.base = last.base ∧ first.off ≤ last.off)
  std_copy_loop ops first d_first (last.off - first.off)

/-- Loop of `std::move` on ranges: `*d_first++ = std::move(*first++)`, `n` times. -/
def std_move_loop (ops : ElemOps T) (first d_first : Ptr) : Nat → M (Mem T) Unit
  | 0 => pure ()
  | n + 1 => do
    move_assign ops d_first first
    std_move_loop ops (first + 1) (d_first + 1) n

/-- The call `std::move(first, last, d_first)`; `[first, last)` must be a range. -/
def std_move (ops : ElemOps T) (first last d_first : Ptr) : M (Mem T) Unit := do
  assert (first.base = last.base ∧ first.off ≤ last.off)
  std_move_loop ops first d_first (last.off - first.off)

/-- Loop of `std::move_backward`: `*(--d_last) = std::move(*(--last))`, `n` times. -/
def move_backward_loop (ops : ElemOps T) (last d_last : Ptr) : Nat → M (Mem T) Unit
  | 0 => pure ()
  | n + 1 => do
    move_assign ops (d_last - 1) (last - 1)
    move_backward_loop ops (last - 1) (d_last - 1) n

/-- The call `std::move_backward(first, last, d_last)`; `[first, last)` must be
a range. -/
def move_backward (ops : ElemOps T) (first last d_last : Ptr) : M (Mem T) Unit := do
  assert (first.base = last.base ∧ first.off ≤ last.off)
  move_backward_loop ops last d_last (last.off - first.off)

/-! ## `RawMemory<T>` -/

/-- `RawMemory::Allocate(n)`: raw storage for `n` elements, `n * sizeof(T)`
computed in `size_t`. -/
def RawMemory.Allocate (ops : ElemOps T) (n : Nat) : M (Mem T) Ptr :=
  if n ≠ 0 then operator_new ops ((n * ops.sizeofT) % SIZE_MOD) else pure nullptr

/-- `RawMemory::Deallocate(buf)`. -/
def RawMemory.Deallocate (buf : Ptr) : M (Mem T) Unit := operator_delete buf

/-- `RawMemory::RawMemory(size_t capacity)`. -/
def RawMemory.ctor (ops : ElemOps T) (capacity : Nat) : M (Mem T) RawMemory := do
  let buffer ← RawMemory.Allocate ops capacity
  pure { buffer_ := buffer, capacity_ := capacity }

/-- `RawMemory::~RawMemory()`. -/
def RawMemory.dtor (self : RawMemory) : M (Mem T) Unit :=
  RawMemory.Deallocate self.buffer_

/-- `RawMemory::GetAddress()`. -/
def RawMemory.GetAddress (self : RawMemory) : Ptr := self.buffer_

/-- `RawMemory::Capacity()`. -/
def RawMemory.Capacity (self : RawMemory) : Nat := self.capacity_

/-- `RawMemory::operator+(offset)`. -/
def RawMemory.plus (self : RawMemory) (offset : Nat) : M (Mem T) Ptr := do
  assert (offset ≤ self.capacity_)
  pure (self.buffer_ + offset)

/-- `RawMemory::operator[](index)`: the address of the element referred to. -/
def RawMemory.index (self : RawMemory) (index : Nat) : M (Mem T) Ptr := do
  assert (index < self.capacity_)
  pure (self.buffer_ + index)

/-- `RawMemory::Swap(other)`: the new `*this` and the new `other`. -/
def RawMemory.Swap (self other : RawMemory) : RawMemory × RawMemory :=
  ({ buffer_ := other.buffer_, capacity_ := other.capacity_ },
   { buffer_ := self.buffer_, capacity_ := self.capacity_ })

/-- `RawMemory::operator=(RawMemory&& rhs)` on two objects: the new `*this`
and the new `rhs`. -/
def RawMemory.move_assign (self rhs : RawMemory) : RawMemory × RawMemory :=
  if self.GetAddress ≠ rhs.GetAddress then
    ({ buffer_ := rhs.buffer_, capacity_ := rhs.capacity_ }, { buffer_ := nullptr, capacity_ := 0 })
  else (self, rhs)

/-- `RawMemory::RawMemory(RawMemory&& other)`: the new object and the new
`other`. -/
def RawMemory.ctor_move (other : RawMemory) : RawMemory × RawMemory :=
  RawMemory.move_assign {} other

/-! ## `Vector<T>` -/

/-- Read the `Vector` object at address `this`. -/
def getVec (this : Nat) : M (Mem T) Vector := fun m =>
  match m.vecs[this]? with
  | some (some v) => .ret v m
  | _ => .ub

/-- Write the members of the `Vector` object at address `this`. -/
def setVec (this : Nat) (v : Vector) : M (Mem T) Unit := fun m =>
  match m.vecs[this]? with
  | some (some _) => .ret () (m.putVec this (some v))
  | _ => .ub

/-- Storage for a new `Vector` object with the given members; its address. -/
def newVec (v : Vector) : M (Mem T) Nat := fun m =>
  .ret m.vecs.length (m.pushVec v)

/-- The `Vector` object at `this` ceases to exist. -/
def delVec (this : Nat) : M (Mem T) Unit := fun m =>
  match m.vecs[this]? with
  | some (some _) => .ret () (m.putVec this none)
  | _ => .ub

/-- What a parameter of type `T&&` is bound to: an object of the caller that
is in no buffer of the heap (a temporary or a local variable), given by its
value, or the element in a slot of the heap, given by its address.  Moving
from the first changes nothing in the heap; moving from the second changes
that slot. -/
inductive Rvalue (T : Type) where
  | object (value : T)
  | element (src : Ptr)

namespace Vector

/-- `Vector::Size()`. -/
def Size (this : Nat) : M (Mem T) Nat := do
  let v ← getVec this
  pure v.size_

/-- `Vector::Capacity()`. -/
def Capacity (this : Nat) : M (Mem T) Nat := do
  let v ← getVec this
  pure v.data_.Capacity

/-- `Vector::begin()` and `cbegin()`. -/
def begin (this : Nat) : M (Mem T) Ptr := do
  let v ← getVec this
  pure v.data_.GetAddress

/-- `Vector::end()` and `cend()`. -/
def end_ (this : Nat) : M (Mem T) Ptr := do
  let v ← getVec this
  pure (v.data_.GetAddress + v.size_)

/-- `Vector::Vector()`. -/
def ctor_default : M (Mem T) Nat := newVec {}

/-- `Vector::Vector(size_t size)`. -/
def ctor_size (ops : ElemOps T) (size : Nat) : M (Mem T) Nat := do
  let data ← RawMemory.ctor ops size
  let this ← newVec { data_ := data, size_ := size }
  onException (uninitialized_value_construct_n ops data.GetAddress size)
    (do delVec this; RawMemory.dtor data)
  pure this

/-- `Vector::Vector(const Vector& other)`. -/
def ctor_copy (ops : ElemOps T) (other : Nat) : M (Mem T) Nat := do
  let o ← getVec other
  let data ← RawMemory.ctor ops o.size_
  let this ← newVec { data_ := data, size_ := o.size_ }
  if this ≠ other then
    onException (uninitialized_copy_n ops o.data_.GetAddress o.size_ data.GetAddress)
      (do delVec this; RawMemory.dtor data)
  pure this

/-- `Vector::~Vector()`, followed by the destructor of `data_`. -/
def dtor (this : Nat) : M (Mem T) Unit := do
  let v ← getVec this
  destroy_n v.data_.GetAddress v.size_
  RawMemory.dtor v.data_
  delVec this

/-- `Vector::Swap(other)`. -/
def Swap (this other : Nat) : M (Mem T) Unit := do
  let a ← getVec this
  let b ← getVec other
  let sw := RawMemory.Swap a.data_ b.data_
  setVec this { data_ := sw.1, size_ := b.size_ }
  setVec other { data_ := sw.2, size_ := a.size_ }

/-- `Vector::Vector(Vector&& other)`. -/
def ctor_move (other : Nat) : M (Mem T) Nat := do
  let this ← newVec {}
  if this ≠ other then
    Swap this other
  pure this

/-- `Vector::operator=(const Vector& rhs)`. -/
def copy_assign (ops : ElemOps T) (this rhs : Nat) : M (Mem T) Unit := do
  if this ≠ rhs then
    let r ← getVec rhs
    let v ← getVec this
    if r.size_ > v.data_.Capacity then
      let rhs_copy ← ctor_copy ops rhs
      Swap this rhs_copy
      dtor rhs_copy
    else
      std_copy ops r.data_.GetAddress (r.data_.GetAddress + min v.size_ r.size_)
        v.data_.GetAddress
      if v.size_ < r.size_ then
        uninitialized_copy_n ops (r.data_.GetAddress + v.size_) (r.size_ - v.size_)
          (v.data_.GetAddress + v.size_)
      else
        destroy_n (v.data_.GetAddress + r.size_) (v.size_ - r.size_)
      setVec this { v with size_ := r.size_ }

/-- `Vector::operator=(Vector&& rhs)`. -/
def move_assign (this rhs : Nat) : M (Mem T) Unit := do
  if this ≠ rhs then
    Swap this rhs

/-- `Vector::MoveData(old_b, count, new_b)`. -/
def MoveData (ops : ElemOps T) (old_b : Ptr) (count : Nat) (new_b : Ptr) : M (Mem T) Unit :=
  if ops.is_nothrow_move_constructible || !ops.is_copy_constructible then
    uninitialized_move_n ops old_b count new_b
  else
    uninitialized_copy_n ops old_b count new_b

/-- `Vector::Reserve(new_capacity)`. -/
def Reserve (ops : ElemOps T) (this : Nat) (new_capacity : Nat) : M (Mem T) Unit := do
  let v ← getVec this
  if new_capacity ≤ v.data_.Capacity then
    pure ()
  else
    let new_data ← RawMemory.ctor ops new_capacity
    onException (MoveData ops v.data_.GetAddress v.size_ new_data.GetAddress)
      (RawMemory.dtor new_data)
    destroy_n v.data_.GetAddress v.size_
    let sw := RawMemory.Swap v.data_ new_data
    setVec this { v with data_ := sw.1 }
    RawMemory.dtor sw.2

/-- `Vector::operator[](index)`: the address of the element referred to. -/
def index (this : Nat) (index : Nat) : M (Mem T) Ptr := do
  let v ← getVec this
  assert (index < v.size_)
  v.data_.index index

/-- `Vector::Resize(new_size)`. -/
def Resize (ops : ElemOps T) (this : Nat) (new_size : Nat) : M (Mem T) Unit := do
  let cap ← Capacity this
  if new_size > cap then
    Reserve ops this new_size
  let v ← getVec this
  if new_size > v.size_ then
    uninitialized_value_construct_n ops (v.data_.GetAddress + v.size_) (new_size - v.size_)
  else
    destroy_n (v.data_.GetAddress + new_size) (v.size_ - new_size)
  setVec this { v with size_ := new_size }

/-- The branch `size_ == Capacity()` of `Vector::Emplace`: build the new
element in a buffer of twice the size, relocate the others around it, adopt
the new buffer.  `offset` is `pos - cbegin()`. -/
def Emplace_growth (ops : ElemOps T) (this : Nat) (v : Vector) (offset : Nat) (args : Option T) :
    M (Mem T) Unit := do
  let new_data ← RawMemory.ctor ops (if v.size_ = 0 then 1 else (v.size_ * 2) % SIZE_MOD)
  onException
    (do
      let p ← new_data.plus offset
      construct_from p args
      onException (MoveData ops v.data_.GetAddress offset new_data.GetAddress)
        (destroy_n (new_data.GetAddress + offset) 1)
      onException
        (MoveData ops (v.data_.GetAddress + offset) (v.size_ - offset)
          (new_data.GetAddress + (offset + 1)))
        (destroy_n new_data.GetAddress (offset + 1))
      destroy_n v.data_.GetAddress v.size_)
    (RawMemory.dtor new_data)
  let sw := RawMemory.Swap v.data_ new_data
  setVec this { v with data_ := sw.1 }
  RawMemory.dtor sw.2

/-- The branch `size_ != Capacity()` of `Vector::Emplace`: build the new
element in the free slot at the end, or shift the tail by one slot and
move-assign a temporary into place.  `b` and `e` are `begin()` and `end()`. -/
def Emplace_in_place (ops : ElemOps T) (v : Vector) (pos b e : Ptr) (offset : Nat)
    (args : Option T) : M (Mem T) Unit :=
  if pos = e then do
    let p ← v.data_.plus offset
    construct_from p args
  else
    match args with
    | none => throwExn .element
    | some temp_val => do
      move_construct ops e (e - 1)
      move_backward ops (b + offset) (e - 1) e
      let p ← v.data_.index offset
      move_assign_value ops p temp_val

/-- `Vector::Emplace(pos, args...)`; `args` is what `T(args...)` evaluates to
(see `construct_from`). -/
def Emplace (ops : ElemOps T) (this : Nat) (pos : Ptr) (args : Option T) : M (Mem T) Ptr := do
  let v ← getVec this
  let b ← begin this
  let e ← end_ this
  assert (pos.base = b.base ∧ b.off ≤ pos.off ∧ pos.off ≤ e.off)
  let offset := pos.off - b.off
  if v.size_ = v.data_.Capacity then
    Emplace_growth ops this v offset args
  else
    Emplace_in_place ops v pos b e offset args
  let v ← getVec this
  setVec this { v with size_ := (v.size_ + 1) % SIZE_MOD }
  let b ← begin this
  pure (b + offset)

/-- The branch `size_ == Capacity()` of `Vector::Emplace(pos, std::move(*src))`,
the instance of `Emplace` that `Insert(pos, T&&)` and `PushBack(T&&)` run
when their argument is the element in the slot `src`: as `Emplace_growth`,
with the move constructor from `*src` as the construction of the new element
(it changes `*src`). -/
def Emplace_growth_moved (ops : ElemOps T) (this : Nat) (v : Vector) (offset : Nat) (src : Ptr) :
    M (Mem T) Unit := do
  let new_data ← RawMemory.ctor ops (if v.size_ = 0 then 1 else (v.size_ * 2) % SIZE_MOD)
  onException
    (do
      let p ← new_data.plus offset
      move_construct ops p src
      onException (MoveData ops v.data_.GetAddress offset new_data.GetAddress)
        (destroy_n (new_data.GetAddress + offset) 1)
      onException
        (MoveData ops (v.data_.GetAddress + offset) (v.size_ - offset)
          (new_data.GetAddress + (offset + 1)))
        (destroy_n new_data.GetAddress (offset + 1))
      destroy_n v.data_.GetAddress v.size_)
    (RawMemory.dtor new_data)
  let sw := RawMemory.Swap v.data_ new_data
  setVec this { v with data_ := sw.1 }
  RawMemory.dtor sw.2

/-- The branch `size_ != Capacity()` of `Vector::Emplace(pos, std::move(*src))`:
as `Emplace_in_place`, with the move constructor from `*src` where the new
element or the temporary `temp_val` is built. -/
def Emplace_in_place_moved (ops : ElemOps T) (v : Vector) (pos b e : Ptr) (offset : Nat)
    (src : Ptr) : M (Mem T) Unit :=
  if pos = e then do
    let p ← v.data_.plus offset
    move_construct ops p src
  else do
    let temp_val ← load src
    if move_construct_throws ops temp_val then throwExn .element
    store src (ops.moved_from temp_val)
    move_construct ops e (e - 1)
    move_backward ops (b + offset) (e - 1) e
    let p ← v.data_.index offset
    move_assign_value ops p temp_val

/-- `Vector::Emplace(pos, std::move(*src))` for the element in the slot `src`. -/
def Emplace_moved (ops : ElemOps T) (this : Nat) (pos : Ptr) (src : Ptr) : M (Mem T) Ptr := do
  let v ← getVec this
  let b ← begin this
  let e ← end_ this
  assert (pos.base = b.base ∧ b.off ≤ pos.off ∧ pos.off ≤ e.off)
  let offset := pos.off - b.off
  if v.size_ = v.data_.Capacity then
    Emplace_growth_moved ops this v offset src
  else
    Emplace_in_place_moved ops v pos b e offset src
  let v ← getVec this
  setVec this { v with size_ := (v.size_ + 1) % SIZE_MOD }
  let b ← begin this
  pure (b + offset)

/-- `Vector::EmplaceBack(args...)`: the address of the element referred to. -/
def EmplaceBack (ops : ElemOps T) (this : Nat) (args : Option T) : M (Mem T) Ptr := do
  let e ← end_ this
  Emplace ops this e args

/-- `Vector::EmplaceBack(std::move(*src))` for the element in the slot `src`. -/
def EmplaceBack_moved (ops : ElemOps T) (this : Nat) (src : Ptr) : M (Mem T) Ptr := do
  let e ← end_ this
  Emplace_moved ops this e src

/-- `Vector::PushBack(const T& value)`. -/
def PushBack (ops : ElemOps T) (this : Nat) (value : T) : M (Mem T) Unit := do
  let _ ← EmplaceBack ops this (if ops.copy_throws value then none else some value)
  pure ()

/-- `Vector::PushBack(T&& value)`, that is `EmplaceBack(std::move(value))`.
For an object of the caller outside the heap the new element is what the
move constructor makes of its value; for an element of a buffer the move
constructor runs on that slot at the point where `Emplace` builds the new
element. -/
def PushBack_rvalue (ops : ElemOps T) (this : Nat) : Rvalue T → M (Mem T) Unit
  | .object value => do
    let _ ← EmplaceBack ops this (if move_construct_throws ops value then none else some value)
    pure ()
  | .element src => do
    let _ ← EmplaceBack_moved ops this src
    pure ()

/-- `Vector::Insert(pos, const T& value)`, that is `Emplace(pos, value)`.  The
new element is copy-constructed from `value` before any element of the vector
is written on each of the three paths of `Emplace`, so a reference to an
element of the vector itself behaves as the value of that element. -/
def Insert (ops : ElemOps T) (this : Nat) (pos : Ptr) (value : T) : M (Mem T) Ptr :=
  Emplace ops this pos (if ops.copy_throws value then none else some value)

/-- `Vector::Insert(pos, T&& value)`, that is `Emplace(pos, std::move(value))`;
the two cases of the argument are those of `PushBack_rvalue`. -/
def Insert_rvalue (ops : ElemOps T) (this : Nat) (pos : Ptr) : Rvalue T → M (Mem T) Ptr
  | .object value =>
    Emplace ops this pos (if move_construct_throws ops value then none else some value)
  | .element src => Emplace_moved ops this pos src

/-- `Vector::Erase(pos)`. -/
def Erase (ops : ElemOps T) (this : Nat) (pos : Ptr) : M (Mem T) Ptr := do
  let b ← begin this
  let e ← end_ this
  assert (pos.base = b.base ∧ b.off ≤ pos.off ∧ pos.off < e.off)
  let offset := pos.off - b.off
  std_move ops (b + offset + 1) e (b + offset)
  destroy_n (e - 1) 1
  let v ← getVec this
  setVec this { v with size_ := (v.size_ + SIZE_MOD - 1) % SIZE_MOD }
  let b ← begin this
  pure (b + offset)

/-- `Vector::PopBack()`. -/
def PopBack (this : Nat) : M (Mem T) Unit := do
  let v ← getVec this
  assert (v.size_ > 0)
  destroy_n (v.data_.GetAddress + (v.size_ - 1)) 1
  setVec this { v with size_ := (v.size_ + SIZE_MOD - 1) % SIZE_MOD }

end Vector

/-! ## Programs: sequences of calls -/

/-- The statement `v[index] = value` of a client: `operator[]` hands out a
reference to the element, which is then copy-assigned. -/
def Vector.assign_at (ops : ElemOps T) (this index : Nat) (value : T) : M (Mem T) Unit := do
  let p ← Vector.index this index
  let y ← load p
  if ops.copy_assign_throws y value then
    store p (ops.copy_assign_failed y value)
    throwExn .element
  store p value

/-- A call of a constructor, of the destructor, or of a public member function
that can change a `Vector`, or an assignment to an element through
`operator[]`.  Objects are named by their addresses.  The argument of
`PushBack(T&&)` and `Insert(pos, T&&)` is here an object of the caller outside
the buffers, given by its value (`Rvalue.object`); an rvalue that is an element
of a buffer is treated with `Vector.Emplace_moved`. -/
inductive Call (T : Type) where
  | ctor_default
  | ctor_size (size : Nat)
  | ctor_copy (other : Nat)
  | ctor_move (other : Nat)
  | dtor (this : Nat)
  | copy_assign (this rhs : Nat)
  | move_assign (this rhs : Nat)
  | Swap (this other : Nat)
  | Reserve (this new_capacity : Nat)
  | Resize (this new_size : Nat)
  | PushBack (this : Nat) (value : T)
  | PushBack_rvalue (this : Nat) (value : T)
  | EmplaceBack (this : Nat) (args : Option T)
  | Emplace (this : Nat) (pos : Ptr) (args : Option T)
  | Insert (this : Nat) (pos : Ptr) (value : T)
  | Insert_rvalue (this : Nat) (pos : Ptr) (value : T)
  | Erase (this : Nat) (pos : Ptr)
  | PopBack (this : Nat)
  | assign_at (this index : Nat) (value : T)

/-- The effect of a call on the memory; the value it returns is dropped. -/
def Call.run (ops : ElemOps T) : Call T → M (Mem T) Unit
  | .ctor_default => do let _ ← (Vector.ctor_default : M (Mem T) Nat); pure ()
  | .ctor_size size => do let _ ← Vector.ctor_size ops size; pure ()
  | .ctor_copy other => do let _ ← Vector.ctor_copy ops other; pure ()
  | .ctor_move other => do let _ ← (Vector.ctor_move other : M (Mem T) Nat); pure ()
  | .dtor this => Vector.dtor this
  | .copy_assign this rhs => Vector.copy_assign ops this rhs
  | .move_assign this rhs => Vector.move_assign this rhs
  | .Swap this other => Vector.Swap this other
  | .Reserve this n => Vector.Reserve ops this n
  | .Resize this n => Vector.Resize ops this n
  | .PushBack this value => Vector.PushBack ops this value
  | .PushBack_rvalue this value => Vector.PushBack_rvalue ops this (.object value)
  | .EmplaceBack this args => do let _ ← Vector.EmplaceBack ops this args; pure ()
  | .Emplace this pos args => do let _ ← Vector.Emplace ops this pos args; pure ()
  | .Insert this pos value => do let _ ← Vector.Insert ops this pos value; pure ()
  | .Insert_rvalue this pos value => do
    let _ ← Vector.Insert_rvalue ops this pos (.object value)
    pure ()
  | .Erase this pos => do let _ ← Vector.Erase ops this pos; pure ()
  | .PopBack this => Vector.PopBack this
  | .assign_at this index value => Vector.assign_at ops this index value

/-- The arguments of type `size_t` are values of `size_t`. -/
def Call.WellTyped : Call T → Prop
  | .ctor_size size => size < SIZE_MOD
  | .Reserve _ n => n < SIZE_MOD
  | .Resize _ n => n < SIZE_MOD
  | _ => True

/-- The call takes the memory `m` to `m'`, by returning or by throwing (a call
whose precondition is violated takes `m` nowhere). -/
def Call.Step (ops : ElemOps T) (c : Call T) (m m' : Mem T) : Prop :=
  c.WellTyped ∧ (c.run ops m = .ret () m' ∨ ∃ e, c.run ops m = .thrown e m')

/-- The memories a program can reach: it starts with no object and no block,
and makes one call after the other. -/
inductive Reachable (ops : ElemOps T) : Mem T → Prop
  | init (free : Nat) : Reachable ops { heap := [], vecs := [], free := free }
  | step (c : Call T) (m m' : Mem T) : Reachable ops m → c.Step ops m m' → Reachable ops m'

/-- The call is a call on the object `this` of a member function that
modifies the vector it is called on and takes no other vector, or an
assignment to one of its elements. -/
def Call.Mutates (this : Nat) : Call T → Prop
  | .Reserve t _ => t = this
  | .Resize t _ => t = this
  | .PushBack t _ => t = this
  | .PushBack_rvalue t _ => t = this
  | .EmplaceBack t _ => t = this
  | .Emplace t _ _ => t = this
  | .Insert t _ _ => t = this
  | .Insert_rvalue t _ _ => t = this
  | .Erase t _ => t = this
  | .PopBack t => t = this
  | .assign_at t _ _ => t = this
  | _ => False

/-- One mutation of the object `this`: a call of one of its modifying member
functions or an assignment to one of its elements, which returns or throws. -/
def Mutation (ops : ElemOps T) (this : Nat) (m m' : Mem T) : Prop :=
  ∃ c : Call T, c.Mutates this ∧ c.Step ops m m'

/-- The call does not act on the object `x`: it is not a call on `x`, and `x`
is not the vector it swaps with or moves from (it may copy from `x`). -/
def Call.Spares (x : Nat) : Call T → Prop
  | .ctor_default => True
  | .ctor_size _ => True
  | .ctor_copy _ => True
  | .ctor_move other => other ≠ x
  | .dtor this => this ≠ x
  | .copy_assign this _ => this ≠ x
  | .move_assign this rhs => this ≠ x ∧ rhs ≠ x
  | .Swap this other => this ≠ x ∧ other ≠ x
  | .Reserve this _ => this ≠ x
  | .Resize this _ => this ≠ x
  | .PushBack this _ => this ≠ x
  | .PushBack_rvalue this _ => this ≠ x
  | .EmplaceBack this _ => this ≠ x
  | .Emplace this _ _ => this ≠ x
  | .Insert this _ _ => this ≠ x
  | .Insert_rvalue this _ _ => this ≠ x
  | .Erase this _ => this ≠ x
  | .PopBack this => this ≠ x
  | .assign_at this _ _ => this ≠ x

/-- One step of a program that leaves the object `x` alone: a call that spares
`x`, which returns or throws. -/
def Elsewhere (ops : ElemOps T) (x : Nat) (m m' : Mem T) : Prop :=
  ∃ c : Call T, c.Spares x ∧ c.Step ops m m'

/-- The call is an insertion into the object `this`: `PushBack`,
`EmplaceBack`, `Emplace` or `Insert`. -/
def Call.Inserts (this : Nat) : Call T → Prop
  | .PushBack t _ => t = this
  | .PushBack_rvalue t _ => t = this
  | .EmplaceBack t _ => t = this
  | .Emplace t _ _ => t = this
  | .Insert t _ _ => t = this
  | .Insert_rvalue t _ _ => t = this
  | _ => False

/-- The call is an append to the object `this`: `PushBack` or `EmplaceBack`. -/
def Call.Appends (this : Nat) : Call T → Prop
  | .PushBack t _ => t = this
  | .PushBack_rvalue t _ => t = this
  | .EmplaceBack t _ => t = this
  | _ => False

/-- One successful append to the object `this`: a call of `PushBack` or
`EmplaceBack` on it that returns. -/
def Appended (ops : ElemOps T) (this : Nat) (m m' : Mem T) : Prop :=
  ∃ c : Call T, c.Appends this ∧ c.run ops m = .ret () m'

/-- A number of successful appends to the object `this`, one after the other
with no other operation in between. -/
inductive AppendedTimes (ops : ElemOps T) (this : Nat) : Nat → Mem T → Mem T → Prop
  | none (m : Mem T) : AppendedTimes ops this 0 m m
  | more (n : Nat) (m m' m'' : Mem T) :
      AppendedTimes ops this n m m' → Appended ops this m' m'' →
        AppendedTimes ops this (n + 1) m m''

/-! ## Specification vocabulary -/

/-- The run `o` returns `a` in state `s`; or else it does not return at all,
and then `C` holds (`C` names what can make it throw). -/
def Outcome.RetOrElse {σ α : Type} (o : Outcome σ α) (a : α) (s : σ) (C : Prop) : Prop :=
  o = .ret a s ∨ (C ∧ ∀ a' s', o ≠ .ret a' s')

/-- A block stores the elements `l` as a vector of capacity `cap`: its first
slots are the live elements of `l` in order, all the other slots are raw
storage, and there are at most `cap` slots. -/
def Block.Represents (blk : Block T) (l : List T) (cap : Nat) : Prop :=
  blk.slots = l.map some ++ List.replicate (blk.slots.length - l.length) none ∧
    blk.slots.length ≤ cap

/-- Representation invariant of a `Vector` object `v` in memory `m`, with its
contents `l`: `size_` counts the elements, `size_` is at most the capacity, a
capacity of zero goes with a null buffer, and otherwise `buffer_` is the start
of a live block holding exactly the elements of `l`. -/
def Holds (m : Mem T) (v : Vector) (l : List T) : Prop :=
  v.size_ = l.length ∧ l.length ≤ v.data_.capacity_ ∧ v.data_.capacity_ < SIZE_MOD ∧
    v.data_.buffer_.off = 0 ∧ (v.data_.capacity_ = 0 → v.data_.buffer_.base = 0) ∧
    (v.data_.capacity_ ≠ 0 →
      ∃ blk ∈ m.block v.data_.buffer_.base, blk.Represents l v.data_.capacity_)

/-- The buffer of `v` really has `capacity_` slots. -/
def Exact (m : Mem T) (v : Vector) : Prop :=
  ∀ blk ∈ m.block v.data_.buffer_.base, blk.slots.length = v.data_.capacity_

/-- No operation of the element type throws. -/
def NoThrow (ops : ElemOps T) : Prop :=
  ops.value_init_throws = false ∧ (∀ x, ops.copy_throws x = false) ∧
    (∀ x, move_construct_throws ops x = false) ∧ (∀ y x, ops.copy_assign_throws y x = false) ∧
    (∀ y x, ops.move_assign_throws y x = false)

instance [DecidableEq T] (blk : Block T) (l : List T) (cap : Nat) :
    Decidable (blk.Represents l cap) := by
  unfold Block.Represents; infer_instance

instance [DecidableEq T] (m : Mem T) (v : Vector) (l : List T) : Decidable (Holds m v l) := by
  unfold Holds; infer_instance

instance (m : Mem T) (v : Vector) : Decidable (Exact m v) := by
  unfold Exact; infer_instance

/-- The run `o` returns whenever `R` holds, and whenever it returns, the
result and the final state satisfy `Q`. -/
def Outcome.Spec {σ α : Type} (o : Outcome σ α) (R : Prop) (Q : α → σ → Prop) : Prop :=
  (R → ∃ a s, o = .ret a s) ∧ ∀ a s, o = .ret a s → Q a s

/-- Number of slots of the live block at address `b`. -/
def Mem.len (m : Mem T) (b : Nat) : Option Nat :=
  (m.block b).map (fun blk => blk.slots.length)

/-- The memory `m'` differs from `m` at most in the `Vector` object `this`, in
the block at address `b`, and in blocks allocated after `m`. -/
def Mem.FrameOf (m m' : Mem T) (this b : Nat) : Prop :=
  m'.vecs.length = m.vecs.length ∧ (∀ j, j ≠ this → m'.vecs[j]? = m.vecs[j]?) ∧
    m.heap.length ≤ m'.heap.length ∧
    ∀ b', b' ≠ b → b' ≤ m.heap.length → m'.block b' = m.block b'

/-- Every state the run `o` can end in satisfies its condition: `Q` for the
result and the state of a return, `E` for the state an exception leaves. -/
def Outcome.Ends {σ α : Type} (o : Outcome σ α) (Q : α → σ → Prop) (E : σ → Prop) : Prop :=
  match o with
  | .ret a s => Q a s
  | .thrown _ s => E s
  | .ub => True

/-- The memory `s` differs from `m` at most in the contents of the slots of
the blocks at addresses `a` and `b`: same `Vector` objects, same heap size,
same block sizes. -/
def Mem.Within (m s : Mem T) (a b : Nat) : Prop :=
  s.vecs = m.vecs ∧ s.heap.length = m.heap.length ∧
    (∀ x, x ≠ a → x ≠ b → s.block x = m.block x) ∧ ∀ x, s.len x = m.len x

/-- The code `x` writes at most to the slots of the blocks at `a` and `b`,
whether it returns or throws. -/
def Near {α : Type} (x : M (Mem T) α) (a b : Nat) : Prop :=
  ∀ m, (x m).Ends (fun _ s => m.Within s a b) (fun s => m.Within s a b)

/-- The members of a `Vector` object are consistent as numbers: the size is at
most the capacity, and the capacity is a value of `size_t`. -/
def Vector.Sound (v : Vector) : Prop :=
  v.size_ ≤ v.data_.capacity_ ∧ v.data_.capacity_ < SIZE_MOD

/-- Every live `Vector` object of the memory is `Sound`. -/
def Mem.Sound (m : Mem T) : Prop :=
  ∀ (i : Nat) (v : Vector), m.vecs[i]? = some (some v) → v.Sound

/-- A block address that a member function called on a vector with members
`v` in memory `m` may write to: the buffer of `v`, or a block allocated
after `m` (address `0` is no block at all). -/
def Mem.Allowed (m : Mem T) (v : Vector) (a : Nat) : Prop :=
  a = v.data_.buffer_.base ∨ a = 0 ∨ m.heap.length < a

/-- An intermediate state `s` of a member function called on the object `this`
(members `v`) in memory `m`: the object now has the members `w`, and nothing
outside its buffer and the new blocks has changed. -/
def Mem.Stage (m s : Mem T) (this : Nat) (v w : Vector) : Prop :=
  s.vecs[this]? = some (some w) ∧ m.FrameOf s this v.data_.buffer_.base

/-- What a member function called on the object `this` (members `v`) in
memory `m` may have done when it ends in `s`, by returning or by throwing:
the object is still there, with `Sound` members if they were `Sound`, its
buffer is the old one or a new block, and nothing outside the old buffer and
the new blocks has changed. -/
def Mem.Touched (m s : Mem T) (this : Nat) (v : Vector) : Prop :=
  ∃ w, m.Stage s this v w ∧ (v.Sound → w.Sound) ∧ m.Allowed v w.data_.buffer_.base

/-- The block address `b` is not the buffer of the vector `x` (a null buffer
is no block). -/
def Vector.Apart (x : Vector) (b : Nat) : Prop :=
  x.data_.buffer_.base = 0 ∨ b ≠ x.data_.buffer_.base

/-- The vector with members `x` at address `other` is the only live object
that uses its buffer. -/
def Mem.Sole (m : Mem T) (other : Nat) (x : Vector) : Prop :=
  ∀ (j : Nat) (w : Vector), j ≠ other → m.vecs[j]? = some (some w) →
    x.Apart w.data_.buffer_.base

/-- The object at `other` has the members `x`, the block of its buffer is `B`,
and no other live object uses that buffer. -/
def Mem.Guards (s : Mem T) (other : Nat) (x : Vector) (B : Option (Block T)) : Prop :=
  s.vecs[other]? = some (some x) ∧ s.block x.data_.buffer_.base = B ∧
    x.data_.buffer_.base ≤ s.heap.length ∧ s.Sole other x

/-! ## Concrete instances -/

/-- An element type for the examples: 8-byte integers whose operations never
throw; a moved-from integer keeps an unrelated value (here `0`). -/
def intOps : ElemOps Nat where
  sizeofT := 8
  value_init := 0
  value_init_throws := false
  is_nothrow_move_constructible := true
  is_copy_constructible := true
  copy_throws := fun _ => false
  move_throws := fun _ => false
  moved_from := fun _ => 0
  copy_assign_throws := fun _ _ => false
  copy_assign_failed := fun y _ => y
  move_assign_throws := fun _ _ => false
  moved_from_assign := fun _ _ => 0

/-- A memory with one vector of capacity 4 holding `[10, 20, 40]`. -/
def mem_abd : Mem Nat :=
  { heap := [some ⟨32, [some 10, some 20, some 40, none]⟩]
    vecs := [some ⟨⟨⟨1, 0⟩, 4⟩, 3⟩]
    free := 1000 }

/-- A memory with one full vector of capacity 4 holding `[10, 20, 30, 40]`. -/
def mem_abcd : Mem Nat :=
  { heap := [some ⟨32, [some 10, some 20, some 30, some 40]⟩]
    vecs := [some ⟨⟨⟨1, 0⟩, 4⟩, 4⟩]
    free := 1000 }

/-- A memory with two vectors: object 0 holds `[1, 2]`, object 1 holds `[9]`. -/
def mem_xy : Mem Nat :=
  { heap := [some ⟨16, [some 1, some 2]⟩, some ⟨8, [some 9]⟩]
    vecs := [some ⟨⟨⟨1, 0⟩, 2⟩, 2⟩, some ⟨⟨⟨2, 0⟩, 1⟩, 1⟩]
    free := 1000 }

/-- The memory `mem_xy` after the two objects have exchanged their members. -/
def mem_xy_swapped : Mem Nat :=
  { heap := [some ⟨16, [some 1, some 2]⟩, some ⟨8, [some 9]⟩]
    vecs := [some ⟨⟨⟨2, 0⟩, 1⟩, 1⟩, some ⟨⟨⟨1, 0⟩, 2⟩, 2⟩]
    free := 1000 }

/-- The memory after `Vector<int> v(2); v.PushBack(7);` run from nothing with
1000 free bytes: the buffer of two slots has been replaced by one of four. -/
def mem_grown : Mem Nat :=
  { heap := [none, some ⟨32, [some 0, some 0, some 7, none]⟩]
    vecs := [some ⟨⟨⟨2, 0⟩, 4⟩, 3⟩]
    free := 968 }

/-- An element type over `Nat` whose operations can throw: copy construction
throws for the value 30, copy assignment from the value 8, move assignment
from the value 20; a copy assignment that throws leaves its target as it
was.  Its move constructor is not `noexcept` (it never throws here and leaves
its source as it is), so the type is relocated by copy. -/
def fragileOps : ElemOps Nat where
  sizeofT := 8
  value_init := 0
  value_init_throws := false
  is_nothrow_move_constructible := false
  is_copy_constructible := true
  copy_throws := fun x => x == 30
  move_throws := fun _ => false
  moved_from := fun x => x
  copy_assign_throws := fun _ x => x == 8
  copy_assign_failed := fun y _ => y
  move_assign_throws := fun _ x => x == 20
  moved_from_assign := fun _ x => x

/-- The memory `mem_abd` after an `Emplace` at the front has built a copy of
the last element in slot 3 and then failed: slot 3 is live, `size_` is 3. -/
def mem_abd_failed : Mem Nat :=
  { heap := [some ⟨32, [some 10, some 20, some 40, some 40]⟩]
    vecs := [some ⟨⟨⟨1, 0⟩, 4⟩, 3⟩]
    free := 1000 }

/-- A memory with two buffers of raw storage, of 2 and of 3 slots, and no
`Vector` object. -/
def mem_raw : Mem Nat :=
  { heap := [some ⟨16, [none, none]⟩, some ⟨24, [none, none, none]⟩]
    vecs := []
    free := 1000 }

/-- The memory `mem_raw` after the second buffer has been released. -/
def mem_raw_leak : Mem Nat :=
  { heap := [some ⟨16, [none, none]⟩, none]
    vecs := []
    free := 1024 }

/-- A memory with no block and no object, and 1000 free bytes. -/
def mem_empty : Mem Nat :=
  { heap := []
    vecs := []
    free := 1000 }

/-- The memory `mem_empty` after `Vector<int> v;`. -/
def mem_fresh : Mem Nat :=
  { heap := []
    vecs := [some ⟨⟨⟨0, 0⟩, 0⟩, 0⟩]
    free := 1000 }

/-- The memory `mem_fresh` after `v.PushBack(7)`. -/
def mem_push1 : Mem Nat :=
  { heap := [some ⟨8, [some 7]⟩]
    vecs := [some ⟨⟨⟨1, 0⟩, 1⟩, 1⟩]
    free := 992 }

/-- The memory `mem_push1` after `v.PushBack(8)`. -/
def mem_push2 : Mem Nat :=
  { heap := [none, some ⟨16, [some 7, some 8]⟩]
    vecs := [some ⟨⟨⟨2, 0⟩, 2⟩, 2⟩]
    free := 984 }

/-- The memory `mem_push2` after `v.EmplaceBack(9)`. -/
def mem_push3 : Mem Nat :=
  { heap := [none, none, some ⟨32, [some 7, some 8, some 9, none]⟩]
    vecs := [some ⟨⟨⟨3, 0⟩, 4⟩, 3⟩]
    free := 968 }

/-- The memory `mem_abd` after `v.Reserve(6)`. -/
def mem_reserved : Mem Nat :=
  { heap := [none, some ⟨48, [some 10, some 20, some 40, none, none, none]⟩]
    vecs := [some ⟨⟨⟨2, 0⟩, 6⟩, 3⟩]
    free := 984 }

/-- The memory `mem_reserved` after `v.PushBack(50)`. -/
def mem_reserved1 : Mem Nat :=
  { heap := [none, some ⟨48, [some 10, some 20, some 40, some 50, none, none]⟩]
    vecs := [some ⟨⟨⟨2, 0⟩, 6⟩, 4⟩]
    free := 984 }

/-- The memory `mem_reserved1` after `v.EmplaceBack(60)`. -/
def mem_reserved2 : Mem Nat :=
  { heap := [none, some ⟨48, [some 10, some 20, some 40, some 50, some 60, none]⟩]
    vecs := [some ⟨⟨⟨2, 0⟩, 6⟩, 5⟩]
    free := 984 }

/-- The memory `mem_abd` after `v.Insert(v.begin(), std::move(v[2]))` for the
integers of `intOps`: the vector holds `[40, 10, 20, 0]`. -/
def mem_abd_moved : Mem Nat :=
  { heap := [some ⟨32, [some 40, some 10, some 20, some 0]⟩]
    vecs := [some ⟨⟨⟨1, 0⟩, 4⟩, 4⟩]
    free := 1000 }

/-- The memory `mem_push1` after `v.Reserve(2^61 + 1)`: the vector has the
capacity `2^61 + 1` and a buffer of 8 bytes, one slot. -/
def mem_wrapped : Mem Nat :=
  { heap := [none, some ⟨8, [some 7]⟩]
    vecs := [some ⟨⟨⟨2, 0⟩, 2305843009213693953⟩, 1⟩]
    free := 992 }

/-! # Theorems -/

variable {σ α β : Type}

/-! ## Running code: when does it return? -/

theorem bind_eq_ret_iff (x : M σ α) (f : α → M σ β) (m : σ) (b : β) (s : σ) :
    (x >>= f) m = .ret b s ↔ ∃ a s', x m = .ret a s' ∧ f a s' = .ret b s := by
  show (x m).bind (fun a s' => f a s') = .ret b s ↔ _
  cases h : x m with
  | ret a' s' =>
    simp only [Outcome.bind]
    constructor
    · intro hf; exact ⟨a', s', rfl, hf⟩
    · rintro ⟨a, s2, h1, h2⟩; cases h1; exact h2
  | thrown e s' => simp [Outcome.bind]
  | ub => simp [Outcome.bind]

theorem pure_eq_ret_iff (a a' : α) (m s : σ) :
    (pure a : M σ α) m = .ret a' s ↔ a' = a ∧ s = m := by
  show Outcome.ret a m = .ret a' s ↔ _
  constructor
  · intro h; cases h; exact ⟨rfl, rfl⟩
  · rintro ⟨rfl, rfl⟩; rfl

theorem throwExn_ne_ret (e : Exn) (m : σ) (a : α) (s : σ) :
    (throwExn e : M σ α) m = .ret a s ↔ False := by
  simp [throwExn]

theorem assert_eq_ret_iff (c : Prop) [Decidable c] (m : σ) (u : Unit) (s : σ) :
    (assert c : M σ Unit) m = .ret u s ↔ c ∧ s = m := by
  unfold assert
  split <;> simp_all [eq_comm]

theorem onException_eq_ret_iff (body : M σ α) (cleanup : M σ Unit) (m : σ) (a : α) (s : σ) :
    onException body cleanup m = .ret a s ↔ body m = .ret a s := by
  unfold onException
  cases h : body m with
  | ret a' s' => simp
  | thrown e s' =>
    cases h2 : cleanup s' <;> simp [h2]
  | ub => simp

theorem ite_run (c : Prop) [Decidable c] (x y : M σ α) (m : σ) :
    (if c then x else y) m = if c then x m else y m := by
  split <;> rfl

/-! ## Views of the memory -/

@[simp] theorem Mem.vecs_setBlock (m : Mem T) (b : Nat) (x : Option (Block T)) :
    (m.setBlock b x).vecs = m.vecs := by
  cases b <;> rfl

@[simp] theorem Mem.free_setBlock (m : Mem T) (b : Nat) (x : Option (Block T)) :
    (m.setBlock b x).free = m.free := by
  cases b <;> rfl

@[simp] theorem Mem.heap_length_setBlock (m : Mem T) (b : Nat) (x : Option (Block T)) :
    (m.setBlock b x).heap.length = m.heap.length := by
  cases b <;> simp [Mem.setBlock]

theorem Mem.block_le_length (m : Mem T) (b : Nat) (blk : Block T) (h : m.block b = some blk) :
    b ≠ 0 ∧ b ≤ m.heap.length := by
  cases b with
  | zero => simp [Mem.block] at h
  | succ n =>
    refine ⟨by omega, ?_⟩
    by_contra hlt
    have : m.heap[n]? = none := List.getElem?_eq_none (by omega)
    simp [Mem.block, this] at h

theorem Mem.block_setBlock (m : Mem T) (b b' : Nat) (x : Option (Block T)) (blk : Block T)
    (h : m.block b = some blk) :
    (m.setBlock b x).block b' = if b' = b then x else m.block b' := by
  have hb := m.block_le_length b blk h
  cases b with
  | zero => exact absurd rfl hb.1
  | succ n =>
    cases b' with
    | zero => simp [Mem.block, Mem.setBlock]
    | succ k =>
      have hn : n < m.heap.length := by omega
      by_cases hk : k = n
      · subst hk; simp [Mem.block, Mem.setBlock, hn]
      · have : ¬ n = k := fun h => hk h.symm
        simp [Mem.block, Mem.setBlock, List.getElem?_set, hk, this]

theorem Mem.setBlock_setBlock (m : Mem T) (b : Nat) (x y : Option (Block T)) :
    (m.setBlock b x).setBlock b y = m.setBlock b y := by
  cases b <;> simp [Mem.setBlock]

theorem Mem.setBlock_comm (m : Mem T) (a b : Nat) (x y : Option (Block T)) (h : a ≠ b) :
    (m.setBlock a x).setBlock b y = (m.setBlock b y).setBlock a x := by
  cases a with
  | zero => cases b <;> simp [Mem.setBlock]
  | succ a =>
    cases b with
    | zero => simp [Mem.setBlock]
    | succ b =>
      simp only [Mem.setBlock]
      rw [List.set_comm _ _ _ (show a ≠ b by omega)]

theorem Mem.setBlock_self (m : Mem T) (b : Nat) (blk : Block T) (h : m.block b = some blk) :
    m.setBlock b (some blk) = m := by
  cases b with
  | zero => rfl
  | succ n =>
    have hb := m.block_le_length _ blk h
    have hn : n < m.heap.length := by omega
    simp only [Mem.block, List.getElem?_eq_getElem hn, Option.join] at h
    cases m with
    | mk heap vecs free =>
      simp only [Mem.setBlock, Mem.mk.injEq, and_true]
      apply List.ext_getElem?
      intro i
      by_cases hi : n = i
      · subst hi; simp [hn]; simpa using h.symm
      · simp [List.getElem?_set, hi]

theorem run_bind (x : M σ α) (f : α → M σ β) (m : σ) :
    (x >>= f) m = (x m).bind (fun a s => f a s) := rfl

theorem run_pure (a : α) (m : σ) : (pure a : M σ α) m = .ret a m := rfl

@[simp] theorem Outcome.bind_ret (a : α) (s : σ) (f : α → σ → Outcome σ β) :
    (Outcome.ret a s).bind f = f a s := rfl

@[simp] theorem Outcome.bind_thrown (e : Exn) (s : σ) (f : α → σ → Outcome σ β) :
    (Outcome.thrown e s : Outcome σ α).bind f = .thrown e s := rfl

@[simp] theorem Outcome.bind_ub (f : α → σ → Outcome σ β) :
    (Outcome.ub : Outcome σ α).bind f = .ub := rfl

theorem onException_ret (body : M σ α) (cleanup : M σ Unit) (m : σ) (a : α) (s : σ)
    (h : body m = .ret a s) : onException body cleanup m = .ret a s := by
  simp [onException, h]

/-! ### Slots of a known block -/

theorem slots_get_focus (A B : List α) (s : α) (i : Nat) (hi : i = A.length) :
    (A ++ s :: B)[i]? = some s := by
  subst hi
  rw [List.getElem?_append_right (Nat.le_refl _)]
  simp

theorem slots_set_focus (A B : List α) (s s' : α) (i : Nat) (hi : i = A.length) :
    (A ++ s :: B).set i s' = A ++ s' :: B := by
  subst hi; simp

theorem Mem.slot_focus (m : Mem T) (p : Ptr) (blk : Block T) (A B : List (Option T))
    (o : Option T) (hb : m.block p.base = some blk) (hs : blk.slots = A ++ o :: B)
    (hp : p.off = A.length) : m.slot p = some o := by
  simp [Mem.slot, hb, hs, slots_get_focus A B o p.off hp]

theorem Mem.setSlot_focus (m : Mem T) (p : Ptr) (blk : Block T) (A B : List (Option T))
    (o s : Option T) (hb : m.block p.base = some blk) (hs : blk.slots = A ++ o :: B)
    (hp : p.off = A.length) :
    m.setSlot p s = m.setBlock p.base (some ⟨blk.bytes, A ++ s :: B⟩) := by
  simp [Mem.setSlot, hb, hs, slots_set_focus A B o s p.off hp]

theorem Mem.slot_none_of_length_le (m : Mem T) (p : Ptr) (blk : Block T)
    (hb : m.block p.base = some blk) (hp : blk.slots.length ≤ p.off) : m.slot p = none := by
  simp [Mem.slot, hb, List.getElem?_eq_none hp]

/-! ### Primitive accesses with a known slot -/

theorem load_eval (m : Mem T) (p : Ptr) (x : T) (h : m.slot p = some (some x)) :
    load p m = .ret x m := by
  simp [load, h]

theorem construct_at_eval (m : Mem T) (p : Ptr) (x : T) (o : Option T) (h : m.slot p = some o) :
    construct_at p x m = .ret () (m.setSlot p (some x)) := by
  simp [construct_at, h]

theorem store_eval (m : Mem T) (p : Ptr) (x y : T) (h : m.slot p = some (some y)) :
    store p x m = .ret () (m.setSlot p (some x)) := by
  simp [store, h]

theorem destroy_at_eval (m : Mem T) (p : Ptr) (y : T) (h : m.slot p = some (some y)) :
    destroy_at p m = .ret () (m.setSlot p none) := by
  simp [destroy_at, h]

theorem construct_at_eq_ret_iff (m : Mem T) (p : Ptr) (x : T) (u : Unit) (s : Mem T) :
    construct_at p x m = .ret u s ↔ (∃ o, m.slot p = some o) ∧ s = m.setSlot p (some x) := by
  unfold construct_at
  cases h : m.slot p <;> simp [eq_comm]

theorem getVec_eq_ret_iff (m : Mem T) (this : Nat) (v : Vector) (s : Mem T) :
    getVec this m = .ret v s ↔ m.vecs[this]? = some (some v) ∧ s = m := by
  unfold getVec
  cases h : m.vecs[this]? with
  | none => simp
  | some o => cases o <;> simp [eq_comm]

theorem getVec_eval (m : Mem T) (this : Nat) (v : Vector) (h : m.vecs[this]? = some (some v)) :
    getVec this m = .ret v m := by
  simp [getVec, h]

theorem setVec_eval (m : Mem T) (this : Nat) (v w : Vector) (h : m.vecs[this]? = some (some v)) :
    setVec this w m = .ret () (m.putVec this (some w)) := by
  simp [setVec, h]

/-! ### Standard algorithms on known blocks -/

theorem destroy_n_block (xs : List T) : ∀ (m : Mem T) (p : Ptr) (blk : Block T)
    (A B : List (Option T)), m.block p.base = some blk → blk.slots = A ++ xs.map some ++ B →
    p.off = A.length →
    destroy_n p xs.length m =
      .ret () (m.setBlock p.base (some ⟨blk.bytes, A ++ List.replicate xs.length none ++ B⟩)) := by
  induction xs with
  | nil =>
    intro m p blk A B hb hs _
    have : (⟨blk.bytes, A ++ List.replicate ([] : List T).length none ++ B⟩ : Block T) = blk := by
      cases blk; simp_all
    rw [this, m.setBlock_self _ _ hb]
    rfl
  | cons x xs ih =>
    intro m p blk A B hb hs hp
    have hs' : blk.slots = A ++ some x :: (xs.map some ++ B) := by simp [hs]
    have h1 := destroy_at_eval m p x (m.slot_focus p blk A _ _ hb hs' hp)
    rw [m.setSlot_focus p blk A _ _ none hb hs' hp] at h1
    have hb1 : (m.setBlock p.base (some ⟨blk.bytes, A ++ none :: (xs.map some ++ B)⟩)).block
        (p + 1).base = some ⟨blk.bytes, A ++ none :: (xs.map some ++ B)⟩ := by
      show (m.setBlock p.base _).block p.base = _
      rw [m.block_setBlock _ _ _ blk hb]; simp
    have h2 := ih _ (p + 1) _ (A ++ [none]) B hb1 (by simp)
      (by show p.off + 1 = _; simp [hp])
    show (destroy_at p >>= fun _ => destroy_n (p + 1) xs.length) m = _
    rw [run_bind, h1, Outcome.bind_ret, h2]
    show Outcome.ret () ((m.setBlock p.base _).setBlock p.base _) = _
    rw [Mem.setBlock_setBlock]
    simp [List.replicate_succ]

/-! ### Element operations with known slots -/

theorem Mem.slot_setSlot_ne (m : Mem T) (p q : Ptr) (s : Option T) (h : q ≠ p) :
    (m.setSlot p s).slot q = m.slot q := by
  unfold Mem.setSlot
  cases hb : m.block p.base with
  | none => rfl
  | some blk =>
    simp only [Mem.slot, m.block_setBlock _ _ _ blk hb]
    by_cases hq : q.base = p.base
    · have : p.off ≠ q.off := by
        intro ho; apply h; cases p; cases q; simp_all
      simp [hq, hb, List.getElem?_set, this]
    · simp [hq]

theorem copy_construct_eval (ops : ElemOps T) (m : Mem T) (dst src : Ptr) (x : T)
    (o : Option T) (hs : m.slot src = some (some x)) (hd : m.slot dst = some o) :
    copy_construct ops dst src m =
      if ops.copy_throws x then .thrown .element m else .ret () (m.setSlot dst (some x)) := by
  unfold copy_construct
  rw [run_bind, load_eval m src x hs, Outcome.bind_ret, ite_run]
  split
  · rfl
  · simp only [run_bind, run_pure, Outcome.bind_ret, construct_at_eval m dst x o hd]

theorem move_construct_eval (ops : ElemOps T) (m : Mem T) (dst src : Ptr) (x : T)
    (o : Option T) (hs : m.slot src = some (some x)) (hd : m.slot dst = some o)
    (hne : src ≠ dst) :
    move_construct ops dst src m =
      if move_construct_throws ops x then .thrown .element m
      else .ret () ((m.setSlot dst (some x)).setSlot src (some (ops.moved_from x))) := by
  unfold move_construct
  rw [run_bind, load_eval m src x hs, Outcome.bind_ret, ite_run]
  split
  · rfl
  · simp only [run_bind, run_pure, Outcome.bind_ret, construct_at_eval m dst x o hd,
      store_eval _ src _ x (show (m.setSlot dst (some x)).slot src = _ by
        rw [m.slot_setSlot_ne dst src _ hne, hs])]

theorem value_construct_eval (ops : ElemOps T) (m : Mem T) (dst : Ptr) (o : Option T)
    (hd : m.slot dst = some o) :
    value_construct ops dst m =
      if ops.value_init_throws then .thrown .element m
      else .ret () (m.setSlot dst (some ops.value_init)) := by
  unfold value_construct
  rw [ite_run]
  split
  · rfl
  · simp only [run_bind, run_pure, Outcome.bind_ret, construct_at_eval m dst _ o hd]

theorem copy_assign_eval (ops : ElemOps T) (m : Mem T) (dst src : Ptr) (x y : T)
    (hs : m.slot src = some (some x)) (hd : m.slot dst = some (some y)) :
    copy_assign ops dst src m =
      if ops.copy_assign_throws y x then
        .thrown .element (m.setSlot dst (some (ops.copy_assign_failed y x)))
      else .ret () (m.setSlot dst (some x)) := by
  unfold copy_assign
  rw [run_bind, load_eval m src x hs, Outcome.bind_ret, run_bind, load_eval m dst y hd,
    Outcome.bind_ret, ite_run]
  split
  · simp only [run_bind, Outcome.bind_ret, store_eval m dst _ y hd]
    rfl
  · simp only [run_bind, run_pure, Outcome.bind_ret, store_eval m dst x y hd]

theorem move_assign_eval (ops : ElemOps T) (m : Mem T) (dst src : Ptr) (x y : T)
    (hs : m.slot src = some (some x)) (hd : m.slot dst = some (some y)) (hne : src ≠ dst) :
    move_assign ops dst src m =
      if ops.move_assign_throws y x then .thrown .element m
      else .ret () ((m.setSlot dst (some x)).setSlot src (some (ops.moved_from_assign y x))) := by
  unfold move_assign
  rw [run_bind, load_eval m src x hs, Outcome.bind_ret, run_bind, load_eval m dst y hd,
    Outcome.bind_ret, ite_run]
  split
  · rfl
  · simp only [run_bind, run_pure, Outcome.bind_ret, store_eval m dst x y hd,
      store_eval _ src _ x (show (m.setSlot dst (some x)).slot src = _ by
        rw [m.slot_setSlot_ne dst src _ hne, hs])]

theorem move_assign_value_eval (ops : ElemOps T) (m : Mem T) (dst : Ptr) (x y : T)
    (hd : m.slot dst = some (some y)) :
    move_assign_value ops dst x m =
      if ops.move_assign_throws y x then .thrown .element m
      else .ret () (m.setSlot dst (some x)) := by
  unfold move_assign_value
  rw [run_bind, load_eval m dst y hd, Outcome.bind_ret, ite_run]
  split
  · rfl
  · simp only [run_bind, run_pure, Outcome.bind_ret, store_eval m dst x y hd]

theorem Outcome.RetOrElse.of_not {o : Outcome σ α} {a : α} {s : σ} {C : Prop}
    (h : o.RetOrElse a s C) (hC : ¬ C) : o = .ret a s := by
  rcases h with h | ⟨hc, _⟩
  · exact h
  · exact absurd hc hC

theorem Outcome.RetOrElse.of_ret {o : Outcome σ α} {a a' : α} {s s' : σ} {C : Prop}
    (h : o.RetOrElse a s C) (hr : o = .ret a' s') : a' = a ∧ s' = s := by
  rcases h with h | ⟨_, hn⟩
  · rw [h] at hr; cases hr; exact ⟨rfl, rfl⟩
  · exact absurd hr (hn a' s')

theorem Outcome.RetOrElse.mono {o : Outcome σ α} {a : α} {s : σ} {C D : Prop}
    (h : o.RetOrElse a s C) (hCD : C → D) : o.RetOrElse a s D := by
  rcases h with h | ⟨hc, hn⟩
  · exact Or.inl h
  · exact Or.inr ⟨hCD hc, hn⟩

/-- Sequencing: a first step with a known outcome, then the rest. -/
theorem Outcome.RetOrElse.bind {x : M σ α} {f : α → M σ β} {m : σ} {a : α} {s : σ} {b : β}
    {s' : σ} {C : Prop} (h1 : (x m).RetOrElse a s C) (h2 : (f a s).RetOrElse b s' C) :
    ((x >>= f) m).RetOrElse b s' C := by
  rcases h1 with h1 | ⟨hc, hn⟩
  · rw [run_bind, h1, Outcome.bind_ret]; exact h2
  · refine Or.inr ⟨hc, fun b' s'' hr => ?_⟩
    rw [bind_eq_ret_iff] at hr
    obtain ⟨a', s1, hx, _⟩ := hr
    exact hn a' s1 hx

theorem Outcome.RetOrElse.onException {body : M σ α} {cleanup : M σ Unit} {m : σ} {a : α}
    {s : σ} {C : Prop} (h : (body m).RetOrElse a s C) :
    (onException body cleanup m).RetOrElse a s C := by
  rcases h with h | ⟨hc, hn⟩
  · exact Or.inl (onException_ret _ _ _ _ _ h)
  · refine Or.inr ⟨hc, fun a' s' hr => ?_⟩
    rw [onException_eq_ret_iff] at hr
    exact hn a' s' hr

theorem Outcome.RetOrElse.of_ite {o : Outcome σ α} {e : Exn} {m : σ} {a : α} {s : σ}
    {c : Bool} {C : Prop} (h : o = if c then .thrown e m else .ret a s) (hC : c = true → C) :
    o.RetOrElse a s C := by
  cases c
  · exact Or.inl (by simpa using h)
  · exact Or.inr ⟨hC rfl, fun a' s' hr => by rw [h] at hr; simp at hr⟩

theorem uninitialized_copy_loop_block (ops : ElemOps T) (xs : List T) :
    ∀ (m : Mem T) (src dst : Ptr) (done : Nat) (sblk dblk : Block T)
      (SA SB DA DM DB : List (Option T)),
      src.base ≠ dst.base → m.block src.base = some sblk →
      sblk.slots = SA ++ xs.map some ++ SB → src.off + done = SA.length →
      m.block dst.base = some dblk → dblk.slots = DA ++ DM ++ DB → DM.length = xs.length →
      dst.off + done = DA.length →
      (uninitialized_copy_loop ops src dst done xs.length m).RetOrElse ()
        (m.setBlock dst.base (some ⟨dblk.bytes, DA ++ xs.map some ++ DB⟩))
        (∃ x ∈ xs, ops.copy_throws x = true) := by
  induction xs with
  | nil =>
    intro m src dst done sblk dblk SA SB DA DM DB _ _ _ _ hdb hds hlen _
    have hDM : DM = [] := List.length_eq_zero.mp hlen
    have : (⟨dblk.bytes, DA ++ ([] : List T).map some ++ DB⟩ : Block T) = dblk := by
      cases dblk; simp_all
    rw [this, m.setBlock_self _ _ hdb]
    exact Or.inl rfl
  | cons x xs ih =>
    intro m src dst done sblk dblk SA SB DA DM DB hne hsb hss hso hdb hds hlen hdo
    obtain ⟨o, DM', rfl⟩ : ∃ o DM', DM = o :: DM' := by
      cases DM with
      | nil => simp at hlen
      | cons o DM' => exact ⟨o, DM', rfl⟩
    have hss' : sblk.slots = SA ++ some x :: (xs.map some ++ SB) := by simp [hss]
    have hds' : dblk.slots = DA ++ o :: (DM' ++ DB) := by simp [hds]
    have hsl : m.slot (src + done) = some (some x) :=
      m.slot_focus (src + done) sblk SA _ _ hsb hss' hso
    have hdl : m.slot (dst + done) = some o :=
      m.slot_focus (dst + done) dblk DA _ _ hdb hds' hdo
    have h1 := copy_construct_eval ops m (dst + done) (src + done) x o hsl hdl
    rw [m.setSlot_focus (dst + done) dblk DA _ o (some x) hdb hds' hdo] at h1
    have hstep : (copy_construct ops (dst + done) (src + done) m).RetOrElse ()
        (m.setBlock dst.base (some ⟨dblk.bytes, DA ++ some x :: (DM' ++ DB)⟩))
        (∃ y ∈ x :: xs, ops.copy_throws y = true) :=
      Outcome.RetOrElse.of_ite h1 (fun hc => ⟨x, List.mem_cons_self _ _, hc⟩)
    have hb1 : (m.setBlock dst.base (some ⟨dblk.bytes, DA ++ some x :: (DM' ++ DB)⟩)).block
        dst.base = some ⟨dblk.bytes, DA ++ some x :: (DM' ++ DB)⟩ := by
      rw [m.block_setBlock _ _ _ dblk hdb]; simp
    have hb2 : (m.setBlock dst.base (some ⟨dblk.bytes, DA ++ some x :: (DM' ++ DB)⟩)).block
        src.base = some sblk := by
      rw [m.block_setBlock _ _ _ dblk hdb]; simp [hne, hsb]
    have h2 := ih _ src dst (done + 1) sblk _ (SA ++ [some x]) SB (DA ++ [some x]) DM' DB hne
      hb2 (by simp [hss]) (by simp; omega) hb1 (by simp) (by simpa using hlen) (by simp; omega)
    rw [Mem.setBlock_setBlock] at h2
    have h2' : (uninitialized_copy_loop ops src dst (done + 1) xs.length
        (m.setBlock dst.base (some ⟨dblk.bytes, DA ++ some x :: (DM' ++ DB)⟩))).RetOrElse ()
        (m.setBlock dst.base (some ⟨dblk.bytes, DA ++ (x :: xs).map some ++ DB⟩))
        (∃ y ∈ x :: xs, ops.copy_throws y = true) := by
      have := h2.mono (D := ∃ y ∈ x :: xs, ops.copy_throws y = true)
        (fun ⟨y, hy, hc⟩ => ⟨y, List.mem_cons_of_mem _ hy, hc⟩)
      simpa using this
    exact Outcome.RetOrElse.bind hstep.onException h2'

@[simp] theorem Ptr.add_base (p : Ptr) (k : Nat) : (p + k).base = p.base := rfl

@[simp] theorem Ptr.add_off (p : Ptr) (k : Nat) : (p + k).off = p.off + k := rfl

@[simp] theorem Ptr.sub_base (p : Ptr) (k : Nat) : (p - k).base = p.base := rfl

@[simp] theorem Ptr.sub_off (p : Ptr) (k : Nat) : (p - k).off = p.off - k := rfl

theorem Mem.setBlock_two_step (m : Mem T) (a b : Nat) (x1 y1 x2 y2 : Option (Block T))
    (h : a ≠ b) :
    (((m.setBlock a x1).setBlock b y1).setBlock a x2).setBlock b y2 =
      (m.setBlock a x2).setBlock b y2 := by
  rw [Mem.setBlock_comm (m.setBlock a x1) b a y1 x2 (Ne.symm h), Mem.setBlock_setBlock,
    Mem.setBlock_setBlock]

theorem uninitialized_move_loop_block (ops : ElemOps T) (xs : List T) :
    ∀ (m : Mem T) (src dst : Ptr) (done : Nat) (sblk dblk : Block T)
      (SA SB DA DM DB : List (Option T)),
      src.base ≠ dst.base → m.block src.base = some sblk →
      sblk.slots = SA ++ xs.map some ++ SB → src.off + done = SA.length →
      m.block dst.base = some dblk → dblk.slots = DA ++ DM ++ DB → DM.length = xs.length →
      dst.off + done = DA.length →
      (uninitialized_move_loop ops src dst done xs.length m).RetOrElse ()
        ((m.setBlock dst.base (some ⟨dblk.bytes, DA ++ xs.map some ++ DB⟩)).setBlock src.base
          (some ⟨sblk.bytes, SA ++ (xs.map ops.moved_from).map some ++ SB⟩))
        (∃ x ∈ xs, move_construct_throws ops x = true) := by
  induction xs with
  | nil =>
    intro m src dst done sblk dblk SA SB DA DM DB _ hsb hss _ hdb hds hlen _
    have hDM : DM = [] := List.length_eq_zero.mp hlen
    have h1 : (⟨dblk.bytes, DA ++ ([] : List T).map some ++ DB⟩ : Block T) = dblk := by
      cases dblk; simp_all
    have h2 : (⟨sblk.bytes, SA ++ (([] : List T).map ops.moved_from).map some ++ SB⟩ : Block T)
        = sblk := by
      cases sblk; simp_all
    rw [h1, h2, m.setBlock_self _ _ hdb, m.setBlock_self _ _ hsb]
    exact Or.inl rfl
  | cons x xs ih =>
    intro m src dst done sblk dblk SA SB DA DM DB hne hsb hss hso hdb hds hlen hdo
    obtain ⟨o, DM', rfl⟩ : ∃ o DM', DM = o :: DM' := by
      cases DM with
      | nil => simp at hlen
      | cons o DM' => exact ⟨o, DM', rfl⟩
    have hss' : sblk.slots = SA ++ some x :: (xs.map some ++ SB) := by simp [hss]
    have hds' : dblk.slots = DA ++ o :: (DM' ++ DB) := by simp [hds]
    have hsl : m.slot (src + done) = some (some x) :=
      m.slot_focus (src + done) sblk SA _ _ hsb hss' hso
    have hdl : m.slot (dst + done) = some o :=
      m.slot_focus (dst + done) dblk DA _ _ hdb hds' hdo
    have hpne : src + done ≠ dst + done := by
      intro h; apply hne
      have := congrArg Ptr.base h
      simpa using this
    have h1 := move_construct_eval ops m (dst + done) (src + done) x o hsl hdl hpne
    rw [m.setSlot_focus (dst + done) dblk DA _ o (some x) hdb hds' hdo] at h1
    simp only [Ptr.add_base] at h1
    have hb2 : (m.setBlock dst.base (some ⟨dblk.bytes, DA ++ some x :: (DM' ++ DB)⟩)).block
        src.base = some sblk := by
      rw [m.block_setBlock _ _ _ dblk hdb]; simp [hne, hsb]
    rw [Mem.setSlot_focus _ (src + done) sblk SA _ (some x) (some (ops.moved_from x)) hb2 hss'
      hso] at h1
    simp only [Ptr.add_base] at h1
    have hstep := Outcome.RetOrElse.of_ite (C := ∃ y ∈ x :: xs, move_construct_throws ops y = true)
      h1 (fun hc => ⟨x, List.mem_cons_self _ _, hc⟩)
    have hb3 : ((m.setBlock dst.base (some ⟨dblk.bytes, DA ++ some x :: (DM' ++ DB)⟩)).setBlock
        src.base (some ⟨sblk.bytes, SA ++ some (ops.moved_from x) :: (xs.map some ++ SB)⟩)).block
        src.base = some ⟨sblk.bytes, SA ++ some (ops.moved_from x) :: (xs.map some ++ SB)⟩ := by
      rw [Mem.block_setBlock _ _ _ _ sblk hb2]; simp
    have hb4 : ((m.setBlock dst.base (some ⟨dblk.bytes, DA ++ some x :: (DM' ++ DB)⟩)).setBlock
        src.base (some ⟨sblk.bytes, SA ++ some (ops.moved_from x) :: (xs.map some ++ SB)⟩)).block
        dst.base = some ⟨dblk.bytes, DA ++ some x :: (DM' ++ DB)⟩ := by
      rw [Mem.block_setBlock _ _ _ _ sblk hb2, m.block_setBlock _ _ _ dblk hdb]
      simp [Ne.symm hne]
    have h2 := ih _ src dst (done + 1) _ _ (SA ++ [some (ops.moved_from x)]) SB
      (DA ++ [some x]) DM' DB hne hb3 (by simp) (by simp; omega) hb4 (by simp)
      (by simpa using hlen) (by simp; omega)
    rw [Mem.setBlock_two_step _ _ _ _ _ _ _ (Ne.symm hne)] at h2
    have h2' := h2.mono (D := ∃ y ∈ x :: xs, move_construct_throws ops y = true)
        (fun ⟨y, hy, hc⟩ => ⟨y, List.mem_cons_of_mem _ hy, hc⟩)
    have := Outcome.RetOrElse.bind (f := fun _ => uninitialized_move_loop ops src dst (done + 1)
      xs.length) (hstep.onException : (onException _ (destroy_n dst done) m).RetOrElse _ _ _) h2'
    simpa using this

theorem uninitialized_value_construct_loop_block (ops : ElemOps T) (DM : List (Option T)) :
    ∀ (m : Mem T) (first : Ptr) (done : Nat) (blk : Block T) (A B : List (Option T)),
      m.block first.base = some blk → blk.slots = A ++ DM ++ B → first.off + done = A.length →
      (uninitialized_value_construct_loop ops first done DM.length m).RetOrElse ()
        (m.setBlock first.base
          (some ⟨blk.bytes, A ++ List.replicate DM.length (some ops.value_init) ++ B⟩))
        (ops.value_init_throws = true) := by
  induction DM with
  | nil =>
    intro m first done blk A B hb hs _
    have : (⟨blk.bytes, A ++ List.replicate ([] : List (Option T)).length (some ops.value_init)
        ++ B⟩ : Block T) = blk := by
      cases blk; simp_all
    rw [this, m.setBlock_self _ _ hb]
    exact Or.inl rfl
  | cons o DM ih =>
    intro m first done blk A B hb hs ho
    have hs' : blk.slots = A ++ o :: (DM ++ B) := by simp [hs]
    have hdl : m.slot (first + done) = some o := m.slot_focus (first + done) blk A _ _ hb hs' ho
    have h1 := value_construct_eval ops m (first + done) o hdl
    rw [m.setSlot_focus (first + done) blk A _ o _ hb hs' ho] at h1
    simp only [Ptr.add_base] at h1
    have hstep := Outcome.RetOrElse.of_ite (C := ops.value_init_throws = true) h1 id
    have hb1 : (m.setBlock first.base (some ⟨blk.bytes, A ++ some ops.value_init :: (DM ++ B)⟩)).block
        first.base = some ⟨blk.bytes, A ++ some ops.value_init :: (DM ++ B)⟩ := by
      rw [m.block_setBlock _ _ _ blk hb]; simp
    have h2 := ih _ first (done + 1) _ (A ++ [some ops.value_init]) B hb1 (by simp)
      (by simp; omega)
    rw [Mem.setBlock_setBlock] at h2
    have := Outcome.RetOrElse.bind
      (f := fun _ => uninitialized_value_construct_loop ops first (done + 1) DM.length)
      (hstep.onException : (onException _ (destroy_n first done) m).RetOrElse _ _ _) h2
    simpa [List.replicate_succ] using this

theorem std_copy_loop_block (ops : ElemOps T) (xs : List T) :
    ∀ (m : Mem T) (src dst : Ptr) (ys : List T) (sblk dblk : Block T)
      (SA SB DA DB : List (Option T)),
      src.base ≠ dst.base → m.block src.base = some sblk →
      sblk.slots = SA ++ xs.map some ++ SB → src.off = SA.length →
      m.block dst.base = some dblk → dblk.slots = DA ++ ys.map some ++ DB →
      ys.length = xs.length → dst.off = DA.length →
      (std_copy_loop ops src dst xs.length m).RetOrElse ()
        (m.setBlock dst.base (some ⟨dblk.bytes, DA ++ xs.map some ++ DB⟩))
        (∃ y x, ops.copy_assign_throws y x = true) := by
  induction xs with
  | nil =>
    intro m src dst ys sblk dblk SA SB DA DB _ _ _ _ hdb hds hlen _
    have hys : ys = [] := List.length_eq_zero.mp hlen
    have : (⟨dblk.bytes, DA ++ ([] : List T).map some ++ DB⟩ : Block T) = dblk := by
      cases dblk; simp_all
    rw [this, m.setBlock_self _ _ hdb]
    exact Or.inl rfl
  | cons x xs ih =>
    intro m src dst ys sblk dblk SA SB DA DB hne hsb hss hso hdb hds hlen hdo
    obtain ⟨y, ys', rfl⟩ : ∃ y ys', ys = y :: ys' := by
      cases ys with
      | nil => simp at hlen
      | cons y ys' => exact ⟨y, ys', rfl⟩
    have hss' : sblk.slots = SA ++ some x :: (xs.map some ++ SB) := by simp [hss]
    have hds' : dblk.slots = DA ++ some y :: (ys'.map some ++ DB) := by simp [hds]
    have hsl : m.slot src = some (some x) := m.slot_focus src sblk SA _ _ hsb hss' hso
    have hdl : m.slot dst = some (some y) := m.slot_focus dst dblk DA _ _ hdb hds' hdo
    have h1 := copy_assign_eval ops m dst src x y hsl hdl
    rw [m.setSlot_focus dst dblk DA _ _ (some x) hdb hds' hdo] at h1
    have hstep := Outcome.RetOrElse.of_ite (C := ∃ y x, ops.copy_assign_throws y x = true) h1
      (fun hc => ⟨y, x, hc⟩)
    have hb1 : (m.setBlock dst.base (some ⟨dblk.bytes, DA ++ some x :: (ys'.map some ++ DB)⟩)).block
        (dst + 1).base = some ⟨dblk.bytes, DA ++ some x :: (ys'.map some ++ DB)⟩ := by
      rw [Ptr.add_base, m.block_setBlock _ _ _ dblk hdb]; simp
    have hb2 : (m.setBlock dst.base (some ⟨dblk.bytes, DA ++ some x :: (ys'.map some ++ DB)⟩)).block
        (src + 1).base = some sblk := by
      rw [Ptr.add_base, m.block_setBlock _ _ _ dblk hdb]; simp [hne, hsb]
    have h2 := ih _ (src + 1) (dst + 1) ys' sblk _ (SA ++ [some x]) SB (DA ++ [some x]) DB
      (by simpa using hne) hb2 (by simp [hss]) (by simp [hso]) hb1 (by simp)
      (by simpa using hlen) (by simp [hdo])
    simp only [Ptr.add_base] at h2
    rw [Mem.setBlock_setBlock] at h2
    have := Outcome.RetOrElse.bind (f := fun _ => std_copy_loop ops (src + 1) (dst + 1) xs.length)
      hstep h2
    simpa using this

/-- One step of a shift towards the front inside a block. -/
theorem move_assign_left (ops : ElemOps T) (m : Mem T) (dst src : Ptr) (blk : Block T)
    (A B : List (Option T)) (x y : T) (hb : m.block dst.base = some blk)
    (hsb : src.base = dst.base) (hs : blk.slots = A ++ some y :: some x :: B)
    (hd : dst.off = A.length) (hso : src.off = A.length + 1) :
    move_assign ops dst src m =
      if ops.move_assign_throws y x then .thrown .element m
      else .ret () (m.setBlock dst.base
        (some ⟨blk.bytes, A ++ some x :: some (ops.moved_from_assign y x) :: B⟩)) := by
  have hs2 : blk.slots = (A ++ [some y]) ++ some x :: B := by simp [hs]
  have hsl : m.slot src = some (some x) :=
    m.slot_focus src blk _ _ _ (hsb ▸ hb) hs2 (by simp [hso])
  have hdl : m.slot dst = some (some y) := m.slot_focus dst blk A _ _ hb hs hd
  have hne : src ≠ dst := by
    intro h; rw [h] at hso; omega
  rw [move_assign_eval ops m dst src x y hsl hdl hne,
    m.setSlot_focus dst blk A _ _ (some x) hb hs hd]
  have hb1 : (m.setBlock dst.base (some ⟨blk.bytes, A ++ some x :: some x :: B⟩)).block src.base
      = some ⟨blk.bytes, A ++ some x :: some x :: B⟩ := by
    rw [hsb, m.block_setBlock _ _ _ blk hb]; simp
  rw [Mem.setSlot_focus _ src _ (A ++ [some x]) B (some x) _ hb1 (by simp) (by simp [hso]),
    hsb, Mem.setBlock_setBlock]
  simp

/-- One step of a shift towards the back inside a block. -/
theorem move_assign_right (ops : ElemOps T) (m : Mem T) (dst src : Ptr) (blk : Block T)
    (A B : List (Option T)) (x y : T) (hb : m.block dst.base = some blk)
    (hsb : src.base = dst.base) (hs : blk.slots = A ++ some x :: some y :: B)
    (hso : src.off = A.length) (hd : dst.off = A.length + 1) :
    move_assign ops dst src m =
      if ops.move_assign_throws y x then .thrown .element m
      else .ret () (m.setBlock dst.base
        (some ⟨blk.bytes, A ++ some (ops.moved_from_assign y x) :: some x :: B⟩)) := by
  have hs2 : blk.slots = (A ++ [some x]) ++ some y :: B := by simp [hs]
  have hsl : m.slot src = some (some x) := m.slot_focus src blk A _ _ (hsb ▸ hb) hs hso
  have hdl : m.slot dst = some (some y) :=
    m.slot_focus dst blk _ _ _ hb hs2 (by simp [hd])
  have hne : src ≠ dst := by
    intro h; rw [h] at hso; omega
  rw [move_assign_eval ops m dst src x y hsl hdl hne,
    m.setSlot_focus dst blk _ _ _ (some x) hb hs2 (by simp [hd])]
  have hb1 : (m.setBlock dst.base (some ⟨blk.bytes, A ++ [some x] ++ some x :: B⟩)).block src.base
      = some ⟨blk.bytes, A ++ [some x] ++ some x :: B⟩ := by
    rw [hsb, m.block_setBlock _ _ _ blk hb]; simp
  rw [Mem.setSlot_focus _ src _ A (some x :: B) (some x) _ hb1 (by simp) hso,
    hsb, Mem.setBlock_setBlock]

theorem std_move_loop_block (ops : ElemOps T) (xs : List T) :
    ∀ (m : Mem T) (src dst : Ptr) (y : T) (blk : Block T) (A B : List (Option T)),
      m.block dst.base = some blk → src.base = dst.base →
      blk.slots = A ++ some y :: (xs.map some ++ B) → dst.off = A.length →
      src.off = A.length + 1 →
      (std_move_loop ops src dst xs.length m).RetOrElse ()
        (m.setBlock dst.base (some ⟨blk.bytes,
          A ++ xs.map some ++ some (xs.foldl ops.moved_from_assign y) :: B⟩))
        (∃ y x, ops.move_assign_throws y x = true) := by
  induction xs with
  | nil =>
    intro m src dst y blk A B hb _ hs _ _
    have : (⟨blk.bytes, A ++ ([] : List T).map some ++
        some (([] : List T).foldl ops.moved_from_assign y) :: B⟩ : Block T) = blk := by
      cases blk; simp_all
    rw [this, m.setBlock_self _ _ hb]
    exact Or.inl rfl
  | cons x xs ih =>
    intro m src dst y blk A B hb hsb hs hd hso
    have hs' : blk.slots = A ++ some y :: some x :: (xs.map some ++ B) := by simp [hs]
    have h1 := move_assign_left ops m dst src blk A _ x y hb hsb hs' hd hso
    have hstep := Outcome.RetOrElse.of_ite (C := ∃ y x, ops.move_assign_throws y x = true) h1
      (fun hc => ⟨y, x, hc⟩)
    have hb1 : (m.setBlock dst.base (some ⟨blk.bytes,
        A ++ some x :: some (ops.moved_from_assign y x) :: (xs.map some ++ B)⟩)).block
        (dst + 1).base = some ⟨blk.bytes,
        A ++ some x :: some (ops.moved_from_assign y x) :: (xs.map some ++ B)⟩ := by
      rw [Ptr.add_base, m.block_setBlock _ _ _ blk hb]; simp
    have h2 := ih _ (src + 1) (dst + 1) (ops.moved_from_assign y x) _ (A ++ [some x]) B hb1
      (by simpa using hsb) (by simp) (by simp [hd]) (by simp [hso])
    simp only [Ptr.add_base] at h2
    rw [Mem.setBlock_setBlock] at h2
    have := Outcome.RetOrElse.bind (f := fun _ => std_move_loop ops (src + 1) (dst + 1) xs.length)
      hstep h2
    simpa using this

theorem move_backward_loop_block (ops : ElemOps T) (xs : List T) :
    ∀ (m : Mem T) (last d_last : Ptr) (y : T) (blk : Block T) (A B : List (Option T)),
      m.block d_last.base = some blk → last.base = d_last.base →
      blk.slots = A ++ xs.map some ++ some y :: B → last.off = A.length + xs.length →
      d_last.off = A.length + xs.length + 1 →
      (move_backward_loop ops last d_last xs.length m).RetOrElse ()
        (m.setBlock d_last.base (some ⟨blk.bytes,
          A ++ some (xs.foldr (fun x acc => ops.moved_from_assign acc x) y) :: (xs.map some ++ B)⟩))
        (∃ y x, ops.move_assign_throws y x = true) := by
  induction xs using List.reverseRecOn with
  | nil =>
    intro m last d_last y blk A B hb _ hs _ _
    have : (⟨blk.bytes, A ++ some (([] : List T).foldr (fun x acc => ops.moved_from_assign acc x) y)
        :: (([] : List T).map some ++ B)⟩ : Block T) = blk := by
      cases blk; simp_all
    rw [this, m.setBlock_self _ _ hb]
    exact Or.inl rfl
  | append_singleton xs x ih =>
    intro m last d_last y blk A B hb hlb hs hlo hdo
    have hs' : blk.slots = (A ++ xs.map some) ++ some x :: some y :: B := by simp [hs]
    have hlen : (xs ++ [x]).length = xs.length + 1 := by simp
    have h1 := move_assign_right ops m (d_last - 1) (last - 1) blk (A ++ xs.map some) B x y hb
      (by simpa using hlb) hs'
      (by simp only [Ptr.sub_off, hlo, hlen, List.length_append, List.length_map]; omega)
      (by simp only [Ptr.sub_off, hdo, hlen, List.length_append, List.length_map]; omega)
    simp only [Ptr.sub_base] at h1
    have hstep := Outcome.RetOrElse.of_ite (C := ∃ y x, ops.move_assign_throws y x = true) h1
      (fun hc => ⟨y, x, hc⟩)
    have hb1 : (m.setBlock d_last.base (some ⟨blk.bytes,
        (A ++ xs.map some) ++ some (ops.moved_from_assign y x) :: some x :: B⟩)).block
        (d_last - 1).base = some ⟨blk.bytes,
        (A ++ xs.map some) ++ some (ops.moved_from_assign y x) :: some x :: B⟩ := by
      rw [Ptr.sub_base, m.block_setBlock _ _ _ blk hb]; simp
    have h2 := ih _ (last - 1) (d_last - 1) (ops.moved_from_assign y x) _ A (some x :: B) hb1
      (by simpa using hlb) (by simp)
      (by simp only [Ptr.sub_off, hlo, hlen]; omega)
      (by simp only [Ptr.sub_off, hdo, hlen]; omega)
    simp only [Ptr.sub_base] at h2
    rw [Mem.setBlock_setBlock] at h2
    have := Outcome.RetOrElse.bind
      (f := fun _ => move_backward_loop ops (last - 1) (d_last - 1) xs.length) hstep h2
    rw [hlen]
    simpa using this

/-! ### Views after updates of the object table and the heap -/

@[simp] theorem Mem.heap_putVec (m : Mem T) (i : Nat) (o : Option Vector) :
    (m.putVec i o).heap = m.heap := rfl

@[simp] theorem Mem.free_putVec (m : Mem T) (i : Nat) (o : Option Vector) :
    (m.putVec i o).free = m.free := rfl

@[simp] theorem Mem.block_putVec (m : Mem T) (i : Nat) (o : Option Vector) (b : Nat) :
    (m.putVec i o).block b = m.block b := by
  cases b <;> rfl

@[simp] theorem Mem.vecs_putVec (m : Mem T) (i : Nat) (o : Option Vector) :
    (m.putVec i o).vecs = m.vecs.set i o := rfl

theorem Mem.lt_of_vec (m : Mem T) (i : Nat) (o : Option Vector) (h : m.vecs[i]? = some o) :
    i < m.vecs.length := by
  by_contra hge
  rw [List.getElem?_eq_none (by omega)] at h
  cases h

theorem Mem.vec_putVec_self (m : Mem T) (i : Nat) (o o' : Option Vector)
    (h : m.vecs[i]? = some o') : (m.putVec i o).vecs[i]? = some o := by
  have := m.lt_of_vec i o' h
  simp [this]

theorem Mem.vec_putVec_ne (m : Mem T) (i j : Nat) (o : Option Vector) (h : i ≠ j) :
    (m.putVec i o).vecs[j]? = m.vecs[j]? := by
  simp [List.getElem?_set, h]

theorem Mem.putVec_putVec (m : Mem T) (i : Nat) (o o' : Option Vector) :
    (m.putVec i o).putVec i o' = m.putVec i o' := by
  simp [Mem.putVec]

theorem Mem.setBlock_putVec (m : Mem T) (i : Nat) (o : Option Vector) (b : Nat)
    (x : Option (Block T)) : (m.putVec i o).setBlock b x = (m.setBlock b x).putVec i o := by
  cases b <;> rfl

@[simp] theorem Mem.vecs_alloc (m : Mem T) (bytes n : Nat) : (m.alloc bytes n).vecs = m.vecs := rfl

@[simp] theorem Mem.free_alloc (m : Mem T) (bytes n : Nat) :
    (m.alloc bytes n).free = m.free - bytes := rfl

@[simp] theorem Mem.heap_length_alloc (m : Mem T) (bytes n : Nat) :
    (m.alloc bytes n).heap.length = m.heap.length + 1 := by
  simp [Mem.alloc]

theorem Mem.block_alloc (m : Mem T) (bytes n b : Nat) :
    (m.alloc bytes n).block b =
      if b = m.heap.length + 1 then some ⟨bytes, List.replicate n none⟩ else m.block b := by
  cases b with
  | zero => simp [Mem.block]
  | succ k =>
    by_cases hk : k = m.heap.length
    · subst hk; simp [Mem.block, Mem.alloc]
    · by_cases hlt : k < m.heap.length
      · simp [Mem.block, Mem.alloc, hk, List.getElem?_append_left hlt]
      · have h1 : m.heap[k]? = none := List.getElem?_eq_none (by omega)
        have h2 : (m.heap ++ [some ⟨bytes, List.replicate n none⟩])[k]? = none :=
          List.getElem?_eq_none (by simp; omega)
        simp [Mem.block, Mem.alloc, hk, h1, h2]

@[simp] theorem Mem.vecs_release (m : Mem T) (b bytes : Nat) : (m.release b bytes).vecs = m.vecs := by
  simp [Mem.release]

@[simp] theorem Mem.free_release (m : Mem T) (b bytes : Nat) :
    (m.release b bytes).free = m.free + bytes := rfl

@[simp] theorem Mem.heap_length_release (m : Mem T) (b bytes : Nat) :
    (m.release b bytes).heap.length = m.heap.length := by
  simp [Mem.release]

theorem Mem.block_release (m : Mem T) (b b' bytes : Nat) (blk : Block T)
    (h : m.block b = some blk) :
    (m.release b bytes).block b' = if b' = b then none else m.block b' := by
  have := m.block_setBlock b b' none blk h
  cases b' with
  | zero => simp [Mem.block]
  | succ k => simpa [Mem.release, Mem.block] using this

theorem getVec_putVec (m : Mem T) (this : Nat) (v w : Vector) (h : m.vecs[this]? = some (some v)) :
    getVec this (m.putVec this (some w)) = .ret w (m.putVec this (some w)) :=
  getVec_eval _ this w (m.vec_putVec_self this _ _ h)

/-! ### The representation invariant -/

theorem Block.represents_of (blk : Block T) (l : List T) (cap k : Nat)
    (hs : blk.slots = l.map some ++ List.replicate k none) (hk : l.length + k ≤ cap) :
    blk.Represents l cap := by
  have hlen : blk.slots.length = l.length + k := by simp [hs]
  refine ⟨?_, by omega⟩
  have : blk.slots.length - l.length = k := by omega
  rw [this]; exact hs

theorem Holds.block {m : Mem T} {v : Vector} {l : List T} (h : Holds m v l)
    (hc : v.data_.capacity_ ≠ 0) :
    ∃ blk k, m.block v.data_.buffer_.base = some blk ∧
      blk.slots = l.map some ++ List.replicate k none ∧ l.length + k ≤ v.data_.capacity_ := by
  obtain ⟨blk, hb, hs, hle⟩ := h.2.2.2.2.2 hc
  refine ⟨blk, blk.slots.length - l.length, hb, hs, ?_⟩
  have : blk.slots.length = l.length + (blk.slots.length - l.length) := by
    conv_lhs => rw [hs]
    simp
  omega

theorem assert_eval (c : Prop) [Decidable c] (m : σ) (h : c) : (assert c : M σ Unit) m = .ret () m := by
  simp [assert, h]

theorem Outcome.RetOrElse.of_eq {o : Outcome σ α} {a : α} {s : σ} {C : Prop}
    (h : o = .ret a s) : o.RetOrElse a s C := Or.inl h

theorem Vector.Erase_spec (ops : ElemOps T) (m : Mem T) (this : Nat) (v : Vector) (l : List T)
    (i : Nat) (hv : m.vecs[this]? = some (some v)) (hH : Holds m v l) (hi : i < l.length) :
    ∃ m', (Vector.Erase ops this (v.data_.buffer_ + i) m).RetOrElse (v.data_.buffer_ + i) m'
        (∃ y x, ops.move_assign_throws y x = true) ∧
      m'.vecs = (m.putVec this (some { v with size_ := v.size_ - 1 })).vecs ∧
      Holds m' { v with size_ := v.size_ - 1 } (l.eraseIdx i) ∧
      m'.free = m.free ∧ m'.heap.length = m.heap.length ∧
      ∀ b, b ≠ v.data_.buffer_.base → m'.block b = m.block b := by
  obtain ⟨hsz, hle, hcap, hoff, hnull, -⟩ := id hH
  have hc : v.data_.capacity_ ≠ 0 := by omega
  obtain ⟨blk, k, hb, hs, hk⟩ := hH.block hc
  have hl : l.take i ++ l.get ⟨i, hi⟩ :: l.drop (i + 1) = l := by
    rw [List.get_eq_getElem, ← List.drop_eq_getElem_cons hi, List.take_append_drop]
  -- the block, split at the erased element
  have hsplit : blk.slots = (l.take i).map some ++
      some (l.get ⟨i, hi⟩) :: ((l.drop (i + 1)).map some ++ List.replicate k none) := by
    rw [hs]
    conv_lhs => rw [← hl]
    rw [List.map_append, List.map_cons, List.append_assoc, List.cons_append]
  have hAlen : ((l.take i).map some).length = i := by
    rw [List.length_map, List.length_take]; omega
  have hxlen : (l.drop (i + 1)).length = v.size_ - (i + 1) := by simp [hsz]
  have hmv := std_move_loop_block ops (l.drop (i + 1)) m (v.data_.buffer_ + i + 1)
    (v.data_.buffer_ + i) (l.get ⟨i, hi⟩) blk _ _ hb rfl hsplit
    (by rw [hAlen]; simp only [Ptr.add_off, hoff]; omega)
    (by rw [hAlen]; simp only [Ptr.add_off, hoff]; omega)
  rw [hxlen] at hmv
  simp only [Ptr.add_base] at hmv
  let r := (l.drop (i + 1)).foldl ops.moved_from_assign (l.get ⟨i, hi⟩)
  let m1 := m.setBlock v.data_.buffer_.base (some ⟨blk.bytes,
    (l.take i).map some ++ (l.drop (i + 1)).map some ++ some r :: List.replicate k none⟩)
  have hb1 : m1.block v.data_.buffer_.base = some ⟨blk.bytes,
      (l.take i).map some ++ (l.drop (i + 1)).map some ++ some r :: List.replicate k none⟩ := by
    rw [m.block_setBlock _ _ _ blk hb]; simp
  have hds := destroy_n_block [r] m1 (v.data_.buffer_ + v.size_ - 1) _
    ((l.take i).map some ++ (l.drop (i + 1)).map some) (List.replicate k none) hb1 (by simp)
    (by rw [List.length_append, hAlen, List.length_map, hxlen]
        simp only [Ptr.add_off, Ptr.sub_off, hoff]; omega)
  simp only [Ptr.add_base, Ptr.sub_base, List.length_singleton] at hds
  rw [Mem.setBlock_setBlock] at hds
  let blk2 : Block T := ⟨blk.bytes,
    (l.take i).map some ++ (l.drop (i + 1)).map some ++ List.replicate 1 none ++
      List.replicate k none⟩
  let m2 := m.setBlock v.data_.buffer_.base (some blk2)
  have hv2 : m2.vecs[this]? = some (some v) := by simpa [m2] using hv
  refine ⟨m2.putVec this (some { v with size_ := v.size_ - 1 }), ?_, ?_, ?_, ?_, ?_, ?_⟩
  · unfold Vector.Erase Vector.begin Vector.end_
    have hsize : (v.size_ + SIZE_MOD - 1) % SIZE_MOD = v.size_ - 1 := by
      have : v.size_ + SIZE_MOD - 1 = (v.size_ - 1) + SIZE_MOD := by omega
      rw [this, Nat.add_mod_right, Nat.mod_eq_of_lt (by omega)]
    refine Outcome.RetOrElse.bind (a := v.data_.buffer_) (s := m)
      (.of_eq (by simp [run_bind, getVec_eval m this v hv, run_pure, RawMemory.GetAddress])) ?_
    refine Outcome.RetOrElse.bind (a := v.data_.buffer_ + v.size_) (s := m)
      (.of_eq (by simp [run_bind, getVec_eval m this v hv, run_pure, RawMemory.GetAddress])) ?_
    refine Outcome.RetOrElse.bind (a := ()) (s := m)
      (.of_eq (assert_eval _ m ⟨rfl, by simp only [Ptr.add_off, hoff]; omega,
        by simp only [Ptr.add_off, hoff]; omega⟩)) ?_
    have hoffset : (v.data_.buffer_ + i).off - v.data_.buffer_.off = i := by
      simp only [Ptr.add_off, hoff]; omega
    rw [hoffset]
    refine Outcome.RetOrElse.bind (a := ()) (s := m1) ?_ ?_
    · unfold std_move
      refine Outcome.RetOrElse.bind (a := ()) (s := m)
        (.of_eq (assert_eval _ m ⟨rfl, by simp only [Ptr.add_off, hoff]; omega⟩)) ?_
      have : (v.data_.buffer_ + v.size_).off - (v.data_.buffer_ + i + 1).off =
          v.size_ - (i + 1) := by simp only [Ptr.add_off, hoff]; omega
      rw [this]
      exact hmv
    refine Outcome.RetOrElse.bind (a := ()) (s := m2) (.of_eq hds) ?_
    refine Outcome.RetOrElse.bind (a := v) (s := m2) (.of_eq (getVec_eval m2 this v hv2)) ?_
    refine Outcome.RetOrElse.bind (a := ()) (s := _) (.of_eq (setVec_eval m2 this v _ hv2)) ?_
    rw [hsize]
    refine .of_eq ?_
    simp [run_bind, getVec_putVec m2 this v _ hv2, run_pure, RawMemory.GetAddress]
  · simp [m2]
  · refine ⟨?_, ?_, hcap, hoff, hnull, fun _ => ⟨blk2, ?_, ?_⟩⟩
    · simp [List.length_eraseIdx, hi, hsz]
    · simp [List.length_eraseIdx, hi]; omega
    · show (m2.putVec _ _).block v.data_.buffer_.base = some blk2
      rw [Mem.block_putVec, m.block_setBlock _ _ _ blk hb]; simp
    · apply Block.represents_of blk2 _ _ (k + 1)
      · simp [blk2, List.eraseIdx_eq_take_drop_succ, List.replicate_succ]
      · simp [List.length_eraseIdx, hi]; omega
  · simp [m2]
  · simp [m2]
  · intro b hbne
    rw [Mem.block_putVec, m.block_setBlock _ _ _ blk hb]; simp [hbne]

/-! ### Block sizes do not change under element operations -/

theorem Mem.len_setSlot (m : Mem T) (p : Ptr) (s : Option T) (b : Nat) :
    (m.setSlot p s).len b = m.len b := by
  unfold Mem.setSlot Mem.len
  cases hb : m.block p.base with
  | none => rfl
  | some blk =>
    rw [m.block_setBlock _ _ _ blk hb]
    by_cases h : b = p.base
    · subst h; simp [hb]
    · simp [h]

theorem Mem.slot_addressable (m : Mem T) (p : Ptr) (o : Option T) (h : m.slot p = some o) :
    ∃ n, m.len p.base = some n ∧ p.off < n := by
  unfold Mem.slot at h
  cases hb : m.block p.base with
  | none => simp [hb] at h
  | some blk =>
    refine ⟨blk.slots.length, by simp [Mem.len, hb], ?_⟩
    by_contra hge
    simp [hb, List.getElem?_eq_none (Nat.le_of_not_lt hge)] at h

theorem load_eq_ret_iff (m : Mem T) (p : Ptr) (x : T) (s : Mem T) :
    load p m = .ret x s ↔ m.slot p = some (some x) ∧ s = m := by
  unfold load
  cases h : m.slot p with
  | none => simp
  | some o => cases o <;> simp [eq_comm]

theorem store_eq_ret_iff (m : Mem T) (p : Ptr) (x : T) (u : Unit) (s : Mem T) :
    store p x m = .ret u s ↔ (∃ y, m.slot p = some (some y)) ∧ s = m.setSlot p (some x) := by
  unfold store
  cases h : m.slot p with
  | none => simp
  | some o => cases o <;> simp [eq_comm]

theorem ite_throw_eq_ret_iff (c : Bool) (e : Exn) (f : M σ α) (m : σ) (a : α) (s : σ) :
    (if c = true then (throwExn e >>= fun (_ : PUnit) => f) else (pure PUnit.unit >>= fun _ => f)) m
      = .ret a s ↔ c = false ∧ f m = .ret a s := by
  cases c
  · simp [run_bind, run_pure]
  · simp [run_bind, throwExn]

theorem copy_construct_ret (ops : ElemOps T) (m m' : Mem T) (dst src : Ptr) (u : Unit)
    (h : copy_construct ops dst src m = .ret u m') :
    (∀ b, m'.len b = m.len b) ∧ ∃ n, m.len dst.base = some n ∧ dst.off < n := by
  unfold copy_construct at h
  rw [bind_eq_ret_iff] at h
  obtain ⟨x, s, h1, h2⟩ := h
  rw [load_eq_ret_iff] at h1
  obtain ⟨_, rfl⟩ := h1
  rw [ite_throw_eq_ret_iff, construct_at_eq_ret_iff] at h2
  obtain ⟨_, ⟨o, ho⟩, rfl⟩ := h2
  exact ⟨fun b => Mem.len_setSlot _ _ _ b, Mem.slot_addressable _ _ o ho⟩

theorem move_construct_ret (ops : ElemOps T) (m m' : Mem T) (dst src : Ptr) (u : Unit)
    (h : move_construct ops dst src m = .ret u m') :
    (∀ b, m'.len b = m.len b) ∧ ∃ n, m.len dst.base = some n ∧ dst.off < n := by
  unfold move_construct at h
  rw [bind_eq_ret_iff] at h
  obtain ⟨x, s, h1, h2⟩ := h
  rw [load_eq_ret_iff] at h1
  obtain ⟨_, rfl⟩ := h1
  rw [ite_throw_eq_ret_iff, bind_eq_ret_iff] at h2
  obtain ⟨_, _, s1, h3, h4⟩ := h2
  rw [construct_at_eq_ret_iff] at h3
  obtain ⟨⟨o, ho⟩, rfl⟩ := h3
  rw [store_eq_ret_iff] at h4
  obtain ⟨_, rfl⟩ := h4
  exact ⟨fun b => by rw [Mem.len_setSlot, Mem.len_setSlot], Mem.slot_addressable _ _ o ho⟩

theorem value_construct_ret (ops : ElemOps T) (m m' : Mem T) (dst : Ptr) (u : Unit)
    (h : value_construct ops dst m = .ret u m') :
    (∀ b, m'.len b = m.len b) ∧ ∃ n, m.len dst.base = some n ∧ dst.off < n := by
  unfold value_construct at h
  rw [ite_throw_eq_ret_iff, construct_at_eq_ret_iff] at h
  obtain ⟨_, ⟨o, ho⟩, rfl⟩ := h
  exact ⟨fun b => Mem.len_setSlot _ _ _ b, Mem.slot_addressable _ _ o ho⟩

/-- A loop of constructions that returns had room for all its objects. -/
theorem construct_loop_room (step : Nat → M (Mem T) Unit) (cleanup : Nat → M (Mem T) Unit)
    (loop : Nat → Nat → M (Mem T) Unit) (dst : Ptr)
    (hloop : ∀ done todo, loop done (todo + 1) =
      (onException (step done) (cleanup done) >>= fun _ => loop (done + 1) todo))
    (hstep : ∀ done m m' u, step done m = .ret u m' →
      (∀ b, m'.len b = m.len b) ∧ ∃ n, m.len dst.base = some n ∧ dst.off + done < n) :
    ∀ (todo done : Nat) (m m' : Mem T), loop done (todo + 1) m = .ret () m' →
      ∃ n, m.len dst.base = some n ∧ dst.off + done + todo < n := by
  intro todo
  induction todo with
  | zero =>
    intro done m m' h
    rw [hloop, bind_eq_ret_iff] at h
    obtain ⟨u, m1, h1, _⟩ := h
    rw [onException_eq_ret_iff] at h1
    exact (hstep done m m1 u h1).2
  | succ t ih =>
    intro done m m' h
    rw [hloop, bind_eq_ret_iff] at h
    obtain ⟨u, m1, h1, h2⟩ := h
    rw [onException_eq_ret_iff] at h1
    obtain ⟨n, hn, hlt⟩ := ih (done + 1) m1 m' h2
    rw [(hstep done m m1 u h1).1] at hn
    exact ⟨n, hn, by omega⟩

theorem uninitialized_copy_loop_room (ops : ElemOps T) (src dst : Ptr) (todo done : Nat)
    (m m' : Mem T) (h : uninitialized_copy_loop ops src dst done (todo + 1) m = .ret () m') :
    ∃ n, m.len dst.base = some n ∧ dst.off + done + todo < n :=
  construct_loop_room (fun done => copy_construct ops (dst + done) (src + done))
    (fun done => destroy_n dst done) (uninitialized_copy_loop ops src dst) dst
    (fun _ _ => rfl) (fun _ m m' u h => copy_construct_ret ops m m' _ _ u h) todo done m m' h

theorem uninitialized_move_loop_room (ops : ElemOps T) (src dst : Ptr) (todo done : Nat)
    (m m' : Mem T) (h : uninitialized_move_loop ops src dst done (todo + 1) m = .ret () m') :
    ∃ n, m.len dst.base = some n ∧ dst.off + done + todo < n :=
  construct_loop_room (fun done => move_construct ops (dst + done) (src + done))
    (fun done => destroy_n dst done) (uninitialized_move_loop ops src dst) dst
    (fun _ _ => rfl) (fun _ m m' u h => move_construct_ret ops m m' _ _ u h) todo done m m' h

theorem uninitialized_value_construct_loop_room (ops : ElemOps T) (dst : Ptr) (todo done : Nat)
    (m m' : Mem T) (h : uninitialized_value_construct_loop ops dst done (todo + 1) m = .ret () m') :
    ∃ n, m.len dst.base = some n ∧ dst.off + done + todo < n :=
  construct_loop_room (fun done => value_construct ops (dst + done))
    (fun done => destroy_n dst done) (uninitialized_value_construct_loop ops dst) dst
    (fun _ _ => rfl) (fun _ m m' u h => value_construct_ret ops m m' _ u h) todo done m m' h

theorem Outcome.Spec.of_retOrElse {o : Outcome σ α} {a : α} {s : σ} {C R : Prop}
    {Q : α → σ → Prop} (h : o.RetOrElse a s C) (hR : R → ¬ C) (hQ : Q a s) : o.Spec R Q := by
  refine ⟨fun hr => ⟨a, s, h.of_not (hR hr)⟩, fun a' s' hret => ?_⟩
  obtain ⟨rfl, rfl⟩ := h.of_ret hret
  exact hQ

theorem Outcome.Spec.of_not_ret {o : Outcome σ α} {R : Prop} {Q : α → σ → Prop}
    (h : ∀ a s, o ≠ .ret a s) (hR : ¬ R) : o.Spec R Q :=
  ⟨fun hr => absurd hr hR, fun a s hret => absurd hret (h a s)⟩

/-! ### `RawMemory` -/

theorem RawMemory.ctor_eval (ops : ElemOps T) (n : Nat) (m : Mem T) :
    RawMemory.ctor ops n m =
      if n = 0 then .ret { buffer_ := nullptr, capacity_ := 0 } m
      else if (n * ops.sizeofT) % SIZE_MOD ≤ m.free then
        .ret { buffer_ := ⟨m.heap.length + 1, 0⟩, capacity_ := n }
          (m.alloc ((n * ops.sizeofT) % SIZE_MOD) ((n * ops.sizeofT) % SIZE_MOD / ops.sizeofT))
      else .thrown .bad_alloc m := by
  unfold RawMemory.ctor RawMemory.Allocate
  by_cases hn : n = 0
  · subst hn; simp [run_bind, run_pure]
  · by_cases hf : (n * ops.sizeofT) % SIZE_MOD ≤ m.free
    · simp [run_bind, run_pure, hn, operator_new, hf]
    · simp [run_bind, run_pure, hn, operator_new, hf]

theorem RawMemory.dtor_null (m : Mem T) (c : Nat) :
    RawMemory.dtor { buffer_ := nullptr, capacity_ := c } m = .ret () m := by
  simp [RawMemory.dtor, RawMemory.Deallocate, operator_delete]

theorem RawMemory.dtor_block (m : Mem T) (b c : Nat) (blk : Block T) (hb : m.block b = some blk) :
    RawMemory.dtor { buffer_ := ⟨b, 0⟩, capacity_ := c } m = .ret () (m.release b blk.bytes) := by
  have hb0 := (m.block_le_length b blk hb).1
  have : (⟨b, 0⟩ : Ptr) ≠ nullptr := by
    intro h; apply hb0; exact congrArg Ptr.base h
  simp [RawMemory.dtor, RawMemory.Deallocate, operator_delete, this, hb]

/-! ### `MoveData` -/

theorem Vector.MoveData_block (ops : ElemOps T) (xs : List T) (m : Mem T) (src dst : Ptr)
    (sblk dblk : Block T) (SA SB DA DM DB : List (Option T))
    (hne : src.base ≠ dst.base) (hsb : m.block src.base = some sblk)
    (hss : sblk.slots = SA ++ xs.map some ++ SB) (hso : src.off = SA.length)
    (hdb : m.block dst.base = some dblk) (hds : dblk.slots = DA ++ DM ++ DB)
    (hlen : DM.length = xs.length) (hdo : dst.off = DA.length) :
    ∃ xs' : List T, xs'.length = xs.length ∧
      (Vector.MoveData ops src xs.length dst m).RetOrElse ()
        ((m.setBlock dst.base (some ⟨dblk.bytes, DA ++ xs.map some ++ DB⟩)).setBlock src.base
          (some ⟨sblk.bytes, SA ++ xs'.map some ++ SB⟩))
        (¬ NoThrow ops) := by
  unfold Vector.MoveData
  split
  · refine ⟨xs.map ops.moved_from, by simp, ?_⟩
    have := uninitialized_move_loop_block ops xs m src dst 0 sblk dblk SA SB DA DM DB hne hsb hss
      (by simpa using hso) hdb hds hlen (by simpa using hdo)
    refine this.mono ?_
    rintro ⟨x, _, hx⟩ hno
    rw [hno.2.2.1 x] at hx
    cases hx
  · refine ⟨xs, rfl, ?_⟩
    have := uninitialized_copy_loop_block ops xs m src dst 0 sblk dblk SA SB DA DM DB hne hsb hss
      (by simpa using hso) hdb hds hlen (by simpa using hdo)
    have hself : (m.setBlock dst.base (some ⟨dblk.bytes, DA ++ xs.map some ++ DB⟩)).setBlock
        src.base (some ⟨sblk.bytes, SA ++ xs.map some ++ SB⟩) =
        m.setBlock dst.base (some ⟨dblk.bytes, DA ++ xs.map some ++ DB⟩) := by
      apply Mem.setBlock_self
      rw [m.block_setBlock _ _ _ dblk hdb]
      simp only [hne, if_false, hsb]
      cases sblk; simp_all
    rw [hself]
    refine this.mono ?_
    rintro ⟨x, _, hx⟩ hno
    rw [hno.2.1 x] at hx
    cases hx

theorem Vector.MoveData_zero (ops : ElemOps T) (m : Mem T) (src dst : Ptr) :
    Vector.MoveData ops src 0 dst m = .ret () m := by
  unfold Vector.MoveData
  split <;> rfl

theorem Vector.MoveData_room (ops : ElemOps T) (src dst : Ptr) (todo : Nat) (m m' : Mem T)
    (h : Vector.MoveData ops src (todo + 1) dst m = .ret () m') :
    ∃ n, m.len dst.base = some n ∧ dst.off + todo < n := by
  unfold Vector.MoveData at h
  split at h
  · simpa using uninitialized_move_loop_room ops src dst todo 0 m m' h
  · simpa using uninitialized_copy_loop_room ops src dst todo 0 m m' h

theorem run_bind_ret {x : M σ α} {f : α → M σ β} {m : σ} {a : α} {s : σ} (h : x m = .ret a s) :
    (x >>= f) m = f a s := by
  rw [run_bind, h, Outcome.bind_ret]

theorem run_bind_not_ret {x : M σ α} {f : α → M σ β} {m : σ} (h : ∀ a s, x m ≠ .ret a s) :
    ∀ b s, (x >>= f) m ≠ .ret b s := by
  intro b s hr
  rw [bind_eq_ret_iff] at hr
  obtain ⟨a, s', h1, _⟩ := hr
  exact h a s' h1

theorem onException_not_ret {body : M σ α} {cleanup : M σ Unit} {m : σ}
    (h : ∀ a s, body m ≠ .ret a s) : ∀ a s, onException body cleanup m ≠ .ret a s := by
  intro a s hr
  rw [onException_eq_ret_iff] at hr
  exact h a s hr

theorem Ptr.eq_of (p : Ptr) (b o : Nat) (hb : p.base = b) (ho : p.off = o) : p = ⟨b, o⟩ := by
  cases p; simp_all

theorem alloc_slots_le (n s : Nat) : (n * s) % SIZE_MOD / s ≤ n := by
  rcases Nat.eq_zero_or_pos s with h | h
  · subst h; simp
  · calc (n * s) % SIZE_MOD / s ≤ (n * s) / s := Nat.div_le_div_right (Nat.mod_le _ _)
      _ = n := Nat.mul_div_cancel _ h

theorem alloc_slots_eq (n s : Nat) (hs : 0 < s) (h : n * s < SIZE_MOD) :
    (n * s) % SIZE_MOD / s = n := by
  rw [Nat.mod_eq_of_lt h, Nat.mul_div_cancel _ hs]

theorem Holds.nil_of_cap_zero {m : Mem T} {v : Vector} {l : List T} (h : Holds m v l)
    (hc : v.data_.capacity_ = 0) : l = [] ∧ v.size_ = 0 ∧ v.data_.buffer_ = nullptr := by
  obtain ⟨hsz, hle, _, hoff, hnull, _⟩ := h
  have hl : l = [] := List.length_eq_zero.mp (by omega)
  refine ⟨hl, by simp [hsz, hl], ?_⟩
  exact Ptr.eq_of _ 0 0 (hnull hc) hoff

theorem Holds.intro (m : Mem T) (v : Vector) (l : List T) (blk : Block T) (k : Nat)
    (hsz : v.size_ = l.length) (hcap : v.data_.capacity_ < SIZE_MOD)
    (hoff : v.data_.buffer_.off = 0) (hb : m.block v.data_.buffer_.base = some blk)
    (hs : blk.slots = l.map some ++ List.replicate k none)
    (hk : l.length + k ≤ v.data_.capacity_) (hc : v.data_.capacity_ ≠ 0) : Holds m v l :=
  ⟨hsz, by omega, hcap, hoff, fun h => absurd h hc, fun _ =>
    ⟨blk, hb, blk.represents_of l _ k hs hk⟩⟩

/-- What `Reserve(n)` guarantees when it returns. -/
theorem Vector.Reserve_spec (ops : ElemOps T) (m : Mem T) (this : Nat) (v : Vector) (l : List T)
    (n : Nat) (hv : m.vecs[this]? = some (some v)) (hH : Holds m v l) (hn : n < SIZE_MOD) :
    (Vector.Reserve ops this n m).Spec
      (n ≤ v.data_.capacity_ ∨
        (0 < ops.sizeofT ∧ n * ops.sizeofT < SIZE_MOD ∧ n * ops.sizeofT ≤ m.free ∧ NoThrow ops))
      (fun _ m' => ∃ v', m'.vecs[this]? = some (some v') ∧ Holds m' v' l ∧ v'.size_ = v.size_ ∧
        v'.data_.capacity_ = max v.data_.capacity_ n ∧ m.FrameOf m' this v.data_.buffer_.base ∧
        (v'.data_.buffer_ = v.data_.buffer_ ∨ m.heap.length < v'.data_.buffer_.base) ∧
        (n ≤ v.data_.capacity_ → m' = m) ∧
        (v.data_.capacity_ < n → 0 < ops.sizeofT → n * ops.sizeofT < SIZE_MOD → Exact m' v')) := by
  obtain ⟨hsz, hle, hcap, hoff, hnull, -⟩ := id hH
  unfold Vector.Reserve
  rw [run_bind_ret (getVec_eval m this v hv), ite_run]
  by_cases hnc : n ≤ v.data_.capacity_
  · -- nothing to do
    rw [if_pos (by simpa [RawMemory.Capacity] using hnc)]
    refine .of_retOrElse (C := False) (.of_eq rfl) (fun _ h => h) ?_
    refine ⟨v, hv, hH, rfl, by omega, ⟨rfl, fun _ _ => rfl, Nat.le_refl _, fun _ _ _ => rfl⟩,
      Or.inl rfl, fun _ => rfl, fun h => absurd hnc (by omega)⟩
  rw [if_neg (by simpa [RawMemory.Capacity] using hnc)]
  have hn0 : n ≠ 0 := by omega
  rw [run_bind, RawMemory.ctor_eval, if_neg hn0]
  by_cases hfree : (n * ops.sizeofT) % SIZE_MOD ≤ m.free
  swap
  · -- no memory
    rw [if_neg hfree]
    refine .of_not_ret (by simp) ?_
    rintro (h | ⟨_, h1, h2, _⟩)
    · exact hnc h
    · rw [Nat.mod_eq_of_lt h1] at hfree; exact hfree h2
  rw [if_pos hfree, Outcome.bind_ret]
  generalize hbytes : (n * ops.sizeofT) % SIZE_MOD = bytes at *
  generalize hk' : bytes / ops.sizeofT = k' at *
  have hk'n : k' ≤ n := by rw [← hk', ← hbytes]; exact alloc_slots_le n _
  have hk'eq : 0 < ops.sizeofT → n * ops.sizeofT < SIZE_MOD → k' = n := by
    intro h1 h2; rw [← hk', ← hbytes]; exact alloc_slots_eq n _ h1 h2
  set nb := m.heap.length + 1 with hnb
  set m1 := m.alloc bytes k' with hm1
  have hnbblk : m1.block nb = some ⟨bytes, List.replicate k' none⟩ := by
    rw [hm1, Mem.block_alloc]; simp [hnb]
  have hv1 : m1.vecs[this]? = some (some v) := by simpa [hm1] using hv
  set v' : Vector := { data_ := { buffer_ := ⟨nb, 0⟩, capacity_ := n }, size_ := v.size_ } with hv'
  have hsw1 : (RawMemory.Swap v.data_ { buffer_ := ⟨nb, 0⟩, capacity_ := n }).1 =
      { buffer_ := ⟨nb, 0⟩, capacity_ := n } := rfl
  have hsw2 : (RawMemory.Swap v.data_ { buffer_ := ⟨nb, 0⟩, capacity_ := n }).2 =
      { buffer_ := v.data_.buffer_, capacity_ := v.data_.capacity_ } := rfl
  simp only [hsw1, hsw2, RawMemory.GetAddress]
  by_cases hc : v.data_.capacity_ = 0
  · -- the vector had no buffer
    obtain ⟨hl, hs0, hbuf⟩ := hH.nil_of_cap_zero hc
    have e1 : Vector.MoveData ops v.data_.buffer_ v.size_ (⟨nb, 0⟩ : Ptr) m1 = .ret () m1 := by
      rw [hs0]; exact Vector.MoveData_zero ops m1 _ _
    have e2 : destroy_n v.data_.buffer_ v.size_ m1 = .ret () m1 := by
      rw [hs0]; rfl
    have e3 : RawMemory.dtor { buffer_ := v.data_.buffer_, capacity_ := v.data_.capacity_ }
        (m1.putVec this (some v')) = .ret () (m1.putVec this (some v')) := by
      rw [hbuf]; exact RawMemory.dtor_null _ _
    have hrun : (do
        onException (Vector.MoveData ops v.data_.buffer_ v.size_ (⟨nb, 0⟩ : Ptr))
          (RawMemory.dtor ⟨⟨nb, 0⟩, n⟩)
        destroy_n v.data_.buffer_ v.size_
        setVec this { v with data_ := { buffer_ := ⟨nb, 0⟩, capacity_ := n } }
        RawMemory.dtor { buffer_ := v.data_.buffer_, capacity_ := v.data_.capacity_ } :
          M (Mem T) Unit) m1 = .ret () (m1.putVec this (some v')) := by
      rw [run_bind_ret (onException_ret _ _ _ _ _ e1), run_bind_ret e2,
        run_bind_ret (setVec_eval m1 this v _ hv1)]
      exact e3
    refine .of_retOrElse (C := False) (.of_eq hrun) (fun _ h => h) ?_
    refine ⟨v', m1.vec_putVec_self this _ _ hv1, ?_, rfl, by simp [hv', hc], ?_, Or.inr ?_,
      fun h => absurd h hnc, ?_⟩
    · refine Holds.intro _ v' l ⟨bytes, List.replicate k' none⟩ k' (by simp [hv', hs0, hl]) hn
        rfl ?_ (by simp [hl]) (by simpa [hl] using hk'n) hn0
      show (m1.putVec _ _).block nb = some ⟨bytes, List.replicate k' none⟩
      rw [Mem.block_putVec, hnbblk]
    · refine ⟨by simp [hm1], fun j hj => ?_, by simp [hm1], fun b' _ hb' => ?_⟩
      · rw [Mem.vec_putVec_ne _ _ _ _ (Ne.symm hj)]; simp [hm1]
      · rw [Mem.block_putVec, hm1, Mem.block_alloc, if_neg (by omega)]
    · show m.heap.length < nb
      omega
    · intro _ h1 h2 blk hblk
      rw [Mem.block_putVec] at hblk
      have : blk = ⟨bytes, List.replicate k' none⟩ := by
        have := hnbblk.symm.trans hblk
        simpa using this.symm
      simp [this, hv', hk'eq h1 h2]
  -- the vector had a buffer
  obtain ⟨blk, k, hb, hs, hk⟩ := hH.block hc
  set ob := v.data_.buffer_.base with hob
  have hobuf : v.data_.buffer_ = ⟨ob, 0⟩ := Ptr.eq_of _ _ _ rfl hoff
  have hoble := m.block_le_length ob blk hb
  have hne : ob ≠ nb := by omega
  have hb1 : m1.block ob = some blk := by
    rw [hm1, Mem.block_alloc, if_neg hne, hb]
  by_cases hroom : l.length ≤ k'
  swap
  · -- the new block is too small for the elements
    refine .of_not_ret (run_bind_not_ret (onException_not_ret ?_)) ?_
    · intro u s hr
      obtain ⟨t, ht⟩ : ∃ t, v.size_ = t + 1 := ⟨v.size_ - 1, by omega⟩
      rw [ht] at hr
      obtain ⟨len, hlen, hlt⟩ := Vector.MoveData_room ops _ _ t m1 s hr
      simp only [Mem.len, hnbblk, Option.map_some', List.length_replicate, Option.some.injEq] at hlen
      simp at hlt
      omega
    · rintro (h | ⟨h1, h2, _, _⟩)
      · exact hnc h
      · have := hk'eq h1 h2; omega
  obtain ⟨xs', hxs', hmd⟩ := Vector.MoveData_block ops l m1 v.data_.buffer_ (⟨nb, 0⟩ : Ptr) blk
    ⟨bytes, List.replicate k' none⟩ [] (List.replicate k none) []
    (List.replicate l.length none) (List.replicate (k' - l.length) none)
    (by simpa using hne) hb1 (by simpa using hs) (by simpa using hoff) hnbblk
    (by simp [← List.replicate_add]; omega) (by simp) rfl
  simp only [List.nil_append] at hmd
  set m2 := (m1.setBlock nb (some ⟨bytes, l.map some ++ List.replicate (k' - l.length) none⟩)).setBlock
    ob (some ⟨blk.bytes, xs'.map some ++ List.replicate k none⟩) with hm2
  have hnb1 : (m1.setBlock nb (some ⟨bytes, l.map some ++ List.replicate (k' - l.length) none⟩)).block
      ob = some blk := by
    rw [Mem.block_setBlock _ _ _ _ _ hnbblk, if_neg hne, hb1]
  have hb2 : m2.block ob = some ⟨blk.bytes, xs'.map some ++ List.replicate k none⟩ := by
    rw [hm2, Mem.block_setBlock _ _ _ _ _ hnb1]; simp
  have hds := destroy_n_block xs' m2 v.data_.buffer_ _ [] (List.replicate k none) hb2 (by simp)
    (by simpa using hoff)
  rw [hxs', ← hob, hm2, Mem.setBlock_setBlock] at hds
  set blk3 : Block T := ⟨blk.bytes, [] ++ List.replicate l.length none ++ List.replicate k none⟩
  set m3 := (m1.setBlock nb (some ⟨bytes, l.map some ++ List.replicate (k' - l.length) none⟩)).setBlock
    ob (some blk3) with hm3
  have hv3 : m3.vecs[this]? = some (some v) := by simpa [hm3] using hv1
  have hb3 : m3.block ob = some blk3 := by
    rw [hm3, Mem.block_setBlock _ _ _ _ _ hnb1]; simp
  have hnb3 : m3.block nb = some ⟨bytes, l.map some ++ List.replicate (k' - l.length) none⟩ := by
    rw [hm3, Mem.block_setBlock _ _ _ _ _ hnb1, if_neg (Ne.symm hne),
      Mem.block_setBlock _ _ _ _ _ hnbblk]
    simp
  have hrun : ((do
      onException (Vector.MoveData ops v.data_.buffer_ v.size_ (⟨nb, 0⟩ : Ptr))
        (RawMemory.dtor ⟨⟨nb, 0⟩, n⟩)
      destroy_n v.data_.buffer_ v.size_
      setVec this { v with data_ := { buffer_ := ⟨nb, 0⟩, capacity_ := n } }
      RawMemory.dtor { buffer_ := v.data_.buffer_, capacity_ := v.data_.capacity_ } :
        M (Mem T) Unit) m1).RetOrElse ()
      ((m3.putVec this (some v')).release ob blk3.bytes) (¬ NoThrow ops) := by
    rw [hsz]
    refine Outcome.RetOrElse.bind hmd.onException ?_
    refine Outcome.RetOrElse.bind (.of_eq hds) ?_
    rw [← hsz]
    refine Outcome.RetOrElse.bind (.of_eq (setVec_eval m3 this v _ hv3)) ?_
    rw [hobuf]
    exact .of_eq (RawMemory.dtor_block _ ob _ blk3 (by rw [Mem.block_putVec, hb3]))
  refine .of_retOrElse hrun ?_ ?_
  · rintro (h | ⟨_, _, _, h⟩)
    · exact absurd h hnc
    · exact fun hno => hno h
  have hfin : ∀ b, ((m3.putVec this (some v')).release ob blk3.bytes).block b =
      if b = ob then none else m3.block b := by
    intro b
    rw [Mem.block_release _ _ _ _ blk3 (by rw [Mem.block_putVec, hb3]), Mem.block_putVec]
  refine ⟨v', ?_, ?_, rfl, by simp [hv']; omega, ?_, Or.inr ?_, fun h => absurd h hnc, ?_⟩
  · rw [Mem.vecs_release]; exact m3.vec_putVec_self this _ _ hv3
  · refine Holds.intro _ v' l ⟨bytes, l.map some ++ List.replicate (k' - l.length) none⟩
      (k' - l.length) (by simp [hv', hsz]) hn rfl ?_ rfl (by simp [hv']; omega) hn0
    show Mem.block _ nb = _
    rw [hfin, if_neg (Ne.symm hne), hnb3]
  · refine ⟨by simp [hm3, hm1], fun j hj => ?_, by simp [hm3, hm1], fun b' hb'ne hb' => ?_⟩
    · rw [Mem.vecs_release, Mem.vec_putVec_ne _ _ _ _ (Ne.symm hj)]; simp [hm3, hm1]
    · rw [hfin, if_neg hb'ne, hm3, Mem.block_setBlock _ _ _ _ _ hnb1, if_neg hb'ne,
        Mem.block_setBlock _ _ _ _ _ hnbblk, if_neg (by omega), hm1, Mem.block_alloc,
        if_neg (by omega)]
  · show m.heap.length < nb
    omega
  · intro _ h1 h2 b hblk
    have : m3.block nb = some b := by
      have := hfin nb
      rw [if_neg (Ne.symm hne)] at this
      rw [← this]; exact hblk
    rw [hnb3] at this
    cases this
    simp [hv', hk'eq h1 h2]; omega

theorem Ptr.add_inj (p : Ptr) (i j : Nat) : p + i = p + j ↔ i = j := by
  constructor
  · intro h
    have := congrArg Ptr.off h
    simpa using this
  · rintro rfl; rfl

/-- One move construction into the next slot of the same block. -/
theorem move_construct_right (ops : ElemOps T) (m : Mem T) (dst src : Ptr) (blk : Block T)
    (A B : List (Option T)) (y : T) (o : Option T) (hb : m.block dst.base = some blk)
    (hsb : src.base = dst.base) (hs : blk.slots = A ++ some y :: o :: B)
    (hso : src.off = A.length) (hd : dst.off = A.length + 1) :
    move_construct ops dst src m =
      if move_construct_throws ops y then .thrown .element m
      else .ret () (m.setBlock dst.base
        (some ⟨blk.bytes, A ++ some (ops.moved_from y) :: some y :: B⟩)) := by
  have hs2 : blk.slots = (A ++ [some y]) ++ o :: B := by simp [hs]
  have hsl : m.slot src = some (some y) := m.slot_focus src blk A _ _ (hsb ▸ hb) hs hso
  have hdl : m.slot dst = some o := m.slot_focus dst blk _ _ _ hb hs2 (by simp [hd])
  have hne : src ≠ dst := by
    intro h; rw [h] at hso; omega
  rw [move_construct_eval ops m dst src y o hsl hdl hne,
    m.setSlot_focus dst blk _ _ _ (some y) hb hs2 (by simp [hd])]
  have hb1 : (m.setBlock dst.base (some ⟨blk.bytes, A ++ [some y] ++ some y :: B⟩)).block src.base
      = some ⟨blk.bytes, A ++ [some y] ++ some y :: B⟩ := by
    rw [hsb, m.block_setBlock _ _ _ blk hb]; simp
  rw [Mem.setSlot_focus _ src _ A (some y :: B) (some y) _ hb1 (by simp) hso,
    hsb, Mem.setBlock_setBlock]

theorem construct_from_eval (m : Mem T) (p : Ptr) (x : T) (o : Option T) (h : m.slot p = some o) :
    construct_from p (some x) m = .ret () (m.setSlot p (some x)) :=
  construct_at_eval m p x o h

theorem construct_from_ret (m m' : Mem T) (p : Ptr) (args : Option T) (u : Unit)
    (h : construct_from p args m = .ret u m') :
    ∃ x o, args = some x ∧ m.slot p = some o ∧ m' = m.setSlot p (some x) := by
  cases args with
  | none => simp [construct_from, throwExn] at h
  | some x =>
    simp only [construct_from] at h
    rw [construct_at_eq_ret_iff] at h
    obtain ⟨⟨o, ho⟩, rfl⟩ := h
    exact ⟨x, o, rfl, ho, rfl⟩

theorem Mem.len_setBlock (m : Mem T) (b : Nat) (blk blk' : Block T) (hb : m.block b = some blk)
    (hl : blk'.slots.length = blk.slots.length) (b' : Nat) :
    (m.setBlock b (some blk')).len b' = m.len b' := by
  unfold Mem.len
  rw [m.block_setBlock _ _ _ blk hb]
  by_cases h : b' = b
  · subst h; simp [hb, hl]
  · simp [h]

theorem Exact.of_len {m m' : Mem T} {v : Vector} (h : Exact m v)
    (hl : m'.len v.data_.buffer_.base = m.len v.data_.buffer_.base) : Exact m' v := by
  intro blk hblk
  have hblk' : m'.block v.data_.buffer_.base = some blk := hblk
  unfold Mem.len at hl
  rw [hblk'] at hl
  cases hm : m.block v.data_.buffer_.base with
  | none => simp [hm] at hl
  | some blk0 =>
    simp only [hm, Option.map_some', Option.some.injEq] at hl
    rw [hl]; exact h blk0 hm

theorem Outcome.RetOrElse.of_thrown {o : Outcome σ α} {a : α} {s s' : σ} {e : Exn} {C : Prop}
    (h : o = .thrown e s') (hC : C) : o.RetOrElse a s C :=
  Or.inr ⟨hC, fun a' s'' hr => by rw [h] at hr; cases hr⟩

/-- What the branch without reallocation of `Emplace` guarantees. -/
theorem Vector.Emplace_in_place_spec (ops : ElemOps T) (m : Mem T) (v : Vector) (l : List T)
    (i : Nat) (args : Option T) (hH : Holds m v l) (hi : i ≤ l.length)
    (hsc : v.size_ ≠ v.data_.capacity_) :
    (Vector.Emplace_in_place ops v (v.data_.buffer_ + i) v.data_.buffer_
        (v.data_.buffer_ + v.size_) i args m).Spec
      (args.isSome ∧ NoThrow ops ∧ Exact m v)
      (fun _ m' => ∃ x, args = some x ∧
        Holds m' { v with size_ := v.size_ + 1 } (l.take i ++ x :: l.drop i) ∧
        m'.vecs = m.vecs ∧ m'.heap.length = m.heap.length ∧ (∀ b, m'.len b = m.len b) ∧
        ∀ b, b ≠ v.data_.buffer_.base → m'.block b = m.block b) := by
  obtain ⟨hsz, hle, hcap, hoff, hnull, -⟩ := id hH
  have hc : v.data_.capacity_ ≠ 0 := by omega
  obtain ⟨blk, k, hb, hs, hk⟩ := hH.block hc
  have hslen : blk.slots.length = l.length + k := by simp [hs]
  have hnoex : k = 0 → ¬ Exact m v := by
    intro hk0 hex
    have := hex blk hb
    omega
  have hframe : ∀ (S : List (Option T)), S.length = blk.slots.length →
      (m.setBlock v.data_.buffer_.base (some ⟨blk.bytes, S⟩)).vecs = m.vecs ∧
      (m.setBlock v.data_.buffer_.base (some ⟨blk.bytes, S⟩)).heap.length = m.heap.length ∧
      (∀ b, (m.setBlock v.data_.buffer_.base (some ⟨blk.bytes, S⟩)).len b = m.len b) ∧
      ∀ b, b ≠ v.data_.buffer_.base →
        (m.setBlock v.data_.buffer_.base (some ⟨blk.bytes, S⟩)).block b = m.block b := by
    intro S hS
    refine ⟨by simp, by simp, fun b => m.len_setBlock _ blk _ hb hS b, fun b hbne => ?_⟩
    rw [m.block_setBlock _ _ _ blk hb, if_neg hbne]
  unfold Vector.Emplace_in_place
  by_cases hie : i = v.size_
  · -- the new element goes into the free slot at the end
    subst hie
    rw [if_pos rfl]
    have hplus : RawMemory.plus v.data_ v.size_ m = .ret (v.data_.buffer_ + v.size_) m := by
      unfold RawMemory.plus
      rw [run_bind_ret (assert_eval _ m (by omega))]; rfl
    rw [run_bind_ret hplus]
    cases k with
    | zero =>
      refine .of_not_ret ?_ (fun h => hnoex rfl h.2.2)
      intro u s hr
      obtain ⟨x, o, _, ho, _⟩ := construct_from_ret _ _ _ _ _ hr
      rw [m.slot_none_of_length_le (v.data_.buffer_ + v.size_) blk hb
        (by simp only [Ptr.add_off, hoff, hslen]; omega)] at ho
      cases ho
    | succ k1 =>
      have hs' : blk.slots = l.map some ++ none :: List.replicate k1 none := by
        simpa [List.replicate_succ] using hs
      have hp : (v.data_.buffer_ + v.size_).off = (l.map some).length := by
        simp [hoff, hsz]
      cases args with
      | none => exact .of_not_ret (by simp [construct_from, throwExn]) (by simp)
      | some x =>
        have hrun := construct_from_eval m (v.data_.buffer_ + v.size_) x none
          (m.slot_focus (v.data_.buffer_ + v.size_) blk _ _ _ hb hs' hp)
        rw [m.setSlot_focus (v.data_.buffer_ + v.size_) blk _ _ _ (some x) hb hs' hp] at hrun
        simp only [Ptr.add_base] at hrun
        refine .of_retOrElse (C := False) (.of_eq hrun) (fun _ h => h) ⟨x, rfl, ?_, ?_⟩
        · refine Holds.intro _ _ _ ⟨blk.bytes, l.map some ++ some x :: List.replicate k1 none⟩ k1
            (by simp [hsz]) hcap hoff ?_ (by simp [hsz]) (by simp; omega) hc
          show Mem.block _ v.data_.buffer_.base = _
          rw [m.block_setBlock _ _ _ blk hb]; simp
        · exact hframe _ (by simp [hslen])
  · -- the new element goes in front of an existing one
    have hlt : i < v.size_ := by omega
    have hpe : v.data_.buffer_ + i ≠ v.data_.buffer_ + v.size_ := by
      rw [Ne, Ptr.add_inj]; exact hie
    rw [if_neg hpe]
    cases args with
    | none => exact .of_not_ret (by simp [throwExn]) (by simp)
    | some temp =>
      obtain ⟨xs, y, hxy⟩ : ∃ xs y, l.drop i = xs ++ [y] := by
        rcases List.eq_nil_or_concat (l.drop i) with h | h
        · have := congrArg List.length h
          simp at this; omega
        · obtain ⟨L, b, hLb⟩ := h
          exact ⟨L, b, by simpa using hLb⟩
      have hl : l = l.take i ++ xs ++ [y] := by
        rw [List.append_assoc, ← hxy, List.take_append_drop]
      have hPlen : (l.take i).length = i := by rw [List.length_take]; omega
      have hxlen : xs.length = v.size_ - 1 - i := by
        have := congrArg List.length hxy
        simp at this; omega
      simp only []
      cases k with
      | zero =>
        refine .of_not_ret (run_bind_not_ret ?_) (fun h => hnoex rfl h.2.2)
        intro u s hr
        obtain ⟨-, len, hlen, hlt'⟩ := move_construct_ret ops _ _ _ _ _ hr
        simp only [Mem.len, Ptr.add_base, hb, Option.map_some', Option.some.injEq] at hlen
        simp only [Ptr.add_off, hoff] at hlt'
        omega
      | succ k1 =>
        set A := (l.take i).map some ++ xs.map some with hA
        have hAlen : A.length = v.size_ - 1 := by simp [hA, hPlen, hxlen]; omega
        have hs1 : blk.slots = A ++ some y :: none :: List.replicate k1 none := by
          rw [hs]; conv_lhs => rw [hl]
          simp [hA, List.replicate_succ]
        have h1 := move_construct_right ops m (v.data_.buffer_ + v.size_)
          (v.data_.buffer_ + v.size_ - 1) blk A _ y none hb rfl hs1
          (by simp only [Ptr.sub_off, Ptr.add_off, hoff, hAlen]; omega)
          (by simp only [Ptr.add_off, hoff, hAlen]; omega)
        simp only [Ptr.add_base] at h1
        set blk1 : Block T := ⟨blk.bytes, A ++ some (ops.moved_from y) :: some y ::
          List.replicate k1 none⟩ with hblk1
        set m1 := m.setBlock v.data_.buffer_.base (some blk1) with hm1
        have hb1 : m1.block v.data_.buffer_.base = some blk1 := by
          rw [hm1, m.block_setBlock _ _ _ blk hb]; simp
        have h2 := move_backward_loop_block ops xs m1 (v.data_.buffer_ + v.size_ - 1)
          (v.data_.buffer_ + v.size_) (ops.moved_from y) blk1 ((l.take i).map some)
          (some y :: List.replicate k1 none) hb1 rfl (by simp [hblk1, hA])
          (by simp only [Ptr.sub_off, Ptr.add_off, hoff, List.length_map, hPlen, hxlen]; omega)
          (by simp only [Ptr.add_off, hoff, List.length_map, hPlen, hxlen]; omega)
        simp only [Ptr.add_base, hm1, Mem.setBlock_setBlock] at h2
        set r := xs.foldr (fun x acc => ops.moved_from_assign acc x) (ops.moved_from y) with hr
        set blk2 : Block T := ⟨blk.bytes, (l.take i).map some ++ some r ::
          (xs.map some ++ some y :: List.replicate k1 none)⟩ with hblk2
        set m2 := m.setBlock v.data_.buffer_.base (some blk2) with hm2
        have hb2 : m2.block v.data_.buffer_.base = some blk2 := by
          rw [hm2, m.block_setBlock _ _ _ blk hb]; simp
        have hp3 : (v.data_.buffer_ + i).off = ((l.take i).map some).length := by
          simp only [Ptr.add_off, hoff, List.length_map, hPlen]; omega
        have h3 := move_assign_value_eval ops m2 (v.data_.buffer_ + i) temp r
          (m2.slot_focus (v.data_.buffer_ + i) blk2 _ _ _ hb2 rfl hp3)
        rw [m2.setSlot_focus (v.data_.buffer_ + i) blk2 _ _ _ (some temp) hb2 rfl hp3] at h3
        simp only [Ptr.add_base, hm2, Mem.setBlock_setBlock] at h3
        set blk3 : Block T := ⟨blk.bytes, (l.take i).map some ++ some temp ::
          (xs.map some ++ some y :: List.replicate k1 none)⟩ with hblk3
        have hrun : ((do
            move_construct ops (v.data_.buffer_ + v.size_) (v.data_.buffer_ + v.size_ - 1)
            move_backward ops (v.data_.buffer_ + i) (v.data_.buffer_ + v.size_ - 1)
              (v.data_.buffer_ + v.size_)
            let p ← v.data_.index i
            move_assign_value ops p temp : M (Mem T) Unit) m).RetOrElse ()
            (m.setBlock v.data_.buffer_.base (some blk3)) (¬ NoThrow ops) := by
          refine Outcome.RetOrElse.bind
            (Outcome.RetOrElse.of_ite h1 (fun hc hno => by rw [hno.2.2.1 y] at hc; cases hc)) ?_
          refine Outcome.RetOrElse.bind (a := ()) (s := m2) ?_ ?_
          · unfold move_backward
            rw [run_bind_ret (assert_eval _ m1 ⟨rfl, by
              simp only [Ptr.sub_off, Ptr.add_off, hoff]; omega⟩)]
            have : (v.data_.buffer_ + v.size_ - 1).off - (v.data_.buffer_ + i).off = xs.length := by
              simp only [Ptr.sub_off, Ptr.add_off, hoff, hxlen]; omega
            rw [this]
            exact h2.mono (fun ⟨a, b, hab⟩ hno => by rw [hno.2.2.2.2 a b] at hab; cases hab)
          have hidx : RawMemory.index v.data_ i m2 = .ret (v.data_.buffer_ + i) m2 := by
            unfold RawMemory.index
            rw [run_bind_ret (assert_eval _ m2 (by omega))]; rfl
          rw [run_bind_ret hidx]
          exact Outcome.RetOrElse.of_ite h3
            (fun hc hno => by rw [hno.2.2.2.2 r temp] at hc; cases hc)
        refine .of_retOrElse hrun (fun h hno => hno h.2.1) ⟨temp, rfl, ?_, ?_⟩
        · refine Holds.intro _ _ _ blk3 k1 (by simp [hsz]; omega) hcap hoff ?_ ?_
            (by simp; omega) hc
          · show Mem.block _ v.data_.buffer_.base = _
            rw [m.block_setBlock _ _ _ blk hb]; simp
          · rw [hxy]; simp [hblk3]
        · exact hframe _ (by simp [hslen, hPlen, hxlen]; omega)

theorem SIZE_MOD_eq : SIZE_MOD = 18446744073709551616 := by
  norm_num [SIZE_MOD]

theorem RawMemory.plus_eval (r : RawMemory) (off : Nat) (m : Mem T) (h : off ≤ r.capacity_) :
    r.plus off m = .ret (r.buffer_ + off) m := by
  unfold RawMemory.plus
  rw [run_bind_ret (assert_eval _ m h)]; rfl

theorem RawMemory.plus_ret (r : RawMemory) (off : Nat) (m s : Mem T) (p : Ptr)
    (h : r.plus off m = .ret p s) : off ≤ r.capacity_ ∧ p = r.buffer_ + off ∧ s = m := by
  unfold RawMemory.plus at h
  rw [bind_eq_ret_iff] at h
  obtain ⟨u, s1, h1, h2⟩ := h
  rw [assert_eq_ret_iff] at h1
  obtain ⟨hle, rfl⟩ := h1
  rw [pure_eq_ret_iff] at h2
  exact ⟨hle, h2.1, h2.2⟩

/-- Two blocks rewritten one after the other. -/
theorem Mem.two_blocks (m : Mem T) (a b : Nat) (A0 B0 A B : Block T) (ha : m.block a = some A0)
    (hb : m.block b = some B0) (hne : a ≠ b) :
    ((m.setBlock a (some A)).setBlock b (some B)).block a = some A ∧
    ((m.setBlock a (some A)).setBlock b (some B)).block b = some B ∧
    (m.setBlock a (some A)).block b = some B0 ∧
    ((m.setBlock a (some A)).setBlock b (some B)).vecs = m.vecs ∧
    ((m.setBlock a (some A)).setBlock b (some B)).heap.length = m.heap.length ∧
    ∀ c, c ≠ a → c ≠ b → ((m.setBlock a (some A)).setBlock b (some B)).block c = m.block c := by
  have h1 : (m.setBlock a (some A)).block b = some B0 := by
    rw [m.block_setBlock _ _ _ A0 ha, if_neg (Ne.symm hne), hb]
  refine ⟨?_, ?_, h1, by simp, by simp, fun c hca hcb => ?_⟩
  · rw [Mem.block_setBlock _ _ _ _ B0 h1, if_neg hne, m.block_setBlock _ _ _ A0 ha, if_pos rfl]
  · rw [Mem.block_setBlock _ _ _ _ B0 h1, if_pos rfl]
  · rw [Mem.block_setBlock _ _ _ _ B0 h1, if_neg hcb, m.block_setBlock _ _ _ A0 ha, if_neg hca]

/-- Doubling in `size_t` that leaves room for one more element did not wrap. -/
theorem double_no_wrap (c n : Nat) (hc : c < SIZE_MOD) (h : c + 1 ≤ n)
    (hn : n ≤ (c * 2) % SIZE_MOD) : (c * 2) % SIZE_MOD = 2 * c := by
  rw [SIZE_MOD_eq] at *
  omega

theorem run_bind_not_ret' {x : M σ α} {f : α → M σ β} {m : σ}
    (h : ∀ a s, x m = .ret a s → ∀ b s', f a s ≠ .ret b s') : ∀ b s, (x >>= f) m ≠ .ret b s := by
  intro b s hr
  rw [bind_eq_ret_iff] at hr
  obtain ⟨a, s', h1, h2⟩ := hr
  exact h a s' h1 b s h2

theorem replicate_split {γ : Type} (x : γ) (a b : Nat) (h : a < b) :
    List.replicate b x = List.replicate a x ++ x :: List.replicate (b - a - 1) x := by
  have : b = a + ((b - a - 1) + 1) := by omega
  conv_lhs => rw [this, List.replicate_add, List.replicate_succ]

theorem Outcome.RetOrElse.bind_not_ret {x : M σ α} {f : α → M σ β} {m : σ} {a : α} {s : σ}
    {C : Prop} (h1 : (x m).RetOrElse a s C) (h2 : ∀ b s', f a s ≠ .ret b s') :
    ∀ b s', (x >>= f) m ≠ .ret b s' := by
  intro b s' hr
  rw [bind_eq_ret_iff] at hr
  obtain ⟨a', s1, hx, hf⟩ := hr
  obtain ⟨rfl, rfl⟩ := h1.of_ret hx
  exact h2 b s' hf

theorem length_take_cons_drop {γ : Type} (l : List γ) (i : Nat) (x : γ) (hi : i ≤ l.length) :
    (l.take i ++ x :: l.drop i).length = l.length + 1 := by
  rw [List.length_append, List.length_cons, List.length_take, List.length_drop]; omega

theorem Mem.slot_null (m : Mem T) (i : Nat) : m.slot (nullptr + i) = none := by
  simp [Mem.slot, Mem.block, nullptr]

/-- What the reallocating branch of `Emplace` guarantees. -/
theorem Vector.Emplace_growth_spec (ops : ElemOps T) (m : Mem T) (this : Nat) (v : Vector)
    (l : List T) (i : Nat) (args : Option T) (hv : m.vecs[this]? = some (some v))
    (hH : Holds m v l) (hi : i ≤ l.length) (hsc : v.size_ = v.data_.capacity_) :
    (Vector.Emplace_growth ops this v i args m).Spec
      (args.isSome ∧ NoThrow ops ∧ 0 < ops.sizeofT ∧
        (if v.size_ = 0 then 1 else 2 * v.size_) * ops.sizeofT < SIZE_MOD ∧
        (if v.size_ = 0 then 1 else 2 * v.size_) * ops.sizeofT ≤ m.free)
      (fun _ m' => ∃ x v', args = some x ∧ m'.vecs[this]? = some (some v') ∧
        v'.size_ = v.size_ ∧ v'.data_.capacity_ = (if v.size_ = 0 then 1 else 2 * v.size_) ∧
        v'.data_.buffer_ = ⟨m.heap.length + 1, 0⟩ ∧ v.size_ + 1 < SIZE_MOD ∧
        Holds m' { v' with size_ := v.size_ + 1 } (l.take i ++ x :: l.drop i) ∧
        m.FrameOf m' this v.data_.buffer_.base ∧
        (0 < ops.sizeofT →
          (if v.size_ = 0 then 1 else 2 * v.size_) * ops.sizeofT < SIZE_MOD → Exact m' v')) := by
  obtain ⟨hsz, hle, hcap, hoff, hnull, -⟩ := id hH
  unfold Vector.Emplace_growth
  generalize hncm : (if v.size_ = 0 then 1 else (v.size_ * 2) % SIZE_MOD) = ncm
  generalize hnc : (if v.size_ = 0 then 1 else 2 * v.size_) = nc
  have hnc1 : v.size_ + 1 ≤ nc := by rw [← hnc]; split <;> omega
  have hR1 : 0 < ops.sizeofT → nc * ops.sizeofT < SIZE_MOD → ncm = nc := by
    intro h1 h2
    have : nc < SIZE_MOD := lt_of_le_of_lt (Nat.le_mul_of_pos_right _ h1) h2
    rw [← hncm, ← hnc] at *
    split
    · rfl
    · rename_i h0; rw [if_neg h0] at this
      rw [Nat.mul_comm, Nat.mod_eq_of_lt this]
  have hncmlt : ncm < SIZE_MOD := by
    rw [← hncm]; split
    · rw [SIZE_MOD_eq]; omega
    · exact Nat.mod_lt _ (by rw [SIZE_MOD_eq]; omega)
  have hwrap : v.size_ + 1 ≤ ncm → ncm = nc := by
    intro h
    rw [← hncm, ← hnc] at *
    split
    · rfl
    · rename_i h0; rw [if_neg h0] at h
      exact double_no_wrap v.size_ _ (by omega) (Nat.le_refl _) h
  rw [run_bind, RawMemory.ctor_eval]
  by_cases hn0 : ncm = 0
  · -- the doubled capacity wrapped to zero: no buffer to build the element in
    rw [if_pos hn0, Outcome.bind_ret]
    refine .of_not_ret (run_bind_not_ret (onException_not_ret (run_bind_not_ret' ?_))) ?_
    · intro p s hr
      obtain ⟨_, rfl, rfl⟩ := RawMemory.plus_ret _ _ _ _ _ hr
      refine run_bind_not_ret (fun u s' hc => ?_)
      obtain ⟨_, o, _, ho, _⟩ := construct_from_ret _ _ _ _ _ hc
      rw [Mem.slot_null] at ho
      cases ho
    · rintro ⟨_, _, h1, h2, _⟩
      have := hR1 h1 h2
      omega
  rw [if_neg hn0]
  by_cases hfree : (ncm * ops.sizeofT) % SIZE_MOD ≤ m.free
  swap
  · rw [if_neg hfree]
    refine .of_not_ret (by simp) ?_
    rintro ⟨_, _, h1, h2, h3⟩
    rw [hR1 h1 h2, Nat.mod_eq_of_lt h2] at hfree
    exact hfree h3
  rw [if_pos hfree, Outcome.bind_ret]
  generalize hbytes : (ncm * ops.sizeofT) % SIZE_MOD = bytes at *
  generalize hk' : bytes / ops.sizeofT = k' at *
  have hk'n : k' ≤ ncm := by rw [← hk', ← hbytes]; exact alloc_slots_le ncm _
  have hk'eq : 0 < ops.sizeofT → nc * ops.sizeofT < SIZE_MOD → k' = nc := by
    intro h1 h2
    rw [← hk', ← hbytes, hR1 h1 h2]; exact alloc_slots_eq nc _ h1 h2
  set nb := m.heap.length + 1 with hnb
  set m1 := m.alloc bytes k' with hm1
  have hnbblk : m1.block nb = some ⟨bytes, List.replicate k' none⟩ := by
    rw [hm1, Mem.block_alloc]; simp [hnb]
  have hv1 : m1.vecs[this]? = some (some v) := by simpa [hm1] using hv
  simp only [RawMemory.GetAddress]
  have hsw1 : (RawMemory.Swap v.data_ { buffer_ := ⟨nb, 0⟩, capacity_ := ncm }).1 =
      { buffer_ := ⟨nb, 0⟩, capacity_ := ncm } := rfl
  have hsw2 : (RawMemory.Swap v.data_ { buffer_ := ⟨nb, 0⟩, capacity_ := ncm }).2 =
      { buffer_ := v.data_.buffer_, capacity_ := v.data_.capacity_ } := rfl
  simp only [hsw1, hsw2]
  by_cases hik : i < k'
  swap
  · -- the new block has no slot for the new element
    refine .of_not_ret (run_bind_not_ret (onException_not_ret (run_bind_not_ret' ?_))) ?_
    · intro p s hr
      obtain ⟨_, rfl, rfl⟩ := RawMemory.plus_ret _ _ _ _ _ hr
      refine run_bind_not_ret (fun u s' hc => ?_)
      obtain ⟨_, o, _, ho, _⟩ := construct_from_ret _ _ _ _ _ hc
      rw [Mem.slot_none_of_length_le _ ((⟨nb, 0⟩ : Ptr) + i) _ hnbblk (by simp; omega)] at ho
      cases ho
    · rintro ⟨_, _, h1, h2, _⟩
      have := hk'eq h1 h2
      omega
  cases args with
  | none =>
    refine .of_not_ret (run_bind_not_ret (onException_not_ret (run_bind_not_ret' ?_))) (by simp)
    intro p s _
    exact run_bind_not_ret (by simp [construct_from, throwExn])
  | some x =>
  have hplus := RawMemory.plus_eval { buffer_ := ⟨nb, 0⟩, capacity_ := ncm } i m1
    (show i ≤ ncm by omega)
  have hsplit := replicate_split (none : Option T) i k' hik
  have hp : ((⟨nb, 0⟩ : Ptr) + i).off = (List.replicate i (none : Option T)).length := by simp
  have hcf := construct_from_eval m1 ((⟨nb, 0⟩ : Ptr) + i) x none
    (m1.slot_focus ((⟨nb, 0⟩ : Ptr) + i) _ _ _ _ hnbblk hsplit hp)
  rw [m1.setSlot_focus ((⟨nb, 0⟩ : Ptr) + i) _ _ _ _ (some x) hnbblk hsplit hp] at hcf
  simp only [Ptr.add_base] at hcf
  set N2 : Block T := ⟨bytes, List.replicate i none ++ some x :: List.replicate (k' - i - 1) none⟩
    with hN2
  set m2 := m1.setBlock nb (some N2) with hm2
  have hnb2 : m2.block nb = some N2 := by
    rw [hm2, m1.block_setBlock _ _ _ _ hnbblk, if_pos rfl]
  set v' : Vector := { data_ := { buffer_ := ⟨nb, 0⟩, capacity_ := ncm }, size_ := v.size_ }
    with hv'
  by_cases hc : v.data_.capacity_ = 0
  · -- the vector had no buffer
    obtain ⟨hl, hs0, hbuf⟩ := hH.nil_of_cap_zero hc
    have hi0 : i = 0 := by simpa [hl] using hi
    have hv2 : m2.vecs[this]? = some (some v) := by simpa [hm2] using hv1
    have e1 : Vector.MoveData ops v.data_.buffer_ i (⟨nb, 0⟩ : Ptr) m2 = .ret () m2 := by
      rw [hi0]; exact Vector.MoveData_zero ops m2 _ _
    have e2 : Vector.MoveData ops (v.data_.buffer_ + i) (v.size_ - i) ((⟨nb, 0⟩ : Ptr) + (i + 1)) m2
        = .ret () m2 := by
      rw [hs0, Nat.zero_sub]; exact Vector.MoveData_zero ops m2 _ _
    have e3 : destroy_n v.data_.buffer_ v.size_ m2 = .ret () m2 := by
      rw [hs0]; rfl
    have e4 : RawMemory.dtor { buffer_ := v.data_.buffer_, capacity_ := v.data_.capacity_ }
        (m2.putVec this (some v')) = .ret () (m2.putVec this (some v')) := by
      rw [hbuf]; exact RawMemory.dtor_null _ _
    have hbody : (do
        let p ← RawMemory.plus { buffer_ := ⟨nb, 0⟩, capacity_ := ncm } i
        construct_from p (some x)
        onException (Vector.MoveData ops v.data_.buffer_ i (⟨nb, 0⟩ : Ptr))
          (destroy_n ((⟨nb, 0⟩ : Ptr) + i) 1)
        onException
          (Vector.MoveData ops (v.data_.buffer_ + i) (v.size_ - i) ((⟨nb, 0⟩ : Ptr) + (i + 1)))
          (destroy_n (⟨nb, 0⟩ : Ptr) (i + 1))
        destroy_n v.data_.buffer_ v.size_ : M (Mem T) Unit) m1 = .ret () m2 := by
      rw [run_bind_ret hplus, run_bind_ret hcf, run_bind_ret (onException_ret _ _ _ _ _ e1),
        run_bind_ret (onException_ret _ _ _ _ _ e2)]
      exact e3
    have hrun : (do
        onException (do
          let p ← RawMemory.plus { buffer_ := ⟨nb, 0⟩, capacity_ := ncm } i
          construct_from p (some x)
          onException (Vector.MoveData ops v.data_.buffer_ i (⟨nb, 0⟩ : Ptr))
            (destroy_n ((⟨nb, 0⟩ : Ptr) + i) 1)
          onException
            (Vector.MoveData ops (v.data_.buffer_ + i) (v.size_ - i) ((⟨nb, 0⟩ : Ptr) + (i + 1)))
            (destroy_n (⟨nb, 0⟩ : Ptr) (i + 1))
          destroy_n v.data_.buffer_ v.size_)
          (RawMemory.dtor { buffer_ := ⟨nb, 0⟩, capacity_ := ncm })
        setVec this { v with data_ := { buffer_ := ⟨nb, 0⟩, capacity_ := ncm } }
        RawMemory.dtor { buffer_ := v.data_.buffer_, capacity_ := v.data_.capacity_ } :
          M (Mem T) Unit) m1 = .ret () (m2.putVec this (some v')) := by
      rw [run_bind_ret (onException_ret _ _ _ _ _ hbody),
        run_bind_ret (setVec_eval m2 this v _ hv2)]
      exact e4
    have hncm1 : ncm = nc := by rw [← hncm, ← hnc, if_pos hs0, if_pos hs0]
    refine .of_retOrElse (C := False) (.of_eq hrun) (fun _ h => h) ?_
    refine ⟨x, v', rfl, m2.vec_putVec_self this _ _ hv2, rfl, hncm1, rfl,
      by rw [hs0, SIZE_MOD_eq]; omega, ?_, ?_, ?_⟩
    · refine Holds.intro _ _ _ N2 (k' - 1) (by simp [hl, hs0]) hncmlt rfl ?_ ?_
        (by simp [hl, hv']; omega) hn0
      · show (m2.putVec _ _).block nb = some N2
        rw [Mem.block_putVec, hnb2]
      · simp [hN2, hl, hi0]
    · refine ⟨by simp [hm2, hm1], fun j hj => ?_, by simp [hm2, hm1], fun b' _ hb' => ?_⟩
      · rw [Mem.vec_putVec_ne _ _ _ _ (Ne.symm hj)]; simp [hm2, hm1]
      · rw [Mem.block_putVec, hm2, m1.block_setBlock _ _ _ _ hnbblk, if_neg (by omega), hm1,
          Mem.block_alloc, if_neg (by omega)]
    · intro h1 h2 blk hblk
      have hblk' : (m2.putVec this (some v')).block nb = some blk := hblk
      rw [Mem.block_putVec, hnb2] at hblk'
      cases hblk'
      have := hk'eq h1 h2
      simp [hN2, hv', hncm1]; omega
  -- the vector had a buffer
  obtain ⟨blk, k, hb, hs, hk⟩ := hH.block hc
  set ob := v.data_.buffer_.base with hob
  have hobuf : v.data_.buffer_ = ⟨ob, 0⟩ := Ptr.eq_of _ _ _ rfl hoff
  have hoble := m.block_le_length ob blk hb
  have hne : nb ≠ ob := by omega
  have hb1 : m1.block ob = some blk := by
    rw [hm1, Mem.block_alloc, if_neg (Ne.symm hne), hb]
  have hPlen : (l.take i).length = i := by rw [List.length_take]; omega
  have hDlen : (l.drop i).length = v.size_ - i := by rw [List.length_drop, hsz]
  -- relocation of the elements in front of the new one
  obtain ⟨xs1, hxs1, hmd1⟩ := Vector.MoveData_block ops (l.take i) m2 v.data_.buffer_
    (⟨nb, 0⟩ : Ptr) blk N2 [] ((l.drop i).map some ++ List.replicate k none) []
    (List.replicate i none) (some x :: List.replicate (k' - i - 1) none)
    (Ne.symm hne) (by rw [hm2, m1.block_setBlock _ _ _ _ hnbblk, if_neg (Ne.symm hne), hb1])
    (by rw [hs]; conv_lhs => rw [← List.take_append_drop i l]
        rw [List.map_append, List.append_assoc]; rfl)
    (by simpa using hoff) hnb2 (by simp [hN2]) (by simp [hPlen]) rfl
  rw [hPlen] at hmd1
  simp only [List.nil_append, hm2, Mem.setBlock_setBlock] at hmd1
  set N3 : Block T := ⟨N2.bytes, (l.take i).map some ++ some x ::
    List.replicate (k' - i - 1) none⟩ with hN3
  set O3 : Block T := ⟨blk.bytes, xs1.map some ++ ((l.drop i).map some ++ List.replicate k none)⟩
    with hO3
  set m3 := (m1.setBlock nb (some N3)).setBlock ob (some O3) with hm3
  obtain ⟨h3nb, h3ob, -, h3v, h3h, h3f⟩ := m1.two_blocks nb ob _ _ N3 O3 hnbblk hb1 hne
  by_cases hroom : v.size_ + 1 ≤ k'
  swap
  · -- the new block is too small for the elements behind the new one
    refine .of_not_ret (run_bind_not_ret (onException_not_ret ?_)) ?_
    · rw [run_bind_ret hplus, run_bind_ret hcf]
      refine hmd1.onException.bind_not_ret (run_bind_not_ret (onException_not_ret ?_))
      intro u s hr
      obtain ⟨t, ht⟩ : ∃ t, v.size_ - i = t + 1 := ⟨v.size_ - i - 1, by omega⟩
      rw [ht] at hr
      obtain ⟨len, hlen, hlt⟩ := Vector.MoveData_room ops _ _ t m3 s hr
      simp only [Mem.len, Ptr.add_base, h3nb, Option.map_some', Option.some.injEq] at hlen
      simp [hN3, hPlen] at hlen
      simp at hlt
      omega
    · rintro ⟨_, _, h1, h2, _⟩
      have := hk'eq h1 h2
      omega
  have hncm1 : ncm = nc := hwrap (by omega)
  -- relocation of the elements behind the new one
  obtain ⟨xs2, hxs2, hmd2⟩ := Vector.MoveData_block ops (l.drop i) m3 (v.data_.buffer_ + i)
    ((⟨nb, 0⟩ : Ptr) + (i + 1)) O3 N3 (xs1.map some) (List.replicate k none)
    ((l.take i).map some ++ [some x]) (List.replicate (v.size_ - i) none)
    (List.replicate (k' - v.size_ - 1) none)
    (by simpa using Ne.symm hne) h3ob (by simp [hO3])
    (by simp only [Ptr.add_off, hoff, List.length_map, hxs1, hPlen]; omega) h3nb
    (by have : List.replicate (k' - i - 1) (none : Option T) =
          List.replicate (v.size_ - i) none ++ List.replicate (k' - v.size_ - 1) none := by
          rw [← List.replicate_add]; congr 1; omega
        rw [hN3]; simp only [this]; simp)
    (by rw [List.length_replicate, hDlen])
    (by simp only [Ptr.add_off, List.length_append, List.length_map, hPlen,
          List.length_singleton]; omega)
  rw [hDlen] at hmd2
  simp only [Ptr.add_base, hm3, Mem.setBlock_two_step _ _ _ _ _ _ _ hne] at hmd2
  set N4 : Block T := ⟨N3.bytes, (l.take i).map some ++ [some x] ++ (l.drop i).map some ++
    List.replicate (k' - v.size_ - 1) none⟩ with hN4
  set O4 : Block T := ⟨O3.bytes, xs1.map some ++ xs2.map some ++ List.replicate k none⟩ with hO4
  set m4 := (m1.setBlock nb (some N4)).setBlock ob (some O4) with hm4
  obtain ⟨h4nb, h4ob, -, h4v, h4h, h4f⟩ := m1.two_blocks nb ob _ _ N4 O4 hnbblk hb1 hne
  have hds := destroy_n_block (xs1 ++ xs2) m4 v.data_.buffer_ O4 [] (List.replicate k none)
    h4ob (by simp [hO4]) (by simpa using hoff)
  have hlen12 : (xs1 ++ xs2).length = v.size_ := by
    rw [List.length_append, hxs1, hxs2, hPlen, hDlen]; omega
  rw [hlen12, ← hob, hm4, Mem.setBlock_setBlock] at hds
  set O5 : Block T := ⟨O4.bytes, [] ++ List.replicate v.size_ none ++ List.replicate k none⟩
    with hO5
  set m5 := (m1.setBlock nb (some N4)).setBlock ob (some O5) with hm5
  obtain ⟨h5nb, h5ob, -, h5v, h5h, h5f⟩ := m1.two_blocks nb ob _ _ N4 O5 hnbblk hb1 hne
  have hv5 : m5.vecs[this]? = some (some v) := by rw [h5v]; exact hv1
  have hrun : ((do
      onException (do
        let p ← RawMemory.plus { buffer_ := ⟨nb, 0⟩, capacity_ := ncm } i
        construct_from p (some x)
        onException (Vector.MoveData ops v.data_.buffer_ i (⟨nb, 0⟩ : Ptr))
          (destroy_n ((⟨nb, 0⟩ : Ptr) + i) 1)
        onException
          (Vector.MoveData ops (v.data_.buffer_ + i) (v.size_ - i) ((⟨nb, 0⟩ : Ptr) + (i + 1)))
          (destroy_n (⟨nb, 0⟩ : Ptr) (i + 1))
        destroy_n v.data_.buffer_ v.size_)
        (RawMemory.dtor { buffer_ := ⟨nb, 0⟩, capacity_ := ncm })
      setVec this { v with data_ := { buffer_ := ⟨nb, 0⟩, capacity_ := ncm } }
      RawMemory.dtor { buffer_ := v.data_.buffer_, capacity_ := v.data_.capacity_ } :
        M (Mem T) Unit) m1).RetOrElse ()
      ((m5.putVec this (some v')).release ob O5.bytes) (¬ NoThrow ops) := by
    refine Outcome.RetOrElse.bind (a := ()) (s := m5) (Outcome.RetOrElse.onException ?_) ?_
    · rw [run_bind_ret hplus, run_bind_ret hcf]
      refine Outcome.RetOrElse.bind hmd1.onException ?_
      refine Outcome.RetOrElse.bind hmd2.onException ?_
      exact .of_eq hds
    refine Outcome.RetOrElse.bind (.of_eq (setVec_eval m5 this v _ hv5)) ?_
    rw [hobuf]
    exact .of_eq (RawMemory.dtor_block _ ob _ O5 (by rw [Mem.block_putVec, h5ob]))
  refine .of_retOrElse hrun (fun h hno => hno h.2.1) ?_
  have hfin : ∀ b, ((m5.putVec this (some v')).release ob O5.bytes).block b =
      if b = ob then none else m5.block b := by
    intro b
    rw [Mem.block_release _ _ _ _ O5 (by rw [Mem.block_putVec, h5ob]), Mem.block_putVec]
  have hsM : v.size_ + 1 < SIZE_MOD := by omega
  refine ⟨x, v', rfl, ?_, rfl, hncm1, rfl, hsM, ?_, ?_, ?_⟩
  · rw [Mem.vecs_release]; exact m5.vec_putVec_self this _ _ hv5
  · refine Holds.intro _ _ _ N4 (k' - v.size_ - 1)
      (by rw [length_take_cons_drop l i x hi, hsz]) hncmlt rfl ?_ ?_
      (by rw [length_take_cons_drop l i x hi]; simp only [hv']; omega) hn0
    · show Mem.block _ nb = _
      rw [hfin, if_neg hne, h5nb]
    · simp [hN4]
  · refine ⟨by simp [hm1]; rw [h5v]; simp [hm1], fun j hj => ?_, by simp [h5h, hm1],
      fun b' hb'ne hb' => ?_⟩
    · rw [Mem.vecs_release, Mem.vec_putVec_ne _ _ _ _ (Ne.symm hj), h5v]; simp [hm1]
    · rw [hfin, if_neg hb'ne, h5f b' (by omega) hb'ne, hm1, Mem.block_alloc, if_neg (by omega)]
  · intro h1 h2 b hblk
    have hblk' : ((m5.putVec this (some v')).release ob O5.bytes).block nb = some b := hblk
    rw [hfin, if_neg hne, h5nb] at hblk'
    cases hblk'
    have := hk'eq h1 h2
    simp [hN4, hv', hncm1, hPlen, hDlen]; omega

theorem Outcome.Spec.bind_eval {x : M σ α} {f : α → M σ β} {m : σ} {R : Prop}
    {P : α → σ → Prop} {Q : β → σ → Prop} (h : (x m).Spec R P)
    (hf : ∀ a s, P a s → ∃ b s', f a s = .ret b s' ∧ Q b s') : ((x >>= f) m).Spec R Q := by
  refine ⟨fun hr => ?_, fun b s' hret => ?_⟩
  · obtain ⟨a, s, hx⟩ := h.1 hr
    obtain ⟨b, s', hfa, _⟩ := hf a s (h.2 a s hx)
    exact ⟨b, s', by rw [run_bind_ret hx]; exact hfa⟩
  · rw [bind_eq_ret_iff] at hret
    obtain ⟨a, s, hx, hfa⟩ := hret
    obtain ⟨b', s'', hfa', hq⟩ := hf a s (h.2 a s hx)
    rw [hfa'] at hfa
    cases hfa
    exact hq

theorem Outcome.Spec.weaken {o : Outcome σ α} {R R' : Prop} {Q Q' : α → σ → Prop}
    (h : o.Spec R Q) (hR : R' → R) (hQ : ∀ a s, Q a s → Q' a s) : o.Spec R' Q' :=
  ⟨fun hr => h.1 (hR hr), fun a s hret => hQ a s (h.2 a s hret)⟩

theorem Holds.of_block_eq {m m' : Mem T} {v : Vector} {l : List T} (h : Holds m v l)
    (hb : m'.block v.data_.buffer_.base = m.block v.data_.buffer_.base) : Holds m' v l := by
  obtain ⟨h1, h2, h3, h4, h5, h6⟩ := h
  refine ⟨h1, h2, h3, h4, h5, fun hc => ?_⟩
  obtain ⟨blk, hblk, hrep⟩ := h6 hc
  exact ⟨blk, by rw [Option.mem_def] at hblk ⊢; rw [hb]; exact hblk, hrep⟩

theorem Holds.after_putVec {m : Mem T} {v : Vector} {l : List T} (h : Holds m v l) (j : Nat)
    (o : Option Vector) : Holds (m.putVec j o) v l :=
  h.of_block_eq (Mem.block_putVec _ _ _ _)

theorem Exact.exact_putVec {m : Mem T} {v : Vector} (h : Exact m v) (j : Nat) (o : Option Vector) :
    Exact (m.putVec j o) v := by
  intro blk hblk
  rw [Option.mem_def, Mem.block_putVec] at hblk
  exact h blk hblk

theorem Mem.FrameOf.frame_putVec {m m' : Mem T} {this b : Nat} (h : m.FrameOf m' this b)
    (o : Option Vector) : m.FrameOf (m'.putVec this o) this b := by
  obtain ⟨h1, h2, h3, h4⟩ := h
  refine ⟨by simp [h1], fun j hj => ?_, by simpa using h3, fun b' hb' hle => ?_⟩
  · rw [Mem.vec_putVec_ne _ _ _ _ (Ne.symm hj)]; exact h2 j hj
  · rw [Mem.block_putVec]; exact h4 b' hb' hle

theorem Mem.FrameOf.of_same {m m' : Mem T} (this b : Nat) (hv : m'.vecs = m.vecs)
    (hh : m'.heap.length = m.heap.length) (hf : ∀ b', b' ≠ b → m'.block b' = m.block b') :
    m.FrameOf m' this b :=
  ⟨by rw [hv], fun j _ => by rw [hv], by omega, fun b' hb' _ => hf b' hb'⟩

/-- The statements after the branches of `Emplace`: `++size_; return begin() + offset`. -/
theorem Vector.Emplace_tail (m : Mem T) (this : Nat) (v : Vector) (i : Nat)
    (hv : m.vecs[this]? = some (some v)) :
    (do
      let v ← getVec this
      setVec this { v with size_ := (v.size_ + 1) % SIZE_MOD }
      let b ← Vector.begin this
      pure (b + i) : M (Mem T) Ptr) m =
      .ret (v.data_.buffer_ + i)
        (m.putVec this (some { v with size_ := (v.size_ + 1) % SIZE_MOD })) := by
  rw [run_bind_ret (getVec_eval m this v hv), run_bind_ret (setVec_eval m this v _ hv)]
  unfold Vector.begin
  rw [run_bind, run_bind_ret (getVec_putVec m this v _ hv)]
  rfl

/-- What `Emplace` at offset `i` guarantees when it returns. -/
theorem Vector.Emplace_spec (ops : ElemOps T) (m : Mem T) (this : Nat) (v : Vector) (l : List T)
    (i : Nat) (args : Option T) (hv : m.vecs[this]? = some (some v)) (hH : Holds m v l)
    (hi : i ≤ l.length) :
    (Vector.Emplace ops this (v.data_.buffer_ + i) args m).Spec
      (args.isSome ∧ NoThrow ops ∧
        (if v.size_ = v.data_.capacity_ then
          0 < ops.sizeofT ∧ (if v.size_ = 0 then 1 else 2 * v.size_) * ops.sizeofT < SIZE_MOD ∧
            (if v.size_ = 0 then 1 else 2 * v.size_) * ops.sizeofT ≤ m.free
        else Exact m v))
      (fun r m' => ∃ x v', args = some x ∧ m'.vecs[this]? = some (some v') ∧
        Holds m' v' (l.take i ++ x :: l.drop i) ∧ v'.size_ = v.size_ + 1 ∧
        r = v'.data_.buffer_ + i ∧
        v'.data_.capacity_ = (if v.size_ = v.data_.capacity_ then
          (if v.size_ = 0 then 1 else 2 * v.size_) else v.data_.capacity_) ∧
        m.FrameOf m' this v.data_.buffer_.base ∧
        (v'.data_.buffer_ = v.data_.buffer_ ∨ m.heap.length < v'.data_.buffer_.base) ∧
        ((if v.size_ = v.data_.capacity_ then
            0 < ops.sizeofT ∧ (if v.size_ = 0 then 1 else 2 * v.size_) * ops.sizeofT < SIZE_MOD
          else Exact m v) → Exact m' v')) := by
  obtain ⟨hsz, hle, hcap, hoff, hnull, -⟩ := id hH
  unfold Vector.Emplace
  have hbeg : Vector.begin this m = .ret v.data_.buffer_ m := by
    unfold Vector.begin; rw [run_bind_ret (getVec_eval m this v hv)]; rfl
  have hend : Vector.end_ this m = .ret (v.data_.buffer_ + v.size_) m := by
    unfold Vector.end_; rw [run_bind_ret (getVec_eval m this v hv)]; rfl
  rw [run_bind_ret (getVec_eval m this v hv), run_bind_ret hbeg, run_bind_ret hend,
    run_bind_ret (assert_eval _ m ⟨rfl, by simp, by simp; omega⟩)]
  have hoffset : (v.data_.buffer_ + i).off - v.data_.buffer_.off = i := by simp
  simp only [hoffset, RawMemory.Capacity]
  by_cases hsc : v.size_ = v.data_.capacity_
  · simp only [if_pos hsc]
    refine Outcome.Spec.bind_eval (Vector.Emplace_growth_spec ops m this v l i args hv hH hi hsc) ?_
    rintro u s ⟨x, v1, rfl, hv1, hs1, hc1, hb1, hlt, hH1, hF, hE⟩
    refine ⟨_, _, Vector.Emplace_tail s this v1 i hv1, x, { v1 with size_ := v.size_ + 1 }, rfl, ?_,
      hH1.after_putVec _ _, rfl, rfl, hc1, ?_, Or.inr (by rw [hb1]; simp), ?_⟩
    · rw [hs1, Nat.mod_eq_of_lt hlt]
      exact s.vec_putVec_self this _ _ hv1
    · rw [hs1, Nat.mod_eq_of_lt hlt]; exact hF.frame_putVec _
    · rintro ⟨h1, h2⟩
      rw [hs1, Nat.mod_eq_of_lt hlt]
      exact (hE h1 h2).exact_putVec _ _
  · simp only [if_neg hsc]
    refine Outcome.Spec.bind_eval (Vector.Emplace_in_place_spec ops m v l i args hH hi hsc) ?_
    rintro u s ⟨x, rfl, hH1, hvs, hhl, hlen, hfr⟩
    have hv1 : s.vecs[this]? = some (some v) := by rw [hvs]; exact hv
    have hlt : v.size_ + 1 < SIZE_MOD := by omega
    refine ⟨_, _, Vector.Emplace_tail s this v i hv1, x, { v with size_ := v.size_ + 1 }, rfl, ?_,
      hH1.after_putVec _ _, rfl, rfl, rfl, ?_, Or.inl rfl, ?_⟩
    · rw [Nat.mod_eq_of_lt hlt]
      exact s.vec_putVec_self this _ _ hv1
    · rw [Nat.mod_eq_of_lt hlt]
      exact (Mem.FrameOf.of_same this _ hvs hhl hfr).frame_putVec _
    · intro hex
      rw [Nat.mod_eq_of_lt hlt]
      exact (Exact.of_len hex (hlen _)).exact_putVec _ _

theorem Vector.Size_eval (m : Mem T) (this : Nat) (v : Vector) (hv : m.vecs[this]? = some (some v)) :
    Vector.Size this m = .ret v.size_ m := by
  unfold Vector.Size; rw [run_bind_ret (getVec_eval m this v hv)]; rfl

theorem Vector.Capacity_eval (m : Mem T) (this : Nat) (v : Vector)
    (hv : m.vecs[this]? = some (some v)) : Vector.Capacity this m = .ret v.data_.capacity_ m := by
  unfold Vector.Capacity; rw [run_bind_ret (getVec_eval m this v hv)]; rfl

theorem Vector.begin_eval (m : Mem T) (this : Nat) (v : Vector)
    (hv : m.vecs[this]? = some (some v)) : Vector.begin this m = .ret v.data_.buffer_ m := by
  unfold Vector.begin; rw [run_bind_ret (getVec_eval m this v hv)]; rfl

theorem Vector.end_eval (m : Mem T) (this : Nat) (v : Vector)
    (hv : m.vecs[this]? = some (some v)) :
    Vector.end_ this m = .ret (v.data_.buffer_ + v.size_) m := by
  unfold Vector.end_; rw [run_bind_ret (getVec_eval m this v hv)]; rfl

/-- C3 (Erase correctness).  For a vector with contents `l` and an offset
`i < Size()`, an `Erase(begin() + i)` that returns leaves the contents `l`
without its element at index `i` (the others in order), makes `Size()` one
smaller, leaves `Capacity()` and the buffer as they were, and returns
`begin() + i`.  It does return when no move assignment throws. -/
theorem C3_erase_correct (ops : ElemOps T) (m : Mem T) (this : Nat) (v : Vector) (l : List T)
    (i : Nat) (hv : m.vecs[this]? = some (some v)) (hH : Holds m v l) (hi : i < l.length) :
    (Vector.Erase ops this (v.data_.buffer_ + i) m).Spec
      (∀ y x, ops.move_assign_throws y x = false)
      (fun r m' => ∃ v', m'.vecs[this]? = some (some v') ∧ Holds m' v' (l.eraseIdx i) ∧
        Vector.Size this m' = .ret (l.length - 1) m' ∧
        Vector.Capacity this m' = .ret v.data_.capacity_ m' ∧
        Vector.begin this m' = .ret v.data_.buffer_ m' ∧ r = v.data_.buffer_ + i) := by
  obtain ⟨m', hrun, hvecs, hH', -, -, -⟩ := Vector.Erase_spec ops m this v l i hv hH hi
  have hv' : m'.vecs[this]? = some (some { v with size_ := v.size_ - 1 }) := by
    rw [hvecs]; exact m.vec_putVec_self this _ _ hv
  refine .of_retOrElse hrun ?_ ⟨_, hv', hH', ?_, ?_, ?_, rfl⟩
  · rintro hno ⟨y, x, hyx⟩
    rw [hno y x] at hyx
    cases hyx
  · rw [Vector.Size_eval m' this _ hv', hH.1]
  · rw [Vector.Capacity_eval m' this _ hv']
  · rw [Vector.begin_eval m' this _ hv']

/-- Witness for C3: erasing the element at index 1 of `[10, 20, 30, 40]`
gives `[10, 30, 40]`. -/
theorem C3_erase_correct_witness :
    (mem_abcd.vecs[0]? = some (some ⟨⟨⟨1, 0⟩, 4⟩, 4⟩) ∧
        Holds mem_abcd ⟨⟨⟨1, 0⟩, 4⟩, 4⟩ [10, 20, 30, 40] ∧ 1 < [10, 20, 30, 40].length) ∧
      (Vector.Erase intOps 0 ((⟨1, 0⟩ : Ptr) + 1) mem_abcd).Spec
        (∀ y x, intOps.move_assign_throws y x = false)
        (fun r m' => ∃ v', m'.vecs[0]? = some (some v') ∧
          Holds m' v' ([10, 20, 30, 40].eraseIdx 1) ∧
          Vector.Size 0 m' = .ret ([10, 20, 30, 40].length - 1) m' ∧
          Vector.Capacity 0 m' = .ret 4 m' ∧
          Vector.begin 0 m' = .ret ⟨1, 0⟩ m' ∧ r = (⟨1, 0⟩ : Ptr) + 1) :=
  ⟨⟨by decide, by decide, by decide⟩,
    C3_erase_correct intOps mem_abcd 0 ⟨⟨⟨1, 0⟩, 4⟩, 4⟩ [10, 20, 30, 40] 1 (by decide) (by decide)
      (by decide)⟩

theorem Outcome.Spec.seq {x : M σ α} {f : α → M σ β} {m : σ} {R : Prop}
    {P : α → σ → Prop} {Q : β → σ → Prop} (h : (x m).Spec R P)
    (hf : ∀ a s, P a s → (f a s).Spec R Q) : ((x >>= f) m).Spec R Q := by
  refine ⟨fun hr => ?_, fun b s' hret => ?_⟩
  · obtain ⟨a, s, hx⟩ := h.1 hr
    obtain ⟨b, s', hfa⟩ := (hf a s (h.2 a s hx)).1 hr
    exact ⟨b, s', by rw [run_bind_ret hx]; exact hfa⟩
  · rw [bind_eq_ret_iff] at hret
    obtain ⟨a, s, hx, hfa⟩ := hret
    exact (hf a s (h.2 a s hx)).2 b s' hfa

theorem Outcome.Spec.of_run {o : Outcome σ α} {a : α} {s : σ} {R : Prop} {Q : α → σ → Prop}
    (h : o = .ret a s) (hQ : Q a s) : o.Spec R Q :=
  ⟨fun _ => ⟨a, s, h⟩, fun a' s' hret => by rw [h] at hret; cases hret; exact hQ⟩

/-- What `PopBack()` guarantees: it returns on a non-empty vector. -/
theorem Vector.PopBack_spec (m : Mem T) (this : Nat) (v : Vector) (l : List T)
    (hv : m.vecs[this]? = some (some v)) (hH : Holds m v l) :
    (Vector.PopBack this m).Spec (0 < l.length)
      (fun _ m' => 0 < l.length ∧
        m'.vecs[this]? = some (some { v with size_ := v.size_ - 1 }) ∧
        Holds m' { v with size_ := v.size_ - 1 } l.dropLast ∧
        m.FrameOf m' this v.data_.buffer_.base ∧ (∀ b, m'.len b = m.len b)) := by
  obtain ⟨hsz, hle, hcap, hoff, hnull, -⟩ := id hH
  unfold Vector.PopBack
  simp only [RawMemory.GetAddress]
  rw [run_bind_ret (getVec_eval m this v hv)]
  by_cases hpos : 0 < l.length
  swap
  · refine .of_not_ret (run_bind_not_ret ?_) hpos
    intro u s hr
    rw [assert_eq_ret_iff] at hr
    omega
  rw [run_bind_ret (assert_eval _ m (show v.size_ > 0 by omega))]
  have hc : v.data_.capacity_ ≠ 0 := by omega
  obtain ⟨blk, k, hb, hs, hk⟩ := hH.block hc
  obtain ⟨xs, y, hxy⟩ : ∃ xs y, l = xs ++ [y] := by
    rcases List.eq_nil_or_concat l with h | ⟨L, b, h⟩
    · rw [h] at hpos; simp at hpos
    · exact ⟨L, b, by simpa using h⟩
  have hxlen : xs.length = v.size_ - 1 := by
    have := congrArg List.length hxy
    simp at this; omega
  have hds := destroy_n_block [y] m (v.data_.buffer_ + (v.size_ - 1)) blk (xs.map some)
    (List.replicate k none) hb (by rw [hs, hxy]; simp)
    (by simp only [Ptr.add_off, hoff, List.length_map, hxlen]; omega)
  simp only [Ptr.add_base, List.length_singleton] at hds
  set blk1 : Block T := ⟨blk.bytes, xs.map some ++ List.replicate 1 none ++ List.replicate k none⟩
    with hblk1
  set m1 := m.setBlock v.data_.buffer_.base (some blk1) with hm1
  have hv1 : m1.vecs[this]? = some (some v) := by simpa [hm1] using hv
  have hsize : (v.size_ + SIZE_MOD - 1) % SIZE_MOD = v.size_ - 1 := by
    have : v.size_ + SIZE_MOD - 1 = (v.size_ - 1) + SIZE_MOD := by omega
    rw [this, Nat.add_mod_right, Nat.mod_eq_of_lt (by omega)]
  rw [run_bind_ret hds, hsize]
  refine .of_run (setVec_eval m1 this v _ hv1) ⟨hpos, m1.vec_putVec_self this _ _ hv1, ?_, ?_, ?_⟩
  · refine (Holds.intro m1 { v with size_ := v.size_ - 1 } l.dropLast blk1 (k + 1) ?_ hcap hoff
      ?_ ?_ ?_ hc).after_putVec _ _
    · simp [hxy, hxlen]
    · rw [hm1, m.block_setBlock _ _ _ blk hb]; simp
    · simp [hblk1, hxy, List.replicate_succ]
    · simp [hxy]; rw [hxy] at hk; simp at hk; omega
  · refine Mem.FrameOf.frame_putVec (Mem.FrameOf.of_same this _ (by simp [hm1]) (by simp [hm1])
      (fun b' hb' => ?_)) _
    rw [hm1, m.block_setBlock _ _ _ blk hb, if_neg hb']
  · intro b
    show (m1.putVec _ _).len b = _
    unfold Mem.len
    rw [Mem.block_putVec]
    exact m.len_setBlock _ blk blk1 hb (by simp [hblk1, hs, hxy]) b

/-- The second half of `Resize(n)`, once the capacity is at least `n`:
value-construct the new elements or destroy the excess, then set `size_`. -/
theorem Vector.Resize_rest_spec (ops : ElemOps T) (m : Mem T) (this : Nat) (v : Vector)
    (l : List T) (n : Nat) (hv : m.vecs[this]? = some (some v)) (hH : Holds m v l)
    (hn : n ≤ v.data_.capacity_) :
    ((do
      let v ← getVec this
      if n > v.size_ then
        uninitialized_value_construct_n ops (v.data_.GetAddress + v.size_) (n - v.size_)
      else
        destroy_n (v.data_.GetAddress + n) (v.size_ - n)
      setVec this { v with size_ := n } : M (Mem T) Unit) m).Spec
      (NoThrow ops ∧ Exact m v)
      (fun _ m' => m'.vecs[this]? = some (some { v with size_ := n }) ∧
        Holds m' { v with size_ := n } (l.take n ++ List.replicate (n - l.length) ops.value_init) ∧
        m.FrameOf m' this v.data_.buffer_.base ∧ (∀ b, m'.len b = m.len b)) := by
  obtain ⟨hsz, hle, hcap, hoff, hnull, -⟩ := id hH
  simp only [RawMemory.GetAddress]
  rw [run_bind_ret (getVec_eval m this v hv)]
  by_cases hc : v.data_.capacity_ = 0
  · -- no buffer: nothing to construct or destroy
    obtain ⟨hl, hs0, hbuf⟩ := hH.nil_of_cap_zero hc
    have hn0 : n = 0 := by omega
    subst hn0
    rw [if_neg (by omega), hs0]
    rw [run_bind_ret (show destroy_n (v.data_.buffer_ + 0) (0 - 0) m = .ret () m from rfl)]
    refine .of_run (setVec_eval m this v _ hv) ⟨m.vec_putVec_self this _ _ hv, ?_, ?_, ?_⟩
    · refine Holds.after_putVec ?_ _ _
      refine ⟨by simp [hl], by simp [hl], hcap, hoff, hnull, fun h => absurd hc h⟩
    · exact Mem.FrameOf.frame_putVec (Mem.FrameOf.of_same this _ rfl rfl (fun _ _ => rfl)) _
    · intro b; unfold Mem.len; rw [Mem.block_putVec]
  obtain ⟨blk, k, hb, hs, hk⟩ := hH.block hc
  have hslen : blk.slots.length = l.length + k := by simp [hs]
  have hfin : ∀ (S : List (Option T)) (l' : List T) (k' : Nat), S = l'.map some ++
      List.replicate k' none → l'.length = n → l'.length + k' = l.length + k →
      (m.setBlock v.data_.buffer_.base (some ⟨blk.bytes, S⟩)).vecs[this]? = some (some v) ∧
      Holds ((m.setBlock v.data_.buffer_.base (some ⟨blk.bytes, S⟩)).putVec this
        (some { v with size_ := n })) { v with size_ := n } l' ∧
      m.FrameOf ((m.setBlock v.data_.buffer_.base (some ⟨blk.bytes, S⟩)).putVec this
        (some { v with size_ := n })) this v.data_.buffer_.base ∧
      ∀ b, ((m.setBlock v.data_.buffer_.base (some ⟨blk.bytes, S⟩)).putVec this
        (some { v with size_ := n })).len b = m.len b := by
    intro S l' k' hS hl' hlk
    refine ⟨by simpa using hv, ?_, ?_, ?_⟩
    · refine (Holds.intro _ { v with size_ := n } l' ⟨blk.bytes, S⟩ k' hl'.symm hcap hoff ?_ hS
        (by show l'.length + k' ≤ v.data_.capacity_; omega) hc).after_putVec _ _
      rw [m.block_setBlock _ _ _ blk hb]; simp
    · refine Mem.FrameOf.frame_putVec (Mem.FrameOf.of_same this _ (by simp) (by simp)
        (fun b' hb' => ?_)) _
      rw [m.block_setBlock _ _ _ blk hb, if_neg hb']
    · intro b
      unfold Mem.len
      rw [Mem.block_putVec]
      exact m.len_setBlock _ blk ⟨blk.bytes, S⟩ hb (by simp [hS, hslen]; omega) b
  by_cases hgt : n > v.size_
  · -- new elements
    rw [if_pos hgt]
    by_cases hroom : n - v.size_ ≤ k
    swap
    · refine .of_not_ret (run_bind_not_ret ?_) ?_
      · intro u s hr
        obtain ⟨t, ht⟩ : ∃ t, n - v.size_ = t + 1 := ⟨n - v.size_ - 1, by omega⟩
        unfold uninitialized_value_construct_n at hr
        rw [ht] at hr
        obtain ⟨len, hlen, hlt⟩ := uninitialized_value_construct_loop_room ops _ t 0 m s hr
        simp only [Mem.len, Ptr.add_base, hb, Option.map_some', Option.some.injEq] at hlen
        simp only [Ptr.add_off, hoff] at hlt
        omega
      · rintro ⟨-, hex⟩
        have := hex blk hb
        omega
    have hloop := uninitialized_value_construct_loop_block ops
      (List.replicate (n - v.size_) (none : Option T)) m (v.data_.buffer_ + v.size_) 0 blk
      (l.map some) (List.replicate (k - (n - v.size_)) none) hb
      (by rw [hs, List.append_assoc, ← List.replicate_add]; congr 2; omega)
      (by simp only [Ptr.add_off, hoff, List.length_map]; omega)
    rw [List.length_replicate] at hloop
    simp only [Ptr.add_base] at hloop
    obtain ⟨h1, h2, h3, h4⟩ := hfin (l.map some ++ List.replicate (n - v.size_) (some ops.value_init)
      ++ List.replicate (k - (n - v.size_)) none)
      (l.take n ++ List.replicate (n - l.length) ops.value_init) (k - (n - v.size_))
      (by rw [List.take_of_length_le (by omega), hsz]; simp)
      (by rw [List.take_of_length_le (by omega)]; simp; omega)
      (by rw [List.take_of_length_le (by omega)]; simp; omega)
    refine Outcome.Spec.of_retOrElse (a := ()) (C := ¬ NoThrow ops) ?_ (fun h hno => hno h.1)
      ⟨Mem.vec_putVec_self _ this _ _ h1, h2, h3, h4⟩
    refine Outcome.RetOrElse.bind (hloop.mono (fun h hno => by rw [hno.1] at h; cases h)) ?_
    exact .of_eq (setVec_eval _ this v _ h1)
  · -- fewer elements
    rw [if_neg hgt]
    have hsplit : blk.slots = (l.take n).map some ++ (l.drop n).map some ++ List.replicate k none := by
      rw [hs, ← List.map_append, List.take_append_drop]
    have hds := destroy_n_block (l.drop n) m (v.data_.buffer_ + n) blk ((l.take n).map some)
      (List.replicate k none) hb hsplit
      (by simp only [Ptr.add_off, hoff, List.length_map, List.length_take]; omega)
    rw [List.length_drop, ← hsz] at hds
    simp only [Ptr.add_base] at hds
    obtain ⟨h1, h2, h3, h4⟩ := hfin ((l.take n).map some ++ List.replicate (v.size_ - n) none ++
      List.replicate k none) (l.take n ++ List.replicate (n - l.length) ops.value_init)
      (v.size_ - n + k)
      (by rw [show n - l.length = 0 by omega]
          simp only [List.replicate_zero, List.append_nil, List.replicate_add, List.append_assoc])
      (by rw [show n - l.length = 0 by omega]; simp; omega)
      (by rw [show n - l.length = 0 by omega]; simp; omega)
    rw [run_bind_ret hds]
    exact .of_run (setVec_eval _ this v _ h1) ⟨Mem.vec_putVec_self _ this _ _ h1, h2, h3, h4⟩

theorem Mem.FrameOf.trans {m s m' : Mem T} {this b b' : Nat} (h1 : m.FrameOf s this b)
    (h2 : s.FrameOf m' this b') (hb : b' = b ∨ m.heap.length < b') : m.FrameOf m' this b := by
  obtain ⟨a1, a2, a3, a4⟩ := h1
  obtain ⟨c1, c2, c3, c4⟩ := h2
  refine ⟨by omega, fun j hj => by rw [c2 j hj, a2 j hj], by omega, fun x hx hle => ?_⟩
  rw [c4 x (by rcases hb with h | h <;> omega) (by omega), a4 x hx hle]

/-- What `Resize(n)` guarantees when it returns. -/
theorem Vector.Resize_spec (ops : ElemOps T) (m : Mem T) (this : Nat) (v : Vector) (l : List T)
    (n : Nat) (hv : m.vecs[this]? = some (some v)) (hH : Holds m v l) (hn : n < SIZE_MOD) :
    (Vector.Resize ops this n m).Spec
      (NoThrow ops ∧
        (if v.data_.capacity_ < n then
          0 < ops.sizeofT ∧ n * ops.sizeofT < SIZE_MOD ∧ n * ops.sizeofT ≤ m.free
        else Exact m v))
      (fun _ m' => ∃ v', m'.vecs[this]? = some (some v') ∧
        Holds m' v' (l.take n ++ List.replicate (n - l.length) ops.value_init) ∧
        v'.size_ = n ∧ v'.data_.capacity_ = max v.data_.capacity_ n ∧
        m.FrameOf m' this v.data_.buffer_.base ∧
        (v'.data_.buffer_ = v.data_.buffer_ ∨ m.heap.length < v'.data_.buffer_.base)) := by
  unfold Vector.Resize
  rw [run_bind_ret (Vector.Capacity_eval m this v hv)]
  by_cases hgrow : v.data_.capacity_ < n
  · rw [if_pos hgrow]
    simp only [if_pos hgrow]
    refine Outcome.Spec.seq ((Vector.Reserve_spec ops m this v l n hv hH hn).weaken ?_
      (fun _ _ h => h)) ?_
    · rintro ⟨hno, h1, h2, h3⟩
      exact Or.inr ⟨h1, h2, h3, hno⟩
    rintro u s ⟨v1, hv1, hH1, hs1, hc1, hF1, hb1, -, hE1⟩
    refine (Vector.Resize_rest_spec ops s this v1 l n hv1 hH1 (by omega)).weaken ?_ ?_
    · rintro ⟨hno, h1, h2, -⟩
      exact ⟨hno, hE1 hgrow h1 h2⟩
    · rintro _ m' ⟨hv', hH', hF', -⟩
      refine ⟨_, hv', hH', rfl, hc1, hF1.trans hF' ?_, hb1⟩
      rcases hb1 with h | h
      · exact Or.inl (by rw [h])
      · exact Or.inr h
  · rw [if_neg hgrow]
    simp only [if_neg hgrow]
    rw [run_bind_ret (show (pure PUnit.unit : M (Mem T) PUnit) m = .ret PUnit.unit m from rfl)]
    refine (Vector.Resize_rest_spec ops m this v l n hv hH (by omega)).weaken (fun h => h) ?_
    rintro _ m' ⟨hv', hH', hF', -⟩
    exact ⟨_, hv', hH', rfl, by show v.data_.capacity_ = _; omega, hF', Or.inl rfl⟩

/-- C9 (Reserve).  `Reserve(n)` with `n ≤ Capacity()` returns and changes
nothing at all.  Otherwise a `Reserve(n)` that returns leaves `Capacity() == n`,
and `Size()` and the contents (values and order) as they were; it does return
when no element operation throws and `n * sizeof(T)` bytes can be allocated. -/
theorem C9_reserve (ops : ElemOps T) (m : Mem T) (this : Nat) (v : Vector) (l : List T)
    (n : Nat) (hv : m.vecs[this]? = some (some v)) (hH : Holds m v l) (hn : n < SIZE_MOD) :
    (n ≤ v.data_.capacity_ → Vector.Reserve ops this n m = .ret () m) ∧
    (v.data_.capacity_ < n →
      (Vector.Reserve ops this n m).Spec
        (NoThrow ops ∧ 0 < ops.sizeofT ∧ n * ops.sizeofT < SIZE_MOD ∧ n * ops.sizeofT ≤ m.free)
        (fun _ m' => ∃ v', m'.vecs[this]? = some (some v') ∧ Holds m' v' l ∧
          Vector.Capacity this m' = .ret n m' ∧ Vector.Size this m' = .ret l.length m')) := by
  have hspec := Vector.Reserve_spec ops m this v l n hv hH hn
  constructor
  · intro hle
    obtain ⟨u, m', hret⟩ := hspec.1 (Or.inl hle)
    obtain ⟨-, -, -, -, -, -, -, hsame, -⟩ := hspec.2 u m' hret
    rw [hret, hsame hle]
  · intro hlt
    refine hspec.weaken ?_ ?_
    · rintro ⟨hno, h1, h2, h3⟩
      exact Or.inr ⟨h1, h2, h3, hno⟩
    · rintro _ m' ⟨v', hv', hH', hs', hc', -⟩
      refine ⟨v', hv', hH', ?_, ?_⟩
      · rw [Vector.Capacity_eval m' this v' hv', hc']
        congr 1; omega
      · rw [Vector.Size_eval m' this v' hv', hs', hH.1]

@[simp] theorem Mem.heap_pushVec (m : Mem T) (v : Vector) : (m.pushVec v).heap = m.heap := rfl

@[simp] theorem Mem.free_pushVec (m : Mem T) (v : Vector) : (m.pushVec v).free = m.free := rfl

@[simp] theorem Mem.block_pushVec (m : Mem T) (v : Vector) (b : Nat) :
    (m.pushVec v).block b = m.block b := by
  cases b <;> rfl

@[simp] theorem Mem.vecs_pushVec (m : Mem T) (v : Vector) :
    (m.pushVec v).vecs = m.vecs ++ [some v] := rfl

theorem Mem.vec_pushVec_new (m : Mem T) (v : Vector) :
    (m.pushVec v).vecs[m.vecs.length]? = some (some v) := by
  simp

theorem Mem.vec_pushVec_old (m : Mem T) (v : Vector) (j : Nat) (o : Option Vector)
    (h : m.vecs[j]? = some o) : (m.pushVec v).vecs[j]? = some o := by
  have := m.lt_of_vec j o h
  rw [Mem.vecs_pushVec, List.getElem?_append_left this]; exact h

theorem Vector.eta (v : Vector) :
    ({ data_ := { buffer_ := v.data_.buffer_, capacity_ := v.data_.capacity_ }, size_ := v.size_ } :
      Vector) = v := rfl

/-- `Swap` exchanges the members of the two objects and touches nothing else. -/
theorem Vector.Swap_eval (m : Mem T) (this other : Nat) (a b : Vector)
    (ha : m.vecs[this]? = some (some a)) (hb : m.vecs[other]? = some (some b)) :
    Vector.Swap this other m = .ret () ((m.putVec this (some b)).putVec other (some a)) := by
  unfold Vector.Swap
  rw [run_bind_ret (getVec_eval m this a ha), run_bind_ret (getVec_eval m other b hb)]
  simp only [RawMemory.Swap]
  rw [run_bind_ret (setVec_eval m this a _ ha)]
  have hb' : ∃ w, (m.putVec this (some (⟨⟨b.data_.buffer_, b.data_.capacity_⟩, b.size_⟩ :
      Vector))).vecs[other]? = some (some w) := by
    by_cases h : this = other
    · subst h; exact ⟨_, m.vec_putVec_self this _ _ ha⟩
    · exact ⟨b, by rw [Mem.vec_putVec_ne _ _ _ _ h]; exact hb⟩
  obtain ⟨w, hw⟩ := hb'
  rw [setVec_eval _ other w _ hw]

theorem Mem.block_putVec2 (m : Mem T) (i j : Nat) (o o' : Option Vector) (b : Nat) :
    ((m.putVec i o).putVec j o').block b = m.block b := by
  rw [Mem.block_putVec, Mem.block_putVec]

theorem Holds.of_blocks {m m' : Mem T} {v : Vector} {l : List T} (h : Holds m v l)
    (hb : ∀ b, m'.block b = m.block b) : Holds m' v l :=
  h.of_block_eq (hb _)

/-- Counterexample to C7 as stated: with `Y = [9]` and `X = [1, 2]`, the
assignment `Y = std::move(X)` leaves `X` with `Size() == 1` and
`Capacity() == 1` (the former members of `Y`), not with `0` and `0`. -/
theorem C7_move_assign_counterexample :
    (Holds mem_xy ⟨⟨⟨1, 0⟩, 2⟩, 2⟩ [1, 2] ∧ Holds mem_xy ⟨⟨⟨2, 0⟩, 1⟩, 1⟩ [9]) ∧
      Vector.move_assign 1 0 mem_xy = .ret () mem_xy_swapped ∧
      Vector.Size 0 mem_xy_swapped = .ret 1 mem_xy_swapped ∧
      Vector.Capacity 0 mem_xy_swapped = .ret 1 mem_xy_swapped ∧
      Vector.Size 0 mem_xy_swapped ≠ .ret 0 mem_xy_swapped ∧
      Vector.Capacity 0 mem_xy_swapped ≠ .ret 0 mem_xy_swapped := by
  decide

/-- C7, amended (move assignment swaps).  For two distinct vectors `X` and
`Y`, the assignment `Y = std::move(X)` always returns; afterwards `Y` has the
former size, capacity and contents of `X`, and `X` has the former size,
capacity and contents of `Y`.  So `X` is left with `Size() == 0` and
`Capacity() == 0` exactly when `Y` had them before. -/
theorem C7_move_assign_swaps (m : Mem T) (x y : Nat) (vx vy : Vector) (lx ly : List T)
    (hne : y ≠ x) (hx : m.vecs[x]? = some (some vx)) (hy : m.vecs[y]? = some (some vy))
    (hHx : Holds m vx lx) (hHy : Holds m vy ly) :
    ∃ m', Vector.move_assign y x m = .ret () m' ∧
      m'.vecs[y]? = some (some vx) ∧ Holds m' vx lx ∧
      Vector.Size y m' = .ret lx.length m' ∧
      Vector.Capacity y m' = .ret vx.data_.capacity_ m' ∧
      m'.vecs[x]? = some (some vy) ∧ Holds m' vy ly ∧
      Vector.Size x m' = .ret ly.length m' ∧
      Vector.Capacity x m' = .ret vy.data_.capacity_ m' := by
  have hrun : Vector.move_assign y x m = .ret () ((m.putVec y (some vx)).putVec x (some vy)) := by
    unfold Vector.move_assign
    rw [ite_run, if_pos hne, Vector.Swap_eval m y x vy vx hy hx]
  have hy' : ((m.putVec y (some vx)).putVec x (some vy)).vecs[y]? = some (some vx) := by
    rw [Mem.vec_putVec_ne _ _ _ _ (Ne.symm hne)]
    exact m.vec_putVec_self y _ _ hy
  have hx' : ((m.putVec y (some vx)).putVec x (some vy)).vecs[x]? = some (some vy) :=
    Mem.vec_putVec_self _ x _ (some vx) (by rw [Mem.vec_putVec_ne _ _ _ _ hne]; exact hx)
  refine ⟨_, hrun, hy', hHx.of_blocks (Mem.block_putVec2 m y x _ _), ?_, ?_, hx',
    hHy.of_blocks (Mem.block_putVec2 m y x _ _), ?_, ?_⟩
  · rw [Vector.Size_eval _ y vx hy', hHx.1]
  · rw [Vector.Capacity_eval _ y vx hy']
  · rw [Vector.Size_eval _ x vy hx', hHy.1]
  · rw [Vector.Capacity_eval _ x vy hx']

/-- Witness for C7 (amended): `Y = [9]`, `X = [1, 2]`. -/
theorem C7_move_assign_swaps_witness :
    ((1 : Nat) ≠ 0 ∧ mem_xy.vecs[0]? = some (some ⟨⟨⟨1, 0⟩, 2⟩, 2⟩) ∧
        mem_xy.vecs[1]? = some (some ⟨⟨⟨2, 0⟩, 1⟩, 1⟩) ∧
        Holds mem_xy ⟨⟨⟨1, 0⟩, 2⟩, 2⟩ [1, 2] ∧ Holds mem_xy ⟨⟨⟨2, 0⟩, 1⟩, 1⟩ [9]) ∧
      ∃ m', Vector.move_assign 1 0 mem_xy = .ret () m' ∧
        m'.vecs[1]? = some (some ⟨⟨⟨1, 0⟩, 2⟩, 2⟩) ∧ Holds m' ⟨⟨⟨1, 0⟩, 2⟩, 2⟩ [1, 2] ∧
        Vector.Size 1 m' = .ret [1, 2].length m' ∧
        Vector.Capacity 1 m' = .ret 2 m' ∧
        m'.vecs[0]? = some (some ⟨⟨⟨2, 0⟩, 1⟩, 1⟩) ∧ Holds m' ⟨⟨⟨2, 0⟩, 1⟩, 1⟩ [9] ∧
        Vector.Size 0 m' = .ret [9].length m' ∧
        Vector.Capacity 0 m' = .ret 1 m' :=
  ⟨⟨by decide, by decide, by decide, by decide, by decide⟩,
    C7_move_assign_swaps mem_xy 0 1 ⟨⟨⟨1, 0⟩, 2⟩, 2⟩ ⟨⟨⟨2, 0⟩, 1⟩, 1⟩ [1, 2] [9] (by decide)
      (by decide) (by decide) (by decide) (by decide)⟩

/-- C8 (move construction).  Move-constructing from a vector `X` always
returns, with a new object that has the former size, capacity and contents of
`X`, and it leaves `X` with `Size() == 0` and `Capacity() == 0`. -/
theorem C8_move_construct (m : Mem T) (other : Nat) (x : Vector) (l : List T)
    (hx : m.vecs[other]? = some (some x)) (hH : Holds m x l) :
    ∃ m', Vector.ctor_move other m = .ret m.vecs.length m' ∧
      m'.vecs[m.vecs.length]? = some (some x) ∧ Holds m' x l ∧
      Vector.Size m.vecs.length m' = .ret l.length m' ∧
      Vector.Capacity m.vecs.length m' = .ret x.data_.capacity_ m' ∧
      m'.vecs[other]? = some (some {}) ∧ Holds m' {} ([] : List T) ∧
      Vector.Size other m' = .ret 0 m' ∧ Vector.Capacity other m' = .ret 0 m' := by
  have hlt := m.lt_of_vec other _ hx
  have hne : m.vecs.length ≠ other := by omega
  have hnew : (m.pushVec {}).vecs[m.vecs.length]? = some (some {}) := m.vec_pushVec_new {}
  have hold : (m.pushVec {}).vecs[other]? = some (some x) := m.vec_pushVec_old {} other _ hx
  have hrun : Vector.ctor_move other m =
      .ret m.vecs.length (((m.pushVec {}).putVec m.vecs.length (some x)).putVec other (some {})) := by
    unfold Vector.ctor_move
    rw [run_bind_ret (show newVec {} m = .ret m.vecs.length (m.pushVec {}) from rfl), if_pos hne,
      run_bind_ret (Vector.Swap_eval (m.pushVec {}) m.vecs.length other {} x hnew hold)]
    rfl
  have h1 : (((m.pushVec {}).putVec m.vecs.length (some x)).putVec other (some {})).vecs[
      m.vecs.length]? = some (some x) := by
    rw [Mem.vec_putVec_ne _ _ _ _ (Ne.symm hne)]
    exact Mem.vec_putVec_self _ _ _ _ hnew
  have h2 : (((m.pushVec {}).putVec m.vecs.length (some x)).putVec other (some {})).vecs[other]? =
      some (some {}) :=
    Mem.vec_putVec_self _ other _ (some x) (by rw [Mem.vec_putVec_ne _ _ _ _ hne]; exact hold)
  have hblk : ∀ b, (((m.pushVec {}).putVec m.vecs.length (some x)).putVec other
      (some {})).block b = m.block b := by
    intro b; rw [Mem.block_putVec2, Mem.block_pushVec]
  have hempty : Holds (((m.pushVec {}).putVec m.vecs.length (some x)).putVec other (some {})) {}
      ([] : List T) :=
    ⟨rfl, Nat.le_refl _, by rw [SIZE_MOD_eq]; decide, rfl, fun _ => rfl, fun h => absurd rfl h⟩
  refine ⟨_, hrun, h1, hH.of_blocks hblk, ?_, ?_, h2, hempty, ?_, ?_⟩
  · rw [Vector.Size_eval _ _ x h1, hH.1]
  · rw [Vector.Capacity_eval _ _ x h1]
  · rw [Vector.Size_eval _ _ _ h2]
  · rw [Vector.Capacity_eval _ _ _ h2]

/-- Witness for C8: move-constructing from the vector `[1, 2]`. -/
theorem C8_move_construct_witness :
    (mem_xy.vecs[0]? = some (some ⟨⟨⟨1, 0⟩, 2⟩, 2⟩) ∧ Holds mem_xy ⟨⟨⟨1, 0⟩, 2⟩, 2⟩ [1, 2]) ∧
      ∃ m', Vector.ctor_move 0 mem_xy = .ret mem_xy.vecs.length m' ∧
        m'.vecs[mem_xy.vecs.length]? = some (some ⟨⟨⟨1, 0⟩, 2⟩, 2⟩) ∧
        Holds m' ⟨⟨⟨1, 0⟩, 2⟩, 2⟩ [1, 2] ∧
        Vector.Size mem_xy.vecs.length m' = .ret [1, 2].length m' ∧
        Vector.Capacity mem_xy.vecs.length m' = .ret 2 m' ∧
        m'.vecs[0]? = some (some ⟨⟨nullptr, 0⟩, 0⟩) ∧
        Holds m' ⟨⟨nullptr, 0⟩, 0⟩ ([] : List Nat) ∧
        Vector.Size 0 m' = .ret 0 m' ∧ Vector.Capacity 0 m' = .ret 0 m' :=
  ⟨⟨by decide, by decide⟩,
    C8_move_construct mem_xy 0 ⟨⟨⟨1, 0⟩, 2⟩, 2⟩ [1, 2] (by decide) (by decide)⟩

/-- Witness for C9: reserving 8 slots for the vector `[10, 20, 30, 40]` of
capacity 4. -/
theorem C9_reserve_witness :
    (mem_abcd.vecs[0]? = some (some ⟨⟨⟨1, 0⟩, 4⟩, 4⟩) ∧
        Holds mem_abcd ⟨⟨⟨1, 0⟩, 4⟩, 4⟩ [10, 20, 30, 40] ∧ 8 < SIZE_MOD) ∧
      ((8 ≤ 4 → Vector.Reserve intOps 0 8 mem_abcd = .ret () mem_abcd) ∧
      (4 < 8 →
        (Vector.Reserve intOps 0 8 mem_abcd).Spec
          (NoThrow intOps ∧ 0 < intOps.sizeofT ∧ 8 * intOps.sizeofT < SIZE_MOD ∧
            8 * intOps.sizeofT ≤ mem_abcd.free)
          (fun _ m' => ∃ v', m'.vecs[0]? = some (some v') ∧ Holds m' v' [10, 20, 30, 40] ∧
            Vector.Capacity 0 m' = .ret 8 m' ∧
            Vector.Size 0 m' = .ret [10, 20, 30, 40].length m'))) :=
  ⟨⟨by decide, by decide, by rw [SIZE_MOD_eq]; decide⟩,
    C9_reserve intOps mem_abcd 0 ⟨⟨⟨1, 0⟩, 4⟩, 4⟩ [10, 20, 30, 40] 8 (by decide) (by decide)
      (by rw [SIZE_MOD_eq]; decide)⟩

/-- C10 (Resize).  A `Resize(n)` that returns leaves `Size() == n` and
`Capacity() == max(old capacity, n)`; the new contents `l'` agree with the old
contents `l` on the first `min(n, |l|)` indices, and every element at an index
in `[|l|, n)` is the value-initialised `T()`.  It does return when no element
operation throws and either `n * sizeof(T)` bytes can be allocated (growth) or
the buffer really has `Capacity()` slots (no growth). -/
theorem C10_resize (ops : ElemOps T) (m : Mem T) (this : Nat) (v : Vector) (l : List T)
    (n : Nat) (hv : m.vecs[this]? = some (some v)) (hH : Holds m v l) (hn : n < SIZE_MOD) :
    (Vector.Resize ops this n m).Spec
      (NoThrow ops ∧
        (if v.data_.capacity_ < n then
          0 < ops.sizeofT ∧ n * ops.sizeofT < SIZE_MOD ∧ n * ops.sizeofT ≤ m.free
        else Exact m v))
      (fun _ m' => ∃ v' l', m'.vecs[this]? = some (some v') ∧ Holds m' v' l' ∧
        Vector.Size this m' = .ret n m' ∧
        Vector.Capacity this m' = .ret (max v.data_.capacity_ n) m' ∧
        l' = l.take n ++ List.replicate (n - l.length) ops.value_init ∧ l'.length = n ∧
        (∀ j, j < min n l.length → l'[j]? = l[j]?) ∧
        (∀ j, l.length ≤ j → j < n → l'[j]? = some ops.value_init)) := by
  refine (Vector.Resize_spec ops m this v l n hv hH hn).weaken (fun h => h) ?_
  rintro _ m' ⟨v', hv', hH', hs', hc', -⟩
  refine ⟨v', _, hv', hH', ?_, ?_, rfl, ?_, ?_, ?_⟩
  · rw [Vector.Size_eval m' this v' hv', hs']
  · rw [Vector.Capacity_eval m' this v' hv', hc']
  · simp only [List.length_append, List.length_take, List.length_replicate]; omega
  · intro j hj
    rw [List.getElem?_append_left (by rw [List.length_take]; omega),
      List.getElem?_take_of_lt (by omega)]
  · intro j h1 h2
    rw [List.getElem?_append_right (by rw [List.length_take]; omega), List.length_take,
      List.getElem?_replicate, if_pos (by omega)]

/-- Witness for C10: `Resize(5)` of the vector `[10, 20, 40]` of capacity 4. -/
theorem C10_resize_witness :
    (mem_abd.vecs[0]? = some (some ⟨⟨⟨1, 0⟩, 4⟩, 3⟩) ∧ Holds mem_abd ⟨⟨⟨1, 0⟩, 4⟩, 3⟩ [10, 20, 40] ∧
        5 < SIZE_MOD) ∧
      (Vector.Resize intOps 0 5 mem_abd).Spec
        (NoThrow intOps ∧
          (if 4 < 5 then
            0 < intOps.sizeofT ∧ 5 * intOps.sizeofT < SIZE_MOD ∧ 5 * intOps.sizeofT ≤ mem_abd.free
          else Exact mem_abd ⟨⟨⟨1, 0⟩, 4⟩, 3⟩))
        (fun _ m' => ∃ v' l', m'.vecs[0]? = some (some v') ∧ Holds m' v' l' ∧
          Vector.Size 0 m' = .ret 5 m' ∧
          Vector.Capacity 0 m' = .ret (max 4 5) m' ∧
          l' = [10, 20, 40].take 5 ++ List.replicate (5 - [10, 20, 40].length) intOps.value_init ∧
          l'.length = 5 ∧
          (∀ j, j < min 5 [10, 20, 40].length → l'[j]? = [10, 20, 40][j]?) ∧
          (∀ j, [10, 20, 40].length ≤ j → j < 5 → l'[j]? = some intOps.value_init)) :=
  ⟨⟨by decide, by decide, by rw [SIZE_MOD_eq]; decide⟩,
    C10_resize intOps mem_abd 0 ⟨⟨⟨1, 0⟩, 4⟩, 3⟩ [10, 20, 40] 5 (by decide) (by decide)
      (by rw [SIZE_MOD_eq]; decide)⟩

/-- A vector whose size equals its capacity owns a block of exactly that many
slots. -/
theorem Holds.exact_of_full {m : Mem T} {v : Vector} {l : List T} (h : Holds m v l)
    (hf : v.size_ = v.data_.capacity_) : Exact m v := by
  intro blk hblk
  obtain ⟨hsz, hle, hcap, hoff, hnull, hrep⟩ := h
  by_cases hc : v.data_.capacity_ = 0
  · rw [Option.mem_def, hnull hc] at hblk
    cases hblk
  · obtain ⟨blk', hblk', hs, hk⟩ := hrep hc
    rw [Option.mem_def] at hblk hblk'
    rw [hblk] at hblk'
    cases hblk'
    have : l.length ≤ blk.slots.length := by
      conv_rhs => rw [hs]
      simp
    omega

theorem delVec_eval (m : Mem T) (this : Nat) (v : Vector) (h : m.vecs[this]? = some (some v)) :
    delVec this m = .ret () (m.putVec this none) := by
  simp [delVec, h]

theorem newVec_eval (m : Mem T) (v : Vector) : newVec v m = .ret m.vecs.length (m.pushVec v) := rfl

/-- What the copy constructor guarantees when it returns. -/
theorem Vector.ctor_copy_spec (ops : ElemOps T) (m : Mem T) (other : Nat) (x : Vector) (l : List T)
    (hx : m.vecs[other]? = some (some x)) (hH : Holds m x l) :
    (Vector.ctor_copy ops other m).Spec
      (0 < ops.sizeofT ∧ l.length * ops.sizeofT < SIZE_MOD ∧ l.length * ops.sizeofT ≤ m.free ∧
        ∀ y ∈ l, ops.copy_throws y = false)
      (fun c m' => c = m.vecs.length ∧ ∃ vc : Vector, m'.vecs = m.vecs ++ [some vc] ∧
        vc.size_ = l.length ∧ vc.data_.capacity_ = l.length ∧ Holds m' vc l ∧
        (vc.data_.buffer_ = nullptr ∨ vc.data_.buffer_ = ⟨m.heap.length + 1, 0⟩) ∧
        m.heap.length ≤ m'.heap.length ∧ m'.heap.length ≤ m.heap.length + 1 ∧
        ∀ b, b ≤ m.heap.length → m'.block b = m.block b) := by
  obtain ⟨hsz, hle, hcap, hoff, hnull, -⟩ := id hH
  have hlt := m.lt_of_vec other _ hx
  have hne : m.vecs.length ≠ other := by omega
  unfold Vector.ctor_copy
  rw [run_bind_ret (getVec_eval m other x hx), run_bind, RawMemory.ctor_eval]
  simp only [RawMemory.GetAddress]
  by_cases hn0 : x.size_ = 0
  · -- an empty source: no buffer
    rw [if_pos hn0, Outcome.bind_ret, run_bind_ret (newVec_eval m _)]
    have hvl : (m.pushVec { data_ := { buffer_ := nullptr, capacity_ := 0 }, size_ := x.size_ }
        ).vecs.length ≠ other := by simp; omega
    have hl : l = [] := List.length_eq_zero.mp (by omega)
    refine .of_run (s := m.pushVec ⟨⟨nullptr, 0⟩, 0⟩) ?_ ⟨rfl, ⟨⟨nullptr, 0⟩, 0⟩, rfl, by simp [hl],
      by simp [hl], ?_, Or.inl rfl, Nat.le_refl _, Nat.le_succ _, fun b _ => m.block_pushVec _ b⟩
    · rw [if_pos hne, hn0]
      rfl
    · rw [hl]
      exact ⟨rfl, Nat.le_refl _, by rw [SIZE_MOD_eq]; decide, rfl, fun _ => rfl,
        fun h => absurd rfl h⟩
  rw [if_neg hn0]
  by_cases hfree : (x.size_ * ops.sizeofT) % SIZE_MOD ≤ m.free
  swap
  · rw [if_neg hfree]
    refine .of_not_ret (by simp) ?_
    rintro ⟨_, h1, h2, _⟩
    rw [hsz, Nat.mod_eq_of_lt h1] at hfree
    exact hfree h2
  rw [if_pos hfree, Outcome.bind_ret]
  generalize hbytes : (x.size_ * ops.sizeofT) % SIZE_MOD = bytes at *
  generalize hk' : bytes / ops.sizeofT = k' at *
  have hk'n : k' ≤ l.length := by rw [← hk', ← hbytes, ← hsz]; exact alloc_slots_le _ _
  have hk'eq : 0 < ops.sizeofT → l.length * ops.sizeofT < SIZE_MOD → k' = l.length := by
    intro h1 h2; rw [← hk', ← hbytes, hsz]; exact alloc_slots_eq _ _ h1 h2
  set nb := m.heap.length + 1 with hnb
  set vc : Vector := { data_ := { buffer_ := ⟨nb, 0⟩, capacity_ := x.size_ }, size_ := x.size_ }
    with hvc
  rw [run_bind_ret (newVec_eval _ vc)]
  have hlen1 : (m.alloc bytes k').vecs.length = m.vecs.length := by simp
  rw [hlen1, if_pos hne]
  set m2 := (m.alloc bytes k').pushVec vc with hm2
  have hnbblk : m2.block nb = some ⟨bytes, List.replicate k' none⟩ := by
    rw [hm2, Mem.block_pushVec, Mem.block_alloc]; simp [hnb]
  have hc : x.data_.capacity_ ≠ 0 := by omega
  obtain ⟨blk, k, hb, hs, hk⟩ := hH.block hc
  set ob := x.data_.buffer_.base with hob
  have hoble := m.block_le_length ob blk hb
  have hneb : ob ≠ nb := by omega
  have hb2 : m2.block ob = some blk := by
    rw [hm2, Mem.block_pushVec, Mem.block_alloc, if_neg hneb, hb]
  by_cases hroom : l.length ≤ k'
  swap
  · -- the new block is too small for the elements
    refine .of_not_ret (run_bind_not_ret (onException_not_ret ?_)) ?_
    · intro u s hr
      obtain ⟨t, ht⟩ : ∃ t, x.size_ = t + 1 := ⟨x.size_ - 1, by omega⟩
      rw [ht] at hr
      obtain ⟨len, hlen, hlt'⟩ := uninitialized_copy_loop_room ops _ _ t 0 m2 s hr
      simp only [Mem.len, hnbblk, Option.map_some', List.length_replicate, Option.some.injEq] at hlen
      simp at hlt'
      omega
    · rintro ⟨h1, h2, _, _⟩
      have := hk'eq h1 h2; omega
  have hloop := uninitialized_copy_loop_block ops l m2 x.data_.buffer_ (⟨nb, 0⟩ : Ptr) 0 blk
    ⟨bytes, List.replicate k' none⟩ [] (List.replicate k none) []
    (List.replicate l.length none) (List.replicate (k' - l.length) none)
    (by simpa using hneb) hb2 (by simpa using hs) (by simpa using hoff) hnbblk
    (by simp [← List.replicate_add]; omega) (by simp) rfl
  simp only [List.nil_append] at hloop
  set m3 := m2.setBlock nb (some ⟨bytes, l.map some ++ List.replicate (k' - l.length) none⟩)
    with hm3
  have hrun : ((do
      onException (uninitialized_copy_n ops x.data_.buffer_ x.size_ (⟨nb, 0⟩ : Ptr))
        (do delVec m.vecs.length; RawMemory.dtor ⟨⟨nb, 0⟩, x.size_⟩)
      pure m.vecs.length : M (Mem T) Nat) m2).RetOrElse m.vecs.length m3
      (∃ y ∈ l, ops.copy_throws y = true) := by
    rw [hsz]
    exact Outcome.RetOrElse.bind
      (hloop.onException : (onException _ _ m2).RetOrElse _ _ _) (.of_eq rfl)
  refine .of_retOrElse hrun ?_ ?_
  · rintro ⟨_, _, _, h⟩ ⟨y, hy, hthrow⟩
    rw [h y hy] at hthrow
    cases hthrow
  have hblk3 : ∀ b, m3.block b = if b = nb then
      some ⟨bytes, l.map some ++ List.replicate (k' - l.length) none⟩ else m.block b := by
    intro b
    rw [hm3, Mem.block_setBlock _ _ _ _ _ hnbblk]
    split
    · rfl
    · rename_i hbn
      rw [hm2, Mem.block_pushVec, Mem.block_alloc, if_neg hbn]
  refine ⟨rfl, vc, by simp [hm3, hm2], hsz, hsz, ?_, Or.inr rfl, by simp [hm3, hm2],
    by simp [hm3, hm2], fun b hb' => ?_⟩
  · refine Holds.intro _ vc l ⟨bytes, l.map some ++ List.replicate (k' - l.length) none⟩
      (k' - l.length) hsz (by show x.size_ < _; omega) rfl ?_ rfl
      (by show _ ≤ x.size_; omega) hn0
    show m3.block nb = _
    rw [hblk3, if_pos rfl]
  · rw [hblk3, if_neg (by omega)]

/-- The destructor of a vector always returns: it destroys the elements,
releases the buffer, and the object is gone. -/
theorem Vector.dtor_spec (m : Mem T) (this : Nat) (v : Vector) (l : List T)
    (hv : m.vecs[this]? = some (some v)) (hH : Holds m v l) :
    ∃ m', Vector.dtor this m = .ret () m' ∧ m'.vecs = m.vecs.set this none ∧
      m'.heap.length = m.heap.length ∧
      (∀ b, b ≠ v.data_.buffer_.base → m'.block b = m.block b) ∧
      m'.block v.data_.buffer_.base = none := by
  obtain ⟨hsz, hle, hcap, hoff, hnull, -⟩ := id hH
  unfold Vector.dtor
  rw [run_bind_ret (getVec_eval m this v hv)]
  simp only [RawMemory.GetAddress]
  by_cases hc : v.data_.capacity_ = 0
  · obtain ⟨hl, hs0, hbuf⟩ := hH.nil_of_cap_zero hc
    have e1 : destroy_n v.data_.buffer_ v.size_ m = .ret () m := by rw [hs0]; rfl
    have e2 : RawMemory.dtor v.data_ m = .ret () m := by
      have : v.data_ = { buffer_ := nullptr, capacity_ := v.data_.capacity_ } := by
        rw [← hbuf]
      rw [this]; exact RawMemory.dtor_null _ _
    refine ⟨m.putVec this none, ?_, rfl, rfl, fun b _ => Mem.block_putVec _ _ _ _, ?_⟩
    · rw [run_bind_ret e1, run_bind_ret e2]
      exact delVec_eval _ this v hv
    · rw [Mem.block_putVec, hbuf]; rfl
  obtain ⟨blk, k, hb, hs, hk⟩ := hH.block hc
  set ob := v.data_.buffer_.base with hob
  have hobuf : v.data_.buffer_ = ⟨ob, 0⟩ := Ptr.eq_of _ _ _ rfl hoff
  have hds := destroy_n_block l m v.data_.buffer_ blk [] (List.replicate k none) hb
    (by simpa using hs) (by simpa using hoff)
  rw [← hob] at hds
  set blk1 : Block T := ⟨blk.bytes, [] ++ List.replicate l.length none ++ List.replicate k none⟩
  set m1 := m.setBlock ob (some blk1) with hm1
  have hb1 : m1.block ob = some blk1 := by
    rw [hm1, Mem.block_setBlock _ _ _ _ _ hb]; simp
  have e2 : RawMemory.dtor v.data_ m1 = .ret () (m1.release ob blk1.bytes) := by
    have : v.data_ = { buffer_ := ⟨ob, 0⟩, capacity_ := v.data_.capacity_ } := by
      rw [← hobuf]
    rw [this]; exact RawMemory.dtor_block _ ob _ blk1 hb1
  have hv1 : (m1.release ob blk1.bytes).vecs[this]? = some (some v) := by
    simpa [hm1] using hv
  refine ⟨(m1.release ob blk1.bytes).putVec this none, ?_, by simp [hm1], by simp [hm1],
    fun b hbne => ?_, ?_⟩
  · rw [hsz, run_bind_ret hds, run_bind_ret e2]
    exact delVec_eval _ this v hv1
  · rw [Mem.block_putVec, Mem.block_release _ _ _ _ blk1 hb1, if_neg hbne, hm1,
      Mem.block_setBlock _ _ _ _ _ hb, if_neg hbne]
  · rw [Mem.block_putVec, Mem.block_release _ _ _ _ blk1 hb1, if_pos rfl]

theorem Mem.block_zero (m : Mem T) : m.block 0 = none := rfl

theorem std_copy_eval (ops : ElemOps T) (p d : Ptr) (n : Nat) :
    std_copy ops p (p + n) d = std_copy_loop ops p d n := by
  funext m
  unfold std_copy
  rw [run_bind_ret (assert_eval _ m ⟨rfl, by simp⟩)]
  have : (p + n).off - p.off = n := by simp
  rw [this]

/-- The branch of copy assignment that reuses the buffer: copy-assign the
common prefix, then construct the missing tail or destroy the surplus. -/
theorem Vector.copy_assign_in_place (ops : ElemOps T) (m : Mem T) (a : Nat) (va vb : Vector)
    (la lb : List T) (ha : m.vecs[a]? = some (some va)) (hHa : Holds m va la)
    (hHb : Holds m vb lb)
    (hdis : va.data_.capacity_ ≠ 0 → va.data_.buffer_.base ≠ vb.data_.buffer_.base)
    (hfit : lb.length ≤ va.data_.capacity_) :
    ((do
      std_copy ops vb.data_.GetAddress (vb.data_.GetAddress + min va.size_ vb.size_)
        va.data_.GetAddress
      if va.size_ < vb.size_ then
        uninitialized_copy_n ops (vb.data_.GetAddress + va.size_) (vb.size_ - va.size_)
          (va.data_.GetAddress + va.size_)
      else
        destroy_n (va.data_.GetAddress + vb.size_) (va.size_ - vb.size_)
      setVec a { va with size_ := vb.size_ } : M (Mem T) Unit) m).Spec
      (NoThrow ops ∧ Exact m va)
      (fun _ m' => m'.vecs = m.vecs.set a (some { va with size_ := vb.size_ }) ∧
        Holds m' { va with size_ := vb.size_ } lb ∧ m'.heap.length = m.heap.length ∧
        ∀ x, x ≠ va.data_.buffer_.base → m'.block x = m.block x) := by
  obtain ⟨hsza, hlea, hcapa, hoffa, hnulla, -⟩ := id hHa
  obtain ⟨hszb, hleb, hcapb, hoffb, hnullb, -⟩ := id hHb
  simp only [RawMemory.GetAddress]
  rw [std_copy_eval, hsza, hszb]
  by_cases hc : va.data_.capacity_ = 0
  · -- no buffer at all: both vectors are empty
    obtain ⟨hla, hsa0, hbuf⟩ := hHa.nil_of_cap_zero hc
    have hlb : lb = [] := List.length_eq_zero.mp (by omega)
    rw [hla, hlb]
    have e1 : std_copy_loop ops vb.data_.buffer_ va.data_.buffer_
        (min ([] : List T).length ([] : List T).length) m = .ret () m := rfl
    rw [run_bind_ret e1, if_neg (by simp)]
    rw [run_bind_ret (show destroy_n (va.data_.buffer_ + ([] : List T).length)
      (([] : List T).length - ([] : List T).length) m = .ret () m from rfl)]
    refine .of_run (setVec_eval m a va _ ha) ⟨rfl, ?_, rfl, fun _ _ => Mem.block_putVec _ _ _ _⟩
    refine Holds.after_putVec ?_ _ _
    exact ⟨rfl, Nat.zero_le _, hcapa, hoffa, hnulla, fun h => absurd hc h⟩
  obtain ⟨blkA, kA, hbA, hsA, hkA⟩ := hHa.block hc
  set ab := va.data_.buffer_.base with hab
  have hdis' := hdis hc
  -- the common prefix
  have hcopy : ∀ n, n ≤ la.length → n ≤ lb.length →
      (std_copy_loop ops vb.data_.buffer_ va.data_.buffer_ n m).RetOrElse ()
        (m.setBlock ab (some ⟨blkA.bytes,
          (lb.take n).map some ++ ((la.drop n).map some ++ List.replicate kA none)⟩))
        (¬ NoThrow ops) := by
    intro n hna hnb
    by_cases hcb : vb.data_.capacity_ = 0
    · obtain ⟨hlb, hsb0, -⟩ := hHb.nil_of_cap_zero hcb
      have hn0 : n = 0 := by rw [hlb] at hnb; simpa using hnb
      have hm1m : m.setBlock ab (some ⟨blkA.bytes,
          (lb.take n).map some ++ ((la.drop n).map some ++ List.replicate kA none)⟩) = m := by
        apply Mem.setBlock_self
        rw [hbA, hn0]
        cases blkA
        simp_all
      rw [hm1m, hn0]
      exact .of_eq rfl
    · obtain ⟨blkB, kB, hbB, hsB, hkB⟩ := hHb.block hcb
      have := std_copy_loop_block ops (lb.take n) m vb.data_.buffer_ va.data_.buffer_ (la.take n)
        blkB blkA [] ((lb.drop n).map some ++ List.replicate kB none) []
        ((la.drop n).map some ++ List.replicate kA none) (Ne.symm hdis') hbB
        (by rw [hsB, List.nil_append, ← List.append_assoc, ← List.map_append,
          List.take_append_drop])
        (by simpa using hoffb) hbA
        (by rw [hsA, List.nil_append, ← List.append_assoc, ← List.map_append,
          List.take_append_drop])
        (by rw [List.length_take, List.length_take]; omega) (by simpa using hoffa)
      rw [List.length_take, Nat.min_eq_left hnb] at this
      simp only [List.nil_append] at this
      refine this.mono ?_
      rintro ⟨y, x, h⟩ hno
      rw [hno.2.2.2.1 y x] at h; cases h
  -- what remains to be shown once the block of `a` holds `S`
  have hfin : ∀ (m1 : Mem T) (blk1 : Block T) (S : List (Option T)) (k' : Nat),
      m1 = m.setBlock ab (some blk1) →
      S = lb.map some ++ List.replicate k' none → lb.length + k' ≤ va.data_.capacity_ →
      (m1.setBlock ab (some ⟨blkA.bytes, S⟩)).vecs[a]? = some (some va) ∧
      ((m1.setBlock ab (some ⟨blkA.bytes, S⟩)).putVec a
          (some { va with size_ := lb.length })).vecs =
        m.vecs.set a (some { va with size_ := lb.length }) ∧
      Holds ((m1.setBlock ab (some ⟨blkA.bytes, S⟩)).putVec a
        (some { va with size_ := lb.length })) { va with size_ := lb.length } lb ∧
      ((m1.setBlock ab (some ⟨blkA.bytes, S⟩)).putVec a
          (some { va with size_ := lb.length })).heap.length = m.heap.length ∧
      ∀ x, x ≠ ab → ((m1.setBlock ab (some ⟨blkA.bytes, S⟩)).putVec a
          (some { va with size_ := lb.length })).block x = m.block x := by
    intro m1 blk1 S k' hm1 hS hk
    have hb1 : m1.block ab = some blk1 := by
      rw [hm1, Mem.block_setBlock _ _ _ _ _ hbA]; simp
    refine ⟨by simpa [hm1] using ha, by simp [hm1], ?_, by simp [hm1], fun x hx => ?_⟩
    · refine (Holds.intro _ { va with size_ := lb.length } lb ⟨blkA.bytes, S⟩ k' rfl hcapa hoffa
        ?_ hS hk hc).after_putVec _ _
      show (m1.setBlock ab _).block ab = _
      rw [Mem.block_setBlock _ _ _ _ _ hb1]; simp
    · rw [Mem.block_putVec, Mem.block_setBlock _ _ _ _ _ hb1, if_neg hx, hm1,
        Mem.block_setBlock _ _ _ _ _ hbA, if_neg hx]
  by_cases hlt : la.length < lb.length
  · -- the source is longer: construct the tail
    rw [if_pos hlt, Nat.min_eq_left (by omega)]
    have hcopy' := hcopy la.length (Nat.le_refl _) (by omega)
    rw [List.drop_length, List.map_nil, List.nil_append] at hcopy'
    set m1 := m.setBlock ab (some ⟨blkA.bytes,
      (lb.take la.length).map some ++ List.replicate kA none⟩) with hm1
    have hb1 : m1.block ab = some ⟨blkA.bytes,
        (lb.take la.length).map some ++ List.replicate kA none⟩ := by
      rw [hm1, Mem.block_setBlock _ _ _ _ _ hbA]; simp
    have hcb : vb.data_.capacity_ ≠ 0 := by omega
    obtain ⟨blkB, kB, hbB, hsB, hkB⟩ := hHb.block hcb
    have hbB1 : m1.block vb.data_.buffer_.base = some blkB := by
      rw [hm1, Mem.block_setBlock _ _ _ _ _ hbA, if_neg (Ne.symm hdis'), hbB]
    by_cases hroom : lb.length - la.length ≤ kA
    swap
    · refine .of_not_ret ?_ ?_
      · intro u s hr
        rw [bind_eq_ret_iff] at hr
        obtain ⟨_, s1, h1, h2⟩ := hr
        obtain ⟨-, rfl⟩ := hcopy'.of_ret h1
        rw [bind_eq_ret_iff] at h2
        obtain ⟨_, s2, h3, -⟩ := h2
        obtain ⟨t, ht⟩ : ∃ t, lb.length - la.length = t + 1 :=
          ⟨lb.length - la.length - 1, by omega⟩
        unfold uninitialized_copy_n at h3
        rw [ht] at h3
        obtain ⟨len, hlen, hlt'⟩ := uninitialized_copy_loop_room ops _ _ t 0 m1 s2 h3
        simp only [Mem.len, Ptr.add_base, ← hab, hb1, Option.map_some',
          Option.some.injEq] at hlen
        simp only [Ptr.add_off, hoffa] at hlt'
        rw [← hlen] at hlt'
        simp at hlt'
        omega
      · rintro ⟨-, hex⟩
        have h1 := hex blkA hbA
        have h2 : blkA.slots.length = la.length + kA := by simp [hsA]
        omega
    have hloop := uninitialized_copy_loop_block ops (lb.drop la.length) m1
      (vb.data_.buffer_ + la.length) (va.data_.buffer_ + la.length) 0 blkB
      ⟨blkA.bytes, (lb.take la.length).map some ++ List.replicate kA none⟩
      ((lb.take la.length).map some) (List.replicate kB none) ((lb.take la.length).map some)
      (List.replicate (lb.length - la.length) none)
      (List.replicate (kA - (lb.length - la.length)) none)
      (by simpa using (Ne.symm hdis')) (by simpa using hbB1)
      (by rw [hsB, ← List.map_append, List.take_append_drop])
      (by simp only [Ptr.add_off, hoffb, List.length_map, List.length_take]; omega)
      (by simpa using hb1)
      (by rw [List.append_assoc, ← List.replicate_add,
          show lb.length - la.length + (kA - (lb.length - la.length)) = kA by omega])
      (by simp only [List.length_replicate, List.length_drop])
      (by simp only [Ptr.add_off, hoffa, List.length_map, List.length_take]; omega)
    rw [List.length_drop] at hloop
    simp only [Ptr.add_base] at hloop
    rw [← hab] at hloop
    obtain ⟨h1, h2, h3, h4, h5⟩ := hfin m1 _
      ((lb.take la.length).map some ++ (lb.drop la.length).map some ++
        List.replicate (kA - (lb.length - la.length)) none)
      (kA - (lb.length - la.length)) hm1
      (by rw [← List.map_append, List.take_append_drop]) (by omega)
    refine Outcome.Spec.of_retOrElse (a := ()) (C := ¬ NoThrow ops) ?_ (fun h hno => hno h.1)
      ⟨h2, h3, h4, h5⟩
    refine Outcome.RetOrElse.bind hcopy' ?_
    refine Outcome.RetOrElse.bind (a := ()) (hloop.mono ?_) ?_
    · rintro ⟨y, _, h⟩ hno
      rw [hno.2.1 y] at h; cases h
    exact .of_eq (setVec_eval _ a va _ h1)
  · -- the source is not longer: destroy the surplus
    rw [if_neg hlt, Nat.min_eq_right (by omega)]
    have hcopy' := hcopy lb.length (by omega) (Nat.le_refl _)
    rw [List.take_length] at hcopy'
    set m1 := m.setBlock ab (some ⟨blkA.bytes,
      lb.map some ++ ((la.drop lb.length).map some ++ List.replicate kA none)⟩) with hm1
    have hb1 : m1.block ab = some ⟨blkA.bytes,
        lb.map some ++ ((la.drop lb.length).map some ++ List.replicate kA none)⟩ := by
      rw [hm1, Mem.block_setBlock _ _ _ _ _ hbA]; simp
    have hds := destroy_n_block (la.drop lb.length) m1 (va.data_.buffer_ + lb.length) _
      (lb.map some) (List.replicate kA none) hb1 (by rw [List.append_assoc])
      (by simp only [Ptr.add_off, hoffa, List.length_map]; omega)
    rw [List.length_drop] at hds
    simp only [Ptr.add_base] at hds
    rw [← hab] at hds
    obtain ⟨h1, h2, h3, h4, h5⟩ := hfin m1 _
      (lb.map some ++ List.replicate (la.length - lb.length) none ++
        List.replicate kA none) (la.length - lb.length + kA) hm1
      (by rw [List.append_assoc, ← List.replicate_add])
      (by omega)
    refine Outcome.Spec.of_retOrElse (a := ()) (C := ¬ NoThrow ops) ?_ (fun h hno => hno h.1)
      ⟨h2, h3, h4, h5⟩
    refine Outcome.RetOrElse.bind hcopy' ?_
    refine Outcome.RetOrElse.bind (.of_eq hds) ?_
    exact .of_eq (setVec_eval _ a va _ h1)

theorem Holds.base_le {m : Mem T} {v : Vector} {l : List T} (h : Holds m v l) :
    v.data_.buffer_.base ≤ m.heap.length := by
  by_cases hc : v.data_.capacity_ = 0
  · rw [h.2.2.2.2.1 hc]; exact Nat.zero_le _
  · obtain ⟨blk, _, hb, _, _⟩ := h.block hc
    exact (m.block_le_length _ blk hb).2

/-- What copy assignment `a = b` of two distinct vectors guarantees when it
returns. -/
theorem Vector.copy_assign_spec (ops : ElemOps T) (m : Mem T) (a b : Nat) (va vb : Vector)
    (la lb : List T) (hab : a ≠ b) (ha : m.vecs[a]? = some (some va))
    (hb : m.vecs[b]? = some (some vb)) (hHa : Holds m va la) (hHb : Holds m vb lb)
    (hdis : va.data_.capacity_ ≠ 0 → va.data_.buffer_.base ≠ vb.data_.buffer_.base) :
    (Vector.copy_assign ops a b m).Spec
      (NoThrow ops ∧
        (if va.data_.capacity_ < lb.length then
          0 < ops.sizeofT ∧ lb.length * ops.sizeofT < SIZE_MOD ∧ lb.length * ops.sizeofT ≤ m.free
        else Exact m va))
      (fun _ m' => ∃ va', m'.vecs[a]? = some (some va') ∧ Holds m' va' lb ∧
        va'.size_ = lb.length ∧
        va'.data_.capacity_ =
          (if va.data_.capacity_ < lb.length then lb.length else va.data_.capacity_) ∧
        m'.vecs[b]? = some (some vb) ∧ Holds m' vb lb ∧
        (∀ j, j ≠ a → j < m.vecs.length → m'.vecs[j]? = m.vecs[j]?) ∧
        (∀ x, x ≠ va.data_.buffer_.base → x ≤ m.heap.length → m'.block x = m.block x)) := by
  obtain ⟨hsza, hlea, hcapa, hoffa, hnulla, -⟩ := id hHa
  obtain ⟨hszb, hleb, hcapb, hoffb, hnullb, -⟩ := id hHb
  have hlta := m.lt_of_vec a _ ha
  have hltb := m.lt_of_vec b _ hb
  unfold Vector.copy_assign
  rw [ite_run, if_pos hab, run_bind_ret (getVec_eval m b vb hb),
    run_bind_ret (getVec_eval m a va ha)]
  simp only [RawMemory.Capacity]
  by_cases hgrow : va.data_.capacity_ < lb.length
  · -- copy and swap
    rw [ite_run, if_pos (by rw [hszb]; exact hgrow)]
    simp only [if_pos hgrow]
    refine Outcome.Spec.bind_eval ((Vector.ctor_copy_spec ops m b vb lb hb hHb).weaken ?_
      (fun _ _ h => h)) ?_
    · rintro ⟨hno, h1, h2, h3⟩
      exact ⟨h1, h2, h3, fun y _ => hno.2.1 y⟩
    rintro c m1 ⟨rfl, vc, hvecs1, hvs, hvcap, hHc, hbuf, hlen1, hlen1', hblk1⟩
    have ha1 : m1.vecs[a]? = some (some va) := by
      rw [hvecs1, List.getElem?_append_left hlta]; exact ha
    have hc1 : m1.vecs[m.vecs.length]? = some (some vc) := by
      rw [hvecs1]; simp
    have hsw := Vector.Swap_eval m1 a m.vecs.length va vc ha1 hc1
    set m2 := (m1.putVec a (some vc)).putVec m.vecs.length (some va) with hm2
    have hc2 : m2.vecs[m.vecs.length]? = some (some va) := by
      rw [hm2]
      refine Mem.vec_putVec_self _ _ (some va) (some vc) ?_
      rw [Mem.vec_putVec_ne _ _ _ _ (by omega)]; exact hc1
    have hblk2 : ∀ x, m2.block x = m1.block x := fun x => Mem.block_putVec2 _ _ _ _ _ x
    have hHa2 : Holds m2 va la :=
      hHa.of_block_eq (by rw [hblk2, hblk1 _ hHa.base_le])
    obtain ⟨m3, hd, hvecs3, hlen3, hblk3, hnone3⟩ := Vector.dtor_spec m2 m.vecs.length va la hc2 hHa2
    have hcb : vc.data_.buffer_.base ≠ va.data_.buffer_.base := by
      obtain ⟨blk, _, hbk, -, -⟩ := hHc.block (by omega)
      rcases hbuf with h | h
      · rw [h] at hbk; cases hbk
      · rw [h]; show m.heap.length + 1 ≠ _
        have := hHa.base_le; omega
    refine ⟨(), m3, by rw [run_bind_ret hsw]; exact hd, vc, ?_, ?_, hvs, hvcap, ?_, ?_, ?_, ?_⟩
    · rw [hvecs3, List.getElem?_set_ne (by omega), hm2,
        Mem.vec_putVec_ne _ _ _ _ (by omega)]
      exact Mem.vec_putVec_self _ _ _ _ ha1
    · exact hHc.of_block_eq (by rw [hblk3 _ hcb, hblk2])
    · rw [hvecs3, List.getElem?_set_ne (by omega), hm2, Mem.vec_putVec_ne _ _ _ _ (by omega),
        Mem.vec_putVec_ne _ _ _ _ hab, hvecs1, List.getElem?_append_left hltb]
      exact hb
    · refine hHb.of_block_eq ?_
      by_cases hx : vb.data_.buffer_.base = va.data_.buffer_.base
      · by_cases hc : va.data_.capacity_ = 0
        · rw [hx, hnulla hc]; rfl
        · exact absurd hx.symm (hdis hc)
      · rw [hblk3 _ hx, hblk2, hblk1 _ hHb.base_le]
    · intro j hja hjlt
      rw [hvecs3, List.getElem?_set_ne (by omega), hm2, Mem.vec_putVec_ne _ _ _ _ (by omega),
        Mem.vec_putVec_ne _ _ _ _ (Ne.symm hja), hvecs1, List.getElem?_append_left hjlt]
    · intro x hx hxle
      rw [hblk3 _ hx, hblk2, hblk1 _ hxle]
  · -- reuse the buffer
    rw [ite_run, if_neg (by rw [hszb]; exact hgrow)]
    simp only [if_neg hgrow]
    refine (Vector.copy_assign_in_place ops m a va vb la lb ha hHa hHb hdis (by omega)).weaken
      (fun h => h) ?_
    rintro _ m' ⟨hvecs, hH', hlen, hblk⟩
    refine ⟨{ va with size_ := vb.size_ }, ?_, hH', hszb, rfl, ?_, ?_, ?_, fun x hx _ => hblk x hx⟩
    · rw [hvecs, List.getElem?_set_eq_of_lt _ hlta]
    · rw [hvecs, List.getElem?_set_ne hab]; exact hb
    · refine hHb.of_block_eq ?_
      by_cases hx : vb.data_.buffer_.base = va.data_.buffer_.base
      · by_cases hc : va.data_.capacity_ = 0
        · rw [hx, hnulla hc]; rfl
        · exact absurd hx.symm (hdis hc)
      · exact hblk _ hx
    · intro j hja _
      rw [hvecs, List.getElem?_set_ne (Ne.symm hja)]

/-- C6 (copy assignment).  Self-assignment `a = a` returns and changes nothing.
For two distinct vectors `a` (contents `la`) and `b` (contents `lb`) with
separate buffers, every `a = b` that returns leaves `a` with the contents and
`Size()` of `b`, leaves `b` as it was, and makes `Capacity()` of `a` equal to
`b.Size()` when `b.Size()` exceeded the old capacity of `a`, and leaves it
unchanged otherwise.  The assignment does return when no element operation
throws and the storage is there (the copy can be allocated, or the buffer of
`a` really has `Capacity()` slots). -/
theorem C6_copy_assign (ops : ElemOps T) (m : Mem T) (a b : Nat) (va vb : Vector)
    (la lb : List T) (hab : a ≠ b) (ha : m.vecs[a]? = some (some va))
    (hb : m.vecs[b]? = some (some vb)) (hHa : Holds m va la) (hHb : Holds m vb lb)
    (hdis : va.data_.capacity_ ≠ 0 → va.data_.buffer_.base ≠ vb.data_.buffer_.base) :
    Vector.copy_assign ops a a m = .ret () m ∧
    (Vector.copy_assign ops a b m).Spec
      (NoThrow ops ∧
        (if va.data_.capacity_ < lb.length then
          0 < ops.sizeofT ∧ lb.length * ops.sizeofT < SIZE_MOD ∧ lb.length * ops.sizeofT ≤ m.free
        else Exact m va))
      (fun _ m' => ∃ va', m'.vecs[a]? = some (some va') ∧ Holds m' va' lb ∧
        Vector.Size a m' = .ret lb.length m' ∧ Vector.Size b m' = .ret lb.length m' ∧
        Vector.Capacity a m' =
          .ret (if va.data_.capacity_ < lb.length then lb.length else va.data_.capacity_) m' ∧
        m'.vecs[b]? = some (some vb) ∧ Holds m' vb lb) := by
  constructor
  · unfold Vector.copy_assign
    rw [ite_run, if_neg (fun h => h rfl)]
    rfl
  · refine (Vector.copy_assign_spec ops m a b va vb la lb hab ha hb hHa hHb hdis).weaken
      (fun h => h) ?_
    rintro _ m' ⟨va', hva', hH', hs', hc', hvb', hHb', -⟩
    refine ⟨va', hva', hH', ?_, ?_, ?_, hvb', hHb'⟩
    · rw [Vector.Size_eval m' a va' hva', hs']
    · rw [Vector.Size_eval m' b vb hvb', hHb.1]
    · rw [Vector.Capacity_eval m' a va' hva', hc']

/-- Witness for C6: `a = [9]` of capacity 1 is assigned `b = [1, 2]`. -/
theorem C6_copy_assign_witness :
    ((1 : Nat) ≠ 0 ∧ mem_xy.vecs[1]? = some (some ⟨⟨⟨2, 0⟩, 1⟩, 1⟩) ∧
        mem_xy.vecs[0]? = some (some ⟨⟨⟨1, 0⟩, 2⟩, 2⟩) ∧
        Holds mem_xy ⟨⟨⟨2, 0⟩, 1⟩, 1⟩ [9] ∧ Holds mem_xy ⟨⟨⟨1, 0⟩, 2⟩, 2⟩ [1, 2] ∧
        ((1 : Nat) ≠ 0 → (2 : Nat) ≠ 1)) ∧
      (Vector.copy_assign intOps 1 1 mem_xy = .ret () mem_xy ∧
      (Vector.copy_assign intOps 1 0 mem_xy).Spec
        (NoThrow intOps ∧
          (if 1 < [1, 2].length then
            0 < intOps.sizeofT ∧ [1, 2].length * intOps.sizeofT < SIZE_MOD ∧
              [1, 2].length * intOps.sizeofT ≤ mem_xy.free
          else Exact mem_xy ⟨⟨⟨2, 0⟩, 1⟩, 1⟩))
        (fun _ m' => ∃ va', m'.vecs[1]? = some (some va') ∧ Holds m' va' [1, 2] ∧
          Vector.Size 1 m' = .ret [1, 2].length m' ∧ Vector.Size 0 m' = .ret [1, 2].length m' ∧
          Vector.Capacity 1 m' = .ret (if 1 < [1, 2].length then [1, 2].length else 1) m' ∧
          m'.vecs[0]? = some (some ⟨⟨⟨1, 0⟩, 2⟩, 2⟩) ∧ Holds m' ⟨⟨⟨1, 0⟩, 2⟩, 2⟩ [1, 2])) :=
  ⟨⟨by decide, by decide, by decide, by decide, by decide, by decide⟩,
    C6_copy_assign intOps mem_xy 1 0 ⟨⟨⟨2, 0⟩, 1⟩, 1⟩ ⟨⟨⟨1, 0⟩, 2⟩, 2⟩ [9] [1, 2] (by decide)
      (by decide) (by decide) (by decide) (by decide) (by decide)⟩

/-! ### Final states of a run, returned or thrown -/

theorem Outcome.Ends.chain {x : M σ α} {f : α → M σ β} {m : σ} {P : α → σ → Prop}
    {Q : β → σ → Prop} {E : σ → Prop} (h : (x m).Ends P E)
    (hf : ∀ a s, x m = .ret a s → P a s → (f a s).Ends Q E) : ((x >>= f) m).Ends Q E := by
  rw [run_bind]
  cases hx : x m with
  | ret a s => rw [hx] at h; exact hf a s hx h
  | thrown e s => rw [hx] at h; exact h
  | ub => trivial

theorem Outcome.Ends.relax {o : Outcome σ α} {Q Q' : α → σ → Prop} {E E' : σ → Prop}
    (h : o.Ends Q E) (hQ : ∀ a s, Q a s → Q' a s) (hE : ∀ s, E s → E' s) : o.Ends Q' E' := by
  cases o with
  | ret a s => exact hQ a s h
  | thrown e s => exact hE s h
  | ub => trivial

theorem Outcome.Ends.guarded {body : M σ α} {cleanup : M σ Unit} {m : σ}
    {Q : α → σ → Prop} {E E' : σ → Prop} (h : (body m).Ends Q E')
    (hc : ∀ s, E' s → (cleanup s).Ends (fun _ s' => E s') E) :
    (onException body cleanup m).Ends Q E := by
  unfold AdvancedVector.onException
  cases hb : body m with
  | ret a s => rw [hb] at h; exact h
  | thrown e s =>
    rw [hb] at h
    have := hc s h
    show (match cleanup s with
      | .ret _ s'' => Outcome.thrown e s''
      | .thrown e' s'' => .thrown e' s''
      | .ub => .ub).Ends Q E
    cases hcl : cleanup s with
    | ret u s' => rw [hcl] at this; exact this
    | thrown e' s' => rw [hcl] at this; exact this
    | ub => trivial
  | ub => trivial

theorem Outcome.Ends.of_returned {o : Outcome σ α} {a : α} {s : σ} {Q : α → σ → Prop} {E : σ → Prop}
    (h : o = .ret a s) (hQ : Q a s) : o.Ends Q E := by
  rw [h]; exact hQ

theorem Outcome.Ends.ret_imp {o : Outcome σ α} {Q : α → σ → Prop} {E : σ → Prop}
    (h : o.Ends Q E) {a : α} {s : σ} (hr : o = .ret a s) : Q a s := by
  rw [hr] at h; exact h

theorem Outcome.Ends.thrown_imp {o : Outcome σ α} {Q : α → σ → Prop} {E : σ → Prop}
    (h : o.Ends Q E) {e : Exn} {s : σ} (hr : o = .thrown e s) : E s := by
  rw [hr] at h; exact h

theorem Outcome.Ends.and_ret {o : Outcome σ α} {Q P : α → σ → Prop} {E : σ → Prop}
    (h : o.Ends Q E) (hP : ∀ a s, o = .ret a s → P a s) :
    o.Ends (fun a s => Q a s ∧ P a s) E := by
  cases o with
  | ret a s => exact ⟨h, hP a s rfl⟩
  | thrown e s => exact h
  | ub => trivial

theorem assert_ends (c : Prop) [Decidable c] (m : σ) (Q : Unit → σ → Prop) (E : σ → Prop)
    (h : c → Q () m) : (assert c m).Ends Q E := by
  unfold assert
  split
  · rename_i hc; exact h hc
  · trivial

/-! ### Code that stays within two blocks -/

theorem Mem.Within.same (m : Mem T) (a b : Nat) : m.Within m a b :=
  ⟨rfl, rfl, fun _ _ _ => rfl, fun _ => rfl⟩

theorem Mem.Within.and_then {m s t : Mem T} {a b : Nat} (h1 : m.Within s a b)
    (h2 : s.Within t a b) : m.Within t a b := by
  obtain ⟨a1, a2, a3, a4⟩ := h1
  obtain ⟨b1, b2, b3, b4⟩ := h2
  exact ⟨b1.trans a1, b2.trans a2, fun x hx hx' => (b3 x hx hx').trans (a3 x hx hx'),
    fun x => (b4 x).trans (a4 x)⟩

theorem Mem.Within.flip {m s : Mem T} {a b : Nat} (h : m.Within s a b) :
    m.Within s b a :=
  ⟨h.1, h.2.1, fun x hx hx' => h.2.2.1 x hx' hx, h.2.2.2⟩

theorem Mem.Within.widen {m s : Mem T} {a : Nat} (h : m.Within s a a) (b : Nat) :
    m.Within s a b :=
  ⟨h.1, h.2.1, fun x hx _ => h.2.2.1 x hx hx, h.2.2.2⟩

theorem Mem.within_setSlot (m : Mem T) (p : Ptr) (o : Option T) :
    m.Within (m.setSlot p o) p.base p.base := by
  refine ⟨?_, ?_, fun x hx _ => ?_, fun x => Mem.len_setSlot m p o x⟩
  · unfold Mem.setSlot; split <;> simp
  · unfold Mem.setSlot; split <;> simp
  · unfold Mem.setSlot
    split
    · rfl
    · rename_i blk hb
      rw [m.block_setBlock _ _ _ blk hb, if_neg hx]

theorem Near.next {x : M (Mem T) α} {f : α → M (Mem T) β} {a b : Nat} (hx : Near x a b)
    (hf : ∀ r, Near (f r) a b) : Near (x >>= f) a b := by
  intro m
  refine Outcome.Ends.chain (hx m) (fun r s _ hw => ?_)
  exact (hf r s).relax (fun _ _ h => hw.and_then h) (fun _ h => hw.and_then h)

theorem Near.protect {body : M (Mem T) α} {cleanup : M (Mem T) Unit} {a b : Nat}
    (hb : Near body a b) (hc : Near cleanup a b) : Near (onException body cleanup) a b := by
  intro m
  refine Outcome.Ends.guarded (hb m) (fun s hw => ?_)
  exact (hc s).relax (fun _ _ h => hw.and_then h) (fun _ h => hw.and_then h)

theorem Near.wide {x : M (Mem T) α} {a : Nat} (h : Near x a a) (b : Nat) : Near x a b :=
  fun m => (h m).relax (fun _ _ hw => hw.widen b) (fun _ hw => hw.widen b)

theorem Near.swap_bases {x : M (Mem T) α} {a b : Nat} (h : Near x a b) : Near x b a :=
  fun m => (h m).relax (fun _ _ hw => hw.flip) (fun _ hw => hw.flip)

theorem near_pure (r : α) (a b : Nat) : Near (pure r : M (Mem T) α) a b :=
  fun m => Mem.Within.same m a b

theorem near_throwExn (e : Exn) (a b : Nat) : Near (throwExn e : M (Mem T) α) a b :=
  fun m => Mem.Within.same m a b

theorem near_assert (c : Prop) [Decidable c] (a b : Nat) : Near (assert c : M (Mem T) Unit) a b :=
  fun m => assert_ends c m _ _ (fun _ => Mem.Within.same m a b)

theorem Near.branch {c : Prop} [Decidable c] {x y : M (Mem T) α} {a b : Nat} (hx : Near x a b)
    (hy : Near y a b) : Near (if c then x else y) a b := by
  split
  · exact hx
  · exact hy

theorem near_guard (c : Bool) (e : Exn) (f : M (Mem T) α) (a b : Nat) (hf : Near f a b) :
    Near (if c = true then (throwExn e >>= fun (_ : PUnit) => f)
      else (pure PUnit.unit >>= fun _ => f)) a b :=
  Near.branch ((near_throwExn _ _ _).next (fun _ => hf)) ((near_pure _ _ _).next (fun _ => hf))

/-- A guard whose failing branch runs `g` before it throws. -/
theorem near_guard_after (c : Bool) (e : Exn) (g : M (Mem T) Unit) (f : M (Mem T) α) (a b : Nat)
    (hg : Near g a b) (hf : Near f a b) :
    Near (if c = true then (g >>= fun _ => (throwExn e >>= fun (_ : PUnit) => f))
      else (pure PUnit.unit >>= fun _ => f)) a b :=
  Near.branch (hg.next (fun _ => (near_throwExn _ _ _).next (fun _ => hf)))
    ((near_pure _ _ _).next (fun _ => hf))

theorem near_load (p : Ptr) (a b : Nat) : Near (load p : M (Mem T) T) a b := by
  intro m
  unfold load
  split
  · exact Mem.Within.same m a b
  · trivial

theorem near_construct_at (p : Ptr) (x : T) : Near (construct_at p x) p.base p.base := by
  intro m
  unfold construct_at
  split
  · exact m.within_setSlot p _
  · trivial

theorem near_store (p : Ptr) (x : T) : Near (store p x) p.base p.base := by
  intro m
  unfold store
  split
  · exact m.within_setSlot p _
  · trivial

theorem near_destroy_at (p : Ptr) : Near (destroy_at p : M (Mem T) Unit) p.base p.base := by
  intro m
  unfold destroy_at
  split
  · exact m.within_setSlot p _
  · trivial

theorem near_copy_construct (ops : ElemOps T) (dst src : Ptr) :
    Near (copy_construct ops dst src) dst.base dst.base := by
  unfold copy_construct
  refine (near_load src _ _).next (fun x => ?_)
  exact near_guard _ _ _ _ _ (near_construct_at dst x)

theorem near_move_construct (ops : ElemOps T) (dst src : Ptr) :
    Near (move_construct ops dst src) dst.base src.base := by
  unfold move_construct
  refine (near_load src _ _).next (fun x => ?_)
  refine near_guard _ _ _ _ _ ?_
  exact ((near_construct_at dst x).wide _).next (fun _ => ((near_store src _).wide _).swap_bases)

theorem near_value_construct (ops : ElemOps T) (dst : Ptr) :
    Near (value_construct ops dst) dst.base dst.base := by
  unfold value_construct
  exact near_guard _ _ _ _ _ (near_construct_at dst _)

theorem near_construct_from (dst : Ptr) (args : Option T) :
    Near (construct_from dst args) dst.base dst.base := by
  unfold construct_from
  cases args with
  | none => exact near_throwExn _ _ _
  | some x => exact near_construct_at dst x

theorem near_copy_assign (ops : ElemOps T) (dst src : Ptr) :
    Near (copy_assign ops dst src) dst.base dst.base := by
  unfold copy_assign
  refine (near_load src _ _).next (fun x => (near_load dst _ _).next (fun y => ?_))
  exact near_guard_after _ _ _ _ _ _ (near_store dst _) (near_store dst x)

theorem near_move_assign (ops : ElemOps T) (dst src : Ptr) :
    Near (move_assign ops dst src) dst.base src.base := by
  unfold move_assign
  refine (near_load src _ _).next (fun x => (near_load dst _ _).next (fun y => ?_))
  refine near_guard _ _ _ _ _ ?_
  exact ((near_store dst x).wide _).next (fun _ => ((near_store src _).wide _).swap_bases)

theorem near_move_assign_value (ops : ElemOps T) (dst : Ptr) (x : T) :
    Near (move_assign_value ops dst x) dst.base dst.base := by
  unfold move_assign_value
  refine (near_load dst _ _).next (fun y => ?_)
  exact near_guard _ _ _ _ _ (near_store dst x)

theorem near_destroy_n (n : Nat) : ∀ p : Ptr, Near (destroy_n p n : M (Mem T) Unit) p.base p.base := by
  induction n with
  | zero => intro p; exact near_pure _ _ _
  | succ n ih =>
    intro p
    exact (near_destroy_at p).next (fun _ => ih (p + 1))

theorem near_uninitialized_copy_loop (ops : ElemOps T) (src dst : Ptr) (todo : Nat) :
    ∀ done, Near (uninitialized_copy_loop ops src dst done todo) dst.base dst.base := by
  induction todo with
  | zero => intro done; exact near_pure _ _ _
  | succ n ih =>
    intro done
    exact Near.next (Near.protect (near_copy_construct ops (dst + done) (src + done))
      (near_destroy_n done dst)) (fun _ => ih (done + 1))

theorem near_uninitialized_move_loop (ops : ElemOps T) (src dst : Ptr) (todo : Nat) :
    ∀ done, Near (uninitialized_move_loop ops src dst done todo) dst.base src.base := by
  induction todo with
  | zero => intro done; exact near_pure _ _ _
  | succ n ih =>
    intro done
    exact Near.next (Near.protect (near_move_construct ops (dst + done) (src + done))
      ((near_destroy_n done dst).wide _)) (fun _ => ih (done + 1))

theorem near_uninitialized_value_construct_loop (ops : ElemOps T) (dst : Ptr) (todo : Nat) :
    ∀ done, Near (uninitialized_value_construct_loop ops dst done todo) dst.base dst.base := by
  induction todo with
  | zero => intro done; exact near_pure _ _ _
  | succ n ih =>
    intro done
    exact Near.next (Near.protect (near_value_construct ops (dst + done))
      (near_destroy_n done dst)) (fun _ => ih (done + 1))

theorem near_std_copy_loop (ops : ElemOps T) (n : Nat) :
    ∀ src dst : Ptr, Near (std_copy_loop ops src dst n) dst.base dst.base := by
  induction n with
  | zero => intro src dst; exact near_pure _ _ _
  | succ n ih =>
    intro src dst
    exact (near_copy_assign ops dst src).next (fun _ => ih (src + 1) (dst + 1))

theorem near_std_copy (ops : ElemOps T) (first last dst : Ptr) :
    Near (std_copy ops first last dst) dst.base dst.base := by
  unfold std_copy
  exact (near_assert _ _ _).next (fun _ => near_std_copy_loop ops _ first dst)

theorem near_std_move_loop (ops : ElemOps T) (n : Nat) :
    ∀ src dst : Ptr, Near (std_move_loop ops src dst n) dst.base src.base := by
  induction n with
  | zero => intro src dst; exact near_pure _ _ _
  | succ n ih =>
    intro src dst
    exact (near_move_assign ops dst src).next (fun _ => ih (src + 1) (dst + 1))

theorem near_std_move (ops : ElemOps T) (first last dst : Ptr) :
    Near (std_move ops first last dst) dst.base first.base := by
  unfold std_move
  exact (near_assert _ _ _).next (fun _ => near_std_move_loop ops _ first dst)

theorem near_move_backward_loop (ops : ElemOps T) (n : Nat) :
    ∀ last d_last : Ptr, Near (move_backward_loop ops last d_last n) d_last.base last.base := by
  induction n with
  | zero => intro last d_last; exact near_pure _ _ _
  | succ n ih =>
    intro last d_last
    exact (near_move_assign ops (d_last - 1) (last - 1)).next (fun _ => ih (last - 1) (d_last - 1))

theorem near_move_backward (ops : ElemOps T) (first last d_last : Ptr) :
    Near (move_backward ops first last d_last) d_last.base last.base := by
  unfold move_backward
  exact (near_assert _ _ _).next (fun _ => near_move_backward_loop ops _ last d_last)

theorem near_MoveData (ops : ElemOps T) (src : Ptr) (n : Nat) (dst : Ptr) :
    Near (Vector.MoveData ops src n dst) dst.base src.base := by
  unfold Vector.MoveData
  split
  · exact near_uninitialized_move_loop ops src dst n 0
  · exact (near_uninitialized_copy_loop ops src dst n 0).wide _

/-! ### Stages of a member function -/

theorem Mem.block_setBlock_ne (m : Mem T) (b b' : Nat) (x : Option (Block T)) (h : b' ≠ b) :
    (m.setBlock b x).block b' = m.block b' := by
  cases b with
  | zero => rfl
  | succ k =>
    cases b' with
    | zero => rfl
    | succ j =>
      show ((m.heap.set k x)[j]?).join = _
      rw [List.getElem?_set_ne (by omega)]
      rfl

theorem Mem.block_release_ne (m : Mem T) (b b' bytes : Nat) (h : b' ≠ b) :
    (m.release b bytes).block b' = m.block b' := by
  have : (m.release b bytes).block b' = (m.setBlock b none).block b' := by
    cases b' <;> rfl
  rw [this, m.block_setBlock_ne b b' none h]

theorem Mem.FrameOf.unchanged (m : Mem T) (this b : Nat) : m.FrameOf m this b :=
  ⟨rfl, fun _ _ => rfl, Nat.le_refl _, fun _ _ _ => rfl⟩

theorem Mem.Stage.start (m : Mem T) (this : Nat) (v : Vector)
    (hv : m.vecs[this]? = some (some v)) : m.Stage m this v v :=
  ⟨hv, Mem.FrameOf.unchanged m this _⟩

theorem Mem.Stage.within {m s t : Mem T} {this : Nat} {v w : Vector} {a b : Nat}
    (h : m.Stage s this v w) (hw : s.Within t a b) (ha : m.Allowed v a) (hb : m.Allowed v b) :
    m.Stage t this v w := by
  obtain ⟨hv, f1, f2, f3, f4⟩ := h
  obtain ⟨w1, w2, w3, w4⟩ := hw
  refine ⟨by rw [w1]; exact hv, by rw [w1]; exact f1, fun j hj => by rw [w1]; exact f2 j hj,
    by omega, fun x hx hle => ?_⟩
  by_cases hx0 : x = 0
  · subst hx0; rfl
  · rw [w3 x ?_ ?_, f4 x hx hle]
    · rcases ha with h | h | h <;> omega
    · rcases hb with h | h | h <;> omega

theorem Mem.Stage.near {m s : Mem T} {this : Nat} {v w : Vector} {a b : Nat} {x : M (Mem T) α}
    (h : m.Stage s this v w) (hx : Near x a b) (ha : m.Allowed v a) (hb : m.Allowed v b) :
    (x s).Ends (fun _ t => m.Stage t this v w ∧ s.Within t a b)
      (fun t => m.Stage t this v w) :=
  (hx s).relax (fun _ _ hw => ⟨h.within hw ha hb, hw⟩) (fun _ hw => h.within hw ha hb)

theorem Mem.Stage.setVec {m s : Mem T} {this : Nat} {v w : Vector} (h : m.Stage s this v w)
    (w' : Vector) (E : Mem T → Prop) :
    (setVec this w' s).Ends (fun _ t => t = s.putVec this (some w') ∧ m.Stage t this v w') E := by
  rw [setVec_eval s this w w' h.1]
  exact ⟨rfl, Mem.vec_putVec_self _ _ _ _ h.1, h.2.frame_putVec _⟩

theorem Mem.Stage.released {m s : Mem T} {this : Nat} {v w : Vector} (h : m.Stage s this v w)
    (b bytes : Nat) (hb : m.Allowed v b) : m.Stage (s.release b bytes) this v w := by
  obtain ⟨hv, f1, f2, f3, f4⟩ := h
  refine ⟨by simpa using hv, by simpa using f1, fun j hj => by simpa using f2 j hj,
    by simpa using f3, fun x hx hle => ?_⟩
  by_cases hx0 : x = 0
  · subst hx0; rfl
  · rw [Mem.block_release_ne _ _ _ _ (by rcases hb with h | h | h <;> omega), f4 x hx hle]

theorem RawMemory.dtor_ends (r : RawMemory) (m : Mem T) (E : Mem T → Prop) :
    (RawMemory.dtor r m).Ends
      (fun _ s => s = m ∨ ∃ bytes, s = m.release r.buffer_.base bytes) E := by
  unfold RawMemory.dtor RawMemory.Deallocate operator_delete
  split
  · exact Or.inl rfl
  · split
    · exact Or.inr ⟨_, rfl⟩
    · trivial

theorem Mem.Stage.dtor {m s : Mem T} {this : Nat} {v w : Vector} (h : m.Stage s this v w)
    (r : RawMemory) (hb : m.Allowed v r.buffer_.base) (E : Mem T → Prop) :
    (RawMemory.dtor r s).Ends (fun _ t => m.Stage t this v w) E := by
  refine (RawMemory.dtor_ends r s E).relax (fun _ t ht => ?_) (fun _ h => h)
  rcases ht with rfl | ⟨bytes, rfl⟩
  · exact h
  · exact h.released _ _ hb

theorem Mem.len_alloc_new (m : Mem T) (bytes n : Nat) :
    (m.alloc bytes n).len (m.heap.length + 1) = some n := by
  unfold Mem.len
  rw [Mem.block_alloc, if_pos rfl]
  simp

theorem Mem.len_zero (m : Mem T) : m.len 0 = none := rfl

theorem Mem.Stage.ctor {m s : Mem T} {this : Nat} {v w : Vector} (h : m.Stage s this v w)
    (ops : ElemOps T) (n : Nat) :
    (RawMemory.ctor ops n s).Ends
      (fun r t => m.Stage t this v w ∧ r.capacity_ = n ∧ r.buffer_.off = 0 ∧
        m.Allowed v r.buffer_.base ∧ (∀ k, t.len r.buffer_.base = some k → k ≤ n) ∧
        t.vecs = s.vecs)
      (fun t => t = s) := by
  rw [RawMemory.ctor_eval]
  obtain ⟨hv, f1, f2, f3, f4⟩ := h
  split
  · rename_i hn
    exact ⟨⟨hv, f1, f2, f3, f4⟩, hn.symm, rfl, Or.inr (Or.inl rfl),
      (fun k hk => by rw [show s.len (nullptr : Ptr).base = none from rfl] at hk; cases hk), rfl⟩
  · split
    · refine ⟨⟨by simpa using hv, by simpa using f1, fun j hj => by simpa using f2 j hj,
        by simp; omega, fun x hx hle => ?_⟩, rfl, rfl, Or.inr (Or.inr ?_), fun k hk => ?_, rfl⟩
      · rw [Mem.block_alloc, if_neg (by omega), f4 x hx hle]
      · show m.heap.length < s.heap.length + 1
        omega
      · rw [show ({ buffer_ := ⟨s.heap.length + 1, 0⟩, capacity_ := n } : RawMemory).buffer_.base =
          s.heap.length + 1 from rfl, Mem.len_alloc_new] at hk
        cases hk
        exact alloc_slots_le n _
    · rfl

theorem Mem.Allowed.own (m : Mem T) (v : Vector) : m.Allowed v v.data_.buffer_.base :=
  Or.inl rfl

theorem Mem.Stage.touched {m s : Mem T} {this : Nat} {v : Vector} (h : m.Stage s this v v) :
    m.Touched s this v :=
  ⟨v, h, fun hs => hs, Mem.Allowed.own m v⟩

/-- `Reserve(n)`, whether it returns or throws. -/
theorem Vector.Reserve_ends (ops : ElemOps T) (m : Mem T) (this : Nat) (v : Vector) (n : Nat)
    (hv : m.vecs[this]? = some (some v)) (hn : n < SIZE_MOD) :
    (Vector.Reserve ops this n m).Ends
      (fun _ s => ∃ w, m.Stage s this v w ∧ (v.Sound → w.Sound) ∧
        m.Allowed v w.data_.buffer_.base ∧
        w.size_ = v.size_ ∧ n ≤ w.data_.capacity_)
      (fun s => m.Stage s this v v) := by
  unfold Vector.Reserve
  rw [run_bind_ret (getVec_eval m this v hv), ite_run]
  simp only [RawMemory.GetAddress, RawMemory.Capacity, RawMemory.Swap]
  split
  · rename_i hle
    exact ⟨v, Mem.Stage.start m this v hv, fun hs => hs, Mem.Allowed.own m v, rfl, hle⟩
  rename_i hlt
  have h0 := Mem.Stage.start m this v hv
  refine Outcome.Ends.chain ((h0.ctor ops n).relax (fun _ _ h => h) (fun _ h => by rw [h]; exact h0))
    ?_
  rintro r m1 - ⟨hst, hcap, hoff, hal, -, -⟩
  refine Outcome.Ends.chain (P := fun _ t => m.Stage t this v v) ?_ ?_
  · refine Outcome.Ends.guarded ((hst.near (near_MoveData ops _ _ _) hal
      (Mem.Allowed.own m v)).relax (fun _ _ h => h.1) (fun _ h => h)) ?_
    intro s hs'
    exact hs'.dtor r hal _
  rintro - m2 - hst2
  refine Outcome.Ends.chain ((hst2.near (near_destroy_n _ _) (Mem.Allowed.own m v)
    (Mem.Allowed.own m v)).relax (fun _ _ h => h.1) (fun _ h => h)) ?_
  rintro - m3 - hst3
  refine Outcome.Ends.chain (hst3.setVec _ _) ?_
  rintro - m4 - ⟨-, hst4⟩
  refine (hst4.dtor _ (Mem.Allowed.own m v) _).relax (fun _ t h => ?_) (fun _ h => h)
  refine ⟨_, h, fun hs => ⟨?_, ?_⟩, hal, rfl, ?_⟩
  · show v.size_ ≤ r.capacity_
    have := hs.1; omega
  · show r.capacity_ < SIZE_MOD
    omega
  · show n ≤ r.capacity_
    omega

/-- `Resize(n)`, whether it returns or throws. -/
theorem Vector.Resize_ends (ops : ElemOps T) (m : Mem T) (this : Nat) (v : Vector) (n : Nat)
    (hv : m.vecs[this]? = some (some v)) (hn : n < SIZE_MOD) :
    (Vector.Resize ops this n m).Ends (fun _ s => m.Touched s this v)
      (fun s => m.Touched s this v) := by
  unfold Vector.Resize
  rw [run_bind_ret (Vector.Capacity_eval m this v hv)]
  have hrest : ∀ (s : Mem T) (w : Vector), m.Stage s this v w → (v.Sound → w.Sound) →
      m.Allowed v w.data_.buffer_.base → n ≤ w.data_.capacity_ →
      ((do
        let v ← getVec this
        if n > v.size_ then
          uninitialized_value_construct_n ops (v.data_.GetAddress + v.size_) (n - v.size_)
        else
          destroy_n (v.data_.GetAddress + n) (v.size_ - n)
        setVec this { v with size_ := n } : M (Mem T) Unit) s).Ends
        (fun _ t => m.Touched t this v) (fun t => m.Touched t this v) := by
    intro s w hst hw hal hle
    rw [run_bind_ret (getVec_eval s this w hst.1)]
    simp only [RawMemory.GetAddress]
    have hfin : ∀ t, m.Stage t this v w → (setVec this { w with size_ := n } t).Ends
        (fun _ t' => m.Touched t' this v) (fun t' => m.Touched t' this v) := by
      intro t ht
      refine (ht.setVec _ _).relax (fun _ t' h => ⟨_, h.2, fun hs => ⟨hle, (hw hs).2⟩, hal⟩)
        (fun _ h => h)
    split
    · refine Outcome.Ends.chain ((hst.near (near_uninitialized_value_construct_loop ops
        (w.data_.buffer_ + w.size_) _ 0) hal hal).relax (fun _ _ h => h.1) (fun _ h => ⟨w, h, hw, hal⟩)) ?_
      rintro - t - ht
      exact hfin t ht
    · refine Outcome.Ends.chain ((hst.near (near_destroy_n _ (w.data_.buffer_ + n)) hal hal).relax
        (fun _ _ h => h.1) (fun _ h => ⟨w, h, hw, hal⟩)) ?_
      rintro - t - ht
      exact hfin t ht
  by_cases hgrow : n > v.data_.capacity_
  · rw [if_pos hgrow]
    refine Outcome.Ends.chain ((Vector.Reserve_ends ops m this v n hv hn).relax
      (fun _ _ h => h) (fun _ h => h.touched)) ?_
    rintro - s - ⟨w, hst, hw, hal, -, hle⟩
    exact hrest s w hst hw hal hle
  · rw [if_neg hgrow]
    rw [run_bind_ret (show (pure PUnit.unit : M (Mem T) PUnit) m = .ret PUnit.unit m from rfl)]
    exact hrest m v (Mem.Stage.start m this v hv) (fun hs => hs) (Mem.Allowed.own m v) (by omega)

theorem size_pred_wrap (n : Nat) (h0 : 0 < n) (h : n < SIZE_MOD) :
    (n + SIZE_MOD - 1) % SIZE_MOD = n - 1 := by
  have : n + SIZE_MOD - 1 = (n - 1) + SIZE_MOD := by omega
  rw [this, Nat.add_mod_right, Nat.mod_eq_of_lt (by omega)]

/-- `PopBack()`, whether it returns or throws. -/
theorem Vector.PopBack_ends (m : Mem T) (this : Nat) (v : Vector)
    (hv : m.vecs[this]? = some (some v)) :
    (Vector.PopBack this m).Ends (fun _ s => m.Touched s this v)
      (fun s => m.Touched s this v) := by
  unfold Vector.PopBack
  rw [run_bind_ret (getVec_eval m this v hv)]
  simp only [RawMemory.GetAddress]
  have h0 := Mem.Stage.start m this v hv
  refine Outcome.Ends.chain (P := fun _ t => t = m ∧ v.size_ > 0)
    (assert_ends _ m _ _ (fun h => ⟨rfl, h⟩)) ?_
  rintro - s - ⟨rfl, hpos⟩
  refine Outcome.Ends.chain ((h0.near (near_destroy_n _ (v.data_.buffer_ + (v.size_ - 1)))
    (Mem.Allowed.own s v) (Mem.Allowed.own s v)).relax (fun _ _ h => h.1)
    (fun _ h => h.touched)) ?_
  rintro - t - ht
  refine (ht.setVec _ _).relax (fun _ t' h => ⟨_, h.2, fun hs => ⟨?_, hs.2⟩,
    Mem.Allowed.own s v⟩) (fun _ h => h)
  show (v.size_ + SIZE_MOD - 1) % SIZE_MOD ≤ v.data_.capacity_
  rw [size_pred_wrap _ hpos (by have := hs.1; have := hs.2; omega)]
  have := hs.1; omega

/-- `Erase(pos)`, whether it returns or throws. -/
theorem Vector.Erase_ends (ops : ElemOps T) (m : Mem T) (this : Nat) (v : Vector) (pos : Ptr)
    (hv : m.vecs[this]? = some (some v)) :
    (Vector.Erase ops this pos m).Ends (fun _ s => m.Touched s this v)
      (fun s => m.Touched s this v) := by
  unfold Vector.Erase
  rw [run_bind_ret (Vector.begin_eval m this v hv), run_bind_ret (Vector.end_eval m this v hv)]
  have h0 := Mem.Stage.start m this v hv
  refine Outcome.Ends.chain (P := fun _ t => t = m ∧ v.size_ > 0)
    (assert_ends _ m _ _ (fun h => ⟨rfl, ?_⟩)) ?_
  · have h2 := h.2.1
    have h3 := h.2.2
    simp only [Ptr.add_off] at h3
    omega
  rintro - s - ⟨rfl, hpos⟩
  refine Outcome.Ends.chain ((h0.near (near_std_move ops
    (v.data_.buffer_ + (pos.off - v.data_.buffer_.off) + 1) _
    (v.data_.buffer_ + (pos.off - v.data_.buffer_.off))) (Mem.Allowed.own s v)
    (Mem.Allowed.own s v)).relax (fun _ _ h => h.1) (fun _ h => h.touched)) ?_
  rintro - t1 - ht1
  refine Outcome.Ends.chain ((ht1.near (near_destroy_n _ (v.data_.buffer_ + v.size_ - 1))
    (Mem.Allowed.own s v) (Mem.Allowed.own s v)).relax (fun _ _ h => h.1)
    (fun _ h => h.touched)) ?_
  rintro - t2 - ht2
  rw [run_bind_ret (getVec_eval t2 this v ht2.1)]
  refine Outcome.Ends.chain (ht2.setVec _ _) ?_
  rintro - t3 - ⟨-, ht3⟩
  rw [run_bind_ret (Vector.begin_eval t3 this _ ht3.1)]
  refine ⟨_, ht3, fun hs => ⟨?_, hs.2⟩, Mem.Allowed.own s v⟩
  show (v.size_ + SIZE_MOD - 1) % SIZE_MOD ≤ v.data_.capacity_
  rw [size_pred_wrap _ hpos (by have := hs.1; have := hs.2; omega)]
  have := hs.1; omega

theorem near_after_plus (r : RawMemory) (off : Nat) (f : Ptr → M (Mem T) α) (a b : Nat)
    (hf : Near (f (r.buffer_ + off)) a b) : Near (r.plus off >>= f) a b := by
  intro m
  by_cases h : off ≤ r.capacity_
  · rw [run_bind_ret (RawMemory.plus_eval r off m h)]
    exact hf m
  · have : r.plus off m = .ub := by
      unfold RawMemory.plus
      rw [run_bind]
      simp [assert, h]
    rw [run_bind, this]
    trivial

theorem near_after_index (r : RawMemory) (i : Nat) (f : Ptr → M (Mem T) α) (a b : Nat)
    (hf : Near (f (r.buffer_ + i)) a b) : Near (r.index i >>= f) a b := by
  intro m
  by_cases h : i < r.capacity_
  · have : r.index i m = .ret (r.buffer_ + i) m := by
      unfold RawMemory.index
      rw [run_bind_ret (assert_eval _ m h)]
      rfl
    rw [run_bind_ret this]
    exact hf m
  · have : r.index i m = .ub := by
      unfold RawMemory.index
      rw [run_bind]
      simp [assert, h]
    rw [run_bind, this]
    trivial

/-- The branch of `Emplace` that keeps the buffer writes to that buffer only. -/
theorem near_Emplace_in_place (ops : ElemOps T) (v : Vector) (pos : Ptr) (offset : Nat)
    (args : Option T) :
    Near (Vector.Emplace_in_place ops v pos v.data_.buffer_ (v.data_.buffer_ + v.size_) offset args)
      v.data_.buffer_.base v.data_.buffer_.base := by
  unfold Vector.Emplace_in_place
  split
  · have := near_after_plus v.data_ offset (fun p => construct_from p args)
      v.data_.buffer_.base v.data_.buffer_.base (near_construct_from (v.data_.buffer_ + offset) args)
    exact this
  · cases args with
    | none => exact near_throwExn _ _ _
    | some x =>
      refine (near_move_construct ops (v.data_.buffer_ + v.size_)
        (v.data_.buffer_ + v.size_ - 1)).next (fun _ => ?_)
      refine (near_move_backward ops (v.data_.buffer_ + offset) (v.data_.buffer_ + v.size_ - 1)
        (v.data_.buffer_ + v.size_)).next (fun _ => ?_)
      have := near_after_index v.data_ offset (fun p => move_assign_value ops p x)
        v.data_.buffer_.base v.data_.buffer_.base
        (near_move_assign_value ops (v.data_.buffer_ + offset) x)
      exact this

/-- If the relocation into a new buffer `r` returns, the block of `r` has room
for all the elements and the new one. -/
theorem Vector.Emplace_growth_room (ops : ElemOps T) (v : Vector) (r : RawMemory)
    (offset : Nat) (args : Option T) (m s : Mem T) (hoff : offset ≤ v.size_)
    (hr : r.buffer_.off = 0)
    (h : (do
      let p ← r.plus offset
      construct_from p args
      onException (Vector.MoveData ops v.data_.GetAddress offset r.GetAddress)
        (destroy_n (r.GetAddress + offset) 1)
      onException
        (Vector.MoveData ops (v.data_.GetAddress + offset) (v.size_ - offset)
          (r.GetAddress + (offset + 1)))
        (destroy_n r.GetAddress (offset + 1))
      destroy_n v.data_.GetAddress v.size_ : M (Mem T) Unit) m = .ret () s) :
    ∃ k, m.len r.buffer_.base = some k ∧ v.size_ + 1 ≤ k := by
  simp only [RawMemory.GetAddress] at h
  rw [bind_eq_ret_iff] at h
  obtain ⟨p, s0, h0, h⟩ := h
  obtain ⟨-, rfl, rfl⟩ := RawMemory.plus_ret r offset m s0 p h0
  rw [bind_eq_ret_iff] at h
  obtain ⟨u1, s1, h1, h⟩ := h
  obtain ⟨x, o, -, hslot, hs1⟩ := construct_from_ret _ _ _ _ _ h1
  obtain ⟨k, hk, hlt⟩ := Mem.slot_addressable _ _ o hslot
  simp only [Ptr.add_base, Ptr.add_off, hr] at hk hlt
  refine ⟨k, hk, ?_⟩
  by_cases hlast : v.size_ - offset = 0
  · omega
  rw [bind_eq_ret_iff] at h
  obtain ⟨u2, s2, h2, h⟩ := h
  rw [onException_eq_ret_iff] at h2
  rw [bind_eq_ret_iff] at h
  obtain ⟨u3, s3, h3, -⟩ := h
  rw [onException_eq_ret_iff] at h3
  obtain ⟨t, ht⟩ : ∃ t, v.size_ - offset = t + 1 := ⟨v.size_ - offset - 1, by omega⟩
  rw [ht] at h3
  obtain ⟨k', hk', hlt'⟩ := Vector.MoveData_room ops _ _ t s2 s3 h3
  have hw1 : s0.Within s1 r.buffer_.base r.buffer_.base :=
    (near_construct_from (r.buffer_ + offset) args s0).ret_imp h1
  have hw2 : s1.Within s2 r.buffer_.base v.data_.buffer_.base :=
    (near_MoveData ops v.data_.buffer_ offset r.buffer_ s1).ret_imp h2
  simp only [Ptr.add_base, Ptr.add_off, hr] at hk' hlt'
  rw [hw2.2.2.2, hw1.2.2.2, hk] at hk'
  cases hk'
  omega

/-- The growth branch of `Emplace`, whether it returns or throws. -/
theorem Vector.Emplace_growth_ends (ops : ElemOps T) (m : Mem T) (this : Nat) (v : Vector)
    (offset : Nat) (args : Option T) (hv : m.vecs[this]? = some (some v))
    (hoff : offset ≤ v.size_) :
    (Vector.Emplace_growth ops this v offset args m).Ends
      (fun _ s => ∃ w, m.Stage s this v w ∧ w.size_ = v.size_ ∧
        v.size_ + 1 ≤ w.data_.capacity_ ∧ w.data_.capacity_ < SIZE_MOD ∧
        m.Allowed v w.data_.buffer_.base)
      (fun s => m.Stage s this v v) := by
  unfold Vector.Emplace_growth
  have h0 := Mem.Stage.start m this v hv
  refine Outcome.Ends.chain ((h0.ctor ops _).relax (fun _ _ h => h)
    (fun _ h => by rw [h]; exact h0)) ?_
  rintro r m1 - ⟨hst, hcap, hroff, hal, hlen, -⟩
  refine Outcome.Ends.chain (P := fun _ t => m.Stage t this v v ∧ v.size_ + 1 ≤ r.capacity_) ?_ ?_
  · have hnear : Near (do
        let p ← r.plus offset
        construct_from p args
        onException (Vector.MoveData ops v.data_.GetAddress offset r.GetAddress)
          (destroy_n (r.GetAddress + offset) 1)
        onException
          (Vector.MoveData ops (v.data_.GetAddress + offset) (v.size_ - offset)
            (r.GetAddress + (offset + 1)))
          (destroy_n r.GetAddress (offset + 1))
        destroy_n v.data_.GetAddress v.size_ : M (Mem T) Unit)
        r.buffer_.base v.data_.buffer_.base := by
      refine near_after_plus r offset _ _ _ ?_
      refine ((near_construct_from (r.buffer_ + offset) args).wide _).next (fun _ => ?_)
      refine (Near.protect (near_MoveData ops v.data_.buffer_ offset r.buffer_)
        ((near_destroy_n 1 (r.buffer_ + offset)).wide _)).next (fun _ => ?_)
      refine (Near.protect (near_MoveData ops (v.data_.buffer_ + offset) (v.size_ - offset)
        (r.buffer_ + (offset + 1))) ((near_destroy_n (offset + 1) r.buffer_).wide _)).next
        (fun _ => ?_)
      exact ((near_destroy_n v.size_ v.data_.buffer_).wide _).swap_bases
    refine Outcome.Ends.guarded (((hst.near hnear hal (Mem.Allowed.own m v)).relax
      (fun _ _ h => h.1) (fun _ h => h)).and_ret (fun _ t hret => ?_)) ?_
    · obtain ⟨k, hk, hle⟩ := Vector.Emplace_growth_room ops v r offset args m1 t hoff hroff hret
      have := hlen k hk
      omega
    · intro s hs'
      exact hs'.dtor r hal _
  rintro - m2 - ⟨hst2, hroom⟩
  refine Outcome.Ends.chain (hst2.setVec _ _) ?_
  rintro - m3 - ⟨-, hst3⟩
  refine (hst3.dtor _ (Mem.Allowed.own m v) _).relax (fun _ t h => ?_) (fun _ h => h)
  refine ⟨_, h, rfl, hroom, ?_, hal⟩
  show r.capacity_ < SIZE_MOD
  rw [hcap]
  split
  · rw [SIZE_MOD_eq]; decide
  · exact Nat.mod_lt _ (by rw [SIZE_MOD_eq]; decide)

/-- `Emplace(pos, args...)`, whether it returns or throws. -/
theorem Vector.Emplace_ends (ops : ElemOps T) (m : Mem T) (this : Nat) (v : Vector) (pos : Ptr)
    (args : Option T) (hv : m.vecs[this]? = some (some v)) :
    (Vector.Emplace ops this pos args m).Ends (fun _ s => m.Touched s this v)
      (fun s => m.Touched s this v) := by
  unfold Vector.Emplace
  rw [run_bind_ret (getVec_eval m this v hv), run_bind_ret (Vector.begin_eval m this v hv),
    run_bind_ret (Vector.end_eval m this v hv)]
  have h0 := Mem.Stage.start m this v hv
  refine Outcome.Ends.chain (P := fun _ t => t = m ∧ pos.off - v.data_.buffer_.off ≤ v.size_)
    (assert_ends _ m _ _ (fun h => ⟨rfl, ?_⟩)) ?_
  · have h3 := h.2.2
    simp only [Ptr.add_off] at h3
    omega
  rintro - s - ⟨rfl, hoff⟩
  have htail : ∀ (t : Mem T) (w : Vector), s.Stage t this v w →
      (v.Sound → w.size_ + 1 ≤ w.data_.capacity_ ∧ w.data_.capacity_ < SIZE_MOD) →
      s.Allowed v w.data_.buffer_.base →
      ((do
        let v' ← getVec this
        setVec this { v' with size_ := (v'.size_ + 1) % SIZE_MOD }
        let b ← Vector.begin this
        pure (b + (pos.off - v.data_.buffer_.off)) : M (Mem T) Ptr) t).Ends
        (fun _ t' => s.Touched t' this v) (fun t' => s.Touched t' this v) := by
    intro t w ht hsnd hal
    rw [run_bind_ret (getVec_eval t this w ht.1), run_bind_ret (setVec_eval t this w _ ht.1)]
    unfold Vector.begin
    rw [run_bind, run_bind_ret (getVec_putVec t this w _ ht.1)]
    refine ⟨_, ⟨Mem.vec_putVec_self _ _ _ _ ht.1, ht.2.frame_putVec _⟩,
      fun hs => ⟨?_, (hsnd hs).2⟩, hal⟩
    obtain ⟨hle, hlt⟩ := hsnd hs
    show (w.size_ + 1) % SIZE_MOD ≤ w.data_.capacity_
    rw [Nat.mod_eq_of_lt (by omega)]
    exact hle
  simp only [RawMemory.Capacity]
  by_cases hsc : v.size_ = v.data_.capacity_
  · simp only [if_pos hsc]
    refine Outcome.Ends.chain ((Vector.Emplace_growth_ends ops s this v _ args hv hoff).relax
      (fun _ _ h => h) (fun _ h => h.touched)) ?_
    rintro - t - ⟨w, ht, hsz, hle, hlt, hal⟩
    exact htail t w ht (fun _ => ⟨by omega, hlt⟩) hal
  · simp only [if_neg hsc]
    refine Outcome.Ends.chain ((h0.near (near_Emplace_in_place ops v pos _ args)
      (Mem.Allowed.own s v) (Mem.Allowed.own s v)).relax (fun _ _ h => h.1)
      (fun _ h => h.touched)) ?_
    rintro - t - ht
    exact htail t v ht (fun hs => ⟨by have := hs.1; omega, hs.2⟩) (Mem.Allowed.own s v)

/-! ### Calls on one object -/

theorem getVec_dead (m : Mem T) (this : Nat) (h : ∀ v, m.vecs[this]? ≠ some (some v)) :
    getVec this m = .ub := by
  unfold getVec
  split
  · rename_i v hv; exact absurd hv (h v)
  · rfl

theorem run_bind_ub {x : M σ α} {f : α → M σ β} {m : σ} (h : x m = .ub) : (x >>= f) m = .ub := by
  rw [run_bind, h]; rfl

theorem Outcome.Ends.discard {x : M σ α} {m : σ} {Q : σ → Prop} {E : σ → Prop}
    (h : (x m).Ends (fun _ s => Q s) E) :
    ((x >>= fun _ => (pure () : M σ Unit)) m).Ends (fun _ s => Q s) E :=
  Outcome.Ends.chain h (fun _ _ _ hq => hq)

/-- The statement `v[index] = value`, whether it returns or throws. -/
theorem Vector.assign_at_ends (ops : ElemOps T) (m : Mem T) (this : Nat) (v : Vector)
    (index : Nat) (value : T) (hv : m.vecs[this]? = some (some v)) :
    (Vector.assign_at ops this index value m).Ends (fun _ s => m.Touched s this v)
      (fun s => m.Touched s this v) := by
  unfold Vector.assign_at
  have h0 := Mem.Stage.start m this v hv
  have hnear : Near (do
      let y ← load (v.data_.buffer_ + index)
      if ops.copy_assign_throws y value then
        store (v.data_.buffer_ + index) (ops.copy_assign_failed y value)
        throwExn .element
      store (v.data_.buffer_ + index) value : M (Mem T) Unit)
      v.data_.buffer_.base v.data_.buffer_.base :=
    (near_load _ _ _).next
      (fun y => near_guard_after _ _ _ _ _ _ (near_store _ _) (near_store _ value))
  by_cases hi : index < v.size_ ∧ index < v.data_.capacity_
  · have : Vector.index this index m = .ret (v.data_.buffer_ + index) m := by
      unfold Vector.index
      rw [run_bind_ret (getVec_eval m this v hv), run_bind_ret (assert_eval _ m hi.1)]
      unfold RawMemory.index
      rw [run_bind_ret (assert_eval _ m hi.2)]
      rfl
    rw [run_bind_ret this]
    exact (h0.near hnear (Mem.Allowed.own m v) (Mem.Allowed.own m v)).relax
      (fun _ _ h => h.1.touched) (fun _ h => h.touched)
  · have : Vector.index this index m = .ub := by
      unfold Vector.index
      rw [run_bind_ret (getVec_eval m this v hv)]
      by_cases h1 : index < v.size_
      · rw [run_bind_ret (assert_eval _ m h1)]
        unfold RawMemory.index
        rw [run_bind]
        simp [assert, show ¬ index < v.data_.capacity_ from fun h2 => hi ⟨h1, h2⟩]
      · rw [run_bind]
        simp [assert, h1]
    rw [run_bind_ub this]
    trivial

/-- A modifying call on an object that is not there has no outcome. -/
theorem Call.run_dead (ops : ElemOps T) (c : Call T) (this : Nat) (hc : c.Mutates this)
    (m : Mem T) (h : ∀ v, m.vecs[this]? ≠ some (some v)) : c.run ops m = .ub := by
  have hg := getVec_dead m this h
  have hb : (Vector.begin this : M (Mem T) Ptr) m = .ub := run_bind_ub hg
  have he : (Vector.end_ this : M (Mem T) Ptr) m = .ub := run_bind_ub hg
  have hE : ∀ pos args, Vector.Emplace ops this pos args m = .ub :=
    fun pos args => run_bind_ub hg
  have hEB : ∀ args, Vector.EmplaceBack ops this args m = .ub := fun args => run_bind_ub he
  cases c <;> simp only [Call.Mutates] at hc <;> subst hc
  · exact run_bind_ub hg
  · exact run_bind_ub (run_bind_ub hg)
  · exact run_bind_ub (hEB _)
  · exact run_bind_ub (hEB _)
  · exact run_bind_ub (hEB _)
  · exact run_bind_ub (hE _ _)
  · exact run_bind_ub (hE _ _)
  · exact run_bind_ub (hE _ _)
  · exact run_bind_ub (run_bind_ub hb)
  · exact run_bind_ub hg
  · exact run_bind_ub (run_bind_ub hg)

/-- Every modifying call on a live object with `Sound` members leaves it so,
and changes nothing outside its buffer and the new blocks. -/
theorem Call.run_touched (ops : ElemOps T) (c : Call T) (this : Nat) (hc : c.Mutates this)
    (hwt : c.WellTyped) (m : Mem T) (v : Vector) (hv : m.vecs[this]? = some (some v)) :
    (c.run ops m).Ends (fun _ s => m.Touched s this v) (fun s => m.Touched s this v) := by
  have hEB : ∀ args, (Vector.EmplaceBack ops this args m).Ends (fun _ s => m.Touched s this v)
      (fun s => m.Touched s this v) := by
    intro args
    unfold Vector.EmplaceBack
    rw [run_bind_ret (Vector.end_eval m this v hv)]
    exact Vector.Emplace_ends ops m this v _ args hv
  cases c <;> simp only [Call.Mutates] at hc <;> subst hc
  · exact (Vector.Reserve_ends ops m _ v _ hv hwt).relax
      (fun _ _ ⟨w, h1, h2, h3, _⟩ => ⟨w, h1, h2, h3⟩) (fun _ h => h.touched)
  · exact Vector.Resize_ends ops m _ v _ hv hwt
  · exact (hEB _).discard
  · exact (hEB _).discard
  · exact (hEB _).discard
  · exact (Vector.Emplace_ends ops m _ v _ _ hv).discard
  · exact (Vector.Emplace_ends ops m _ v _ _ hv).discard
  · exact (Vector.Emplace_ends ops m _ v _ _ hv).discard
  · exact (Vector.Erase_ends ops m _ v _ hv).discard
  · exact Vector.PopBack_ends m _ v hv
  · exact Vector.assign_at_ends ops m _ v _ _ hv

theorem Mem.Touched.keeps_sound {m s : Mem T} {this : Nat} {v : Vector} (h : m.Touched s this v)
    (hv : m.vecs[this]? = some (some v)) (hm : m.Sound) : s.Sound := by
  obtain ⟨w, ⟨hw, -, hf, -, -⟩, hws, -⟩ := h
  intro i u hu
  by_cases hi : i = this
  · subst hi
    rw [hw] at hu
    cases hu
    exact hws (hm i v hv)
  · rw [hf i hi] at hu
    exact hm i u hu

/-! ### Calls that create, destroy or combine objects -/

theorem Mem.Sound.of_vecs {m s : Mem T} (h : m.Sound) (hv : s.vecs = m.vecs) : s.Sound := by
  intro i u hu
  rw [hv] at hu
  exact h i u hu

theorem Mem.Sound.sound_pushVec {m : Mem T} (h : m.Sound) (v : Vector) (hv : v.Sound) :
    (m.pushVec v).Sound := by
  intro i u hu
  rw [Mem.vecs_pushVec] at hu
  by_cases hi : i < m.vecs.length
  · rw [List.getElem?_append_left hi] at hu
    exact h i u hu
  · rw [List.getElem?_append_right (by omega)] at hu
    by_cases h0 : i - m.vecs.length = 0
    · rw [h0] at hu
      simp at hu
      rw [← hu]; exact hv
    · rw [List.getElem?_eq_none (by simp; omega)] at hu
      cases hu

theorem Mem.Sound.sound_putVec {m : Mem T} (h : m.Sound) (i : Nat) (o : Option Vector)
    (ho : ∀ v, o = some v → v.Sound) : (m.putVec i o).Sound := by
  intro j u hu
  by_cases hj : i = j
  · subst hj
    rw [Mem.vecs_putVec] at hu
    by_cases hlt : i < m.vecs.length
    · rw [List.getElem?_set_eq_of_lt _ hlt] at hu
      cases hu
      exact ho u rfl
    · rw [List.getElem?_eq_none (by simp; omega)] at hu
      cases hu
  · rw [Mem.vec_putVec_ne _ _ _ _ hj] at hu
    exact h j u hu

/-- Code under which every live object keeps `Sound` members, whether it
returns or throws. -/
theorem sound_of_near {x : M (Mem T) α} {a b : Nat} (hx : Near x a b) (m : Mem T)
    (hm : m.Sound) : (x m).Ends (fun _ s => s.Sound ∧ s.vecs = m.vecs)
      (fun s => s.Sound ∧ s.vecs = m.vecs) :=
  (hx m).relax (fun _ _ h => ⟨hm.of_vecs h.1, h.1⟩) (fun _ h => ⟨hm.of_vecs h.1, h.1⟩)

theorem RawMemory.release_sound (r : RawMemory) (m : Mem T) (hm : m.Sound) (E : Mem T → Prop) :
    (RawMemory.dtor r m).Ends (fun _ s => s.Sound ∧ s.vecs = m.vecs) E := by
  refine (RawMemory.dtor_ends r m E).relax (fun _ s hs => ?_) (fun _ h => h)
  rcases hs with rfl | ⟨bytes, rfl⟩
  · exact ⟨hm, rfl⟩
  · exact ⟨hm.of_vecs (by simp), by simp⟩

theorem RawMemory.ctor_sound (ops : ElemOps T) (n : Nat) (m : Mem T) (hm : m.Sound) :
    (RawMemory.ctor ops n m).Ends
      (fun r s => s.Sound ∧ s.vecs = m.vecs ∧ r.capacity_ = n) (fun s => s.Sound) := by
  rw [RawMemory.ctor_eval]
  split
  · rename_i h; exact ⟨hm, rfl, h.symm⟩
  · split
    · exact ⟨hm.of_vecs (by simp), by simp, rfl⟩
    · exact hm

theorem delVec_sound (this : Nat) (m : Mem T) (hm : m.Sound) (E : Mem T → Prop) :
    (delVec this m).Ends (fun _ s => s.Sound) E := by
  unfold delVec
  split
  · exact hm.sound_putVec _ _ (fun _ h => by cases h)
  · trivial

theorem setVec_sound (this : Nat) (w : Vector) (hw : w.Sound) (m : Mem T) (hm : m.Sound)
    (E : Mem T → Prop) : (setVec this w m).Ends (fun _ s => s.Sound) E := by
  unfold setVec
  split
  · exact hm.sound_putVec _ _ (fun _ h => by cases h; exact hw)
  · trivial

theorem getVec_ends (this : Nat) (m : Mem T) (E : Mem T → Prop) :
    (getVec this m).Ends (fun v s => s = m ∧ m.vecs[this]? = some (some v)) E := by
  unfold getVec
  split
  · rename_i v hv; exact ⟨rfl, hv⟩
  · trivial

/-- The cleanup of a constructor whose element loop has thrown. -/
theorem ctor_cleanup_sound (this : Nat) (data : RawMemory) (m : Mem T) (hm : m.Sound) :
    ((do delVec this; RawMemory.dtor data : M (Mem T) Unit) m).Ends (fun _ s => s.Sound)
      (fun s => s.Sound) := by
  refine Outcome.Ends.chain (delVec_sound this m hm _) (fun _ s _ hs => ?_)
  exact (RawMemory.release_sound data s hs _).relax (fun _ _ h => h.1) (fun _ h => h)

theorem Vector.ctor_default_sound (m : Mem T) (hm : m.Sound) :
    ((Vector.ctor_default : M (Mem T) Nat) m).Ends (fun _ s => s.Sound) (fun s => s.Sound) :=
  hm.sound_pushVec _ ⟨Nat.le_refl _, by rw [SIZE_MOD_eq]; decide⟩

theorem Vector.ctor_size_sound (ops : ElemOps T) (n : Nat) (hn : n < SIZE_MOD) (m : Mem T)
    (hm : m.Sound) :
    (Vector.ctor_size ops n m).Ends (fun _ s => s.Sound) (fun s => s.Sound) := by
  unfold Vector.ctor_size
  refine Outcome.Ends.chain (RawMemory.ctor_sound ops n m hm) ?_
  rintro r m1 - ⟨hm1, -, hcap⟩
  rw [run_bind_ret (newVec_eval m1 _)]
  have hm2 : (m1.pushVec { data_ := r, size_ := n }).Sound :=
    hm1.sound_pushVec _ ⟨by show n ≤ r.capacity_; omega, by show r.capacity_ < _; omega⟩
  refine Outcome.Ends.chain (P := fun _ s => s.Sound) ?_ (fun _ s _ hs => hs)
  refine Outcome.Ends.guarded ((sound_of_near
    (near_uninitialized_value_construct_loop ops r.GetAddress n 0) _ hm2).relax
    (fun _ _ h => h.1) (fun _ h => h.1)) ?_
  intro s hs
  exact ctor_cleanup_sound _ r s hs

theorem Vector.ctor_copy_sound (ops : ElemOps T) (other : Nat) (m : Mem T) (hm : m.Sound) :
    (Vector.ctor_copy ops other m).Ends (fun _ s => s.Sound) (fun s => s.Sound) := by
  unfold Vector.ctor_copy
  refine Outcome.Ends.chain (getVec_ends other m _) ?_
  rintro o _ - ⟨rfl, ho⟩
  have hos := hm other o ho
  refine Outcome.Ends.chain (RawMemory.ctor_sound ops o.size_ _ hm) ?_
  rintro r m1 - ⟨hm1, -, hcap⟩
  rw [run_bind_ret (newVec_eval m1 _)]
  have hm2 : (m1.pushVec { data_ := r, size_ := o.size_ }).Sound :=
    hm1.sound_pushVec _ ⟨by show o.size_ ≤ r.capacity_; omega,
      by show r.capacity_ < _; have := hos.1; have := hos.2; omega⟩
  split
  · refine Outcome.Ends.chain (P := fun _ s => s.Sound) ?_ (fun _ s _ hs => hs)
    refine Outcome.Ends.guarded ((sound_of_near
      (near_uninitialized_copy_loop ops o.data_.GetAddress r.GetAddress o.size_ 0) _ hm2).relax
      (fun _ _ h => h.1) (fun _ h => h.1)) ?_
    intro s hs
    exact ctor_cleanup_sound _ r s hs
  · exact hm2

theorem Vector.Swap_sound (this other : Nat) (m : Mem T) (hm : m.Sound) :
    (Vector.Swap this other m).Ends (fun _ s => s.Sound) (fun s => s.Sound) := by
  unfold Vector.Swap
  refine Outcome.Ends.chain (getVec_ends this m _) ?_
  rintro a _ - ⟨rfl, ha⟩
  refine Outcome.Ends.chain (getVec_ends other _ _) ?_
  rintro b _ - ⟨rfl, hb⟩
  have has := hm this a ha
  have hbs := hm other b hb
  refine Outcome.Ends.chain (setVec_sound this _ hbs _ hm _) ?_
  rintro - s - hs
  exact setVec_sound other _ has s hs _

theorem Vector.ctor_move_sound (other : Nat) (m : Mem T) (hm : m.Sound) :
    ((Vector.ctor_move other : M (Mem T) Nat) m).Ends (fun _ s => s.Sound) (fun s => s.Sound) := by
  unfold Vector.ctor_move
  rw [run_bind_ret (newVec_eval m _)]
  have hm1 : (m.pushVec {}).Sound :=
    hm.sound_pushVec _ ⟨Nat.le_refl _, by rw [SIZE_MOD_eq]; decide⟩
  split
  · exact Outcome.Ends.chain (Vector.Swap_sound _ other _ hm1) (fun _ s _ hs => hs)
  · exact hm1

theorem Vector.move_assign_sound (this rhs : Nat) (m : Mem T) (hm : m.Sound) :
    ((Vector.move_assign this rhs : M (Mem T) Unit) m).Ends (fun _ s => s.Sound)
      (fun s => s.Sound) := by
  unfold Vector.move_assign
  split
  · exact Vector.Swap_sound this rhs m hm
  · exact hm

theorem Vector.dtor_sound (this : Nat) (m : Mem T) (hm : m.Sound) :
    ((Vector.dtor this : M (Mem T) Unit) m).Ends (fun _ s => s.Sound) (fun s => s.Sound) := by
  unfold Vector.dtor
  refine Outcome.Ends.chain (getVec_ends this m _) ?_
  rintro v _ - ⟨rfl, hv⟩
  refine Outcome.Ends.chain ((sound_of_near (near_destroy_n v.size_ v.data_.GetAddress) _ hm).relax
    (fun _ _ h => h.1) (fun _ h => h.1)) ?_
  rintro - s1 - hs1
  refine Outcome.Ends.chain ((RawMemory.release_sound v.data_ s1 hs1 _).relax (fun _ _ h => h.1)
    (fun _ h => h)) ?_
  rintro - s2 - hs2
  exact delVec_sound this s2 hs2 _

theorem Vector.copy_assign_sound (ops : ElemOps T) (this rhs : Nat) (m : Mem T) (hm : m.Sound) :
    (Vector.copy_assign ops this rhs m).Ends (fun _ s => s.Sound) (fun s => s.Sound) := by
  unfold Vector.copy_assign
  split
  swap
  · exact hm
  refine Outcome.Ends.chain (getVec_ends rhs m _) ?_
  rintro r _ - ⟨rfl, hr⟩
  refine Outcome.Ends.chain (getVec_ends this _ _) ?_
  rintro v _ - ⟨rfl, hv⟩
  have hvs := hm this v hv
  split
  · refine Outcome.Ends.chain (Vector.ctor_copy_sound ops rhs _ hm) ?_
    rintro c s1 - hs1
    refine Outcome.Ends.chain (Vector.Swap_sound this c s1 hs1) ?_
    rintro - s2 - hs2
    exact Vector.dtor_sound c s2 hs2
  · rename_i hle
    have hw : ({ v with size_ := r.size_ } : Vector).Sound :=
      ⟨by show r.size_ ≤ v.data_.capacity_; simp only [RawMemory.Capacity] at hle; omega, hvs.2⟩
    refine Outcome.Ends.chain ((sound_of_near (near_std_copy ops _ _ v.data_.GetAddress) _ hm).relax
      (fun _ _ h => h.1) (fun _ h => h.1)) ?_
    rintro - s1 - hs1
    split
    · refine Outcome.Ends.chain ((sound_of_near (near_uninitialized_copy_loop ops
        (r.data_.GetAddress + v.size_) (v.data_.GetAddress + v.size_) _ 0) _ hs1).relax
        (fun _ _ h => h.1) (fun _ h => h.1)) ?_
      rintro - s2 - hs2
      exact setVec_sound this _ hw s2 hs2 _
    · refine Outcome.Ends.chain ((sound_of_near (near_destroy_n _
        (v.data_.GetAddress + r.size_)) _ hs1).relax (fun _ _ h => h.1) (fun _ h => h.1)) ?_
      rintro - s2 - hs2
      exact setVec_sound this _ hw s2 hs2 _

theorem Call.run_sound_of_mutates (ops : ElemOps T) (c : Call T) (this : Nat)
    (hc : c.Mutates this) (hwt : c.WellTyped) (m : Mem T) (hm : m.Sound) :
    (c.run ops m).Ends (fun _ s => s.Sound) (fun s => s.Sound) := by
  by_cases hlive : ∃ v, m.vecs[this]? = some (some v)
  · obtain ⟨v, hv⟩ := hlive
    exact (Call.run_touched ops c this hc hwt m v hv).relax
      (fun _ _ h => h.keeps_sound hv hm) (fun _ h => h.keeps_sound hv hm)
  · rw [Call.run_dead ops c this hc m (fun v hv => hlive ⟨v, hv⟩)]
    trivial

/-- Every call keeps the members of every live object `Sound`, whether it
returns or throws. -/
theorem Call.run_sound (ops : ElemOps T) (c : Call T) (hwt : c.WellTyped) (m : Mem T)
    (hm : m.Sound) : (c.run ops m).Ends (fun _ s => s.Sound) (fun s => s.Sound) := by
  cases c with
  | ctor_default => exact (Vector.ctor_default_sound m hm).discard
  | ctor_size size => exact (Vector.ctor_size_sound ops size hwt m hm).discard
  | ctor_copy other => exact (Vector.ctor_copy_sound ops other m hm).discard
  | ctor_move other => exact (Vector.ctor_move_sound other m hm).discard
  | dtor this => exact Vector.dtor_sound this m hm
  | copy_assign this rhs => exact Vector.copy_assign_sound ops this rhs m hm
  | move_assign this rhs => exact Vector.move_assign_sound this rhs m hm
  | Swap this other => exact Vector.Swap_sound this other m hm
  | Reserve this n => exact Call.run_sound_of_mutates ops (.Reserve this n) this rfl hwt m hm
  | Resize this n => exact Call.run_sound_of_mutates ops (.Resize this n) this rfl hwt m hm
  | PushBack this value => exact Call.run_sound_of_mutates ops (.PushBack this value) this rfl hwt m hm
  | PushBack_rvalue this value => exact Call.run_sound_of_mutates ops (.PushBack_rvalue this value) this rfl hwt m hm
  | EmplaceBack this args => exact Call.run_sound_of_mutates ops (.EmplaceBack this args) this rfl hwt m hm
  | Emplace this pos args => exact Call.run_sound_of_mutates ops (.Emplace this pos args) this rfl hwt m hm
  | Insert this pos value => exact Call.run_sound_of_mutates ops (.Insert this pos value) this rfl hwt m hm
  | Insert_rvalue this pos value => exact Call.run_sound_of_mutates ops (.Insert_rvalue this pos value) this rfl hwt m hm
  | Erase this pos => exact Call.run_sound_of_mutates ops (.Erase this pos) this rfl hwt m hm
  | PopBack this => exact Call.run_sound_of_mutates ops (.PopBack this) this rfl hwt m hm
  | assign_at this index value =>
    exact Call.run_sound_of_mutates ops (.assign_at this index value) this rfl hwt m hm

theorem Call.Step.step_sound {ops : ElemOps T} {c : Call T} {m m' : Mem T} (h : c.Step ops m m')
    (hm : m.Sound) : m'.Sound := by
  obtain ⟨hwt, hret | ⟨e, hthrown⟩⟩ := h
  · exact (Call.run_sound ops c hwt m hm).ret_imp hret
  · exact (Call.run_sound ops c hwt m hm).thrown_imp hthrown

theorem Reachable.all_sound {ops : ElemOps T} {m : Mem T} (h : Reachable ops m) : m.Sound := by
  induction h with
  | init free =>
    intro i v hv
    simp at hv
  | step c m m' _ hstep ih => exact hstep.step_sound ih

/-- C1 (size/capacity invariant).  In every memory that a program reaches from
nothing by calls of constructors (default, `Vector(n)`, copy, move), of the
destructor, and of `Reserve`, `Resize`, `PushBack`, `EmplaceBack`, `Emplace`,
`Insert`, `Erase`, `PopBack`, `Swap`, copy assignment and move assignment, and
by assignments `v[i] = x`, each of which returns or throws (a call that
violates a precondition reaches nothing), every live vector has
`0 ≤ Size() ≤ Capacity()`. -/
theorem C1_size_le_capacity (ops : ElemOps T) (m : Mem T) (hreach : Reachable ops m)
    (this : Nat) (v : Vector) (hv : m.vecs[this]? = some (some v)) :
    ∃ size capacity, Vector.Size this m = .ret size m ∧
      Vector.Capacity this m = .ret capacity m ∧ 0 ≤ size ∧ size ≤ capacity :=
  ⟨v.size_, v.data_.capacity_, Vector.Size_eval m this v hv, Vector.Capacity_eval m this v hv,
    Nat.zero_le _, (hreach.all_sound this v hv).1⟩

theorem mem_grown_reachable : Reachable intOps mem_grown := by
  refine Reachable.step (.PushBack 0 7)
    { heap := [some ⟨16, [some 0, some 0]⟩], vecs := [some ⟨⟨⟨1, 0⟩, 2⟩, 2⟩], free := 984 } _
    (Reachable.step (.ctor_size 2) _ _ (Reachable.init 1000) ⟨?_, Or.inl (by decide)⟩)
    ⟨trivial, Or.inl (by decide)⟩
  show 2 < SIZE_MOD
  rw [SIZE_MOD_eq]; decide

/-- Witness for C1: the memory after `Vector<int> v(2); v.PushBack(7);`. -/
theorem C1_size_le_capacity_witness :
    (Reachable intOps mem_grown ∧ mem_grown.vecs[0]? = some (some ⟨⟨⟨2, 0⟩, 4⟩, 3⟩)) ∧
      ∃ size capacity, Vector.Size 0 mem_grown = .ret size mem_grown ∧
        Vector.Capacity 0 mem_grown = .ret capacity mem_grown ∧ 0 ≤ size ∧ size ≤ capacity :=
  ⟨⟨mem_grown_reachable, by decide⟩,
    C1_size_le_capacity intOps mem_grown mem_grown_reachable 0 ⟨⟨⟨2, 0⟩, 4⟩, 3⟩ (by decide)⟩

/-- Mutations of one vector `c` do not reach another vector `X` whose buffer
is not the buffer of `c`: the members of `X` and the block of its buffer stay
as they are. -/
theorem Mutation.keeps (ops : ElemOps T) (c other : Nat) (x : Vector) (hne : c ≠ other)
    (m1 m2 : Mem T) (h : Relation.ReflTransGen (Mutation ops c) m1 m2)
    (hx : m1.vecs[other]? = some (some x))
    (hc : ∃ w, m1.vecs[c]? = some (some w) ∧
      (x.data_.buffer_.base = 0 ∨
        (w.data_.buffer_.base ≠ x.data_.buffer_.base ∧ x.data_.buffer_.base ≤ m1.heap.length))) :
    m2.vecs[other]? = some (some x) ∧
      m2.block x.data_.buffer_.base = m1.block x.data_.buffer_.base ∧
      ∃ w, m2.vecs[c]? = some (some w) ∧
        (x.data_.buffer_.base = 0 ∨
          (w.data_.buffer_.base ≠ x.data_.buffer_.base ∧
            x.data_.buffer_.base ≤ m2.heap.length)) := by
  induction h with
  | refl => exact ⟨hx, rfl, hc⟩
  | @tail s s' _ hstep ih =>
    obtain ⟨hxs, hbs, w, hw, hsep⟩ := ih
    obtain ⟨k, hk, hwt, hrun⟩ := hstep
    have hT : s.Touched s' c w := by
      have := Call.run_touched ops k c hk hwt s w hw
      rcases hrun with hret | ⟨e, hthrown⟩
      · exact this.ret_imp hret
      · exact this.thrown_imp hthrown
    obtain ⟨w', ⟨hw', f1, f2, f3, f4⟩, -, hal⟩ := hT
    refine ⟨by rw [f2 other (Ne.symm hne)]; exact hxs, ?_, w', hw', ?_⟩
    · rcases hsep with h0 | ⟨h1, h2⟩
      · rw [h0]; rfl
      · rw [f4 _ (Ne.symm h1) h2, hbs]
    · rcases hsep with h0 | ⟨h1, h2⟩
      · exact Or.inl h0
      · by_cases h0 : x.data_.buffer_.base = 0
        · exact Or.inl h0
        · refine Or.inr ⟨?_, by omega⟩
          rcases hal with h | h | h <;> omega



/-! ### A vector that the rest of the program leaves alone -/

theorem Vector.Apart.null (x : Vector) : x.Apart 0 := by
  by_cases h : x.data_.buffer_.base = 0
  · exact Or.inl h
  · exact Or.inr (fun h' => h h'.symm)

theorem Vector.Apart.fresh (x : Vector) (b n : Nat) (hx : x.data_.buffer_.base ≤ n) (hb : n < b) :
    x.Apart b :=
  Or.inr (by omega)

theorem Mem.Guards.live {s : Mem T} {other : Nat} {x : Vector} {B : Option (Block T)}
    (h : s.Guards other x B) : other < s.vecs.length :=
  s.lt_of_vec other _ h.1

theorem Mem.Guards.guard_of_same {s t : Mem T} {other : Nat} {x : Vector} {B : Option (Block T)}
    (h : s.Guards other x B) (hv : t.vecs = s.vecs) (hl : s.heap.length ≤ t.heap.length)
    (hb : ∀ b, b ≠ 0 → b = x.data_.buffer_.base → t.block b = s.block b) :
    t.Guards other x B := by
  obtain ⟨h1, h2, h3, h4⟩ := h
  refine ⟨by rw [hv]; exact h1, ?_, by omega, fun j w hj hw => h4 j w hj (by rw [← hv]; exact hw)⟩
  by_cases h0 : x.data_.buffer_.base = 0
  · rw [← h2, h0]; rfl
  · rw [hb _ h0 rfl, h2]

theorem Mem.Guards.guard_near {s : Mem T} {other : Nat} {x : Vector} {B : Option (Block T)}
    {f : M (Mem T) α} {a b : Nat} (h : s.Guards other x B) (hf : Near f a b) (ha : x.Apart a)
    (hb : x.Apart b) :
    (f s).Ends (fun _ t => t.Guards other x B) (fun t => t.Guards other x B) := by
  have key : ∀ t, s.Within t a b → t.Guards other x B := by
    rintro t ⟨w1, w2, w3, -⟩
    refine h.guard_of_same w1 (by omega) (fun c hc0 hc => w3 c ?_ ?_)
    · rcases ha with h0 | h0
      · omega
      · omega
    · rcases hb with h0 | h0
      · omega
      · omega
  exact (hf s).relax (fun _ _ hw => key _ hw) (fun _ hw => key _ hw)

theorem Mem.Guards.guard_ctor {s : Mem T} {other : Nat} {x : Vector} {B : Option (Block T)}
    (h : s.Guards other x B) (ops : ElemOps T) (n : Nat) :
    (RawMemory.ctor ops n s).Ends
      (fun r t => t.Guards other x B ∧ x.Apart r.buffer_.base ∧ t.vecs = s.vecs)
      (fun t => t.Guards other x B) := by
  rw [RawMemory.ctor_eval]
  split
  · exact ⟨h, Vector.Apart.null x, rfl⟩
  · split
    · refine ⟨h.guard_of_same (by simp) (by simp) (fun b _ hb => ?_),
        Vector.Apart.fresh x _ _ h.2.2.1 (Nat.lt_succ_self _), by simp⟩
      rw [Mem.block_alloc, if_neg (by have := h.2.2.1; omega)]
    · exact h

theorem Mem.Guards.guard_dtor {s : Mem T} {other : Nat} {x : Vector} {B : Option (Block T)}
    (h : s.Guards other x B) (r : RawMemory) (hr : x.Apart r.buffer_.base)
    (E : Mem T → Prop) :
    (RawMemory.dtor r s).Ends (fun _ t => t.Guards other x B) E := by
  refine (RawMemory.dtor_ends r s E).relax (fun _ t ht => ?_) (fun _ h => h)
  rcases ht with rfl | ⟨bytes, rfl⟩
  · exact h
  · refine h.guard_of_same (by simp) (by simp) (fun b hb0 hb => ?_)
    rw [Mem.block_release_ne]
    rcases hr with h0 | h0
    · omega
    · omega

theorem Mem.Guards.pushed {s : Mem T} {other : Nat} {x : Vector} {B : Option (Block T)}
    (h : s.Guards other x B) (w : Vector) (hw : x.Apart w.data_.buffer_.base) :
    (s.pushVec w).Guards other x B := by
  obtain ⟨h1, h2, h3, h4⟩ := h
  refine ⟨s.vec_pushVec_old w other _ h1, by rw [Mem.block_pushVec]; exact h2, h3,
    fun j u hj hu => ?_⟩
  rw [Mem.vecs_pushVec] at hu
  by_cases hlt : j < s.vecs.length
  · rw [List.getElem?_append_left hlt] at hu
    exact h4 j u hj hu
  · rw [List.getElem?_append_right (by omega)] at hu
    by_cases h0 : j - s.vecs.length = 0
    · rw [h0] at hu
      simp at hu
      rw [← hu]; exact hw
    · rw [List.getElem?_eq_none (by simp; omega)] at hu
      cases hu

theorem Mem.Guards.put {s : Mem T} {other : Nat} {x : Vector} {B : Option (Block T)}
    (h : s.Guards other x B) (j : Nat) (hj : j ≠ other) (o : Option Vector)
    (ho : ∀ w, o = some w → x.Apart w.data_.buffer_.base) :
    (s.putVec j o).Guards other x B := by
  obtain ⟨h1, h2, h3, h4⟩ := h
  refine ⟨by rw [Mem.vec_putVec_ne _ _ _ _ hj]; exact h1, by rw [Mem.block_putVec]; exact h2, h3,
    fun i u hi hu => ?_⟩
  by_cases hij : j = i
  · subst hij
    rw [Mem.vecs_putVec] at hu
    by_cases hlt : j < s.vecs.length
    · rw [List.getElem?_set_eq_of_lt _ hlt] at hu
      cases hu
      exact ho u rfl
    · rw [List.getElem?_eq_none (by simp; omega)] at hu
      cases hu
  · rw [Mem.vec_putVec_ne _ _ _ _ hij] at hu
    exact h4 i u hi hu

theorem Mem.Guards.guard_setVec {s : Mem T} {other : Nat} {x : Vector} {B : Option (Block T)}
    (h : s.Guards other x B) (j : Nat) (hj : j ≠ other) (w : Vector)
    (hw : x.Apart w.data_.buffer_.base) (E : Mem T → Prop) :
    (AdvancedVector.setVec j w s).Ends (fun _ t => t.Guards other x B) E := by
  unfold AdvancedVector.setVec
  split
  · exact h.put j hj _ (fun _ hu => by cases hu; exact hw)
  · trivial

theorem Mem.Guards.guard_delVec {s : Mem T} {other : Nat} {x : Vector} {B : Option (Block T)}
    (h : s.Guards other x B) (j : Nat) (hj : j ≠ other) (E : Mem T → Prop) :
    (AdvancedVector.delVec j s).Ends (fun _ t => t.Guards other x B) E := by
  unfold AdvancedVector.delVec
  split
  · exact h.put j hj _ (fun _ hu => by cases hu)
  · trivial

/-- The cleanup of a constructor whose element loop has thrown. -/
theorem Mem.Guards.cleanup {s : Mem T} {other : Nat} {x : Vector} {B : Option (Block T)}
    (h : s.Guards other x B) (this : Nat) (hj : this ≠ other) (data : RawMemory)
    (hd : x.Apart data.buffer_.base) :
    ((do AdvancedVector.delVec this; RawMemory.dtor data : M (Mem T) Unit) s).Ends
      (fun _ t => t.Guards other x B) (fun t => t.Guards other x B) :=
  Outcome.Ends.chain (h.guard_delVec this hj _) (fun _ _ _ ht => ht.guard_dtor data hd _)

theorem Vector.ctor_size_guards (ops : ElemOps T) (n : Nat) (s : Mem T) (other : Nat)
    (x : Vector) (B : Option (Block T)) (h : s.Guards other x B) :
    (Vector.ctor_size ops n s).Ends (fun _ t => t.Guards other x B)
      (fun t => t.Guards other x B) := by
  unfold Vector.ctor_size
  refine Outcome.Ends.chain (h.guard_ctor ops n) ?_
  rintro r s1 - ⟨h1, hr, hv1⟩
  rw [run_bind_ret (newVec_eval s1 _)]
  have hne : s1.vecs.length ≠ other := by have := h1.live; omega
  refine Outcome.Ends.chain (P := fun _ t => t.Guards other x B) ?_ (fun _ t _ ht => ht)
  refine Outcome.Ends.guarded ((h1.pushed _ hr).guard_near
    (near_uninitialized_value_construct_loop ops r.GetAddress n 0) hr hr) ?_
  intro t ht
  exact ht.cleanup _ hne r hr

theorem Vector.ctor_copy_guards (ops : ElemOps T) (o : Nat) (s : Mem T) (other : Nat)
    (x : Vector) (B : Option (Block T)) (h : s.Guards other x B) :
    (Vector.ctor_copy ops o s).Ends (fun c t => t.Guards other x B ∧ c ≠ other)
      (fun t => t.Guards other x B) := by
  unfold Vector.ctor_copy
  refine Outcome.Ends.chain (getVec_ends o s _) ?_
  rintro vo _ - ⟨rfl, -⟩
  refine Outcome.Ends.chain (h.guard_ctor ops vo.size_) ?_
  rintro r s1 - ⟨h1, hr, hv1⟩
  rw [run_bind_ret (newVec_eval s1 _)]
  have hne : s1.vecs.length ≠ other := by have := h1.live; omega
  split
  · refine Outcome.Ends.chain (P := fun _ t => t.Guards other x B) ?_ (fun _ t _ ht => ⟨ht, hne⟩)
    refine Outcome.Ends.guarded ((h1.pushed _ hr).guard_near
      (near_uninitialized_copy_loop ops vo.data_.GetAddress r.GetAddress vo.size_ 0) hr hr) ?_
    intro t ht
    exact ht.cleanup _ hne r hr
  · exact ⟨h1.pushed _ hr, hne⟩

theorem Vector.Swap_guards (a b : Nat) (s : Mem T) (other : Nat) (x : Vector)
    (B : Option (Block T)) (h : s.Guards other x B) (ha : a ≠ other) (hb : b ≠ other) :
    (Vector.Swap a b s).Ends (fun _ t => t.Guards other x B) (fun t => t.Guards other x B) := by
  unfold Vector.Swap
  refine Outcome.Ends.chain (getVec_ends a s _) ?_
  rintro va _ - ⟨rfl, hva⟩
  refine Outcome.Ends.chain (getVec_ends b _ _) ?_
  rintro vb _ - ⟨rfl, hvb⟩
  refine Outcome.Ends.chain (h.guard_setVec a ha _ (h.2.2.2 b vb hb hvb) _) ?_
  rintro - t - ht
  exact ht.guard_setVec b hb _ (h.2.2.2 a va ha hva) _

theorem Vector.dtor_guards (this : Nat) (s : Mem T) (other : Nat) (x : Vector)
    (B : Option (Block T)) (h : s.Guards other x B) (hne : this ≠ other) :
    ((Vector.dtor this : M (Mem T) Unit) s).Ends (fun _ t => t.Guards other x B)
      (fun t => t.Guards other x B) := by
  unfold Vector.dtor
  refine Outcome.Ends.chain (getVec_ends this s _) ?_
  rintro v _ - ⟨rfl, hv⟩
  have hap := h.2.2.2 this v hne hv
  refine Outcome.Ends.chain (h.guard_near (near_destroy_n v.size_ v.data_.GetAddress) hap hap) ?_
  rintro - s1 - h1
  refine Outcome.Ends.chain (h1.guard_dtor v.data_ hap _) ?_
  rintro - s2 - h2
  exact h2.guard_delVec this hne _

theorem Vector.copy_assign_guards (ops : ElemOps T) (this rhs : Nat) (s : Mem T) (other : Nat)
    (x : Vector) (B : Option (Block T)) (h : s.Guards other x B) (hne : this ≠ other) :
    (Vector.copy_assign ops this rhs s).Ends (fun _ t => t.Guards other x B)
      (fun t => t.Guards other x B) := by
  unfold Vector.copy_assign
  split
  swap
  · exact h
  refine Outcome.Ends.chain (getVec_ends rhs s _) ?_
  rintro r _ - ⟨rfl, -⟩
  refine Outcome.Ends.chain (getVec_ends this _ _) ?_
  rintro v _ - ⟨rfl, hv⟩
  have hap := h.2.2.2 this v hne hv
  split
  · refine Outcome.Ends.chain ((Vector.ctor_copy_guards ops rhs _ other x B h).relax
      (fun _ _ h' => h') (fun _ h' => h')) ?_
    rintro c s1 - ⟨h1, hc⟩
    refine Outcome.Ends.chain (Vector.Swap_guards this c s1 other x B h1 hne hc) ?_
    rintro - s2 - h2
    exact Vector.dtor_guards c s2 other x B h2 hc
  · refine Outcome.Ends.chain (h.guard_near (near_std_copy ops _ _ v.data_.GetAddress) hap hap) ?_
    rintro - s1 - h1
    split
    · refine Outcome.Ends.chain (h1.guard_near (near_uninitialized_copy_loop ops
        (r.data_.GetAddress + v.size_) (v.data_.GetAddress + v.size_) _ 0) hap hap) ?_
      rintro - s2 - h2
      exact h2.guard_setVec this hne { v with size_ := r.size_ } hap _
    · refine Outcome.Ends.chain (h1.guard_near (near_destroy_n _ (v.data_.GetAddress + r.size_))
        hap hap) ?_
      rintro - s2 - h2
      exact h2.guard_setVec this hne { v with size_ := r.size_ } hap _

theorem Mem.Touched.guards {s t : Mem T} {this : Nat} {v : Vector} (hT : s.Touched t this v)
    {other : Nat} {x : Vector} {B : Option (Block T)} (h : s.Guards other x B)
    (hv : s.vecs[this]? = some (some v)) (hne : this ≠ other) : t.Guards other x B := by
  obtain ⟨w, ⟨hw, f1, f2, f3, f4⟩, -, hal⟩ := hT
  obtain ⟨h1, h2, h3, h4⟩ := h
  have hap := h4 this v hne hv
  refine ⟨by rw [f2 other (Ne.symm hne)]; exact h1, ?_, by omega, fun j u hj hu => ?_⟩
  · by_cases h0 : x.data_.buffer_.base = 0
    · rw [← h2, h0]; rfl
    · rw [f4 _ (by rcases hap with h' | h' <;> omega) h3, h2]
  · by_cases hjt : j = this
    · subst hjt
      rw [hw] at hu
      cases hu
      rcases hal with h' | h' | h'
      · rw [h']; exact hap
      · rw [h']; exact Vector.Apart.null x
      · exact Vector.Apart.fresh x _ _ h3 h'
    · rw [f2 j hjt] at hu
      exact h4 j u hj hu

theorem Call.run_guards_of_mutates (ops : ElemOps T) (c : Call T) (this : Nat)
    (hc : c.Mutates this) (hwt : c.WellTyped) (s : Mem T) (other : Nat) (x : Vector)
    (B : Option (Block T)) (h : s.Guards other x B) (hne : this ≠ other) :
    (c.run ops s).Ends (fun _ t => t.Guards other x B) (fun t => t.Guards other x B) := by
  by_cases hlive : ∃ v, s.vecs[this]? = some (some v)
  · obtain ⟨v, hv⟩ := hlive
    exact (Call.run_touched ops c this hc hwt s v hv).relax
      (fun _ _ hT => hT.guards h hv hne) (fun _ hT => hT.guards h hv hne)
  · rw [Call.run_dead ops c this hc s (fun v hv => hlive ⟨v, hv⟩)]
    trivial

/-- Every call that spares the object `other` leaves its members and the
block of its buffer as they are, whether the call returns or throws. -/
theorem Call.run_guards (ops : ElemOps T) (c : Call T) (hwt : c.WellTyped) (s : Mem T)
    (other : Nat) (x : Vector) (B : Option (Block T)) (h : s.Guards other x B)
    (hsp : c.Spares other) :
    (c.run ops s).Ends (fun _ t => t.Guards other x B) (fun t => t.Guards other x B) := by
  cases c with
  | ctor_default =>
    exact Outcome.Ends.discard (x := (Vector.ctor_default : M (Mem T) Nat))
      (h.pushed _ (Vector.Apart.null x))
  | ctor_size size => exact (Vector.ctor_size_guards ops size s other x B h).discard
  | ctor_copy o =>
    exact ((Vector.ctor_copy_guards ops o s other x B h).relax (fun _ _ h' => h'.1)
      (fun _ h' => h')).discard
  | ctor_move o =>
    refine Outcome.Ends.discard ?_
    unfold Vector.ctor_move
    rw [run_bind_ret (newVec_eval s _)]
    have h1 := h.pushed {} (Vector.Apart.null x)
    have hne : s.vecs.length ≠ other := by have := h.live; omega
    split
    · exact Outcome.Ends.chain (Vector.Swap_guards _ o _ other x B h1 hne hsp)
        (fun _ t _ ht => ht)
    · exact h1
  | dtor this => exact Vector.dtor_guards this s other x B h hsp
  | copy_assign this rhs => exact Vector.copy_assign_guards ops this rhs s other x B h hsp
  | move_assign this rhs =>
    show (Vector.move_assign this rhs s).Ends _ _
    unfold Vector.move_assign
    split
    · exact Vector.Swap_guards this rhs s other x B h hsp.1 hsp.2
    · exact h
  | Swap this o => exact Vector.Swap_guards this o s other x B h hsp.1 hsp.2
  | Reserve this n =>
    exact Call.run_guards_of_mutates ops (.Reserve this n) this rfl hwt s other x B h hsp
  | Resize this n =>
    exact Call.run_guards_of_mutates ops (.Resize this n) this rfl hwt s other x B h hsp
  | PushBack this value =>
    exact Call.run_guards_of_mutates ops (.PushBack this value) this rfl hwt s other x B h hsp
  | PushBack_rvalue this value =>
    exact Call.run_guards_of_mutates ops (.PushBack_rvalue this value) this rfl hwt s other x B h
      hsp
  | EmplaceBack this args =>
    exact Call.run_guards_of_mutates ops (.EmplaceBack this args) this rfl hwt s other x B h hsp
  | Emplace this pos args =>
    exact Call.run_guards_of_mutates ops (.Emplace this pos args) this rfl hwt s other x B h hsp
  | Insert this pos value =>
    exact Call.run_guards_of_mutates ops (.Insert this pos value) this rfl hwt s other x B h hsp
  | Insert_rvalue this pos value =>
    exact Call.run_guards_of_mutates ops (.Insert_rvalue this pos value) this rfl hwt s other x B h
      hsp
  | Erase this pos =>
    exact Call.run_guards_of_mutates ops (.Erase this pos) this rfl hwt s other x B h hsp
  | PopBack this =>
    exact Call.run_guards_of_mutates ops (.PopBack this) this rfl hwt s other x B h hsp
  | assign_at this index value =>
    exact Call.run_guards_of_mutates ops (.assign_at this index value) this rfl hwt s other x B h
      hsp

/-- A vector that is the only user of its buffer is not reached by any
sequence of calls that spare it. -/
theorem Elsewhere.spared (ops : ElemOps T) (other : Nat) (x : Vector) (B : Option (Block T))
    (m1 m2 : Mem T) (h : Relation.ReflTransGen (Elsewhere ops other) m1 m2)
    (hG : m1.Guards other x B) : m2.Guards other x B := by
  induction h with
  | refl => exact hG
  | @tail s s' _ hstep ih =>
    obtain ⟨k, hk, hwt, hrun⟩ := hstep
    have := Call.run_guards ops k hwt s other x B ih hk
    rcases hrun with hret | ⟨e, hthrown⟩
    · exact this.ret_imp hret
    · exact this.thrown_imp hthrown


/-- C5 (copy construction).  A copy construction `Vector(X)` that returns
gives a new object with `Size()` equal to `X.Size()`, the same contents
element by element, and `Capacity()` equal to `X.Size()`; `X` keeps its
members and contents.  Afterwards `X` still has the same size, capacity and
contents (a) after any sequence of `Reserve`, `Resize`, `PushBack`,
`EmplaceBack`, `Emplace`, `Insert`, `Erase`, `PopBack` and assignments
`copy[i] = y` run on the copy, and (b) provided no other vector used the
buffer of `X` before, after any sequence of calls whatsoever that spare `X`
(the copy may also be assigned to, swapped, moved from, copied, destroyed);
each call may return or throw.  The construction does return when `sizeof(T)`
is not zero, the `X.Size() * sizeof(T)` bytes can be allocated, and no copy of
an element of `X` throws. -/
theorem C5_copy_construct (ops : ElemOps T) (m : Mem T) (other : Nat) (x : Vector) (l : List T)
    (hx : m.vecs[other]? = some (some x)) (hH : Holds m x l) :
    (Vector.ctor_copy ops other m).Spec
      (0 < ops.sizeofT ∧ l.length * ops.sizeofT < SIZE_MOD ∧ l.length * ops.sizeofT ≤ m.free ∧
        ∀ y ∈ l, ops.copy_throws y = false)
      (fun c m1 => c ≠ other ∧ (∃ vc, m1.vecs[c]? = some (some vc) ∧ Holds m1 vc l) ∧
        Vector.Size c m1 = .ret l.length m1 ∧ Vector.Size other m1 = .ret l.length m1 ∧
        Vector.Capacity c m1 = .ret l.length m1 ∧
        m1.vecs[other]? = some (some x) ∧ Holds m1 x l ∧
        ∀ m2, (Relation.ReflTransGen (Mutation ops c) m1 m2 ∨
            (m.Sole other x ∧ Relation.ReflTransGen (Elsewhere ops other) m1 m2)) →
          m2.vecs[other]? = some (some x) ∧ Holds m2 x l ∧
          Vector.Size other m2 = .ret l.length m2 ∧
          Vector.Capacity other m2 = .ret x.data_.capacity_ m2) := by
  have hlt := m.lt_of_vec other _ hx
  refine (Vector.ctor_copy_spec ops m other x l hx hH).weaken (fun h => h) ?_
  rintro c m1 ⟨rfl, vc, hvecs, hvs, hvcap, hHc, hbuf, hlen, -, hblk⟩
  have hc1 : m1.vecs[m.vecs.length]? = some (some vc) := by rw [hvecs]; simp
  have hx1 : m1.vecs[other]? = some (some x) := by
    rw [hvecs, List.getElem?_append_left hlt]; exact hx
  have hH1 : Holds m1 x l := hH.of_block_eq (hblk _ hH.base_le)
  have hne : m.vecs.length ≠ other := by omega
  have hap : x.Apart vc.data_.buffer_.base := by
    rcases hbuf with h | h
    · rw [h]; exact Vector.Apart.null x
    · rw [h]; exact Vector.Apart.fresh x _ _ hH.base_le (Nat.lt_succ_self _)
  have hfin : ∀ m2, m2.vecs[other]? = some (some x) →
      m2.block x.data_.buffer_.base = m1.block x.data_.buffer_.base →
      m2.vecs[other]? = some (some x) ∧ Holds m2 x l ∧
        Vector.Size other m2 = .ret l.length m2 ∧
        Vector.Capacity other m2 = .ret x.data_.capacity_ m2 := by
    intro m2 hx2 hb2
    refine ⟨hx2, hH1.of_block_eq hb2, ?_, ?_⟩
    · rw [Vector.Size_eval m2 _ x hx2, hH.1]
    · rw [Vector.Capacity_eval m2 _ x hx2]
  refine ⟨hne, ⟨vc, hc1, hHc⟩, ?_, ?_, ?_, hx1, hH1, fun m2 hmut => ?_⟩
  · rw [Vector.Size_eval m1 _ vc hc1, hvs]
  · rw [Vector.Size_eval m1 _ x hx1, hH.1]
  · rw [Vector.Capacity_eval m1 _ vc hc1, hvcap]
  rcases hmut with hmut | ⟨hsole, hrest⟩
  · have hsep : x.data_.buffer_.base = 0 ∨
        (vc.data_.buffer_.base ≠ x.data_.buffer_.base ∧ x.data_.buffer_.base ≤ m1.heap.length) := by
      rcases hap with h0 | h0
      · exact Or.inl h0
      · exact Or.inr ⟨h0, by have := hH.base_le; omega⟩
    obtain ⟨hx2, hb2, -⟩ := Mutation.keeps ops m.vecs.length other x hne m1 m2 hmut hx1
      ⟨vc, hc1, hsep⟩
    exact hfin m2 hx2 hb2
  · have hG : m1.Guards other x (m1.block x.data_.buffer_.base) := by
      refine ⟨hx1, rfl, by have := hH.base_le; omega, fun j w hj hw => ?_⟩
      rw [hvecs] at hw
      by_cases hjl : j < m.vecs.length
      · rw [List.getElem?_append_left hjl] at hw
        exact hsole j w hj hw
      · rw [List.getElem?_append_right (by omega)] at hw
        by_cases h0 : j - m.vecs.length = 0
        · rw [h0] at hw
          simp at hw
          rw [← hw]; exact hap
        · rw [List.getElem?_eq_none (by simp; omega)] at hw
          cases hw
    have hG2 := Elsewhere.spared ops other x _ m1 m2 hrest hG
    exact hfin m2 hG2.1 hG2.2.1

/-- Witness for C5: copying the vector `[10, 20, 40]` of capacity 4. -/
theorem C5_copy_construct_witness :
    (mem_abd.vecs[0]? = some (some ⟨⟨⟨1, 0⟩, 4⟩, 3⟩) ∧
        Holds mem_abd ⟨⟨⟨1, 0⟩, 4⟩, 3⟩ [10, 20, 40]) ∧
      (Vector.ctor_copy intOps 0 mem_abd).Spec
        (0 < intOps.sizeofT ∧ [10, 20, 40].length * intOps.sizeofT < SIZE_MOD ∧
          [10, 20, 40].length * intOps.sizeofT ≤ mem_abd.free ∧
          ∀ y ∈ [10, 20, 40], intOps.copy_throws y = false)
        (fun c m1 => c ≠ 0 ∧ (∃ vc, m1.vecs[c]? = some (some vc) ∧ Holds m1 vc [10, 20, 40]) ∧
          Vector.Size c m1 = .ret [10, 20, 40].length m1 ∧
          Vector.Size 0 m1 = .ret [10, 20, 40].length m1 ∧
          Vector.Capacity c m1 = .ret [10, 20, 40].length m1 ∧
          m1.vecs[0]? = some (some ⟨⟨⟨1, 0⟩, 4⟩, 3⟩) ∧ Holds m1 ⟨⟨⟨1, 0⟩, 4⟩, 3⟩ [10, 20, 40] ∧
          ∀ m2, (Relation.ReflTransGen (Mutation intOps c) m1 m2 ∨
              (mem_abd.Sole 0 ⟨⟨⟨1, 0⟩, 4⟩, 3⟩ ∧
                Relation.ReflTransGen (Elsewhere intOps 0) m1 m2)) →
            m2.vecs[0]? = some (some ⟨⟨⟨1, 0⟩, 4⟩, 3⟩) ∧
            Holds m2 ⟨⟨⟨1, 0⟩, 4⟩, 3⟩ [10, 20, 40] ∧
            Vector.Size 0 m2 = .ret [10, 20, 40].length m2 ∧
            Vector.Capacity 0 m2 = .ret 4 m2) :=
  ⟨⟨by decide, by decide⟩,
    C5_copy_construct intOps mem_abd 0 ⟨⟨⟨1, 0⟩, 4⟩, 3⟩ [10, 20, 40] (by decide) (by decide)⟩

/-- `Resize(n)` as in `Vector.Resize_spec`, and the buffer still has exactly
`Capacity()` slots afterwards if the storage was there. -/
theorem Vector.Resize_exact (ops : ElemOps T) (m : Mem T) (this : Nat) (v : Vector) (l : List T)
    (n : Nat) (hv : m.vecs[this]? = some (some v)) (hH : Holds m v l) (hn : n < SIZE_MOD) :
    (Vector.Resize ops this n m).Spec
      (NoThrow ops ∧
        (if v.data_.capacity_ < n then
          0 < ops.sizeofT ∧ n * ops.sizeofT < SIZE_MOD ∧ n * ops.sizeofT ≤ m.free
        else Exact m v))
      (fun _ m' => ∃ v', m'.vecs[this]? = some (some v') ∧
        Holds m' v' (l.take n ++ List.replicate (n - l.length) ops.value_init) ∧
        v'.size_ = n ∧ v'.data_.capacity_ = max v.data_.capacity_ n ∧
        ((if v.data_.capacity_ < n then 0 < ops.sizeofT ∧ n * ops.sizeofT < SIZE_MOD
          else Exact m v) → Exact m' v')) := by
  unfold Vector.Resize
  rw [run_bind_ret (Vector.Capacity_eval m this v hv)]
  by_cases hgrow : v.data_.capacity_ < n
  · rw [if_pos hgrow]
    simp only [if_pos hgrow]
    refine Outcome.Spec.seq ((Vector.Reserve_spec ops m this v l n hv hH hn).weaken ?_
      (fun _ _ h => h)) ?_
    · rintro ⟨hno, h1, h2, h3⟩
      exact Or.inr ⟨h1, h2, h3, hno⟩
    rintro u s ⟨v1, hv1, hH1, hs1, hc1, hF1, hb1, -, hE1⟩
    refine (Vector.Resize_rest_spec ops s this v1 l n hv1 hH1 (by omega)).weaken ?_ ?_
    · rintro ⟨hno, h1, h2, -⟩
      exact ⟨hno, hE1 hgrow h1 h2⟩
    · rintro _ m' ⟨hv', hH', hF', hlen⟩
      refine ⟨_, hv', hH', rfl, hc1, fun hex => ?_⟩
      exact Exact.of_len (v := { v1 with size_ := n }) (hE1 hgrow hex.1 hex.2) (hlen _)
  · rw [if_neg hgrow]
    simp only [if_neg hgrow]
    rw [run_bind_ret (show (pure PUnit.unit : M (Mem T) PUnit) m = .ret PUnit.unit m from rfl)]
    refine (Vector.Resize_rest_spec ops m this v l n hv hH (by omega)).weaken (fun h => h) ?_
    rintro _ m' ⟨hv', hH', hF', hlen⟩
    refine ⟨_, hv', hH', rfl, by show v.data_.capacity_ = _; omega, fun hex => ?_⟩
    exact Exact.of_len (v := { v with size_ := n }) hex (hlen _)

/-- C11 (Resize round trip).  For a vector with contents `l` (so original size
`s = |l|`) and any `n`, if `Resize(n)` followed by `Resize(s)` returns, then
`Size() == s` again; when `n ≥ s` the contents are exactly `l`, and when
`n < s` the first `n` elements are those of `l` and the elements at the
indices `[n, s)` are value-initialised.  The two calls do return when no
element operation throws and the storage is there (`n * sizeof(T)` bytes can be
allocated when `n > Capacity()`, and otherwise the buffer really has
`Capacity()` slots). -/
theorem C11_resize_round_trip (ops : ElemOps T) (m : Mem T) (this : Nat) (v : Vector)
    (l : List T) (n : Nat) (hv : m.vecs[this]? = some (some v)) (hH : Holds m v l)
    (hn : n < SIZE_MOD) :
    ((do Vector.Resize ops this n; Vector.Resize ops this v.size_ : M (Mem T) Unit) m).Spec
      (NoThrow ops ∧
        (if v.data_.capacity_ < n then
          0 < ops.sizeofT ∧ n * ops.sizeofT < SIZE_MOD ∧ n * ops.sizeofT ≤ m.free
        else Exact m v))
      (fun _ m' => ∃ v' l', m'.vecs[this]? = some (some v') ∧ Holds m' v' l' ∧
        Vector.Size this m' = .ret l.length m' ∧ l'.length = l.length ∧
        (l.length ≤ n → l' = l) ∧
        (n < l.length → (∀ j, j < n → l'[j]? = l[j]?) ∧
          ∀ j, n ≤ j → j < l.length → l'[j]? = some ops.value_init)) := by
  obtain ⟨hsz, hle, hcap, -⟩ := id hH
  refine Outcome.Spec.seq (Vector.Resize_exact ops m this v l n hv hH hn) ?_
  rintro _ s ⟨v1, hv1, hH1, hs1, hc1, hE1⟩
  refine (Vector.Resize_spec ops s this v1 _ v.size_ hv1 hH1 (by omega)).weaken ?_ ?_
  · rintro ⟨hno, hst⟩
    refine ⟨hno, ?_⟩
    rw [if_neg (by rw [hc1]; omega)]
    apply hE1
    split
    · rename_i hg; rw [if_pos hg] at hst; exact ⟨hst.1, hst.2.1⟩
    · rename_i hg; rw [if_neg hg] at hst; exact hst
  · rintro _ m' ⟨v', hv', hH', hs', -⟩
    have hlen1 : (l.take n ++ List.replicate (n - l.length) ops.value_init).length = n := by
      simp only [List.length_append, List.length_take, List.length_replicate]; omega
    rw [hlen1, hsz] at hH'
    refine ⟨v', _, hv', hH', ?_, ?_, ?_, ?_⟩
    · rw [Vector.Size_eval m' this v' hv', hs', hsz]
    · simp only [List.length_append, List.length_take, List.length_replicate]; omega
    · intro hge
      rw [List.take_of_length_le hge, List.take_append_of_le_length (Nat.le_refl _),
        List.take_length, show l.length - n = 0 by omega]
      simp
    · intro hlt
      rw [show n - l.length = 0 by omega, List.replicate_zero, List.append_nil,
        List.take_of_length_le (by rw [List.length_take]; omega)]
      constructor
      · intro j hj
        rw [List.getElem?_append_left (by rw [List.length_take]; omega),
          List.getElem?_take_of_lt hj]
      · intro j h1 h2
        rw [List.getElem?_append_right (by rw [List.length_take]; omega), List.length_take,
          List.getElem?_replicate, if_pos (by omega)]

/-- Witness for C11: `Resize(1)` then `Resize(3)` on `[10, 20, 40]`. -/
theorem C11_resize_round_trip_witness :
    (mem_abd.vecs[0]? = some (some ⟨⟨⟨1, 0⟩, 4⟩, 3⟩) ∧
        Holds mem_abd ⟨⟨⟨1, 0⟩, 4⟩, 3⟩ [10, 20, 40] ∧ 1 < SIZE_MOD) ∧
      ((do Vector.Resize intOps 0 1; Vector.Resize intOps 0 3 : M (Mem Nat) Unit) mem_abd).Spec
        (NoThrow intOps ∧
          (if 4 < 1 then
            0 < intOps.sizeofT ∧ 1 * intOps.sizeofT < SIZE_MOD ∧ 1 * intOps.sizeofT ≤ mem_abd.free
          else Exact mem_abd ⟨⟨⟨1, 0⟩, 4⟩, 3⟩))
        (fun _ m' => ∃ v' l', m'.vecs[0]? = some (some v') ∧ Holds m' v' l' ∧
          Vector.Size 0 m' = .ret [10, 20, 40].length m' ∧ l'.length = [10, 20, 40].length ∧
          ([10, 20, 40].length ≤ 1 → l' = [10, 20, 40]) ∧
          (1 < [10, 20, 40].length → (∀ j, j < 1 → l'[j]? = [10, 20, 40][j]?) ∧
            ∀ j, 1 ≤ j → j < [10, 20, 40].length → l'[j]? = some intOps.value_init)) :=
  ⟨⟨by decide, by decide, by rw [SIZE_MOD_eq]; decide⟩,
    C11_resize_round_trip intOps mem_abd 0 ⟨⟨⟨1, 0⟩, 4⟩, 3⟩ [10, 20, 40] 1 (by decide) (by decide)
      (by rw [SIZE_MOD_eq]; decide)⟩

theorem run_bind_thrown {x : M σ α} {f : α → M σ β} {m : σ} {e : Exn} {s : σ}
    (h : x m = .thrown e s) : (x >>= f) m = .thrown e s := by
  rw [run_bind, h]; rfl

theorem onException_thrown {body : M σ α} {cleanup : M σ Unit} {m s s' : σ} {e : Exn}
    (h : body m = .thrown e s) (hc : cleanup s = .ret () s') :
    onException body cleanup m = .thrown e s' := by
  unfold onException
  rw [h]
  simp only
  rw [hc]

/-- The memory after a block has been allocated and released again. -/
theorem Mem.alloc_release (m : Mem T) (bytes k : Nat) (hfree : bytes ≤ m.free) :
    ((m.alloc bytes k).release (m.heap.length + 1) bytes).vecs = m.vecs ∧
    ((m.alloc bytes k).release (m.heap.length + 1) bytes).free = m.free ∧
    ((m.alloc bytes k).release (m.heap.length + 1) bytes).heap.length = m.heap.length + 1 ∧
    (∀ b, b ≤ m.heap.length →
      ((m.alloc bytes k).release (m.heap.length + 1) bytes).block b = m.block b) ∧
    ((m.alloc bytes k).release (m.heap.length + 1) bytes).block (m.heap.length + 1) = none := by
  have hnb : (m.alloc bytes k).block (m.heap.length + 1) = some ⟨bytes, List.replicate k none⟩ := by
    rw [Mem.block_alloc, if_pos rfl]
  refine ⟨by simp, ?_, by simp, fun b hb => ?_, ?_⟩
  · rw [Mem.free_release, Mem.free_alloc]; omega
  · rw [Mem.block_release_ne _ _ _ _ (by omega), Mem.block_alloc, if_neg (by omega)]
  · rw [Mem.block_release _ _ _ _ _ hnb, if_pos rfl]

/-- The growth branch of `Emplace` when the constructor of the new element
throws: the new buffer is released again, nothing else has happened. -/
theorem Vector.Emplace_growth_none (ops : ElemOps T) (m : Mem T) (this : Nat) (v : Vector)
    (i n : Nat) (hn : (if v.size_ = 0 then 1 else (v.size_ * 2) % SIZE_MOD) = n) :
    Vector.Emplace_growth ops this v i none m =
      if n = 0 then (if i = 0 then .thrown .element m else .ub)
      else if (n * ops.sizeofT) % SIZE_MOD ≤ m.free then
        (if i ≤ n then .thrown .element
          ((m.alloc ((n * ops.sizeofT) % SIZE_MOD)
            ((n * ops.sizeofT) % SIZE_MOD / ops.sizeofT)).release (m.heap.length + 1)
            ((n * ops.sizeofT) % SIZE_MOD))
        else .ub)
      else .thrown .bad_alloc m := by
  unfold Vector.Emplace_growth
  rw [hn, run_bind, RawMemory.ctor_eval]
  have hbody : ∀ (r : RawMemory) (s : Mem T) (f : Ptr → Unit → M (Mem T) Unit),
      (r.plus i >>= fun p => construct_from p none >>= f p) s =
        if i ≤ r.capacity_ then .thrown .element s else .ub := by
    intro r s f
    by_cases hi : i ≤ r.capacity_
    · rw [if_pos hi, run_bind_ret (RawMemory.plus_eval r i s hi)]
      rfl
    · rw [if_neg hi]
      unfold RawMemory.plus
      rw [run_bind, run_bind]
      simp [assert, hi]
  by_cases h0 : n = 0
  · rw [if_pos h0, if_pos h0, Outcome.bind_ret, run_bind]
    by_cases hi : i = 0
    · rw [if_pos hi, onException_thrown
        (by rw [hbody]; exact if_pos (by show i ≤ 0; omega)) (RawMemory.dtor_null m 0)]
      rfl
    · rw [if_neg hi]
      unfold onException
      rw [hbody, if_neg (by show ¬ i ≤ 0; omega)]
      rfl
  · rw [if_neg h0, if_neg h0]
    by_cases hf : (n * ops.sizeofT) % SIZE_MOD ≤ m.free
    · rw [if_pos hf, if_pos hf, Outcome.bind_ret, run_bind]
      by_cases hi : i ≤ n
      · rw [if_pos hi, onException_thrown
          (by rw [hbody]; exact if_pos hi)
          (RawMemory.dtor_block _ (m.heap.length + 1) n _
            (by rw [Mem.block_alloc, if_pos rfl]))]
        rfl
      · rw [if_neg hi]
        unfold onException
        rw [hbody, if_neg hi]
        rfl
    · rw [if_neg hf, if_neg hf]
      rfl

/-- `Emplace` at an interior position when the constructor of the new element
throws: the outcome in full. -/
theorem Vector.Emplace_none_eval (ops : ElemOps T) (m : Mem T) (this : Nat) (v : Vector)
    (l : List T) (i n : Nat) (hv : m.vecs[this]? = some (some v)) (hH : Holds m v l)
    (hi : i < l.length) (hn : (if v.size_ = 0 then 1 else (v.size_ * 2) % SIZE_MOD) = n) :
    Vector.Emplace ops this (v.data_.buffer_ + i) none m =
      if v.size_ = v.data_.capacity_ then
        (if n = 0 then (if i = 0 then .thrown .element m else .ub)
        else if (n * ops.sizeofT) % SIZE_MOD ≤ m.free then
          (if i ≤ n then .thrown .element
            ((m.alloc ((n * ops.sizeofT) % SIZE_MOD)
              ((n * ops.sizeofT) % SIZE_MOD / ops.sizeofT)).release (m.heap.length + 1)
              ((n * ops.sizeofT) % SIZE_MOD))
          else .ub)
        else .thrown .bad_alloc m)
      else .thrown .element m := by
  obtain ⟨hsz, hle, hcap, hoff, hnull, -⟩ := id hH
  unfold Vector.Emplace
  rw [run_bind_ret (getVec_eval m this v hv), run_bind_ret (Vector.begin_eval m this v hv),
    run_bind_ret (Vector.end_eval m this v hv),
    run_bind_ret (assert_eval _ m ⟨rfl, by simp, by simp; omega⟩)]
  have hoffset : (v.data_.buffer_ + i).off - v.data_.buffer_.off = i := by simp
  simp only [hoffset, RawMemory.Capacity]
  by_cases hsc : v.size_ = v.data_.capacity_
  · simp only [if_pos hsc]
    rw [run_bind, Vector.Emplace_growth_none ops m this v i n hn]
    by_cases h0 : n = 0
    · simp only [if_pos h0]
      by_cases hi0 : i = 0
      · simp only [if_pos hi0]; rfl
      · simp only [if_neg hi0]; rfl
    · simp only [if_neg h0]
      by_cases hf : (n * ops.sizeofT) % SIZE_MOD ≤ m.free
      · simp only [if_pos hf]
        by_cases hin : i ≤ n
        · simp only [if_pos hin]; rfl
        · simp only [if_neg hin]; rfl
      · simp only [if_neg hf]; rfl
  · simp only [if_neg hsc]
    have hpos : v.data_.buffer_ + i ≠ v.data_.buffer_ + v.size_ := by
      rw [Ne, Ptr.add_inj]; omega
    unfold Vector.Emplace_in_place
    rw [if_neg hpos]
    rfl

/-- C12 (failure atomicity of interior `Emplace`).  For a vector with contents
`l` and an interior offset `i < Size()`, an `Emplace` at `begin() + i` whose
new element cannot be constructed from the arguments never returns, and in
every state it leaves by an exception the vector has the `Size()`, the
`Capacity()`, the buffer and the contents it had before, whether growth was
required or not.  It does leave by that exception: at once when
`Size() < Capacity()`, and after the new buffer has been allocated and released
again when `Size() == Capacity()` (the doubled size being a `size_t` and the
allocation possible). -/
theorem C12_emplace_failure_atomic (ops : ElemOps T) (m : Mem T) (this : Nat) (v : Vector)
    (l : List T) (i : Nat) (hv : m.vecs[this]? = some (some v)) (hH : Holds m v l)
    (hi : i < l.length) :
    (∀ r s, Vector.Emplace ops this (v.data_.buffer_ + i) none m ≠ .ret r s) ∧
    (∀ e m', Vector.Emplace ops this (v.data_.buffer_ + i) none m = .thrown e m' →
      m'.vecs[this]? = some (some v) ∧ Holds m' v l ∧
      Vector.Size this m' = .ret l.length m' ∧
      Vector.Capacity this m' = .ret v.data_.capacity_ m' ∧ m'.free = m.free) ∧
    (v.size_ ≠ v.data_.capacity_ →
      Vector.Emplace ops this (v.data_.buffer_ + i) none m = .thrown .element m) ∧
    (v.size_ = v.data_.capacity_ → 2 * v.size_ < SIZE_MOD →
      (2 * v.size_ * ops.sizeofT) % SIZE_MOD ≤ m.free →
      ∃ m', Vector.Emplace ops this (v.data_.buffer_ + i) none m = .thrown .element m') := by
  obtain ⟨hsz, hle, hcap, hoff, hnull, -⟩ := id hH
  have heval := Vector.Emplace_none_eval ops m this v l i _ hv hH hi rfl
  have hsame : ∀ m' : Mem T, m'.vecs = m.vecs → m'.free = m.free →
      (∀ b, b ≤ m.heap.length → m'.block b = m.block b) →
      m'.vecs[this]? = some (some v) ∧ Holds m' v l ∧
      Vector.Size this m' = .ret l.length m' ∧
      Vector.Capacity this m' = .ret v.data_.capacity_ m' ∧ m'.free = m.free := by
    intro m' h1 h2 h3
    have hv' : m'.vecs[this]? = some (some v) := by rw [h1]; exact hv
    refine ⟨hv', hH.of_block_eq (h3 _ hH.base_le), ?_, Vector.Capacity_eval m' this v hv', h2⟩
    rw [Vector.Size_eval m' this v hv', hsz]
  refine ⟨?_, ?_, ?_, ?_⟩
  · intro r s
    rw [heval]
    repeat' split
    all_goals simp
  · intro e m'
    rw [heval]
    repeat' split
    all_goals intro h
    all_goals first
      | (cases h; exact hsame _ rfl rfl (fun _ _ => rfl))
      | (cases h
         rename_i hf _
         obtain ⟨a1, a2, -, a4, -⟩ := Mem.alloc_release m _ _ hf
         exact hsame _ a1 a2 a4)
      | cases h
  · intro hne
    rw [heval, if_neg hne]
  · intro hfull hlt hfree
    have hs0 : v.size_ ≠ 0 := by omega
    have hn : (if v.size_ = 0 then 1 else (v.size_ * 2) % SIZE_MOD) = 2 * v.size_ := by
      rw [if_neg hs0, Nat.mod_eq_of_lt (by omega)]; omega
    rw [heval, if_pos hfull, hn, if_neg (by omega), if_pos hfree, if_pos (by omega)]
    exact ⟨_, rfl⟩

/-- Witness for C12: `Emplace` at index 1 of the full vector `[10, 20, 30, 40]`. -/
theorem C12_emplace_failure_atomic_witness :
    (mem_abcd.vecs[0]? = some (some ⟨⟨⟨1, 0⟩, 4⟩, 4⟩) ∧
        Holds mem_abcd ⟨⟨⟨1, 0⟩, 4⟩, 4⟩ [10, 20, 30, 40] ∧ 1 < [10, 20, 30, 40].length) ∧
      ((∀ r s, Vector.Emplace intOps 0 ((⟨1, 0⟩ : Ptr) + 1) none mem_abcd ≠ .ret r s) ∧
      (∀ e m', Vector.Emplace intOps 0 ((⟨1, 0⟩ : Ptr) + 1) none mem_abcd = .thrown e m' →
        m'.vecs[0]? = some (some ⟨⟨⟨1, 0⟩, 4⟩, 4⟩) ∧ Holds m' ⟨⟨⟨1, 0⟩, 4⟩, 4⟩ [10, 20, 30, 40] ∧
        Vector.Size 0 m' = .ret [10, 20, 30, 40].length m' ∧
        Vector.Capacity 0 m' = .ret 4 m' ∧ m'.free = mem_abcd.free) ∧
      ((4 : Nat) ≠ 4 →
        Vector.Emplace intOps 0 ((⟨1, 0⟩ : Ptr) + 1) none mem_abcd = .thrown .element mem_abcd) ∧
      ((4 : Nat) = 4 → 2 * 4 < SIZE_MOD → (2 * 4 * intOps.sizeofT) % SIZE_MOD ≤ mem_abcd.free →
        ∃ m', Vector.Emplace intOps 0 ((⟨1, 0⟩ : Ptr) + 1) none mem_abcd = .thrown .element m')) :=
  ⟨⟨by decide, by decide, by decide⟩,
    C12_emplace_failure_atomic intOps mem_abcd 0 ⟨⟨⟨1, 0⟩, 4⟩, 4⟩ [10, 20, 30, 40] 1 (by decide)
      (by decide) (by decide)⟩

theorem bind_eq_thrown_iff {x : M σ α} {f : α → M σ β} {m : σ} {e : Exn} {s : σ} :
    (x >>= f) m = .thrown e s ↔
      x m = .thrown e s ∨ ∃ a s1, x m = .ret a s1 ∧ f a s1 = .thrown e s := by
  rw [run_bind]
  cases h : x m with
  | ret a s1 =>
    simp only [Outcome.bind]
    constructor
    · intro h
      exact Or.inr ⟨_, _, rfl, h⟩
    · rintro (h | ⟨_, _, h1, h2⟩)
      · cases h
      · cases h1; exact h2
  | thrown e' s' =>
    simp only [Outcome.bind]
    constructor
    · intro h
      cases h
      exact Or.inl rfl
    · rintro (h | ⟨_, _, h1, _⟩)
      · cases h
        rfl
      · cases h1
  | ub =>
    simp only [Outcome.bind]
    constructor
    · intro h
      cases h
    · rintro (h | ⟨_, _, h1, _⟩)
      · cases h
      · cases h1

/-- C15 fails on the code.  The vector holds `[10, 20, 40]` with capacity 4;
the element type has a move assignment that throws when assigning from 20.
`Emplace(begin(), 5)` takes the branch without growth: it builds a new element
in slot 3 from the last one, then the backward shift throws at its first
assignment.  The exception leaves `Size() == 3` and slot 3, in
`[Size(), Capacity())`, holding a live element that nothing destroys; the
memory is no longer the representation of any contents. -/
theorem C15_emplace_leaves_live_slot :
    (mem_abd.vecs[0]? = some (some ⟨⟨⟨1, 0⟩, 4⟩, 3⟩) ∧
        Holds mem_abd ⟨⟨⟨1, 0⟩, 4⟩, 3⟩ [10, 20, 40]) ∧
      Vector.Emplace fragileOps 0 ((⟨1, 0⟩ : Ptr) + 0) (some 5) mem_abd =
        .thrown .element mem_abd_failed ∧
      Vector.Size 0 mem_abd_failed = .ret 3 mem_abd_failed ∧
      Vector.Capacity 0 mem_abd_failed = .ret 4 mem_abd_failed ∧
      mem_abd_failed.slot ((⟨1, 0⟩ : Ptr) + 3) = some (some 40) ∧
      ∀ l, ¬ Holds mem_abd_failed ⟨⟨⟨1, 0⟩, 4⟩, 3⟩ l := by
  refine ⟨by decide, by decide, by decide, by decide, by decide, ?_⟩
  rintro l ⟨hsz, -, -, -, -, hblk⟩
  obtain ⟨blk, hb, hrep, -⟩ := hblk (by decide)
  have hblk' : blk = ⟨32, [some 10, some 20, some 40, some 40]⟩ := by
    have : mem_abd_failed.block 1 = some ⟨32, [some 10, some 20, some 40, some 40]⟩ := by decide
    rw [Option.mem_def] at hb
    change mem_abd_failed.block 1 = some blk at hb
    rw [this] at hb
    exact (Option.some.inj hb).symm
  have hlen : l.length = 3 := hsz.symm
  subst hblk'
  have h3 := congrArg (fun s => s[3]?) hrep
  simp only [List.length_cons, List.length_nil, hlen] at h3
  rw [List.getElem?_append_right (by simp [hlen])] at h3
  simp [hlen] at h3

/-- C16 fails on the code.  Two instances own one buffer each (blocks 1 and
2).  The move assignment `a = std::move(b)` makes `a` own block 2 and `b`
empty, without releasing block 1; after the destructors of both instances,
block 2 is released and block 1 is still allocated. -/
theorem C16_move_assign_leaks_buffer :
    (mem_raw.block 1 = some ⟨16, [none, none]⟩ ∧
        mem_raw.block 2 = some ⟨24, [none, none, none]⟩) ∧
      RawMemory.move_assign ⟨⟨1, 0⟩, 2⟩ ⟨⟨2, 0⟩, 3⟩ = (⟨⟨2, 0⟩, 3⟩, ⟨nullptr, 0⟩) ∧
      (do
        RawMemory.dtor (RawMemory.move_assign ⟨⟨1, 0⟩, 2⟩ ⟨⟨2, 0⟩, 3⟩).1
        RawMemory.dtor (RawMemory.move_assign ⟨⟨1, 0⟩, 2⟩ ⟨⟨2, 0⟩, 3⟩).2 :
          M (Mem Nat) Unit) mem_raw = .ret () mem_raw_leak ∧
      mem_raw_leak.block 1 = some ⟨16, [none, none]⟩ ∧ mem_raw_leak.block 2 = none := by
  decide

/-- C17 (move transfer of `RawMemory`).  Let `a` and `b` satisfy the invariant
(the buffer is null exactly when the capacity is 0) and be distinct instances,
which own no buffer in common (their buffer addresses are equal only when both
are null).  Move construction from `b`, and the move assignment
`a = std::move(b)`, give the target the buffer and the capacity of `b` and
leave `b` with a null buffer and capacity 0, also when both are empty.  The
self-assignment `a = std::move(a)` leaves `a` as it is. -/
theorem C17_rawmemory_move_transfer (a b : RawMemory)
    (ha : a.buffer_ = nullptr ↔ a.capacity_ = 0) (hb : b.buffer_ = nullptr ↔ b.capacity_ = 0)
    (hdist : a.buffer_ = b.buffer_ → a.buffer_ = nullptr) :
    RawMemory.ctor_move b = (⟨b.buffer_, b.capacity_⟩, ⟨nullptr, 0⟩) ∧
      RawMemory.move_assign a b = (⟨b.buffer_, b.capacity_⟩, ⟨nullptr, 0⟩) ∧
      RawMemory.move_assign a a = (a, a) := by
  refine ⟨?_, ?_, ?_⟩
  · unfold RawMemory.ctor_move RawMemory.move_assign RawMemory.GetAddress
    by_cases h : (nullptr : Ptr) = b.buffer_
    · have hb0 := hb.mp h.symm
      have : ¬ (({} : RawMemory).buffer_ ≠ b.buffer_) := fun hne => hne h
      rw [if_neg this]
      cases b
      simp_all
    · have : ({} : RawMemory).buffer_ ≠ b.buffer_ := h
      rw [if_pos this]
  · unfold RawMemory.move_assign RawMemory.GetAddress
    by_cases h : a.buffer_ = b.buffer_
    · have ha0 := hdist h
      have hb0 : b.buffer_ = nullptr := h ▸ ha0
      have hca := ha.mp ha0
      have hcb := hb.mp hb0
      rw [if_neg (fun hne => hne h)]
      cases a
      cases b
      simp_all
    · rw [if_pos h]
  · unfold RawMemory.move_assign
    rw [if_neg (fun hne => hne rfl)]

/-- Witness for C17: an instance owning block 1 and an instance owning block 2. -/
theorem C17_rawmemory_move_transfer_witness :
    (((⟨1, 0⟩ : Ptr) = nullptr ↔ (2 : Nat) = 0) ∧ ((⟨2, 0⟩ : Ptr) = nullptr ↔ (3 : Nat) = 0) ∧
        ((⟨1, 0⟩ : Ptr) = ⟨2, 0⟩ → (⟨1, 0⟩ : Ptr) = nullptr)) ∧
      (RawMemory.ctor_move ⟨⟨2, 0⟩, 3⟩ = (⟨⟨2, 0⟩, 3⟩, ⟨nullptr, 0⟩) ∧
      RawMemory.move_assign ⟨⟨1, 0⟩, 2⟩ ⟨⟨2, 0⟩, 3⟩ = (⟨⟨2, 0⟩, 3⟩, ⟨nullptr, 0⟩) ∧
      RawMemory.move_assign ⟨⟨1, 0⟩, 2⟩ ⟨⟨1, 0⟩, 2⟩ = (⟨⟨1, 0⟩, 2⟩, ⟨⟨1, 0⟩, 2⟩)) :=
  ⟨⟨by decide, by decide, by decide⟩,
    C17_rawmemory_move_transfer ⟨⟨1, 0⟩, 2⟩ ⟨⟨2, 0⟩, 3⟩ (by decide) (by decide) (by decide)⟩

/-- What `RawMemory(n)` requests from the allocator when it returns, for
`n > 0` and `sizeof(T) >= 1`: a fresh buffer of `(n * sizeof(T)) mod 2^64`
bytes, which is the product `n * sizeof(T)`, and has `n` slots, when the
product is below `2^64`. -/
theorem RawMemory.ctor_requests (ops : ElemOps T) (n : Nat) (m : Mem T) (r : RawMemory) (m' : Mem T)
    (hn : 0 < n) (hs : 1 ≤ ops.sizeofT) (hrun : RawMemory.ctor ops n m = .ret r m') :
    r = ⟨⟨m.heap.length + 1, 0⟩, n⟩ ∧
      (∃ slots, m'.block (m.heap.length + 1) =
          some ⟨(n * ops.sizeofT) % SIZE_MOD, List.replicate slots none⟩ ∧
        slots = (n * ops.sizeofT) % SIZE_MOD / ops.sizeofT ∧
        (n * ops.sizeofT < SIZE_MOD → slots = n)) ∧
      m'.free + (n * ops.sizeofT) % SIZE_MOD = m.free ∧
      ((n * ops.sizeofT) % SIZE_MOD = n * ops.sizeofT ↔ n * ops.sizeofT < SIZE_MOD) := by
  rw [RawMemory.ctor_eval, if_neg (by omega)] at hrun
  by_cases hf : (n * ops.sizeofT) % SIZE_MOD ≤ m.free
  · rw [if_pos hf] at hrun
    simp only [Outcome.ret.injEq] at hrun
    obtain ⟨hr, hm⟩ := hrun
    subst hr hm
    refine ⟨rfl, ⟨_, ?_, rfl, fun h => alloc_slots_eq n _ (by omega) h⟩, ?_, ?_⟩
    · rw [Mem.block_alloc, if_pos rfl]
    · rw [Mem.free_alloc]; omega
    · constructor
      · intro h
        rw [← h]
        exact Nat.mod_lt _ (by rw [SIZE_MOD_eq]; decide)
      · exact Nat.mod_eq_of_lt
  · rw [if_neg hf] at hrun
    cases hrun

/-- C18 fails on the code.  With `sizeof(T) == 8` and `n == 2^61 + 1` the
product `n * sizeof(T)` computed by `RawMemory::Allocate` wraps to 8:
`RawMemory(n)` constructs successfully with `Capacity() == n` on a buffer of
8 bytes, one slot, not `n * 8` bytes.  The same happens through
`v.Reserve(n)` on the vector `[7]`, which returns with `Capacity() == n` and
the one element in a buffer of 8 bytes; the next `PushBack` then sees free
capacity and writes past the end of the buffer. -/
theorem C18_allocation_size_wraps :
    (0 < 2305843009213693953 ∧ 2305843009213693953 < SIZE_MOD ∧ 1 ≤ intOps.sizeofT) ∧
      RawMemory.ctor intOps 2305843009213693953 mem_empty =
        .ret ⟨⟨1, 0⟩, 2305843009213693953⟩
          { heap := [some ⟨8, [none]⟩], vecs := [], free := 992 } ∧
      2305843009213693953 * intOps.sizeofT ≠ 8 ∧
      Holds mem_push1 ⟨⟨⟨1, 0⟩, 1⟩, 1⟩ [7] ∧
      Vector.Reserve intOps 0 2305843009213693953 mem_push1 = .ret () mem_wrapped ∧
      Vector.Capacity 0 mem_wrapped = .ret 2305843009213693953 mem_wrapped ∧
      mem_wrapped.block 2 = some ⟨8, [some 7]⟩ ∧
      Vector.PushBack intOps 0 9 mem_wrapped = .ub := by
  decide

/-- `Reserve(n)` and the capacity, whether it returns or throws. -/
theorem Vector.Reserve_cap (ops : ElemOps T) (m : Mem T) (this : Nat) (v : Vector) (n : Nat)
    (hv : m.vecs[this]? = some (some v)) (hn : n < SIZE_MOD) :
    (Vector.Reserve ops this n m).Ends
      (fun _ s => ∃ w, m.Stage s this v w ∧ (v.Sound → w.Sound) ∧
        m.Allowed v w.data_.buffer_.base ∧ w.size_ = v.size_ ∧ n ≤ w.data_.capacity_ ∧
        v.data_.capacity_ ≤ w.data_.capacity_)
      (fun s => m.Stage s this v v) := by
  by_cases hle : n ≤ v.data_.capacity_
  · have hres : Vector.Reserve ops this n m = .ret () m := by
      unfold Vector.Reserve
      rw [run_bind_ret (getVec_eval m this v hv), ite_run,
        if_pos (by simpa [RawMemory.Capacity] using hle)]
      rfl
    rw [hres]
    exact ⟨v, Mem.Stage.start m this v hv, fun h => h, Mem.Allowed.own m v, rfl, hle,
      Nat.le_refl _⟩
  · exact (Vector.Reserve_ends ops m this v n hv hn).relax
      (fun _ s ⟨w, h1, h2, h3, h4, h5⟩ => ⟨w, h1, h2, h3, h4, h5, by omega⟩) (fun _ h => h)

/-- `Resize(n)` and the capacity, whether it returns or throws. -/
theorem Vector.Resize_cap (ops : ElemOps T) (m : Mem T) (this : Nat) (v : Vector) (n : Nat)
    (hv : m.vecs[this]? = some (some v)) (hn : n < SIZE_MOD) :
    (Vector.Resize ops this n m).Ends
      (fun _ s => ∃ w, s.vecs[this]? = some (some w) ∧
        v.data_.capacity_ ≤ w.data_.capacity_)
      (fun s => ∃ w, s.vecs[this]? = some (some w) ∧
        v.data_.capacity_ ≤ w.data_.capacity_) := by
  unfold Vector.Resize
  rw [run_bind_ret (Vector.Capacity_eval m this v hv)]
  have hrest : ∀ (s : Mem T) (w : Vector), m.Stage s this v w →
      m.Allowed v w.data_.buffer_.base → v.data_.capacity_ ≤ w.data_.capacity_ →
      ((do
        let v ← getVec this
        if n > v.size_ then
          uninitialized_value_construct_n ops (v.data_.GetAddress + v.size_) (n - v.size_)
        else
          destroy_n (v.data_.GetAddress + n) (v.size_ - n)
        setVec this { v with size_ := n } : M (Mem T) Unit) s).Ends
        (fun _ t => ∃ w, t.vecs[this]? = some (some w) ∧
          v.data_.capacity_ ≤ w.data_.capacity_)
        (fun t => ∃ w, t.vecs[this]? = some (some w) ∧
          v.data_.capacity_ ≤ w.data_.capacity_) := by
    intro s w hst hal hle
    rw [run_bind_ret (getVec_eval s this w hst.1)]
    simp only [RawMemory.GetAddress]
    have hfin : ∀ t, m.Stage t this v w → (setVec this { w with size_ := n } t).Ends
        (fun _ t' => ∃ w, t'.vecs[this]? = some (some w) ∧
          v.data_.capacity_ ≤ w.data_.capacity_)
        (fun t' => ∃ w, t'.vecs[this]? = some (some w) ∧
          v.data_.capacity_ ≤ w.data_.capacity_) := by
      intro t ht
      exact (ht.setVec _ _).relax (fun _ t' h => ⟨_, h.2.1, hle⟩) (fun _ h => h)
    split
    · refine Outcome.Ends.chain ((hst.near (near_uninitialized_value_construct_loop ops
        (w.data_.buffer_ + w.size_) _ 0) hal hal).relax (fun _ _ h => h.1)
        (fun _ h => ⟨w, h.1, hle⟩)) ?_
      rintro - t - ht
      exact hfin t ht
    · refine Outcome.Ends.chain ((hst.near (near_destroy_n _ (w.data_.buffer_ + n)) hal hal).relax
        (fun _ _ h => h.1) (fun _ h => ⟨w, h.1, hle⟩)) ?_
      rintro - t - ht
      exact hfin t ht
  by_cases hgrow : n > v.data_.capacity_
  · rw [if_pos hgrow]
    refine Outcome.Ends.chain ((Vector.Reserve_cap ops m this v n hv hn).relax
      (fun _ _ h => h) (fun _ h => ⟨v, h.1, Nat.le_refl _⟩)) ?_
    rintro - s - ⟨w, hst, -, hal, -, -, hle⟩
    exact hrest s w hst hal hle
  · rw [if_neg hgrow]
    rw [run_bind_ret (show (pure PUnit.unit : M (Mem T) PUnit) m = .ret PUnit.unit m from rfl)]
    exact hrest m v (Mem.Stage.start m this v hv) (Mem.Allowed.own m v) (Nat.le_refl _)

/-- `PopBack()` and the capacity, whether it returns or throws. -/
theorem Vector.PopBack_cap (m : Mem T) (this : Nat) (v : Vector)
    (hv : m.vecs[this]? = some (some v)) :
    (Vector.PopBack this m).Ends
      (fun _ s => ∃ w, s.vecs[this]? = some (some w) ∧ w.data_.capacity_ = v.data_.capacity_)
      (fun s => s.vecs[this]? = some (some v)) := by
  unfold Vector.PopBack
  rw [run_bind_ret (getVec_eval m this v hv)]
  simp only [RawMemory.GetAddress]
  have h0 := Mem.Stage.start m this v hv
  refine Outcome.Ends.chain (P := fun _ t => t = m)
    (assert_ends _ m _ _ (fun _ => rfl)) ?_
  rintro - s - rfl
  refine Outcome.Ends.chain ((h0.near (near_destroy_n _ (v.data_.buffer_ + (v.size_ - 1)))
    (Mem.Allowed.own s v) (Mem.Allowed.own s v)).relax (fun _ _ h => h.1)
    (fun _ h => h.1)) ?_
  rintro - t - ht
  exact (ht.setVec _ _).relax (fun _ t' h => ⟨_, h.2.1, rfl⟩) (fun _ h => h)

/-- `Erase(pos)` and the capacity, whether it returns or throws. -/
theorem Vector.Erase_cap (ops : ElemOps T) (m : Mem T) (this : Nat) (v : Vector) (pos : Ptr)
    (hv : m.vecs[this]? = some (some v)) :
    (Vector.Erase ops this pos m).Ends
      (fun _ s => ∃ w, s.vecs[this]? = some (some w) ∧ w.data_.capacity_ = v.data_.capacity_)
      (fun s => s.vecs[this]? = some (some v)) := by
  unfold Vector.Erase
  rw [run_bind_ret (Vector.begin_eval m this v hv), run_bind_ret (Vector.end_eval m this v hv)]
  have h0 := Mem.Stage.start m this v hv
  refine Outcome.Ends.chain (P := fun _ t => t = m)
    (assert_ends _ m _ _ (fun _ => rfl)) ?_
  rintro - s - rfl
  refine Outcome.Ends.chain ((h0.near (near_std_move ops
    (v.data_.buffer_ + (pos.off - v.data_.buffer_.off) + 1) _
    (v.data_.buffer_ + (pos.off - v.data_.buffer_.off))) (Mem.Allowed.own s v)
    (Mem.Allowed.own s v)).relax (fun _ _ h => h.1) (fun _ h => h.1)) ?_
  rintro - t1 - ht1
  refine Outcome.Ends.chain ((ht1.near (near_destroy_n _ (v.data_.buffer_ + v.size_ - 1))
    (Mem.Allowed.own s v) (Mem.Allowed.own s v)).relax (fun _ _ h => h.1)
    (fun _ h => h.1)) ?_
  rintro - t2 - ht2
  rw [run_bind_ret (getVec_eval t2 this v ht2.1)]
  refine Outcome.Ends.chain (ht2.setVec _ _) ?_
  rintro - t3 - ⟨-, ht3⟩
  rw [run_bind_ret (Vector.begin_eval t3 this _ ht3.1)]
  exact ⟨_, ht3.1, rfl⟩

/-- `Emplace(pos, args...)`, the capacity and the size, whether it returns or
throws. -/
theorem Vector.Emplace_cap (ops : ElemOps T) (m : Mem T) (this : Nat) (v : Vector) (pos : Ptr)
    (args : Option T) (hv : m.vecs[this]? = some (some v)) :
    (Vector.Emplace ops this pos args m).Ends
      (fun _ s => ∃ w, s.vecs[this]? = some (some w) ∧
        v.data_.capacity_ ≤ w.data_.capacity_ ∧
        (v.size_ ≠ v.data_.capacity_ → w.data_.capacity_ = v.data_.capacity_) ∧
        (v.Sound → w.Sound ∧ w.size_ = v.size_ + 1))
      (fun s => s.vecs[this]? = some (some v)) := by
  unfold Vector.Emplace
  rw [run_bind_ret (getVec_eval m this v hv), run_bind_ret (Vector.begin_eval m this v hv),
    run_bind_ret (Vector.end_eval m this v hv)]
  have h0 := Mem.Stage.start m this v hv
  refine Outcome.Ends.chain (P := fun _ t => t = m ∧ pos.off - v.data_.buffer_.off ≤ v.size_)
    (assert_ends _ m _ _ (fun h => ⟨rfl, ?_⟩)) ?_
  · have h3 := h.2.2
    simp only [Ptr.add_off] at h3
    omega
  rintro - s - ⟨rfl, hoff⟩
  have htail : ∀ (t : Mem T) (w : Vector), s.Stage t this v w → w.size_ = v.size_ →
      v.data_.capacity_ ≤ w.data_.capacity_ →
      (v.size_ ≠ v.data_.capacity_ → w.data_.capacity_ = v.data_.capacity_) →
      (v.Sound → w.size_ + 1 ≤ w.data_.capacity_ ∧ w.data_.capacity_ < SIZE_MOD) →
      ((do
        let v' ← getVec this
        setVec this { v' with size_ := (v'.size_ + 1) % SIZE_MOD }
        let b ← Vector.begin this
        pure (b + (pos.off - v.data_.buffer_.off)) : M (Mem T) Ptr) t).Ends
        (fun _ s => ∃ w, s.vecs[this]? = some (some w) ∧
          v.data_.capacity_ ≤ w.data_.capacity_ ∧
          (v.size_ ≠ v.data_.capacity_ → w.data_.capacity_ = v.data_.capacity_) ∧
          (v.Sound → w.Sound ∧ w.size_ = v.size_ + 1))
        (fun s => s.vecs[this]? = some (some v)) := by
    intro t w ht hsz hle hsame hsnd
    rw [run_bind_ret (getVec_eval t this w ht.1), run_bind_ret (setVec_eval t this w _ ht.1)]
    unfold Vector.begin
    rw [run_bind, run_bind_ret (getVec_putVec t this w _ ht.1)]
    refine ⟨_, Mem.vec_putVec_self _ _ _ _ ht.1, hle, hsame, fun hs => ?_⟩
    obtain ⟨h1, h2⟩ := hsnd hs
    have hmod : (w.size_ + 1) % SIZE_MOD = w.size_ + 1 := Nat.mod_eq_of_lt (by omega)
    refine ⟨⟨?_, h2⟩, ?_⟩
    · show (w.size_ + 1) % SIZE_MOD ≤ w.data_.capacity_
      rw [hmod]; exact h1
    · show (w.size_ + 1) % SIZE_MOD = v.size_ + 1
      rw [hmod, hsz]
  simp only [RawMemory.Capacity]
  by_cases hsc : v.size_ = v.data_.capacity_
  · simp only [if_pos hsc]
    refine Outcome.Ends.chain ((Vector.Emplace_growth_ends ops s this v _ args hv hoff).relax
      (fun _ _ h => h) (fun _ h => h.1)) ?_
    rintro - t - ⟨w, ht, hsz, hle, hlt, hal⟩
    exact htail t w ht hsz (by omega) (fun h => absurd hsc h) (fun _ => ⟨by omega, hlt⟩)
  · simp only [if_neg hsc]
    refine Outcome.Ends.chain ((h0.near (near_Emplace_in_place ops v pos _ args)
      (Mem.Allowed.own s v) (Mem.Allowed.own s v)).relax (fun _ _ h => h.1)
      (fun _ h => h.1)) ?_
    rintro - t - ht
    exact htail t v ht rfl (Nat.le_refl _) (fun _ => rfl)
      (fun hs => ⟨by have := hs.1; omega, hs.2⟩)

/-- The statement `v[index] = value` and the members of the vector. -/
theorem Vector.assign_at_cap (ops : ElemOps T) (m : Mem T) (this : Nat) (v : Vector)
    (index : Nat) (value : T) (hv : m.vecs[this]? = some (some v)) :
    (Vector.assign_at ops this index value m).Ends
      (fun _ s => s.vecs[this]? = some (some v)) (fun s => s.vecs[this]? = some (some v)) := by
  unfold Vector.assign_at
  have h0 := Mem.Stage.start m this v hv
  have hnear : Near (do
      let y ← load (v.data_.buffer_ + index)
      if ops.copy_assign_throws y value then
        store (v.data_.buffer_ + index) (ops.copy_assign_failed y value)
        throwExn .element
      store (v.data_.buffer_ + index) value : M (Mem T) Unit)
      v.data_.buffer_.base v.data_.buffer_.base :=
    (near_load _ _ _).next
      (fun y => near_guard_after _ _ _ _ _ _ (near_store _ _) (near_store _ value))
  cases hidx : Vector.index this index m with
  | ret p s =>
    have hp : p = v.data_.buffer_ + index ∧ s = m := by
      unfold Vector.index at hidx
      rw [run_bind_ret (getVec_eval m this v hv), bind_eq_ret_iff] at hidx
      obtain ⟨_, s1, h1, h2⟩ := hidx
      rw [assert_eq_ret_iff] at h1
      obtain ⟨_, rfl⟩ := h1
      unfold RawMemory.index at h2
      rw [bind_eq_ret_iff] at h2
      obtain ⟨_, s2, h3, h4⟩ := h2
      rw [assert_eq_ret_iff] at h3
      obtain ⟨_, rfl⟩ := h3
      cases h4
      exact ⟨rfl, rfl⟩
    obtain ⟨rfl, rfl⟩ := hp
    rw [run_bind_ret hidx]
    exact (h0.near hnear (Mem.Allowed.own s v) (Mem.Allowed.own s v)).relax
      (fun _ _ h => h.1.1) (fun _ h => h.1)
  | thrown e s =>
    exfalso
    unfold Vector.index at hidx
    rw [run_bind_ret (getVec_eval m this v hv), bind_eq_thrown_iff] at hidx
    rcases hidx with h | ⟨_, s1, -, h⟩
    · unfold assert at h
      split at h <;> cases h
    · unfold RawMemory.index at h
      rw [bind_eq_thrown_iff] at h
      rcases h with h | ⟨_, s2, -, h⟩
      · unfold assert at h
        split at h <;> cases h
      · cases h
  | ub =>
    rw [run_bind_ub hidx]
    trivial

/-- A successful append is an `EmplaceBack` that returns. -/
theorem Appended.emplaced {ops : ElemOps T} {this : Nat} {m m' : Mem T}
    (h : Appended ops this m m') :
    ∃ args p, Vector.EmplaceBack ops this args m = .ret p m' := by
  obtain ⟨c, hc, hrun⟩ := h
  cases c <;> simp only [Call.Appends] at hc <;> subst hc
  · simp only [Call.run] at hrun
    unfold Vector.PushBack at hrun
    rw [bind_eq_ret_iff] at hrun
    obtain ⟨p, s, h1, h2⟩ := hrun
    cases h2
    exact ⟨_, p, h1⟩
  · simp only [Call.run] at hrun
    unfold Vector.PushBack_rvalue at hrun
    rw [bind_eq_ret_iff] at hrun
    obtain ⟨p, s, h1, h2⟩ := hrun
    cases h2
    exact ⟨_, p, h1⟩
  · simp only [Call.run] at hrun
    rw [bind_eq_ret_iff] at hrun
    obtain ⟨p, s, h1, h2⟩ := hrun
    cases h2
    exact ⟨_, p, h1⟩

theorem Vector.EmplaceBack_eval (ops : ElemOps T) (m : Mem T) (this : Nat) (v : Vector)
    (args : Option T) (hv : m.vecs[this]? = some (some v)) :
    Vector.EmplaceBack ops this args m =
      Vector.Emplace ops this (v.data_.buffer_ + v.size_) args m := by
  unfold Vector.EmplaceBack
  rw [run_bind_ret (Vector.end_eval m this v hv)]

theorem pow_two_least (c n j : Nat) (hc : c = 2 ^ j) (hlt : c < 2 * n) :
    ∀ j', n ≤ 2 ^ j' → c ≤ 2 ^ j' := by
  intro j' hn
  by_contra h
  have h' : 2 ^ j' < 2 ^ j := by omega
  have hj : j' < j := (Nat.pow_lt_pow_iff_right (by norm_num)).mp h'
  have h2 : 2 ^ (j' + 1) ≤ 2 ^ j := Nat.pow_le_pow_right (by norm_num) hj
  rw [Nat.pow_succ] at h2
  omega

/-- Appends to an empty vector of capacity 0: after `k` of them the size is `k`
and the capacity a power of two in `[k, 2 * k)`. -/
theorem AppendedTimes.doubling {ops : ElemOps T} {this k : Nat} {m1 s : Mem T}
    (h : AppendedTimes ops this k m1 s)
    (hbase : ∃ v l, m1.vecs[this]? = some (some v) ∧ Holds m1 v l ∧ v.size_ = 0 ∧
      v.data_.capacity_ = 0) :
    ∃ v l, s.vecs[this]? = some (some v) ∧ Holds s v l ∧ v.size_ = k ∧
      (k = 0 → v.data_.capacity_ = 0) ∧
      (1 ≤ k → ∃ j, v.data_.capacity_ = 2 ^ j ∧ k ≤ v.data_.capacity_ ∧
        v.data_.capacity_ < 2 * k) := by
  induction h with
  | none m =>
    obtain ⟨v, l, hv, hH, hsz, hc⟩ := hbase
    exact ⟨v, l, hv, hH, hsz, fun _ => hc, fun h => absurd h (by omega)⟩
  | more k _ s s' _ hstep ih =>
    obtain ⟨v, l, hv, hH, hsz, h0, h1⟩ := ih hbase
    obtain ⟨args, p, hrun⟩ := hstep.emplaced
    rw [Vector.EmplaceBack_eval ops s this v args hv, hH.1] at hrun
    obtain ⟨x, v', -, hv', hH', hsz', -, hcap', -⟩ :=
      (Vector.Emplace_spec ops s this v l l.length args hv hH (Nat.le_refl _)).2 p _ hrun
    refine ⟨v', _, hv', hH', by omega, fun h => absurd h (by omega), fun _ => ?_⟩
    rcases Nat.eq_zero_or_pos k with hk0 | hkpos
    · have hc0 := h0 hk0
      rw [if_pos (by omega), if_pos (by omega)] at hcap'
      exact ⟨0, by rw [hcap']; rfl, by omega, by omega⟩
    · obtain ⟨j, hj, hle, hlt⟩ := h1 hkpos
      by_cases hfull : v.size_ = v.data_.capacity_
      · rw [if_pos hfull, if_neg (by omega)] at hcap'
        refine ⟨j + 1, ?_, by omega, by omega⟩
        rw [hcap', Nat.pow_succ, ← hj]; omega
      · rw [if_neg hfull] at hcap'
        exact ⟨j, by rw [hcap', hj], by omega, by omega⟩

/-- C19 (capacity after repeated appends).  Start from a default-constructed
`Vector` and make `n >= 1` calls of `PushBack` or `EmplaceBack` that return,
with no other operation in between.  Then `Size() == n` and `Capacity()` is
the least power of two that is at least `n`. -/
theorem C19_capacity_after_appends (ops : ElemOps T) (m0 m1 m : Mem T) (this n : Nat)
    (hn : 1 ≤ n) (hctor : Vector.ctor_default m0 = .ret this m1)
    (happ : AppendedTimes ops this n m1 m) :
    Vector.Size this m = .ret n m ∧
      ∃ c, Vector.Capacity this m = .ret c m ∧ (∃ j, c = 2 ^ j) ∧ n ≤ c ∧
        ∀ j', n ≤ 2 ^ j' → c ≤ 2 ^ j' := by
  have hbase : ∃ v l, m1.vecs[this]? = some (some v) ∧ Holds m1 v l ∧ v.size_ = 0 ∧
      v.data_.capacity_ = 0 := by
    unfold Vector.ctor_default at hctor
    rw [newVec_eval] at hctor
    simp only [Outcome.ret.injEq] at hctor
    obtain ⟨rfl, rfl⟩ := hctor
    refine ⟨{}, [], Mem.vec_pushVec_new _ _, ?_, rfl, rfl⟩
    refine ⟨rfl, Nat.le_refl _, ?_, rfl, fun _ => rfl, fun h => absurd rfl h⟩
    show 0 < SIZE_MOD
    rw [SIZE_MOD_eq]; decide
  obtain ⟨v, l, hv, -, hsz, -, h1⟩ := happ.doubling hbase
  obtain ⟨j, hj, hle, hlt⟩ := h1 hn
  refine ⟨?_, v.data_.capacity_, Vector.Capacity_eval m this v hv, ⟨j, hj⟩, hle,
    pow_two_least _ n j hj hlt⟩
  rw [Vector.Size_eval m this v hv, hsz]

/-- Witness for C19: `Vector<int> v; v.PushBack(7); v.PushBack(8);
v.EmplaceBack(9);` gives size 3 and capacity 4. -/
theorem C19_capacity_after_appends_witness :
    (1 ≤ 3 ∧ Vector.ctor_default mem_empty = .ret 0 mem_fresh ∧
        AppendedTimes intOps 0 3 mem_fresh mem_push3) ∧
      (Vector.Size 0 mem_push3 = .ret 3 mem_push3 ∧
      ∃ c, Vector.Capacity 0 mem_push3 = .ret c mem_push3 ∧ (∃ j, c = 2 ^ j) ∧ 3 ≤ c ∧
        ∀ j', 3 ≤ 2 ^ j' → c ≤ 2 ^ j') :=
  ⟨⟨by decide, by decide,
      .more 2 mem_fresh mem_push2 mem_push3
        (.more 1 mem_fresh mem_push1 mem_push2
          (.more 0 mem_fresh mem_fresh mem_push1 (.none mem_fresh)
            ⟨.PushBack 0 7, rfl, by decide⟩)
          ⟨.PushBack_rvalue 0 8, rfl, by decide⟩)
        ⟨.EmplaceBack 0 (some 9), rfl, by decide⟩⟩,
    C19_capacity_after_appends intOps mem_empty mem_fresh mem_push3 0 3 (by decide) (by decide)
      (.more 2 mem_fresh mem_push2 mem_push3
        (.more 1 mem_fresh mem_push1 mem_push2
          (.more 0 mem_fresh mem_fresh mem_push1 (.none mem_fresh)
            ⟨.PushBack 0 7, rfl, by decide⟩)
          ⟨.PushBack_rvalue 0 8, rfl, by decide⟩)
        ⟨.EmplaceBack 0 (some 9), rfl, by decide⟩)⟩

/-- Every modifying call on a live object, whether it returns or throws,
leaves the object with a capacity that is at least the old one, and is the old
one when the call is an insertion and the size was below the capacity. -/
theorem Call.run_cap (ops : ElemOps T) (c : Call T) (this : Nat) (hc : c.Mutates this)
    (hwt : c.WellTyped) (m : Mem T) (v : Vector) (hv : m.vecs[this]? = some (some v)) :
    (c.run ops m).Ends
      (fun _ s => ∃ w, s.vecs[this]? = some (some w) ∧
        v.data_.capacity_ ≤ w.data_.capacity_ ∧
        (c.Inserts this → v.size_ < v.data_.capacity_ →
          w.data_.capacity_ = v.data_.capacity_))
      (fun s => ∃ w, s.vecs[this]? = some (some w) ∧
        v.data_.capacity_ ≤ w.data_.capacity_ ∧
        (c.Inserts this → v.size_ < v.data_.capacity_ →
          w.data_.capacity_ = v.data_.capacity_)) := by
  have hE : ∀ (pos : Ptr) (args : Option T) (I : Prop),
      (Vector.Emplace ops this pos args m).Ends
        (fun _ s => ∃ w, s.vecs[this]? = some (some w) ∧
          v.data_.capacity_ ≤ w.data_.capacity_ ∧
          (I → v.size_ < v.data_.capacity_ → w.data_.capacity_ = v.data_.capacity_))
        (fun s => ∃ w, s.vecs[this]? = some (some w) ∧
          v.data_.capacity_ ≤ w.data_.capacity_ ∧
          (I → v.size_ < v.data_.capacity_ → w.data_.capacity_ = v.data_.capacity_)) := by
    intro pos args I
    exact (Vector.Emplace_cap ops m this v pos args hv).relax
      (fun _ s ⟨w, h1, h2, h3, _⟩ => ⟨w, h1, h2, fun _ hlt => h3 (by omega)⟩)
      (fun s h => ⟨v, h, Nat.le_refl _, fun _ _ => rfl⟩)
  have hEB : ∀ (args : Option T) (I : Prop),
      (Vector.EmplaceBack ops this args m).Ends
        (fun _ s => ∃ w, s.vecs[this]? = some (some w) ∧
          v.data_.capacity_ ≤ w.data_.capacity_ ∧
          (I → v.size_ < v.data_.capacity_ → w.data_.capacity_ = v.data_.capacity_))
        (fun s => ∃ w, s.vecs[this]? = some (some w) ∧
          v.data_.capacity_ ≤ w.data_.capacity_ ∧
          (I → v.size_ < v.data_.capacity_ → w.data_.capacity_ = v.data_.capacity_)) := by
    intro args I
    rw [Vector.EmplaceBack_eval ops m this v args hv]
    exact hE _ _ I
  cases c <;> simp only [Call.Mutates] at hc <;> subst hc
  · exact (Vector.Reserve_cap ops m _ v _ hv hwt).relax
      (fun _ s ⟨w, h1, _, _, _, _, h6⟩ => ⟨w, h1.1, h6, fun h => h.elim⟩)
      (fun s h => ⟨v, h.1, Nat.le_refl _, fun h => h.elim⟩)
  · exact (Vector.Resize_cap ops m _ v _ hv hwt).relax
      (fun _ s ⟨w, h1, h2⟩ => ⟨w, h1, h2, fun h => h.elim⟩)
      (fun s ⟨w, h1, h2⟩ => ⟨w, h1, h2, fun h => h.elim⟩)
  · exact (hEB _ _).discard
  · exact (hEB _ _).discard
  · exact (hEB _ _).discard
  · exact (hE _ _ _).discard
  · exact (hE _ _ _).discard
  · exact (hE _ _ _).discard
  · exact ((Vector.Erase_cap ops m _ v _ hv).relax
      (fun _ s ⟨w, h1, h2⟩ => (⟨w, h1, by omega, fun h => h.elim⟩ :
        ∃ w, s.vecs[_]? = some (some w) ∧ v.data_.capacity_ ≤ w.data_.capacity_ ∧
          (False → v.size_ < v.data_.capacity_ → w.data_.capacity_ = v.data_.capacity_)))
      (fun s h => (⟨v, h, Nat.le_refl _, fun h => h.elim⟩ :
        ∃ w, s.vecs[_]? = some (some w) ∧ v.data_.capacity_ ≤ w.data_.capacity_ ∧
          (False → v.size_ < v.data_.capacity_ → w.data_.capacity_ = v.data_.capacity_)))).discard
  · exact (Vector.PopBack_cap m _ v hv).relax
      (fun _ s ⟨w, h1, h2⟩ => ⟨w, h1, by omega, fun h => h.elim⟩)
      (fun s h => ⟨v, h, Nat.le_refl _, fun h => h.elim⟩)
  · exact (Vector.assign_at_cap ops m _ v _ _ hv).relax
      (fun _ s h => ⟨v, h, Nat.le_refl _, fun h => h.elim⟩)
      (fun s h => ⟨v, h, Nat.le_refl _, fun h => h.elim⟩)

/-- Appends that return: the size grows by one each time, and the capacity
stays as it is as long as the size does not exceed it. -/
theorem AppendedTimes.within_cap {ops : ElemOps T} {this k : Nat} {m1 m2 : Mem T}
    (h : AppendedTimes ops this k m1 m2) (w1 : Vector)
    (hw1 : m1.vecs[this]? = some (some w1)) (hs1 : w1.Sound) :
    ∃ w2, m2.vecs[this]? = some (some w2) ∧ w2.Sound ∧ w2.size_ = w1.size_ + k ∧
      w1.data_.capacity_ ≤ w2.data_.capacity_ ∧
      (w2.size_ ≤ w1.data_.capacity_ → w2.data_.capacity_ = w1.data_.capacity_) := by
  induction h with
  | none m => exact ⟨w1, hw1, hs1, rfl, Nat.le_refl _, fun _ => rfl⟩
  | more k _ s s' _ hstep ih =>
    obtain ⟨w, hw, hs, hsz, hle, hsame⟩ := ih hw1
    obtain ⟨args, p, hrun⟩ := hstep.emplaced
    rw [Vector.EmplaceBack_eval ops s this w args hw] at hrun
    obtain ⟨w', hw', hle', hsame', hsnd⟩ :=
      (Vector.Emplace_cap ops s this w _ args hw).ret_imp hrun
    obtain ⟨hs', hsz'⟩ := hsnd hs
    refine ⟨w', hw', hs', by omega, by omega, fun hfit => ?_⟩
    have h1 := hsame (by omega)
    rw [hsame' (by omega), h1]

/-- C20 (capacity never shrinks, free slots are used without reallocation).
For a vector with consistent members: no call of `Reserve`, `Resize`,
`PushBack`, `EmplaceBack`, `Emplace`, `Insert`, `Erase` or `PopBack` (nor an
assignment to an element), whether it returns or throws, leaves a
`Capacity()` below the one before; a call of `PushBack`, `EmplaceBack`,
`Emplace` or `Insert` on a vector with `Size() < Capacity()` leaves
`Capacity()` as it is; and after a `Reserve(n)` that returns, any number of
appends that return and end with `Size() <= n` leave `Capacity()` as
`Reserve` left it, which is at least `n`. -/
theorem C20_capacity_never_shrinks (ops : ElemOps T) (m : Mem T) (this : Nat) (v : Vector)
    (hv : m.vecs[this]? = some (some v)) (hs : v.Sound) :
    (∀ (c : Call T) (s : Mem T), c.Mutates this → c.Step ops m s →
      ∃ cap, Vector.Capacity this s = .ret cap s ∧ v.data_.capacity_ ≤ cap) ∧
    (∀ (c : Call T) (s : Mem T), c.Inserts this → v.size_ < v.data_.capacity_ →
      c.Step ops m s → Vector.Capacity this s = .ret v.data_.capacity_ s) ∧
    (∀ (n k sz : Nat) (m1 m2 : Mem T), n < SIZE_MOD →
      Vector.Reserve ops this n m = .ret () m1 → AppendedTimes ops this k m1 m2 →
      Vector.Size this m2 = .ret sz m2 → sz ≤ n →
      ∃ cap, n ≤ cap ∧ Vector.Capacity this m1 = .ret cap m1 ∧
        Vector.Capacity this m2 = .ret cap m2) := by
  have hmut : ∀ c : Call T, c.Inserts this → c.Mutates this := by
    intro c hc
    cases c <;> first | exact hc | exact hc.elim
  have key : ∀ (c : Call T) (s : Mem T), c.Mutates this → c.Step ops m s →
      ∃ w, s.vecs[this]? = some (some w) ∧ v.data_.capacity_ ≤ w.data_.capacity_ ∧
        (c.Inserts this → v.size_ < v.data_.capacity_ →
          w.data_.capacity_ = v.data_.capacity_) := by
    rintro c s hc ⟨hwt, hret | ⟨e, hthr⟩⟩
    · exact (Call.run_cap ops c this hc hwt m v hv).ret_imp hret
    · exact (Call.run_cap ops c this hc hwt m v hv).thrown_imp hthr
  refine ⟨?_, ?_, ?_⟩
  · intro c s hc hstep
    obtain ⟨w, hw, hle, -⟩ := key c s hc hstep
    exact ⟨_, Vector.Capacity_eval s this w hw, hle⟩
  · intro c s hc hlt hstep
    obtain ⟨w, hw, -, hsame⟩ := key c s (hmut c hc) hstep
    rw [Vector.Capacity_eval s this w hw, hsame hc hlt]
  · intro n k sz m1 m2 hn hres happ hsize hszn
    obtain ⟨w1, hst, hsnd, -, -, hnle, -⟩ :=
      (Vector.Reserve_cap ops m this v n hv hn).ret_imp hres
    obtain ⟨w2, hw2, -, -, -, hsame⟩ := happ.within_cap w1 hst.1 (hsnd hs)
    rw [Vector.Size_eval m2 this w2 hw2] at hsize
    simp only [Outcome.ret.injEq, and_true] at hsize
    refine ⟨w1.data_.capacity_, hnle, Vector.Capacity_eval m1 this w1 hst.1, ?_⟩
    rw [Vector.Capacity_eval m2 this w2 hw2, hsame (by omega)]

/-- Witness for C20: the vector `[10, 20, 40]` of capacity 4; `Reserve(6)`
followed by two appends leaves the capacity at 6. -/
theorem C20_capacity_never_shrinks_witness :
    (mem_abd.vecs[0]? = some (some ⟨⟨⟨1, 0⟩, 4⟩, 3⟩) ∧
        ((3 : Nat) ≤ 4 ∧ 4 < SIZE_MOD) ∧
        Vector.Reserve intOps 0 6 mem_abd = .ret () mem_reserved ∧
        AppendedTimes intOps 0 2 mem_reserved mem_reserved2 ∧
        Vector.Size 0 mem_reserved2 = .ret 5 mem_reserved2 ∧
        Vector.Capacity 0 mem_reserved2 = .ret 6 mem_reserved2) ∧
      ((∀ (c : Call Nat) (s : Mem Nat), c.Mutates 0 → c.Step intOps mem_abd s →
        ∃ cap, Vector.Capacity 0 s = .ret cap s ∧ 4 ≤ cap) ∧
      (∀ (c : Call Nat) (s : Mem Nat), c.Inserts 0 → 3 < 4 →
        c.Step intOps mem_abd s → Vector.Capacity 0 s = .ret 4 s) ∧
      (∀ (n k sz : Nat) (m1 m2 : Mem Nat), n < SIZE_MOD →
        Vector.Reserve intOps 0 n mem_abd = .ret () m1 → AppendedTimes intOps 0 k m1 m2 →
        Vector.Size 0 m2 = .ret sz m2 → sz ≤ n →
        ∃ cap, n ≤ cap ∧ Vector.Capacity 0 m1 = .ret cap m1 ∧
          Vector.Capacity 0 m2 = .ret cap m2)) :=
  ⟨⟨by decide, ⟨by decide, by rw [SIZE_MOD_eq]; decide⟩, by decide,
      .more 1 mem_reserved mem_reserved1 mem_reserved2
        (.more 0 mem_reserved mem_reserved mem_reserved1 (.none mem_reserved)
          ⟨.PushBack 0 50, rfl, by decide⟩)
        ⟨.EmplaceBack 0 (some 60), rfl, by decide⟩,
      by decide, by decide⟩,
    C20_capacity_never_shrinks intOps mem_abd 0 ⟨⟨⟨1, 0⟩, 4⟩, 3⟩ (by decide)
      (show (3 : Nat) ≤ 4 ∧ 4 < SIZE_MOD from ⟨by decide, by rw [SIZE_MOD_eq]; decide⟩)⟩

@[simp] theorem Mem.vecs_setSlot (m : Mem T) (p : Ptr) (s : Option T) :
    (m.setSlot p s).vecs = m.vecs := by
  unfold Mem.setSlot; split <;> simp

@[simp] theorem Mem.free_setSlot (m : Mem T) (p : Ptr) (s : Option T) :
    (m.setSlot p s).free = m.free := by
  unfold Mem.setSlot; split <;> simp

@[simp] theorem Mem.heap_length_setSlot (m : Mem T) (p : Ptr) (s : Option T) :
    (m.setSlot p s).heap.length = m.heap.length := by
  unfold Mem.setSlot; split <;> simp

theorem Mem.block_setSlot_ne (m : Mem T) (p : Ptr) (s : Option T) (b : Nat) (h : b ≠ p.base) :
    (m.setSlot p s).block b = m.block b := by
  unfold Mem.setSlot
  split
  · rfl
  · exact m.block_setBlock_ne _ _ _ h

theorem Mem.block_of_slot (m : Mem T) (p : Ptr) (o : Option T) (h : m.slot p = some o) :
    ∃ blk, m.block p.base = some blk ∧ blk.slots[p.off]? = some o := by
  unfold Mem.slot at h
  cases hb : m.block p.base with
  | none => simp [hb] at h
  | some blk => exact ⟨blk, rfl, by simpa [hb] using h⟩

theorem Mem.setSlot_eq (m : Mem T) (p : Ptr) (s : Option T) (blk : Block T)
    (hb : m.block p.base = some blk) :
    m.setSlot p s = m.setBlock p.base (some ⟨blk.bytes, blk.slots.set p.off s⟩) := by
  unfold Mem.setSlot; rw [hb]

/-- Writes to two different slots commute. -/
theorem Mem.setSlot_comm (m : Mem T) (p q : Ptr) (a b op oq : Option T) (h : p ≠ q)
    (hp : m.slot p = some op) (hq : m.slot q = some oq) :
    (m.setSlot p a).setSlot q b = (m.setSlot q b).setSlot p a := by
  obtain ⟨bp, hbp, -⟩ := m.block_of_slot p op hp
  obtain ⟨bq, hbq, -⟩ := m.block_of_slot q oq hq
  by_cases hb : p.base = q.base
  · have hoff : p.off ≠ q.off := by
      intro ho; apply h; cases p; cases q; simp_all
    have hbq' : m.block p.base = some bq := by rw [hb]; exact hbq
    have hpq : bp = bq := by rw [hbp] at hbq'; exact Option.some.inj hbq'
    subst hpq
    have l1 : (m.setBlock p.base (some ⟨bp.bytes, bp.slots.set p.off a⟩)).block q.base =
        some ⟨bp.bytes, bp.slots.set p.off a⟩ := by
      rw [m.block_setBlock _ _ _ _ hbp, if_pos hb.symm]
    have l2 : (m.setBlock q.base (some ⟨bp.bytes, bp.slots.set q.off b⟩)).block p.base =
        some ⟨bp.bytes, bp.slots.set q.off b⟩ := by
      rw [m.block_setBlock _ _ _ _ hbq, if_pos hb]
    rw [Mem.setSlot_eq m p a bp hbp, Mem.setSlot_eq m q b bp hbq, Mem.setSlot_eq _ q b _ l1,
      Mem.setSlot_eq _ p a _ l2, hb, Mem.setBlock_setBlock, Mem.setBlock_setBlock,
      List.set_comm _ _ _ hoff]
  · have l1 : (m.setBlock p.base (some ⟨bp.bytes, bp.slots.set p.off a⟩)).block q.base =
        some bq := by
      rw [m.block_setBlock_ne _ _ _ (Ne.symm hb), hbq]
    have l2 : (m.setBlock q.base (some ⟨bq.bytes, bq.slots.set q.off b⟩)).block p.base =
        some bp := by
      rw [m.block_setBlock_ne _ _ _ hb, hbp]
    rw [Mem.setSlot_eq m p a bp hbp, Mem.setSlot_eq m q b bq hbq, Mem.setSlot_eq _ q b _ l1,
      Mem.setSlot_eq _ p a _ l2]
    exact Mem.setBlock_comm m _ _ _ _ hb

/-- A write to a slot of an existing block commutes with an allocation. -/
theorem Mem.setSlot_alloc (m : Mem T) (p : Ptr) (s o : Option T) (bytes k : Nat)
    (hp : m.slot p = some o) :
    (m.setSlot p s).alloc bytes k = (m.alloc bytes k).setSlot p s := by
  obtain ⟨blk, hb, -⟩ := m.block_of_slot p o hp
  have hle := m.block_le_length _ _ hb
  have hb' : (m.alloc bytes k).block p.base = some blk := by
    rw [Mem.block_alloc, if_neg (by omega), hb]
  unfold Mem.setSlot
  rw [hb, hb']
  obtain ⟨c, hc⟩ : ∃ c, p.base = c + 1 := ⟨p.base - 1, by omega⟩
  rw [hc]
  simp only [Mem.setBlock, Mem.alloc]
  congr 1
  rw [List.set_append_left _ _ (by omega)]

/-- The move constructor from a live element that does not throw: the new
object is built from the value, and the source is left moved from. -/
theorem move_construct_as_construct (ops : ElemOps T) (m : Mem T) (dst src : Ptr) (x : T)
    (hs : m.slot src = some (some x)) (hnt : move_construct_throws ops x = false)
    (hne : dst ≠ src) :
    move_construct ops dst src m =
      construct_from dst (some x) (m.setSlot src (some (ops.moved_from x))) := by
  show _ = construct_at dst x _
  cases hd : m.slot dst with
  | none =>
    have h2 : (m.setSlot src (some (ops.moved_from x))).slot dst = none := by
      rw [m.slot_setSlot_ne src dst _ hne, hd]
    unfold move_construct construct_at
    rw [run_bind_ret (load_eval m src x hs), ite_run, if_neg (by simp [hnt]), h2]
    show ((pure PUnit.unit : M (Mem T) PUnit) >>= fun _ => _) m = _
    rw [run_bind_ret (show (pure PUnit.unit : M (Mem T) PUnit) m = .ret PUnit.unit m from rfl),
      run_bind]
    simp only [hd]
    rfl
  | some o =>
    rw [move_construct_eval ops m dst src x o hs hd (Ne.symm hne), hnt]
    have h2 : (m.setSlot src (some (ops.moved_from x))).slot dst = some o := by
      rw [m.slot_setSlot_ne src dst _ hne, hd]
    rw [construct_at_eval _ dst x o h2, Mem.setSlot_comm m dst src _ _ o (some x) hne hd hs]
    rfl

/-- The move constructor from a live element that throws. -/
theorem move_construct_fails (ops : ElemOps T) (m : Mem T) (dst src : Ptr) (x : T)
    (hs : m.slot src = some (some x)) (ht : move_construct_throws ops x = true) :
    move_construct ops dst src m = construct_from dst none m := by
  unfold move_construct
  rw [run_bind_ret (load_eval m src x hs), ite_run, if_pos ht]
  rfl

theorem run_bind_congr {x1 x2 : M σ α} {f : α → M σ β} {m1 m2 : σ} (h : x1 m1 = x2 m2) :
    (x1 >>= f) m1 = (x2 >>= f) m2 := by
  rw [run_bind, run_bind, h]

theorem onException_congr {b1 b2 : M σ α} {c : M σ Unit} {m1 m2 : σ} (h : b1 m1 = b2 m2) :
    onException b1 c m1 = onException b2 c m2 := by
  unfold onException
  rw [h]

theorem RawMemory.plus_congr (r : RawMemory) (off : Nat) {f1 f2 : Ptr → M (Mem T) α}
    {m1 m2 : Mem T} (h : f1 (r.buffer_ + off) m1 = f2 (r.buffer_ + off) m2) :
    (r.plus off >>= f1) m1 = (r.plus off >>= f2) m2 := by
  by_cases hle : off ≤ r.capacity_
  · rw [run_bind_ret (RawMemory.plus_eval r off m1 hle),
      run_bind_ret (RawMemory.plus_eval r off m2 hle)]
    exact h
  · have hub : ∀ s : Mem T, r.plus off s = .ub := by
      intro s
      unfold RawMemory.plus
      rw [run_bind]
      simp [assert, hle]
    rw [run_bind_ub (hub m1), run_bind_ub (hub m2)]

theorem Mem.slot_alloc (m : Mem T) (bytes k : Nat) (p : Ptr) (o : Option T)
    (h : m.slot p = some o) : (m.alloc bytes k).slot p = some o := by
  obtain ⟨blk, hb, hso⟩ := m.block_of_slot p o h
  have hle := m.block_le_length _ _ hb
  unfold Mem.slot
  rw [Mem.block_alloc, if_neg (by omega), hb]
  simpa using hso

theorem assert_ub (c : Prop) [Decidable c] (m : σ) (h : ¬ c) : (assert c : M σ Unit) m = .ub := by
  simp [assert, h]

/-- `Emplace(pos, std::move(*src))` for a live element `*src` whose move
constructor does not throw: unless the allocation of the new buffer fails, the
call does what `Emplace` does with the value of `*src` in the memory where
`*src` is already moved from. -/
theorem Vector.Emplace_moved_eq (ops : ElemOps T) (m : Mem T) (this : Nat) (v : Vector)
    (pos src : Ptr) (x : T) (hv : m.vecs[this]? = some (some v))
    (hs : m.slot src = some (some x)) (hnt : move_construct_throws ops x = false)
    (hend : src ≠ v.data_.buffer_ + v.size_) :
    Vector.Emplace_moved ops this pos src m =
        Vector.Emplace ops this pos (some x) (m.setSlot src (some (ops.moved_from x))) ∨
      (v.size_ = v.data_.capacity_ ∧
        ¬ ((if v.size_ = 0 then 1 else (v.size_ * 2) % SIZE_MOD) * ops.sizeofT) % SIZE_MOD ≤
          m.free ∧
        Vector.Emplace_moved ops this pos src m = .thrown .bad_alloc m) := by
  have hv2 : (m.setSlot src (some (ops.moved_from x))).vecs[this]? = some (some v) := by
    rw [Mem.vecs_setSlot]; exact hv
  obtain ⟨sblk, hsb, -⟩ := m.block_of_slot src _ hs
  have hsle := m.block_le_length _ _ hsb
  unfold Vector.Emplace_moved Vector.Emplace
  rw [run_bind_ret (getVec_eval m this v hv), run_bind_ret (Vector.begin_eval m this v hv),
    run_bind_ret (Vector.end_eval m this v hv), run_bind_ret (getVec_eval _ this v hv2),
    run_bind_ret (Vector.begin_eval _ this v hv2), run_bind_ret (Vector.end_eval _ this v hv2)]
  by_cases hC : pos.base = v.data_.buffer_.base ∧ v.data_.buffer_.off ≤ pos.off ∧
      pos.off ≤ (v.data_.buffer_ + v.size_).off
  swap
  · left
    rw [run_bind_ub (assert_ub _ m hC), run_bind_ub (assert_ub _ _ hC)]
  rw [run_bind_ret (assert_eval _ m hC), run_bind_ret (assert_eval _ _ hC)]
  simp only [RawMemory.Capacity, RawMemory.GetAddress]
  by_cases hfull : v.size_ = v.data_.capacity_
  · simp only [if_pos hfull]
    by_cases hbad : (if v.size_ = 0 then 1 else (v.size_ * 2) % SIZE_MOD) ≠ 0 ∧
        ¬ ((if v.size_ = 0 then 1 else (v.size_ * 2) % SIZE_MOD) * ops.sizeofT) % SIZE_MOD ≤
          m.free
    · right
      refine ⟨hfull, hbad.2, run_bind_thrown ?_⟩
      unfold Vector.Emplace_growth_moved
      rw [run_bind, RawMemory.ctor_eval, if_neg hbad.1, if_neg hbad.2]
      rfl
    · left
      refine run_bind_congr ?_
      unfold Vector.Emplace_growth_moved Vector.Emplace_growth
      rw [run_bind, run_bind, RawMemory.ctor_eval, RawMemory.ctor_eval, Mem.free_setSlot,
        Mem.heap_length_setSlot]
      by_cases hn0 : (if v.size_ = 0 then 1 else (v.size_ * 2) % SIZE_MOD) = 0
      · rw [if_pos hn0, if_pos hn0, Outcome.bind_ret, Outcome.bind_ret]
        refine run_bind_congr (onException_congr (RawMemory.plus_congr _ _ (run_bind_congr ?_)))
        refine move_construct_as_construct ops m _ src x hs hnt ?_
        intro h
        have := congrArg Ptr.base h
        simp [nullptr] at this
        omega
      · have hfit : ((if v.size_ = 0 then 1 else (v.size_ * 2) % SIZE_MOD) * ops.sizeofT) %
            SIZE_MOD ≤ m.free := by
          by_contra hc
          exact hbad ⟨hn0, hc⟩
        rw [if_neg hn0, if_neg hn0, if_pos hfit, if_pos hfit, Outcome.bind_ret, Outcome.bind_ret,
          Mem.setSlot_alloc m src _ _ _ _ hs]
        refine run_bind_congr (onException_congr (RawMemory.plus_congr _ _ (run_bind_congr ?_)))
        refine move_construct_as_construct ops _ _ src x (Mem.slot_alloc m _ _ src _ hs) hnt ?_
        intro h
        have := congrArg Ptr.base h
        simp at this
        omega
  · simp only [if_neg hfull]
    left
    refine run_bind_congr ?_
    unfold Vector.Emplace_in_place_moved Vector.Emplace_in_place
    by_cases hpe : pos = v.data_.buffer_ + v.size_
    · rw [if_pos hpe, if_pos hpe]
      refine RawMemory.plus_congr _ _ ?_
      refine move_construct_as_construct ops m _ src x hs hnt ?_
      intro h
      have hoffset : pos.off - v.data_.buffer_.off = v.size_ := by rw [hpe]; simp
      rw [hoffset] at h
      exact hend h.symm
    · rw [if_neg hpe, if_neg hpe]
      rw [run_bind_ret (load_eval m src x hs), ite_run, if_neg (by simp [hnt]),
        run_bind_ret (show (pure PUnit.unit : M (Mem T) PUnit) m = .ret PUnit.unit m from rfl)]
      show (store src (ops.moved_from x) >>= fun _ => _) m = _
      rw [run_bind_ret (store_eval m src _ x hs)]

/-- `Emplace(pos, std::move(*src))` for a live element `*src` whose move
constructor throws does what `Emplace` does when the constructor of the new
element throws. -/
theorem Vector.Emplace_moved_throws (ops : ElemOps T) (m : Mem T) (this : Nat) (v : Vector)
    (pos src : Ptr) (x : T) (hv : m.vecs[this]? = some (some v))
    (hs : m.slot src = some (some x)) (ht : move_construct_throws ops x = true) :
    Vector.Emplace_moved ops this pos src m = Vector.Emplace ops this pos none m := by
  unfold Vector.Emplace_moved Vector.Emplace
  rw [run_bind_ret (getVec_eval m this v hv), run_bind_ret (Vector.begin_eval m this v hv),
    run_bind_ret (Vector.end_eval m this v hv), run_bind_ret (getVec_eval m this v hv),
    run_bind_ret (Vector.begin_eval m this v hv), run_bind_ret (Vector.end_eval m this v hv)]
  by_cases hC : pos.base = v.data_.buffer_.base ∧ v.data_.buffer_.off ≤ pos.off ∧
      pos.off ≤ (v.data_.buffer_ + v.size_).off
  swap
  · rw [run_bind_ub (assert_ub _ m hC), run_bind_ub (assert_ub _ m hC)]
  rw [run_bind_ret (assert_eval _ m hC), run_bind_ret (assert_eval _ m hC)]
  simp only [RawMemory.Capacity, RawMemory.GetAddress]
  by_cases hfull : v.size_ = v.data_.capacity_
  · simp only [if_pos hfull]
    refine run_bind_congr ?_
    unfold Vector.Emplace_growth_moved Vector.Emplace_growth
    rw [run_bind, run_bind, RawMemory.ctor_eval]
    by_cases hn0 : (if v.size_ = 0 then 1 else (v.size_ * 2) % SIZE_MOD) = 0
    · rw [if_pos hn0, Outcome.bind_ret, Outcome.bind_ret]
      refine run_bind_congr (onException_congr (RawMemory.plus_congr _ _ (run_bind_congr ?_)))
      exact move_construct_fails ops m _ src x hs ht
    · rw [if_neg hn0]
      by_cases hfit : ((if v.size_ = 0 then 1 else (v.size_ * 2) % SIZE_MOD) * ops.sizeofT) %
          SIZE_MOD ≤ m.free
      · rw [if_pos hfit, Outcome.bind_ret, Outcome.bind_ret]
        refine run_bind_congr (onException_congr (RawMemory.plus_congr _ _ (run_bind_congr ?_)))
        exact move_construct_fails ops _ _ src x (Mem.slot_alloc m _ _ src _ hs) ht
      · rw [if_neg hfit]
        rfl
  · simp only [if_neg hfull]
    refine run_bind_congr ?_
    unfold Vector.Emplace_in_place_moved Vector.Emplace_in_place
    by_cases hpe : pos = v.data_.buffer_ + v.size_
    · rw [if_pos hpe, if_pos hpe]
      refine RawMemory.plus_congr _ _ ?_
      exact move_construct_fails ops m _ src x hs ht
    · rw [if_neg hpe, if_neg hpe]
      rw [run_bind_ret (load_eval m src x hs), ite_run, if_pos ht]
      rfl

/-- The slot at `end()` of a vector holds no live element. -/
theorem Holds.end_not_live {m : Mem T} {v : Vector} {l : List T} (h : Holds m v l) (x : T) :
    m.slot (v.data_.buffer_ + v.size_) ≠ some (some x) := by
  obtain ⟨hsz, hle, hcap, hoff, hnull, -⟩ := id h
  by_cases hc : v.data_.capacity_ = 0
  · intro hs
    obtain ⟨blk, hb, -⟩ := m.block_of_slot _ _ hs
    have := (m.block_le_length _ _ hb).1
    exact this (hnull hc)
  · obtain ⟨blk, k, hb, hs, -⟩ := h.block hc
    intro hsl
    unfold Mem.slot at hsl
    rw [show (v.data_.buffer_ + v.size_).base = v.data_.buffer_.base from rfl, hb] at hsl
    simp only [Option.some_bind, Ptr.add_off, hoff, hsz, Nat.zero_add, hs] at hsl
    rw [List.getElem?_append_right (by simp)] at hsl
    simp at hsl
    by_cases hk : 0 < k
    · rw [List.getElem?_replicate_of_lt hk] at hsl
      cases hsl
    · rw [List.getElem?_eq_none (by simp; omega)] at hsl
      cases hsl

/-- The slots of a vector hold its elements. -/
theorem Holds.slot_of_getElem {m : Mem T} {v : Vector} {l : List T} (h : Holds m v l)
    (j : Nat) (x : T) (hj : l[j]? = some x) : m.slot (v.data_.buffer_ + j) = some (some x) := by
  obtain ⟨hsz, hle, hcap, hoff, hnull, -⟩ := id h
  have hjl : j < l.length := (List.getElem?_eq_some.mp hj).1
  obtain ⟨blk, k, hb, hs, -⟩ := h.block (by omega)
  unfold Mem.slot
  rw [show (v.data_.buffer_ + j).base = v.data_.buffer_.base from rfl, hb]
  simp only [Option.some_bind, Ptr.add_off, hoff, Nat.zero_add, hs]
  rw [List.getElem?_append_left (by simpa using hjl), List.getElem?_map, hj]
  rfl

/-- Writing a value to the slot of element `j` of a vector replaces that
element. -/
theorem Holds.setSlot_own {m : Mem T} {v : Vector} {l : List T} (h : Holds m v l) (j : Nat)
    (y : T) (hj : j < l.length) :
    Holds (m.setSlot (v.data_.buffer_ + j) (some y)) v (l.set j y) := by
  obtain ⟨hsz, hle, hcap, hoff, hnull, -⟩ := id h
  have hc : v.data_.capacity_ ≠ 0 := by omega
  obtain ⟨blk, k, hb, hs, hk⟩ := h.block hc
  rw [Mem.setSlot_eq m (v.data_.buffer_ + j) _ blk hb]
  refine Holds.intro _ v (l.set j y) ⟨blk.bytes, blk.slots.set (v.data_.buffer_ + j).off (some y)⟩
    k (by simp [hsz]) hcap hoff ?_ ?_ (by simpa using hk) hc
  · show (m.setBlock v.data_.buffer_.base _).block v.data_.buffer_.base = _
    rw [m.block_setBlock _ _ _ _ hb, if_pos rfl]
  · show blk.slots.set (v.data_.buffer_.off + j) (some y) = _
    rw [hoff, Nat.zero_add, hs, List.set_append_left _ _ (by simpa using hj), List.map_set]

theorem Holds.setSlot_other {m : Mem T} {v : Vector} {l : List T} (h : Holds m v l) (p : Ptr)
    (s : Option T) (hp : p.base ≠ v.data_.buffer_.base) : Holds (m.setSlot p s) v l :=
  h.of_block_eq (m.block_setSlot_ne p s _ (Ne.symm hp))

theorem Exact.exact_setSlot {m : Mem T} {v : Vector} (h : Exact m v) (p : Ptr) (s : Option T) :
    Exact (m.setSlot p s) v :=
  h.of_len (m.len_setSlot p s _)

theorem NoThrow.move_construct {ops : ElemOps T} (h : NoThrow ops) (x : T) :
    move_construct_throws ops x = false :=
  h.2.2.1 x

/-- What `Emplace(begin() + i, std::move(*src))` guarantees for a live element
`*src` with value `x`, where `l'` are the contents of the vector once `*src`
is moved from. -/
theorem Vector.Emplace_moved_spec (ops : ElemOps T) (m : Mem T) (this : Nat) (v : Vector)
    (l l' : List T) (i : Nat) (src : Ptr) (x : T) (hv : m.vecs[this]? = some (some v))
    (hH : Holds m v l) (hi : i ≤ l.length) (hs : m.slot src = some (some x))
    (hH' : Holds (m.setSlot src (some (ops.moved_from x))) v l') :
    (Vector.Emplace_moved ops this (v.data_.buffer_ + i) src m).Spec
      (NoThrow ops ∧
        (if v.size_ = v.data_.capacity_ then
          0 < ops.sizeofT ∧ (if v.size_ = 0 then 1 else 2 * v.size_) * ops.sizeofT < SIZE_MOD ∧
            (if v.size_ = 0 then 1 else 2 * v.size_) * ops.sizeofT ≤ m.free
        else Exact m v))
      (fun r m' => ∃ v', m'.vecs[this]? = some (some v') ∧
        Holds m' v' (l'.take i ++ x :: l'.drop i) ∧ v'.size_ = v.size_ + 1 ∧
        r = v'.data_.buffer_ + i ∧
        v'.data_.capacity_ = (if v.size_ = v.data_.capacity_ then
          (if v.size_ = 0 then 1 else 2 * v.size_) else v.data_.capacity_) ∧
        (m.setSlot src (some (ops.moved_from x))).FrameOf m' this v.data_.buffer_.base) := by
  have hlen : l'.length = l.length := by rw [← hH'.1, hH.1]
  have hv2 : (m.setSlot src (some (ops.moved_from x))).vecs[this]? = some (some v) := by
    rw [Mem.vecs_setSlot]; exact hv
  by_cases ht : move_construct_throws ops x = true
  · rw [Vector.Emplace_moved_throws ops m this v _ src x hv hs ht]
    refine (Vector.Emplace_spec ops m this v l i none hv hH hi).weaken ?_ ?_
    · rintro ⟨hno, -⟩
      rw [hno.move_construct x] at ht
      cases ht
    · rintro r m' ⟨x', v', hx', -⟩
      cases hx'
  have hnt : move_construct_throws ops x = false := by simpa using ht
  have hspec := Vector.Emplace_spec ops _ this v l' i (some x) hv2 hH' (by omega)
  rcases Vector.Emplace_moved_eq ops m this v (v.data_.buffer_ + i) src x hv hs hnt
    (fun h => hH.end_not_live x (h ▸ hs)) with heq | ⟨hfull, hbad, hthr⟩
  · rw [heq]
    refine hspec.weaken ?_ ?_
    · rintro ⟨hno, hres⟩
      refine ⟨rfl, hno, ?_⟩
      by_cases hfull : v.size_ = v.data_.capacity_
      · rw [if_pos hfull] at hres ⊢
        rw [Mem.free_setSlot]
        exact hres
      · rw [if_neg hfull] at hres ⊢
        exact hres.exact_setSlot _ _
    · rintro r m' ⟨x', v', hx', hv', hH1, hs1, hr, hc1, hfr, -⟩
      cases hx'
      exact ⟨v', hv', hH1, hs1, hr, hc1, hfr⟩
  · rw [hthr]
    refine ⟨?_, fun a s h => by cases h⟩
    rintro ⟨-, hres⟩
    exfalso
    rw [if_pos hfull] at hres
    obtain ⟨hpos, hlt, hfree⟩ := hres
    apply hbad
    by_cases h0 : v.size_ = 0
    · rw [if_pos h0] at hlt hfree ⊢
      rw [Nat.mod_eq_of_lt hlt]
      exact hfree
    · rw [if_neg h0] at hlt hfree ⊢
      have h2 : 2 * v.size_ < SIZE_MOD :=
        lt_of_le_of_lt (Nat.le_mul_of_pos_right _ hpos) hlt
      rw [Nat.mod_eq_of_lt (show v.size_ * 2 < SIZE_MOD by omega), Nat.mul_comm v.size_ 2,
        Nat.mod_eq_of_lt hlt]
      exact hfree

theorem Mem.slot_setSlot_same (m : Mem T) (p : Ptr) (s o : Option T) (h : m.slot p = some o) :
    (m.setSlot p s).slot p = some s := by
  obtain ⟨blk, hb, hsl⟩ := m.block_of_slot p o h
  rw [m.setSlot_eq p s blk hb]
  unfold Mem.slot
  rw [m.block_setBlock _ _ _ blk hb, if_pos rfl]
  have hlt : p.off < blk.slots.length := (List.getElem?_eq_some.mp hsl).1
  simp [List.getElem?_set, hlt]

/-- A live slot in the block of a vector is the slot of one of its elements. -/
theorem Holds.live_in_block {m : Mem T} {v : Vector} {l : List T} (h : Holds m v l) (src : Ptr)
    (x : T) (hs : m.slot src = some (some x)) (hb : src.base = v.data_.buffer_.base) :
    src = v.data_.buffer_ + src.off ∧ l[src.off]? = some x := by
  obtain ⟨hsz, hle, hcap, hoff, hnull, -⟩ := id h
  obtain ⟨blk0, hb0, hsl0⟩ := m.block_of_slot src _ hs
  have hc : v.data_.capacity_ ≠ 0 := by
    intro hc
    exact (m.block_le_length _ _ hb0).1 (hb.trans (hnull hc))
  obtain ⟨blk, k, hblk, hslots, -⟩ := h.block hc
  rw [hb, hblk] at hb0
  cases hb0
  constructor
  · have h1 : v.data_.buffer_ + src.off = ⟨src.base, src.off⟩ :=
      Ptr.eq_of _ _ _ hb.symm (by simp [hoff])
    rw [h1]
  · rw [hslots] at hsl0
    by_cases hlt : src.off < l.length
    · rw [List.getElem?_append_left (by simpa using hlt), List.getElem?_map] at hsl0
      cases hl : l[src.off]? with
      | none => rw [hl] at hsl0; cases hsl0
      | some y => rw [hl] at hsl0; simp at hsl0; rw [hsl0]
    · rw [List.getElem?_append_right (by simpa using hlt)] at hsl0
      by_cases hk : src.off - (List.map some l).length < k
      · rw [List.getElem?_replicate_of_lt hk] at hsl0; cases hsl0
      · rw [List.getElem?_eq_none (by simpa using hk)] at hsl0; cases hsl0

/-- Writing a value to a live slot leaves every vector with some contents. -/
theorem Holds.setSlot_live {m : Mem T} {v : Vector} {l : List T} (h : Holds m v l) (src : Ptr)
    (x y : T) (hs : m.slot src = some (some x)) :
    ∃ l', Holds (m.setSlot src (some y)) v l' := by
  by_cases hb : src.base = v.data_.buffer_.base
  · obtain ⟨h1, h2⟩ := h.live_in_block src x hs hb
    rw [h1]
    exact ⟨_, h.setSlot_own src.off y (List.getElem?_eq_some.mp h2).1⟩
  · exact ⟨l, h.setSlot_other src _ hb⟩

/-- Counterexample to C2 as stated: on the vector `[10, 20, 40]` of capacity 4,
`Insert(begin(), std::move(v[2]))` inserts the value 40 of `v[2]` at offset 0 and
returns, and the contents are then `[40, 10, 20, 0]`: the old last element is
left moved-from, so the contents are not `[] ++ [40] ++ [10, 20, 40]`. -/
theorem C2_emplace_insert_counterexample :
    (mem_abd.vecs[0]? = some (some ⟨⟨⟨1, 0⟩, 4⟩, 3⟩) ∧ Holds mem_abd ⟨⟨⟨1, 0⟩, 4⟩, 3⟩ [10, 20, 40] ∧
        0 ≤ [10, 20, 40].length ∧ mem_abd.slot ((⟨1, 0⟩ : Ptr) + 2) = some (some 40)) ∧
      Vector.Insert_rvalue intOps 0 ((⟨1, 0⟩ : Ptr) + 0) (.element ((⟨1, 0⟩ : Ptr) + 2)) mem_abd =
        .ret ((⟨1, 0⟩ : Ptr) + 0) mem_abd_moved ∧
      mem_abd_moved.vecs[0]? = some (some ⟨⟨⟨1, 0⟩, 4⟩, 4⟩) ∧
      Holds mem_abd_moved ⟨⟨⟨1, 0⟩, 4⟩, 4⟩ [40, 10, 20, 0] ∧
      ¬ Holds mem_abd_moved ⟨⟨⟨1, 0⟩, 4⟩, 4⟩ ([10, 20, 40].take 0 ++ [40] ++ [10, 20, 40].drop 0) := by
  decide

/-- C2, amended (Emplace/Insert correctness).  Let a vector have contents `l`
and let `i ≤ Size()`.  An `Emplace` or `Insert` at `begin() + i` that returns
makes `Size()` one larger and returns `begin() + i` of the vector as it is
afterwards, on all three paths (reallocation when `size == capacity`, the
free slot at the end, the shift of the tail), and the contents are these.
When the value `x` is given by `const T&`, as constructor argument, or as an
rvalue that is no element of a buffer, they are `l.take i ++ [x] ++ l.drop i`.
The same holds when the rvalue is a live element `*src` of another block with
value `x`, which is left moved-from.  When the rvalue is the element `j` of
the vector itself, `Insert(pos, std::move(v[j]))`, with value `x`, they are
`k.take i ++ [x] ++ k.drop i` where `k` is `l` with element `j` replaced by its
moved-from value.  The call does return when no element operation throws and
either the doubled buffer can be allocated (full vector) or the buffer really
has `Capacity()` slots (otherwise). -/
theorem C2_emplace_insert_correct (ops : ElemOps T) (m : Mem T) (this : Nat) (v : Vector)
    (l : List T) (i : Nat) (x : T) (hv : m.vecs[this]? = some (some v)) (hH : Holds m v l)
    (hi : i ≤ l.length) :
    (∀ call ∈ [Vector.Emplace ops this (v.data_.buffer_ + i) (some x),
        Vector.Insert ops this (v.data_.buffer_ + i) x,
        Vector.Insert_rvalue ops this (v.data_.buffer_ + i) (.object x)],
      (call m).Spec
        (NoThrow ops ∧
          (if v.size_ = v.data_.capacity_ then
            0 < ops.sizeofT ∧
              (if v.size_ = 0 then 1 else 2 * v.size_) * ops.sizeofT < SIZE_MOD ∧
              (if v.size_ = 0 then 1 else 2 * v.size_) * ops.sizeofT ≤ m.free
          else Exact m v))
        (fun r m' => ∃ v', m'.vecs[this]? = some (some v') ∧
          Holds m' v' (l.take i ++ [x] ++ l.drop i) ∧
          Vector.Size this m' = .ret (l.length + 1) m' ∧
          Vector.begin this m' = .ret v'.data_.buffer_ m' ∧ r = v'.data_.buffer_ + i)) ∧
    (∀ src : Ptr, m.slot src = some (some x) → src.base ≠ v.data_.buffer_.base →
      ∀ call ∈ [Vector.Emplace_moved ops this (v.data_.buffer_ + i) src,
          Vector.Insert_rvalue ops this (v.data_.buffer_ + i) (.element src)],
        (call m).Spec
          (NoThrow ops ∧
            (if v.size_ = v.data_.capacity_ then
              0 < ops.sizeofT ∧
                (if v.size_ = 0 then 1 else 2 * v.size_) * ops.sizeofT < SIZE_MOD ∧
                (if v.size_ = 0 then 1 else 2 * v.size_) * ops.sizeofT ≤ m.free
            else Exact m v))
          (fun r m' => ∃ v', m'.vecs[this]? = some (some v') ∧
            Holds m' v' (l.take i ++ [x] ++ l.drop i) ∧
            Vector.Size this m' = .ret (l.length + 1) m' ∧
            Vector.begin this m' = .ret v'.data_.buffer_ m' ∧ r = v'.data_.buffer_ + i ∧
            m'.slot src = some (some (ops.moved_from x)))) ∧
    (∀ j : Nat, l[j]? = some x →
      ∀ call ∈ [Vector.Emplace_moved ops this (v.data_.buffer_ + i) (v.data_.buffer_ + j),
          Vector.Insert_rvalue ops this (v.data_.buffer_ + i) (.element (v.data_.buffer_ + j))],
        (call m).Spec
          (NoThrow ops ∧
            (if v.size_ = v.data_.capacity_ then
              0 < ops.sizeofT ∧
                (if v.size_ = 0 then 1 else 2 * v.size_) * ops.sizeofT < SIZE_MOD ∧
                (if v.size_ = 0 then 1 else 2 * v.size_) * ops.sizeofT ≤ m.free
            else Exact m v))
          (fun r m' => ∃ v', m'.vecs[this]? = some (some v') ∧
            Holds m' v' ((l.set j (ops.moved_from x)).take i ++ [x] ++
              (l.set j (ops.moved_from x)).drop i) ∧
            Vector.Size this m' = .ret (l.length + 1) m' ∧
            Vector.begin this m' = .ret v'.data_.buffer_ m' ∧ r = v'.data_.buffer_ + i)) := by
  have key : ∀ args : Option T, (args = some x ∨ args = none) → (args = none → ¬ NoThrow ops) →
      (Vector.Emplace ops this (v.data_.buffer_ + i) args m).Spec
        (NoThrow ops ∧
          (if v.size_ = v.data_.capacity_ then
            0 < ops.sizeofT ∧
              (if v.size_ = 0 then 1 else 2 * v.size_) * ops.sizeofT < SIZE_MOD ∧
              (if v.size_ = 0 then 1 else 2 * v.size_) * ops.sizeofT ≤ m.free
          else Exact m v))
        (fun r m' => ∃ v', m'.vecs[this]? = some (some v') ∧
          Holds m' v' (l.take i ++ [x] ++ l.drop i) ∧
          Vector.Size this m' = .ret (l.length + 1) m' ∧
          Vector.begin this m' = .ret v'.data_.buffer_ m' ∧ r = v'.data_.buffer_ + i) := by
    intro args hargs hnone
    refine (Vector.Emplace_spec ops m this v l i args hv hH hi).weaken ?_ ?_
    · rintro ⟨hno, hres⟩
      refine ⟨?_, hno, hres⟩
      rcases hargs with h | h
      · simp [h]
      · exact absurd hno (hnone h)
    · rintro r m' ⟨x', v', hx', hv', hH', hs', hr, -⟩
      have hxx : x' = x := by
        rcases hargs with h | h
        · rw [h] at hx'; cases hx'; rfl
        · rw [h] at hx'; cases hx'
      subst hxx
      refine ⟨v', hv', by simpa using hH', ?_, Vector.begin_eval m' this v' hv', hr⟩
      rw [Vector.Size_eval m' this v' hv', hs', hH.1]
  have moved : ∀ (src : Ptr) (k : List T), m.slot src = some (some x) →
      Holds (m.setSlot src (some (ops.moved_from x))) v k →
      (Vector.Emplace_moved ops this (v.data_.buffer_ + i) src m).Spec
        (NoThrow ops ∧
          (if v.size_ = v.data_.capacity_ then
            0 < ops.sizeofT ∧
              (if v.size_ = 0 then 1 else 2 * v.size_) * ops.sizeofT < SIZE_MOD ∧
              (if v.size_ = 0 then 1 else 2 * v.size_) * ops.sizeofT ≤ m.free
          else Exact m v))
        (fun r m' => ∃ v', m'.vecs[this]? = some (some v') ∧
          Holds m' v' (k.take i ++ [x] ++ k.drop i) ∧
          Vector.Size this m' = .ret (l.length + 1) m' ∧
          Vector.begin this m' = .ret v'.data_.buffer_ m' ∧ r = v'.data_.buffer_ + i ∧
          (m.setSlot src (some (ops.moved_from x))).FrameOf m' this v.data_.buffer_.base) := by
    intro src k hs hk
    refine (Vector.Emplace_moved_spec ops m this v l k i src x hv hH hi hs hk).weaken
      (fun h => h) ?_
    rintro r m' ⟨v', hv', hH', hs', hr, -, hfr⟩
    refine ⟨v', hv', by simpa using hH', ?_, Vector.begin_eval m' this v' hv', hr, hfr⟩
    rw [Vector.Size_eval m' this v' hv', hs', hH.1]
  refine ⟨?_, ?_, ?_⟩
  · intro call hcall
    simp only [List.mem_cons, List.mem_singleton, List.mem_nil_iff, or_false] at hcall
    rcases hcall with rfl | rfl | rfl
    · exact key (some x) (Or.inl rfl) (fun h => by cases h)
    · unfold Vector.Insert
      refine key _ ?_ ?_
      · cases ops.copy_throws x <;> simp
      · intro h hno
        have := hno.2.1 x
        rw [this] at h
        simp at h
    · show (Vector.Emplace ops this (v.data_.buffer_ + i)
        (if move_construct_throws ops x then none else some x) m).Spec _ _
      refine key _ ?_ ?_
      · cases move_construct_throws ops x <;> simp
      · intro h hno
        have := hno.2.2.1 x
        rw [this] at h
        simp at h
  · intro src hs hb call hcall
    simp only [List.mem_cons, List.mem_singleton, List.mem_nil_iff, or_false] at hcall
    have hcall' : call = Vector.Emplace_moved ops this (v.data_.buffer_ + i) src := by
      rcases hcall with rfl | rfl <;> rfl
    subst hcall'
    refine (moved src l hs (hH.setSlot_other src _ hb)).weaken (fun h => h) ?_
    rintro r m' ⟨v', hv', hH', hs', hbeg, hr, hfr⟩
    refine ⟨v', hv', hH', hs', hbeg, hr, ?_⟩
    obtain ⟨blk, hblk, -⟩ := m.block_of_slot src _ hs
    have hle := (m.block_le_length _ _ hblk).2
    have hbe := hfr.2.2.2 src.base hb (by rw [Mem.heap_length_setSlot]; exact hle)
    have hsame := m.slot_setSlot_same src (some (ops.moved_from x)) _ hs
    unfold Mem.slot at hsame ⊢
    rw [hbe]
    exact hsame
  · intro j hj call hcall
    simp only [List.mem_cons, List.mem_singleton, List.mem_nil_iff, or_false] at hcall
    have hcall' : call =
        Vector.Emplace_moved ops this (v.data_.buffer_ + i) (v.data_.buffer_ + j) := by
      rcases hcall with rfl | rfl <;> rfl
    subst hcall'
    have hjl : j < l.length := (List.getElem?_eq_some.mp hj).1
    refine (moved (v.data_.buffer_ + j) (l.set j (ops.moved_from x))
      (hH.slot_of_getElem j x hj) (hH.setSlot_own j _ hjl)).weaken (fun h => h) ?_
    rintro r m' ⟨v', hv', hH', hs', hbeg, hr, -⟩
    exact ⟨v', hv', hH', hs', hbeg, hr⟩

/-- Witness for C2: inserting the value 40 at index 0 of `[10, 20, 40]`
(capacity 4), also as `std::move(v[2])`. -/
theorem C2_emplace_insert_correct_witness :
    (mem_abd.vecs[0]? = some (some ⟨⟨⟨1, 0⟩, 4⟩, 3⟩) ∧ Holds mem_abd ⟨⟨⟨1, 0⟩, 4⟩, 3⟩ [10, 20, 40] ∧
        0 ≤ [10, 20, 40].length) ∧
      ((∀ call ∈ [Vector.Emplace intOps 0 ((⟨1, 0⟩ : Ptr) + 0) (some 40),
          Vector.Insert intOps 0 ((⟨1, 0⟩ : Ptr) + 0) 40,
          Vector.Insert_rvalue intOps 0 ((⟨1, 0⟩ : Ptr) + 0) (.object 40)],
        (call mem_abd).Spec
          (NoThrow intOps ∧
            (if (3 : Nat) = 4 then
              0 < intOps.sizeofT ∧
                (if (3 : Nat) = 0 then 1 else 2 * 3) * intOps.sizeofT < SIZE_MOD ∧
                (if (3 : Nat) = 0 then 1 else 2 * 3) * intOps.sizeofT ≤ mem_abd.free
            else Exact mem_abd ⟨⟨⟨1, 0⟩, 4⟩, 3⟩))
          (fun r m' => ∃ v', m'.vecs[0]? = some (some v') ∧
            Holds m' v' ([10, 20, 40].take 0 ++ [40] ++ [10, 20, 40].drop 0) ∧
            Vector.Size 0 m' = .ret ([10, 20, 40].length + 1) m' ∧
            Vector.begin 0 m' = .ret v'.data_.buffer_ m' ∧ r = v'.data_.buffer_ + 0)) ∧
      (∀ src : Ptr, mem_abd.slot src = some (some 40) → src.base ≠ 1 →
        ∀ call ∈ [Vector.Emplace_moved intOps 0 ((⟨1, 0⟩ : Ptr) + 0) src,
            Vector.Insert_rvalue intOps 0 ((⟨1, 0⟩ : Ptr) + 0) (.element src)],
          (call mem_abd).Spec
            (NoThrow intOps ∧
              (if (3 : Nat) = 4 then
                0 < intOps.sizeofT ∧
                  (if (3 : Nat) = 0 then 1 else 2 * 3) * intOps.sizeofT < SIZE_MOD ∧
                  (if (3 : Nat) = 0 then 1 else 2 * 3) * intOps.sizeofT ≤ mem_abd.free
              else Exact mem_abd ⟨⟨⟨1, 0⟩, 4⟩, 3⟩))
            (fun r m' => ∃ v', m'.vecs[0]? = some (some v') ∧
              Holds m' v' ([10, 20, 40].take 0 ++ [40] ++ [10, 20, 40].drop 0) ∧
              Vector.Size 0 m' = .ret ([10, 20, 40].length + 1) m' ∧
              Vector.begin 0 m' = .ret v'.data_.buffer_ m' ∧ r = v'.data_.buffer_ + 0 ∧
              m'.slot src = some (some (intOps.moved_from 40)))) ∧
      (∀ j : Nat, [10, 20, 40][j]? = some 40 →
        ∀ call ∈ [Vector.Emplace_moved intOps 0 ((⟨1, 0⟩ : Ptr) + 0) ((⟨1, 0⟩ : Ptr) + j),
            Vector.Insert_rvalue intOps 0 ((⟨1, 0⟩ : Ptr) + 0) (.element ((⟨1, 0⟩ : Ptr) + j))],
          (call mem_abd).Spec
            (NoThrow intOps ∧
              (if (3 : Nat) = 4 then
                0 < intOps.sizeofT ∧
                  (if (3 : Nat) = 0 then 1 else 2 * 3) * intOps.sizeofT < SIZE_MOD ∧
                  (if (3 : Nat) = 0 then 1 else 2 * 3) * intOps.sizeofT ≤ mem_abd.free
              else Exact mem_abd ⟨⟨⟨1, 0⟩, 4⟩, 3⟩))
            (fun r m' => ∃ v', m'.vecs[0]? = some (some v') ∧
              Holds m' v' (([10, 20, 40].set j (intOps.moved_from 40)).take 0 ++ [40] ++
                ([10, 20, 40].set j (intOps.moved_from 40)).drop 0) ∧
              Vector.Size 0 m' = .ret ([10, 20, 40].length + 1) m' ∧
              Vector.begin 0 m' = .ret v'.data_.buffer_ m' ∧ r = v'.data_.buffer_ + 0))) :=
  ⟨⟨by decide, by decide, by decide⟩,
    C2_emplace_insert_correct intOps mem_abd 0 ⟨⟨⟨1, 0⟩, 4⟩, 3⟩ [10, 20, 40] 0 40 (by decide)
      (by decide) (by decide)⟩

/-- C4 (growth doubling).  For a vector with `Size() == Capacity() == c`, every
`Emplace` (at any offset `i ≤ Size()`), `EmplaceBack`, `PushBack(const T&)` or
`PushBack(T&&)` that returns leaves `Capacity() == 2 * c` when `c > 0` and
`Capacity() == 1` when `c == 0`; the rvalue of `PushBack(T&&)` is an object
outside the buffers or any live element `*src`, of this vector or another.
The call does return when the argument can be constructed, no element
operation throws and the doubled buffer can be allocated. -/
theorem C4_growth_doubling (ops : ElemOps T) (m : Mem T) (this : Nat) (v : Vector) (l : List T)
    (hv : m.vecs[this]? = some (some v)) (hH : Holds m v l)
    (hfull : v.size_ = v.data_.capacity_) :
    (∀ (i : Nat) (args : Option T), i ≤ l.length →
      (Vector.Emplace ops this (v.data_.buffer_ + i) args m).Spec
        (args.isSome ∧ NoThrow ops ∧ 0 < ops.sizeofT ∧
          (if v.size_ = 0 then 1 else 2 * v.size_) * ops.sizeofT < SIZE_MOD ∧
          (if v.size_ = 0 then 1 else 2 * v.size_) * ops.sizeofT ≤ m.free)
        (fun _ m' => Vector.Capacity this m' =
          .ret (if v.data_.capacity_ = 0 then 1 else 2 * v.data_.capacity_) m')) ∧
    (∀ args : Option T,
      (Vector.EmplaceBack ops this args m).Spec
        (args.isSome ∧ NoThrow ops ∧ 0 < ops.sizeofT ∧
          (if v.size_ = 0 then 1 else 2 * v.size_) * ops.sizeofT < SIZE_MOD ∧
          (if v.size_ = 0 then 1 else 2 * v.size_) * ops.sizeofT ≤ m.free)
        (fun _ m' => Vector.Capacity this m' =
          .ret (if v.data_.capacity_ = 0 then 1 else 2 * v.data_.capacity_) m')) ∧
    (∀ x : T, ∀ call ∈ [Vector.PushBack ops this x, Vector.PushBack_rvalue ops this (.object x)],
      (call m).Spec
        (NoThrow ops ∧ 0 < ops.sizeofT ∧
          (if v.size_ = 0 then 1 else 2 * v.size_) * ops.sizeofT < SIZE_MOD ∧
          (if v.size_ = 0 then 1 else 2 * v.size_) * ops.sizeofT ≤ m.free)
        (fun _ m' => Vector.Capacity this m' =
          .ret (if v.data_.capacity_ = 0 then 1 else 2 * v.data_.capacity_) m')) ∧
    (∀ (src : Ptr) (x : T), m.slot src = some (some x) →
      (Vector.PushBack_rvalue ops this (.element src) m).Spec
        (NoThrow ops ∧ 0 < ops.sizeofT ∧
          (if v.size_ = 0 then 1 else 2 * v.size_) * ops.sizeofT < SIZE_MOD ∧
          (if v.size_ = 0 then 1 else 2 * v.size_) * ops.sizeofT ≤ m.free)
        (fun _ m' => Vector.Capacity this m' =
          .ret (if v.data_.capacity_ = 0 then 1 else 2 * v.data_.capacity_) m')) := by
  have hE : ∀ (i : Nat) (args : Option T), i ≤ l.length →
      (Vector.Emplace ops this (v.data_.buffer_ + i) args m).Spec
        (args.isSome ∧ NoThrow ops ∧ 0 < ops.sizeofT ∧
          (if v.size_ = 0 then 1 else 2 * v.size_) * ops.sizeofT < SIZE_MOD ∧
          (if v.size_ = 0 then 1 else 2 * v.size_) * ops.sizeofT ≤ m.free)
        (fun _ m' => Vector.Capacity this m' =
          .ret (if v.data_.capacity_ = 0 then 1 else 2 * v.data_.capacity_) m') := by
    intro i args hi
    refine (Vector.Emplace_spec ops m this v l i args hv hH hi).weaken ?_ ?_
    · rintro ⟨h1, h2, h3⟩
      exact ⟨h1, h2, by rw [if_pos hfull]; exact h3⟩
    · rintro r m' ⟨x', v', -, hv', -, -, -, hc, -⟩
      rw [Vector.Capacity_eval m' this v' hv', hc, if_pos hfull, ← hfull]
  have hEB : ∀ args : Option T,
      (Vector.EmplaceBack ops this args m).Spec
        (args.isSome ∧ NoThrow ops ∧ 0 < ops.sizeofT ∧
          (if v.size_ = 0 then 1 else 2 * v.size_) * ops.sizeofT < SIZE_MOD ∧
          (if v.size_ = 0 then 1 else 2 * v.size_) * ops.sizeofT ≤ m.free)
        (fun _ m' => Vector.Capacity this m' =
          .ret (if v.data_.capacity_ = 0 then 1 else 2 * v.data_.capacity_) m') := by
    intro args
    unfold Vector.EmplaceBack
    rw [run_bind_ret (Vector.end_eval m this v hv)]
    exact hE v.size_ args (by rw [hH.1])
  refine ⟨hE, hEB, ?_, ?_⟩
  · intro x call hcall
    simp only [List.mem_cons, List.mem_singleton, List.mem_nil_iff, or_false] at hcall
    rcases hcall with rfl | rfl
    · unfold Vector.PushBack
      refine Outcome.Spec.bind_eval ((hEB _).weaken ?_ (fun _ _ h => h)) ?_
      · rintro ⟨hno, h⟩
        exact ⟨by rw [hno.2.1 x]; rfl, hno, h⟩
      · intro _ s hs
        exact ⟨(), s, rfl, hs⟩
    · show (Vector.EmplaceBack ops this (if move_construct_throws ops x then none else some x) >>=
        fun _ => pure ()) m |>.Spec _ _
      refine Outcome.Spec.bind_eval ((hEB _).weaken ?_ (fun _ _ h => h)) ?_
      · rintro ⟨hno, h⟩
        exact ⟨by rw [hno.2.2.1 x]; rfl, hno, h⟩
      · intro _ s hs
        exact ⟨(), s, rfl, hs⟩
  · intro src x hs
    obtain ⟨k, hk⟩ := hH.setSlot_live src x (ops.moved_from x) hs
    show (Vector.EmplaceBack_moved ops this src >>= fun _ => pure ()) m |>.Spec _ _
    refine Outcome.Spec.bind_eval
      (P := fun _ m' => Vector.Capacity this m' =
        .ret (if v.data_.capacity_ = 0 then 1 else 2 * v.data_.capacity_) m') ?_ ?_
    · unfold Vector.EmplaceBack_moved
      rw [run_bind_ret (Vector.end_eval m this v hv)]
      refine (Vector.Emplace_moved_spec ops m this v l k v.size_ src x hv hH (by rw [hH.1]) hs
        hk).weaken ?_ ?_
      · rintro ⟨h1, h2⟩
        exact ⟨h1, by rw [if_pos hfull]; exact h2⟩
      · rintro r m' ⟨v', hv', -, -, -, hc, -⟩
        rw [Vector.Capacity_eval m' this v' hv', hc, if_pos hfull, ← hfull]
    · intro _ s hs
      exact ⟨(), s, rfl, hs⟩

/-- Witness for C4: a full vector of capacity 4 grows to capacity 8. -/
theorem C4_growth_doubling_witness :
    (mem_abcd.vecs[0]? = some (some ⟨⟨⟨1, 0⟩, 4⟩, 4⟩) ∧
        Holds mem_abcd ⟨⟨⟨1, 0⟩, 4⟩, 4⟩ [10, 20, 30, 40] ∧ (4 : Nat) = 4) ∧
      ((∀ (i : Nat) (args : Option Nat), i ≤ [10, 20, 30, 40].length →
        (Vector.Emplace intOps 0 ((⟨1, 0⟩ : Ptr) + i) args mem_abcd).Spec
          (args.isSome ∧ NoThrow intOps ∧ 0 < intOps.sizeofT ∧
            (if (4 : Nat) = 0 then 1 else 2 * 4) * intOps.sizeofT < SIZE_MOD ∧
            (if (4 : Nat) = 0 then 1 else 2 * 4) * intOps.sizeofT ≤ mem_abcd.free)
          (fun _ m' => Vector.Capacity 0 m' = .ret (if (4 : Nat) = 0 then 1 else 2 * 4) m')) ∧
      (∀ args : Option Nat,
        (Vector.EmplaceBack intOps 0 args mem_abcd).Spec
          (args.isSome ∧ NoThrow intOps ∧ 0 < intOps.sizeofT ∧
            (if (4 : Nat) = 0 then 1 else 2 * 4) * intOps.sizeofT < SIZE_MOD ∧
            (if (4 : Nat) = 0 then 1 else 2 * 4) * intOps.sizeofT ≤ mem_abcd.free)
          (fun _ m' => Vector.Capacity 0 m' = .ret (if (4 : Nat) = 0 then 1 else 2 * 4) m')) ∧
      (∀ x : Nat, ∀ call ∈ [Vector.PushBack intOps 0 x, Vector.PushBack_rvalue intOps 0 (.object x)],
        (call mem_abcd).Spec
          (NoThrow intOps ∧ 0 < intOps.sizeofT ∧
            (if (4 : Nat) = 0 then 1 else 2 * 4) * intOps.sizeofT < SIZE_MOD ∧
            (if (4 : Nat) = 0 then 1 else 2 * 4) * intOps.sizeofT ≤ mem_abcd.free)
          (fun _ m' => Vector.Capacity 0 m' = .ret (if (4 : Nat) = 0 then 1 else 2 * 4) m')) ∧
      (∀ (src : Ptr) (x : Nat), mem_abcd.slot src = some (some x) →
        (Vector.PushBack_rvalue intOps 0 (.element src) mem_abcd).Spec
          (NoThrow intOps ∧ 0 < intOps.sizeofT ∧
            (if (4 : Nat) = 0 then 1 else 2 * 4) * intOps.sizeofT < SIZE_MOD ∧
            (if (4 : Nat) = 0 then 1 else 2 * 4) * intOps.sizeofT ≤ mem_abcd.free)
          (fun _ m' => Vector.Capacity 0 m' = .ret (if (4 : Nat) = 0 then 1 else 2 * 4) m'))) :=
  ⟨⟨by decide, by decide, rfl⟩,
    C4_growth_doubling intOps mem_abcd 0 ⟨⟨⟨1, 0⟩, 4⟩, 4⟩ [10, 20, 30, 40] (by decide) (by decide)
      rfl⟩

end AdvancedVector
